import Mathlib

/-!
The asm2wasm translator: signature inference, call finalization, function
tables, heap access, trap shims, switch lowering, return statements, the text
preprocessor, imported globals and the export object, comma expressions, the
statements with their labels, and the debug-info pass.

A shallow embedding of parts of `src/asm2wasm.h` (the asm.js to WebAssembly
translator of binaryen) together with machine-checked statements about them.

Conventions of the embedding:

* `assert(...)`, `abort()` and `WASM_UNREACHABLE()` are fatal: a function that can
  reach one of them returns an `Option`, and `none` is the fatal outcome.
* C++ objects that are mutated in place are passed in and returned.
* `std::map` registries are total functions into `Option`.
* A `static` local of a member function is a field of an explicit state that a
  new module does not reset.
* A finite `f64` is the exact integer `value * 2^1074`; a `double` that holds an
  integer is that integer.
* The preprocessor's buffers are lists of bytes followed by terminators, its
  pointers are indices, and a run of its C code ends as a `Run`: completed,
  fatal, or undefined by an access outside a buffer.
* The statement cases of `process` are steps `Translate` on the label state
  (name mapper, `parentLabel`, `breakStack`, `continueStack`).
* A node of a function body is identified by its number in the post-order walk.
-/

namespace Asm2Wasm

/-! ## WebAssembly value types and function types -/

/-- Modelled from the spec: the `WasmType` enumeration of the IR (`wasm.h`), the
value types `i32`, `i64`, `f32`, `f64` together with `none` and `unreachable`. -/
inductive WasmType where
  | none
  | i32
  | i64
  | f32
  | f64
  | unreachable
  deriving DecidableEq, Repr, Inhabited

/-- Interned strings are compared by content. -/
abbrev IString := String

/-- Modelled from the spec: the IR's `FunctionType` (`wasm.h`), a name, a result
type and the parameter types. Two function types are equal when name, result and
parameters agree, which is what `operator!=` of the IR tests. -/
structure FunctionType where
  name : IString
  result : WasmType
  params : List WasmType
  deriving DecidableEq, Repr

/-- The registry `importedFunctionTypes`: import name to tentative signature. -/
abbrev ImportedFunctionTypes := IString → Option FunctionType

/-! ## `noteImportedFunctionCall` (lines 402-439) -/

/-- The function type built from a call site at the start of
`noteImportedFunctionCall`: named `type$<import>`, with the detected result type
and the types of the operands. -/
def callSiteType (importName : IString) (resultType : WasmType)
    (operandTypes : List WasmType) : FunctionType :=
  { name := "type$" ++ importName, result := resultType, params := operandTypes }

/-- One iteration `i` of the parameter loop (lines 418-428), acting on
`previous->params`. -/
def mergeParamAt (type : List WasmType) (previous : List WasmType) (i : Nat) :
    List WasmType :=
  if previous.length > i then
    if previous.getD i WasmType.none = WasmType.none then
      previous.set i (type.getD i WasmType.none)
    else if previous.getD i WasmType.none ≠ type.getD i WasmType.none then
      previous.set i WasmType.f64
    else
      previous
  else
    previous ++ [type.getD i WasmType.none]

/-- The parameter loop `for (size_t i = 0; i < type->params.size(); i++)`. -/
def mergeParams (previous type : List WasmType) : List WasmType :=
  (List.range type.length).foldl (mergeParamAt type) previous

/-- The result merge (lines 430-434). -/
def mergeResult (previous type : WasmType) : WasmType :=
  if previous = WasmType.none then type
  else if previous ≠ type ∧ type ≠ WasmType.none then WasmType.f64
  else previous

/-- The body of `if (*type != *previous)`: merge the call site into `previous`. -/
def mergeInto (previous type : FunctionType) : FunctionType :=
  { previous with
    params := mergeParams previous.params type.params
    result := mergeResult previous.result type.result }

/-- The effect of one call site on the entry of its import: the entry is created
from the call site when absent, merged when it differs, and left alone when equal. -/
def noteCall (stored : Option FunctionType) (type : FunctionType) : Option FunctionType :=
  match stored with
  | some previous => if type ≠ previous then some (mergeInto previous type) else some previous
  | none => some type

/-- The translator's `noteImportedFunctionCall`, on the registry. `operandTypes`
are the types of `call->operands`. -/
def noteImportedFunctionCall (types : ImportedFunctionTypes) (importName : IString)
    (resultType : WasmType) (operandTypes : List WasmType) : ImportedFunctionTypes :=
  fun name =>
    if name = importName then
      noteCall (types importName) (callSiteType importName resultType operandTypes)
    else types name

/-- A call-site observation: the detected result type and the operand types. -/
abbrev Observation := WasmType × List WasmType

/-- Feeding a list of call sites of one import, one by one, starting from the
state `stored` of its entry. -/
def noteCalls (importName : IString) (stored : Option FunctionType)
    (sites : List Observation) : Option FunctionType :=
  sites.foldl (fun s o => noteCall s (callSiteType importName o.1 o.2)) stored

/-- Feeding a list of call sites of one import to the registry. -/
def noteImportedFunctionCalls (types : ImportedFunctionTypes) (importName : IString)
    (sites : List Observation) : ImportedFunctionTypes :=
  sites.foldl (fun m o => noteImportedFunctionCall m importName o.1 o.2) types

/-- The types asm.js values have: `i32`, `f32` and `f64`. -/
def WasmType.isConcrete (t : WasmType) : Bool :=
  t = WasmType.i32 || t = WasmType.f32 || t = WasmType.f64

/-- Pointwise description of the parameter loop: the stored parameter (if any)
against the call-site parameter (if any). -/
def joinParam : Option WasmType → Option WasmType → Option WasmType
  | some p, some t =>
      some (if p = WasmType.none then t else if p ≠ t then WasmType.f64 else p)
  | some p, none => some p
  | none, t => t

/-- The parameter stored at position `i`, if there is an entry with such a position. -/
def storedParam (s : Option FunctionType) (i : Nat) : Option WasmType :=
  match s with
  | some f => f.params[i]?
  | none => none

/-- What the fold of `joinParam` has reached after the observations `seen` of
one position, when all observed types are concrete: nothing when no site had the
position, the common type when the sites agree, `f64` when two disagree. -/
def JoinInv (acc : Option WasmType) (seen : List (Option WasmType)) : Prop :=
  match acc with
  | none => ∀ t ∈ seen, t = none
  | some p =>
      p.isConcrete = true ∧
      ((some p ∈ seen ∧ ∀ x, some x ∈ seen → x = p) ∨
        (p = WasmType.f64 ∧ ∃ x y, some x ∈ seen ∧ some y ∈ seen ∧ x ≠ y))


/-- A stored type `p` may only stay, be learned from `none`, or widen to `f64`. -/
def WasmType.widensTo (p q : WasmType) : Prop :=
  q = p ∨ p = WasmType.none ∨ q = WasmType.f64

/-- The one-way order on stored signatures: no parameter is lost and every
parameter and the result only move along `none -> concrete -> f64`. -/
def FunctionType.widensTo (f g : FunctionType) : Prop :=
  f.params.length ≤ g.params.length ∧
  (∀ (i : Nat) (p : WasmType), f.params[i]? = some p →
    ∃ q, g.params[i]? = some q ∧ p.widensTo q) ∧
  f.result.widensTo g.result


/-! ## The expression IR

The IR itself (`wasm.h`, `wasm-builder.h`, `wasm-traversal.h`) is not part of
`asm2wasm.h`; the node kinds are the closed variant the design lists, with the
fields `asm2wasm.h` reads and writes. -/

/-- Modelled from the spec: the IR's `Literal`, a value type with the bits of the
value. `Literal()` is the literal of type `none` with all bits zero;
`Literal(int32_t)` has type `i32`. -/
structure Literal where
  type : WasmType
  bits : Nat
  deriving DecidableEq, Repr

/-- The default `Literal()`. -/
def Literal.default : Literal := { type := WasmType.none, bits := 0 }

/-- The literal `Literal((int32_t) v)`: the two's complement bits of `v`. -/
def Literal.ofInt32 (v : Int) : Literal :=
  { type := WasmType.i32, bits := (v % 4294967296).toNat }

/-- Modelled from the spec: the IR's `UnaryOp` (`wasm.h`), the operators
`asm2wasm.h` uses. -/
inductive UnaryOp where
  | ClzInt32 | ClzInt64 | CtzInt32 | CtzInt64 | PopcntInt32 | PopcntInt64
  | NegFloat32 | NegFloat64 | AbsFloat32 | AbsFloat64
  | CeilFloat32 | CeilFloat64 | FloorFloat32 | FloorFloat64
  | SqrtFloat32 | SqrtFloat64
  | EqZInt32 | EqZInt64
  | ExtendSInt32 | ExtendUInt32 | WrapInt64
  | TruncSFloat32ToInt32 | TruncSFloat32ToInt64 | TruncUFloat32ToInt32 | TruncUFloat32ToInt64
  | TruncSFloat64ToInt32 | TruncSFloat64ToInt64 | TruncUFloat64ToInt32 | TruncUFloat64ToInt64
  | ReinterpretFloat32 | ReinterpretFloat64 | ReinterpretInt32 | ReinterpretInt64
  | ConvertSInt32ToFloat32 | ConvertSInt32ToFloat64 | ConvertUInt32ToFloat32
  | ConvertUInt32ToFloat64 | ConvertSInt64ToFloat32 | ConvertSInt64ToFloat64
  | ConvertUInt64ToFloat32 | ConvertUInt64ToFloat64
  | PromoteFloat32 | DemoteFloat64
  deriving DecidableEq, Repr

/-- Modelled from the spec: the IR's `BinaryOp` (`wasm.h`), the operators
`asm2wasm.h` uses. -/
inductive BinaryOp where
  | AddInt32 | SubInt32 | MulInt32 | DivSInt32 | DivUInt32 | RemSInt32 | RemUInt32
  | AndInt32 | OrInt32 | XorInt32 | ShlInt32 | ShrUInt32 | ShrSInt32
  | EqInt32 | NeInt32 | LtSInt32 | LtUInt32 | LeSInt32 | LeUInt32
  | GtSInt32 | GtUInt32 | GeSInt32 | GeUInt32
  | AddInt64 | SubInt64 | MulInt64 | DivSInt64 | DivUInt64 | RemSInt64 | RemUInt64
  | AndInt64 | OrInt64 | XorInt64 | ShlInt64 | ShrUInt64 | ShrSInt64
  | EqInt64 | NeInt64 | LtSInt64 | LtUInt64 | LeSInt64 | LeUInt64
  | GtSInt64 | GtUInt64 | GeSInt64 | GeUInt64
  | AddFloat32 | SubFloat32 | MulFloat32 | DivFloat32 | CopySignFloat32
  | MinFloat32 | MaxFloat32
  | EqFloat32 | NeFloat32 | LtFloat32 | LeFloat32 | GtFloat32 | GeFloat32
  | AddFloat64 | SubFloat64 | MulFloat64 | DivFloat64 | CopySignFloat64
  | MinFloat64 | MaxFloat64
  | EqFloat64 | NeFloat64 | LtFloat64 | LeFloat64 | GtFloat64 | GeFloat64
  deriving DecidableEq, Repr

/-- Modelled from the spec: the expression nodes of the IR (`wasm.h`), the closed
variant of the design with the fields `asm2wasm.h` reads and writes. Every node
carries its `type`; `nop` has type `none` and `unreachable` has type
`unreachable`. -/
inductive Expression where
  | block (name : IString) (list : List Expression) (type : WasmType)
  | if_ (condition ifTrue : Expression) (ifFalse : Option Expression) (type : WasmType)
  | loop (name : IString) (body : Expression) (type : WasmType)
  | break_ (name : IString) (value condition : Option Expression) (type : WasmType)
  | switch (targets : List IString) (default_ : IString) (condition : Expression)
      (value : Option Expression) (type : WasmType)
  | call (target : IString) (operands : List Expression) (type : WasmType)
  | callImport (target : IString) (operands : List Expression) (type : WasmType)
  | callIndirect (fullType : IString) (operands : List Expression) (target : Expression)
      (type : WasmType)
  | getLocal (index : Nat) (type : WasmType)
  | setLocal (index : Nat) (value : Expression) (isTee : Bool) (type : WasmType)
  | getGlobal (name : IString) (type : WasmType)
  | setGlobal (name : IString) (value : Expression) (type : WasmType)
  | load (bytes : Nat) (signed_ : Bool) (offset align : Nat) (ptr : Expression)
      (type : WasmType)
  | store (bytes offset align : Nat) (ptr value : Expression) (valueType : WasmType)
      (type : WasmType)
  | const (value : Literal) (type : WasmType)
  | unary (op : UnaryOp) (value : Expression) (type : WasmType)
  | binary (op : BinaryOp) (left right : Expression) (type : WasmType)
  | select (ifTrue ifFalse condition : Expression) (type : WasmType)
  | return_ (value : Option Expression) (type : WasmType)
  | nop
  | unreachable

/-- The `type` member of an expression. -/
def Expression.type : Expression → WasmType
  | .block _ _ t => t
  | .if_ _ _ _ t => t
  | .loop _ _ t => t
  | .break_ _ _ _ t => t
  | .switch _ _ _ _ t => t
  | .call _ _ t => t
  | .callImport _ _ t => t
  | .callIndirect _ _ _ t => t
  | .getLocal _ t => t
  | .setLocal _ _ _ t => t
  | .getGlobal _ t => t
  | .setGlobal _ _ t => t
  | .load _ _ _ _ _ t => t
  | .store _ _ _ _ _ _ t => t
  | .const _ t => t
  | .unary _ _ t => t
  | .binary _ _ _ t => t
  | .select _ _ _ t => t
  | .return_ _ t => t
  | .nop => WasmType.none
  | .unreachable => WasmType.unreachable

/-- Modelled from the spec: the type the IR gives a unary operator's result. The
design names the conversions by source and target (`convert_s_i32_f64`,
`promote_f32_f64`, `trunc_s_f64_i32`, `demote_f64_f32`); the operators that keep
the operand type (`clz`, `neg`, `abs`, ...) have the type of their name. -/
def UnaryOp.resultType : UnaryOp → WasmType
  | .ClzInt32 | .CtzInt32 | .PopcntInt32 | .EqZInt32 | .EqZInt64 | .WrapInt64
  | .TruncSFloat32ToInt32 | .TruncUFloat32ToInt32 | .TruncSFloat64ToInt32
  | .TruncUFloat64ToInt32 | .ReinterpretFloat32 => WasmType.i32
  | .ClzInt64 | .CtzInt64 | .PopcntInt64 | .ExtendSInt32 | .ExtendUInt32
  | .TruncSFloat32ToInt64 | .TruncUFloat32ToInt64 | .TruncSFloat64ToInt64
  | .TruncUFloat64ToInt64 | .ReinterpretFloat64 => WasmType.i64
  | .NegFloat32 | .AbsFloat32 | .CeilFloat32 | .FloorFloat32 | .SqrtFloat32
  | .ReinterpretInt32 | .ConvertSInt32ToFloat32 | .ConvertUInt32ToFloat32
  | .ConvertSInt64ToFloat32 | .ConvertUInt64ToFloat32 | .DemoteFloat64 => WasmType.f32
  | .NegFloat64 | .AbsFloat64 | .CeilFloat64 | .FloorFloat64 | .SqrtFloat64
  | .ReinterpretInt64 | .ConvertSInt32ToFloat64 | .ConvertUInt32ToFloat64
  | .ConvertSInt64ToFloat64 | .ConvertUInt64ToFloat64 | .PromoteFloat32 => WasmType.f64

/-- Modelled from the spec: `Builder::makeUnary`, a `Unary` node finalized to the
result type of its operator (`unreachable` when the operand is). -/
def makeUnary (op : UnaryOp) (value : Expression) : Expression :=
  Expression.unary op value
    (if value.type = WasmType.unreachable then WasmType.unreachable else op.resultType)

/-- Modelled from the spec: `Binary::isRelational`, whether a binary operator is a
comparison. -/
def BinaryOp.isRelational : BinaryOp → Bool
  | .EqInt32 | .NeInt32 | .LtSInt32 | .LtUInt32 | .LeSInt32 | .LeUInt32
  | .GtSInt32 | .GtUInt32 | .GeSInt32 | .GeUInt32
  | .EqInt64 | .NeInt64 | .LtSInt64 | .LtUInt64 | .LeSInt64 | .LeUInt64
  | .GtSInt64 | .GtUInt64 | .GeSInt64 | .GeUInt64
  | .EqFloat32 | .NeFloat32 | .LtFloat32 | .LeFloat32 | .GtFloat32 | .GeFloat32
  | .EqFloat64 | .NeFloat64 | .LtFloat64 | .LeFloat64 | .GtFloat64 | .GeFloat64 => true
  | _ => false

/-- Modelled from the spec: `Binary::finalize`, the type of a binary node:
`unreachable` when an operand is, `i32` for a comparison, the type of the left
operand otherwise. -/
def finalizeBinary (op : BinaryOp) (left right : Expression) : WasmType :=
  if left.type = WasmType.unreachable ∨ right.type = WasmType.unreachable then
    WasmType.unreachable
  else if op.isRelational then WasmType.i32
  else left.type

/-- Modelled from the spec: `Builder::makeBinary`. -/
def makeBinary (op : BinaryOp) (left right : Expression) : Expression :=
  Expression.binary op left right (finalizeBinary op left right)

/-- Modelled from the spec: `Builder::makeConst`, a constant of the literal's type. -/
def makeConst (value : Literal) : Expression :=
  Expression.const value value.type

/-- Modelled from the spec: `Builder::makeCallImport(target, args, type)`. -/
def makeCallImport (target : IString) (args : List Expression) (type : WasmType) :
    Expression :=
  Expression.callImport target args type

/-! ## `FinalizeCalls` (lines 1216-1302) -/

/-- What the finalizer reads: the module's functions and imports, and the
translator's registries. -/
structure FinalizeEnv where
  /-- The `result` of `getModule()->getFunctionOrNull(name)`, if there is such a function. -/
  functionResult : IString → Option WasmType
  /-- The translator's `importedFunctionTypes`. -/
  importedFunctionTypes : ImportedFunctionTypes
  /-- The result of the function type of the module's import `name`, if there is one. -/
  importResult : IString → Option WasmType
  /-- The translator's `functionTableStarts`. -/
  functionTableStarts : IString → Option Int

/-- The visitor `visitCall`: the call's type becomes the callee's result; a call to a function
the module does not have is fatal. -/
def visitCall (env : FinalizeEnv) (target : IString) (operands : List Expression)
    (_type : WasmType) : Option Expression :=
  match env.functionResult target with
  | none => none
  | some result => some (Expression.call target operands result)

/-- One iteration `i` of the operand loop of `visitCallImport` (lines 1243-1260). -/
def visitCallImportOperandAt (params : List WasmType) (operands : List Expression)
    (i : Nat) : Option (List Expression) :=
  if i ≥ operands.length then
    some (operands ++
      [Expression.const { Literal.default with type := params.getD i WasmType.none }
        (params.getD i WasmType.none)])
  else
    match operands[i]? with
    | none => none
    | some operand =>
      if operand.type ≠ params.getD i WasmType.none then
        if params.getD i WasmType.none = WasmType.f64 ∨
            operand.type = WasmType.unreachable then
          match operand.type with
          | WasmType.i32 =>
              some (operands.set i (makeUnary UnaryOp.ConvertSInt32ToFloat64 operand))
          | WasmType.f32 =>
              some (operands.set i (makeUnary UnaryOp.PromoteFloat32 operand))
          | _ => some operands
        else none
      else some operands

/-- The operand loop `for (size_t i = 0; i < type->params.size(); i++)`. -/
def visitCallImportOperands (params : List WasmType) (operands : List Expression) :
    Option (List Expression) :=
  (List.range params.length).foldlM (visitCallImportOperandAt params) operands

/-- The result part of `visitCallImport` (lines 1261-1281) for the call
`curr = callImport target operands type`: the expression that stands in the
call's place afterwards. -/
def visitCallImportResult (importResult : WasmType) (target : IString)
    (operands : List Expression) (type : WasmType) : Option Expression :=
  if type ≠ importResult then
    if importResult = WasmType.f64 then
      match type with
      | WasmType.i32 =>
          some (Expression.unary UnaryOp.TruncSFloat64ToInt32
            (Expression.callImport target operands importResult)
            (makeUnary UnaryOp.TruncSFloat64ToInt32
              (Expression.callImport target operands type)).type)
      | WasmType.f32 =>
          some (Expression.unary UnaryOp.DemoteFloat64
            (Expression.callImport target operands importResult)
            (makeUnary UnaryOp.DemoteFloat64
              (Expression.callImport target operands type)).type)
      | WasmType.none => some (Expression.callImport target operands importResult)
      | _ => none
    else if type = WasmType.none then
      some (Expression.callImport target operands importResult)
    else none
  else some (Expression.callImport target operands type)

/-- The visitor `visitCallImport` on the call `callImport target operands type`. A target
without an inferred signature is left alone; a missing import is fatal. -/
def visitCallImport (env : FinalizeEnv) (target : IString) (operands : List Expression)
    (type : WasmType) : Option Expression :=
  match env.importedFunctionTypes target with
  | none => some (Expression.callImport target operands type)
  | some sig =>
    match visitCallImportOperands sig.params operands with
    | none => none
    | some operands2 =>
      match env.importResult target with
      | none => none
      | some importResult => visitCallImportResult importResult target operands2 type

/-- The visitor `visitCallIndirect` on the call `callIndirect fullType operands target type`. -/
def visitCallIndirect (env : FinalizeEnv) (fullType : IString) (operands : List Expression)
    (target : Expression) (type : WasmType) : Expression :=
  match target with
  | Expression.binary op left right addType =>
    match right with
    | Expression.callImport tableName _ _ =>
      match env.functionTableStarts tableName with
      | none => Expression.callIndirect fullType operands target type
      | some start =>
        Expression.callIndirect fullType operands
          (Expression.binary op left (makeConst (Literal.ofInt32 start)) addType) type
    | _ =>
      match left with
      | Expression.callImport tableName _ _ =>
        match env.functionTableStarts tableName with
        | none => Expression.callIndirect fullType operands target type
        | some start =>
          Expression.callIndirect fullType operands
            (Expression.binary op (makeConst (Literal.ofInt32 start)) right addType) type
      | _ => Expression.callIndirect fullType operands target type
  | _ => Expression.callIndirect fullType operands target type

mutual
/-- Modelled from the spec: the post-order walk of the pass. The children of a
node are finalized first, then the node itself is visited; only `Call`,
`CallImport` and `CallIndirect` have a visitor. -/
def finalizeCalls (env : FinalizeEnv) : Expression → Option Expression
  | .block name list type => do
      let list2 ← finalizeCallsList env list
      pure (.block name list2 type)
  | .if_ condition ifTrue ifFalse type => do
      let condition2 ← finalizeCalls env condition
      let ifTrue2 ← finalizeCalls env ifTrue
      let ifFalse2 ← finalizeCallsOpt env ifFalse
      pure (.if_ condition2 ifTrue2 ifFalse2 type)
  | .loop name body type => do
      let body2 ← finalizeCalls env body
      pure (.loop name body2 type)
  | .break_ name value condition type => do
      let value2 ← finalizeCallsOpt env value
      let condition2 ← finalizeCallsOpt env condition
      pure (.break_ name value2 condition2 type)
  | .switch targets default_ condition value type => do
      let value2 ← finalizeCallsOpt env value
      let condition2 ← finalizeCalls env condition
      pure (.switch targets default_ condition2 value2 type)
  | .call target operands type => do
      let operands2 ← finalizeCallsList env operands
      visitCall env target operands2 type
  | .callImport target operands type => do
      let operands2 ← finalizeCallsList env operands
      visitCallImport env target operands2 type
  | .callIndirect fullType operands target type => do
      let operands2 ← finalizeCallsList env operands
      let target2 ← finalizeCalls env target
      pure (visitCallIndirect env fullType operands2 target2 type)
  | .getLocal index type => pure (.getLocal index type)
  | .setLocal index value isTee type => do
      let value2 ← finalizeCalls env value
      pure (.setLocal index value2 isTee type)
  | .getGlobal name type => pure (.getGlobal name type)
  | .setGlobal name value type => do
      let value2 ← finalizeCalls env value
      pure (.setGlobal name value2 type)
  | .load bytes signed_ offset align ptr type => do
      let ptr2 ← finalizeCalls env ptr
      pure (.load bytes signed_ offset align ptr2 type)
  | .store bytes offset align ptr value valueType type => do
      let ptr2 ← finalizeCalls env ptr
      let value2 ← finalizeCalls env value
      pure (.store bytes offset align ptr2 value2 valueType type)
  | .const value type => pure (.const value type)
  | .unary op value type => do
      let value2 ← finalizeCalls env value
      pure (.unary op value2 type)
  | .binary op left right type => do
      let left2 ← finalizeCalls env left
      let right2 ← finalizeCalls env right
      pure (.binary op left2 right2 type)
  | .select ifTrue ifFalse condition type => do
      let ifTrue2 ← finalizeCalls env ifTrue
      let ifFalse2 ← finalizeCalls env ifFalse
      let condition2 ← finalizeCalls env condition
      pure (.select ifTrue2 ifFalse2 condition2 type)
  | .return_ value type => do
      let value2 ← finalizeCallsOpt env value
      pure (.return_ value2 type)
  | .nop => pure .nop
  | .unreachable => pure .unreachable
/-- The walk over a list of children. -/
def finalizeCallsList (env : FinalizeEnv) : List Expression → Option (List Expression)
  | [] => pure []
  | e :: es => do
      let e2 ← finalizeCalls env e
      let es2 ← finalizeCallsList env es
      pure (e2 :: es2)
/-- The walk over an optional child. -/
def finalizeCallsOpt (env : FinalizeEnv) : Option Expression → Option (Option Expression)
  | none => pure none
  | some e => do
      let e2 ← finalizeCalls env e
      pure (some e2)
end

/-- What the operand loop does to an operand that exists, against the parameter
type `p` of its position. -/
def fixOperand (p : WasmType) (operand : Expression) : Option Expression :=
  if operand.type ≠ p then
    if p = WasmType.f64 ∨ operand.type = WasmType.unreachable then
      match operand.type with
      | WasmType.i32 => some (makeUnary UnaryOp.ConvertSInt32ToFloat64 operand)
      | WasmType.f32 => some (makeUnary UnaryOp.PromoteFloat32 operand)
      | _ => some operand
    else none
  else some operand

/-- The constant the operand loop appends for a missing operand of type `p`. -/
def zeroConst (p : WasmType) : Expression :=
  Expression.const { type := p, bits := 0 } p

/-- The operand loop, position by position. -/
def fixOperands : List WasmType → List Expression → Option (List Expression)
  | [], operands => some operands
  | p :: ps, [] => (fixOperands ps []).map (fun rest => zeroConst p :: rest)
  | p :: ps, o :: os =>
      match fixOperand p o with
      | none => none
      | some o2 => (fixOperands ps os).map (fun rest => o2 :: rest)

/-- The operand at one position after the operand loop, from the parameter type
and the operand at that position before it (each may be absent). -/
def fixAt : Option WasmType → Option Expression → Option Expression
  | some p, some o => fixOperand p o
  | some p, none => some (zeroConst p)
  | none, o => o

/-- A finalizer environment for the examples: the import `imp` with the inferred
signature `(i32, f64, f32) -> f64`, declared with result `f64`; the function `g`
with result `i32`; the function table `FUNCTION_TABLE_ii` starting at 16. -/
def exampleEnv : FinalizeEnv where
  functionResult := fun n => if n = "g" then some WasmType.i32 else none
  importedFunctionTypes := fun n =>
    if n = "imp" then
      some ⟨"type$imp", WasmType.f64, [WasmType.i32, WasmType.f64, WasmType.f32]⟩
    else none
  importResult := fun n => if n = "imp" then some WasmType.f64 else none
  functionTableStarts := fun n => if n = "FUNCTION_TABLE_ii" then some 16 else none

mutual
/-- The `CallIndirect` nodes of an expression tree, the root included. -/
def Expression.indirectCalls : Expression → List Expression
  | .block _ list _ => indirectCallsList list
  | .if_ condition ifTrue ifFalse _ =>
      condition.indirectCalls ++ (ifTrue.indirectCalls ++ indirectCallsOpt ifFalse)
  | .loop _ body _ => body.indirectCalls
  | .break_ _ value condition _ => indirectCallsOpt value ++ indirectCallsOpt condition
  | .switch _ _ condition value _ => indirectCallsOpt value ++ condition.indirectCalls
  | .call _ operands _ => indirectCallsList operands
  | .callImport _ operands _ => indirectCallsList operands
  | .callIndirect fullType operands target type =>
      .callIndirect fullType operands target type ::
        (indirectCallsList operands ++ target.indirectCalls)
  | .getLocal _ _ => []
  | .setLocal _ value _ _ => value.indirectCalls
  | .getGlobal _ _ => []
  | .setGlobal _ value _ => value.indirectCalls
  | .load _ _ _ _ ptr _ => ptr.indirectCalls
  | .store _ _ _ ptr value _ _ => ptr.indirectCalls ++ value.indirectCalls
  | .const _ _ => []
  | .unary _ value _ => value.indirectCalls
  | .binary _ left right _ => left.indirectCalls ++ right.indirectCalls
  | .select ifTrue ifFalse condition _ =>
      ifTrue.indirectCalls ++ (ifFalse.indirectCalls ++ condition.indirectCalls)
  | .return_ value _ => indirectCallsOpt value
  | .nop => []
  | .unreachable => []
/-- The `CallIndirect` nodes of a list of expression trees. -/
def indirectCallsList : List Expression → List Expression
  | [] => []
  | e :: es => e.indirectCalls ++ indirectCallsList es
/-- The `CallIndirect` nodes of an optional expression tree. -/
def indirectCallsOpt : Option Expression → List Expression
  | none => []
  | some e => e.indirectCalls
end

/-! ## The expression translator `process` (lines 1561 and following)

The fragment of the source AST embedded here: names, integer literals, binary
operators, heap accesses and calls. A translation has
three outcomes: a result, a fatal error (`abort`, a failed `assert`), or
`unmodelled` when it leaves the embedded fragment. -/

/-- Modelled from the spec: the source AST (`cashew::Ref` of the external parser),
for the node kinds embedded here. -/
inductive Ref where
  /-- A string node: an identifier. -/
  | name (s : IString)
  /-- A number node holding the integer `v`. -/
  | num (v : Int)
  /-- A `[BINARY, op, left, right]` node. -/
  | binary (op : IString) (left right : Ref)
  /-- A `[SUB, target, index]` node, `target[index]`. -/
  | sub (target index : Ref)
  /-- A `[CALL, target, args]` node. -/
  | call (target : Ref) (args : List Ref)
  /-- An assignment node `target = value` (`Assign`, or `AssignName` when the target
  is a name). -/
  | assign (target value : Ref)
  /-- A `[UNARY_PREFIX, op, value]` node. -/
  | unaryPrefix (op : IString) (value : Ref)
  /-- A `[SEQ, left, right]` node, the comma expression `(left, right)`. -/
  | seq (left right : Ref)

/-- The outcome of a translation step. -/
inductive Outcome (α : Type) where
  | ok (value : α)
  | fatal
  | unmodelled

/-- Sequencing of translation steps: the first fatal or unmodelled step ends it. -/
def Outcome.bind {α β : Type} (x : Outcome α) (f : α → Outcome β) : Outcome β :=
  match x with
  | .ok a => f a
  | .fatal => .fatal
  | .unmodelled => .unmodelled

instance : Monad Outcome where
  pure := Outcome.ok
  bind := Outcome.bind

/-- The trap modes. -/
inductive TrapMode where
  | Allow
  | Clamp
  | JS
  deriving DecidableEq, Repr

/-- Modelled from the spec: the operator names of the source AST. -/
def PLUS : IString := "+"
/-- Modelled from the spec: the source operator `-`. -/
def MINUS : IString := "-"
/-- Modelled from the spec: the source operator `*`. -/
def MUL : IString := "*"
/-- Modelled from the spec: the source operator `/`. -/
def DIV : IString := "/"
/-- Modelled from the spec: the source operator `%`. -/
def MOD : IString := "%"
/-- Modelled from the spec: the source operator `&`. -/
def AND : IString := "&"
/-- Modelled from the spec: the source operator `|`. -/
def OR : IString := "|"
/-- Modelled from the spec: the source operator `^`. -/
def XOR : IString := "^"
/-- Modelled from the spec: the source operator `<<`. -/
def LSHIFT : IString := "<<"
/-- Modelled from the spec: the source operator `>>`. -/
def RSHIFT : IString := ">>"
/-- Modelled from the spec: the source operator `>>>`. -/
def TRSHIFT : IString := ">>>"
/-- Modelled from the spec: the source operator `==`. -/
def EQ : IString := "=="
/-- Modelled from the spec: the source operator `!=`. -/
def NE : IString := "!="
/-- Modelled from the spec: the source operator `>=`. -/
def GE : IString := ">="
/-- Modelled from the spec: the source operator `>`. -/
def GT : IString := ">"
/-- Modelled from the spec: the source operator `<=`. -/
def LE : IString := "<="
/-- Modelled from the spec: the source operator `<`. -/
def LT : IString := "<"

/-- The name `FTCALL`. -/
def FTCALL : IString := "ftCall_"
/-- The name `MFTCALL`. -/
def MFTCALL : IString := "mftCall_"
/-- Modelled from the spec: the name `DEBUGGER` of the `asm2wasm.debugger` import. -/
def DEBUGGER : IString := "debugger"

/-- Modelled from the spec: the source-side type tags (`AsmType` of the external
optimizer), as far as the translator uses them. -/
inductive AsmType where
  | ASM_INT
  | ASM_DOUBLE
  | ASM_FLOAT
  | ASM_INT64
  | ASM_NONE
  deriving DecidableEq, Repr

/-- Modelled from the spec: `asmToWasmType`, the canonical map `int -> i32`,
`double -> f64`, `float -> f32` (and `i64`, `none`). -/
def asmToWasmType : AsmType → WasmType
  | .ASM_INT => WasmType.i32
  | .ASM_DOUBLE => WasmType.f64
  | .ASM_FLOAT => WasmType.f32
  | .ASM_INT64 => WasmType.i64
  | .ASM_NONE => WasmType.none

/-- Modelled from the spec: `getWasmType(bytes, float_)` of the IR, the value type
of an access of the given width: `i32` below 4 bytes, `i32` or `f32` for 4,
`i64` or `f64` for 8; any other width aborts. -/
def getWasmType (bytes : Nat) (float_ : Bool) : Option WasmType :=
  if bytes < 4 then some WasmType.i32
  else if bytes = 4 then some (if float_ then WasmType.f32 else WasmType.i32)
  else if bytes = 8 then some (if float_ then WasmType.f64 else WasmType.i64)
  else none

/-- The heap view descriptor `View` (lines 368-374). -/
structure View where
  bytes : Nat
  integer : Bool
  signed_ : Bool
  type : AsmType
  deriving DecidableEq, Repr

/-- The function `bytesToShift` (lines 554-564); `none` is its `abort()`. -/
def bytesToShift (bytes : Nat) : Option Nat :=
  if bytes = 1 then some 0
  else if bytes = 2 then some 1
  else if bytes = 4 then some 2
  else if bytes = 8 then some 3
  else none

/-- Modelled from the spec: `getInteger()` of a number node of the external AST,
the node's value as an `int32_t`; `none` is its failed `assert` for a value
outside the `int32_t` range. -/
def getInteger (v : Int) : Option Int :=
  if -2147483648 ≤ v ∧ v ≤ 2147483647 then some v else none

/-- Modelled from the spec: `Store::finalize`, the type of a store: `none`, or
`unreachable` when the pointer or the value is. -/
def finalizeStore (ptr value : Expression) : WasmType :=
  if ptr.type = WasmType.unreachable ∨ value.type = WasmType.unreachable then
    WasmType.unreachable
  else WasmType.none

/-- What the translation of one function reads. The asm.js type detection
(`detectType`, `detectSign`) and the module's function-type table
(`ensureFunctionType(getSig(...))`) are external and enter as functions. -/
structure TranslateEnv where
  /-- The function's parameters and variables with their types, in index order. -/
  locals : List (IString × WasmType)
  /-- The type of each entry of `mappedGlobals`. -/
  mappedGlobals : IString → Option WasmType
  /-- Whether `wasm.getImportOrNull(name)` finds an import. -/
  imports : IString → Bool
  /-- Whether the name is bound to a math intrinsic slot (`Math_imul`, ...). -/
  intrinsics : IString → Bool
  /-- The registry `views` of heap views. -/
  views : IString → Option View
  wasmOnly : Bool
  trapMode : TrapMode
  /-- The result of `detectWasmType` on an AST node. -/
  detectWasmType : Ref → WasmType
  /-- The result of `isUnsignedCoercion` on an AST node. -/
  isUnsignedCoercion : Ref → Bool
  /-- The name of `ensureFunctionType(getSig(result, operands), &wasm)`. -/
  ensureFunctionType : WasmType → List WasmType → IString

/-- The function `parseAsmBinaryOp`: the operator for a source operator and its operands;
`none` is `abort_on("bad wasm binary op")`. -/
def parseAsmBinaryOp (env : TranslateEnv) (op : IString) (left right : Ref)
    (leftWasm _rightWasm : Expression) : Option BinaryOp :=
  let leftType := leftWasm.type
  let isInteger := decide (leftType = WasmType.i32)
  let isF32 := decide (leftType = WasmType.f32)
  if op = PLUS then
    some (if isInteger then .AddInt32 else if isF32 then .AddFloat32 else .AddFloat64)
  else if op = MINUS then
    some (if isInteger then .SubInt32 else if isF32 then .SubFloat32 else .SubFloat64)
  else if op = MUL then
    some (if isInteger then .MulInt32 else if isF32 then .MulFloat32 else .MulFloat64)
  else if op = AND then some .AndInt32
  else if op = OR then some .OrInt32
  else if op = XOR then some .XorInt32
  else if op = LSHIFT then some .ShlInt32
  else if op = RSHIFT then some .ShrSInt32
  else if op = TRSHIFT then some .ShrUInt32
  else if op = EQ then
    some (if isInteger then .EqInt32 else if isF32 then .EqFloat32 else .EqFloat64)
  else if op = NE then
    some (if isInteger then .NeInt32 else if isF32 then .NeFloat32 else .NeFloat64)
  else
    let isUnsigned := env.isUnsignedCoercion left || env.isUnsignedCoercion right
    if op = DIV then
      some (if isInteger then (if isUnsigned then .DivUInt32 else .DivSInt32)
        else if isF32 then .DivFloat32 else .DivFloat64)
    else if op = MOD then
      some (if isInteger then (if isUnsigned then .RemUInt32 else .RemSInt32)
        else .RemSInt32)
    else if op = GE then
      some (if isInteger then (if isUnsigned then .GeUInt32 else .GeSInt32)
        else if isF32 then .GeFloat32 else .GeFloat64)
    else if op = GT then
      some (if isInteger then (if isUnsigned then .GtUInt32 else .GtSInt32)
        else if isF32 then .GtFloat32 else .GtFloat64)
    else if op = LE then
      some (if isInteger then (if isUnsigned then .LeUInt32 else .LeSInt32)
        else if isF32 then .LeFloat32 else .LeFloat64)
    else if op = LT then
      some (if isInteger then (if isUnsigned then .LtUInt32 else .LtSInt32)
        else if isF32 then .LtFloat32 else .LtFloat64)
    else none

/-- The function `fixCallType`: a call node gets the given type, any other node is left alone. -/
def fixCallType (call : Expression) (type : WasmType) : Expression :=
  match call with
  | .call target operands _ => .call target operands type
  | .callImport target operands _ => .callImport target operands type
  | .callIndirect fullType operands target _ => .callIndirect fullType operands target type
  | e => e

/-- The index `function->getLocalIndex(name)` of a local. -/
def getLocalIndex (locals : List (IString × WasmType)) (name : IString) : Nat :=
  locals.findIdx (fun l => l.1 = name)

/-- The string case of `process` (lines 1563-1593). -/
def processName (env : TranslateEnv) (name : IString) : Outcome Expression :=
  match env.locals.lookup name with
  | some type => .ok (.getLocal (getLocalIndex env.locals name) type)
  | none =>
    if name = DEBUGGER then .unmodelled
    else
      match env.mappedGlobals name with
      | none => .fatal
      | some type => .ok (.getGlobal name type)

/-- The number case of `process` (lines 1594-1606), for an integer value: a signed
32-bit constant if representable, else an unsigned one; other numbers become `f64`
constants, which are not modelled. -/
def processNumber (v : Int) : Outcome Expression :=
  if -2147483648 ≤ v ∧ v ≤ 2147483647 then .ok (makeConst (Literal.ofInt32 v))
  else if 0 ≤ v ∧ v ≤ 4294967295 then .ok (makeConst (Literal.ofInt32 v))
  else .unmodelled

/-- Whether a node is the number `0`. -/
def Ref.isZero : Ref → Bool
  | .num v => v = 0
  | _ => false

/-- The test `isWasmTypeFloat`. -/
def isWasmTypeFloat (t : WasmType) : Bool :=
  t = WasmType.f32 || t = WasmType.f64

/-- The end of the binary case (lines 1672-1698), once both operands are
translated. Floating-point remainder and the trapping integer operators are not
modelled here. -/
def finishBinary (env : TranslateEnv) (op : IString) (left right : Ref)
    (leftWasm rightWasm : Expression) : Outcome Expression :=
  match parseAsmBinaryOp env op left right leftWasm rightWasm with
  | none => .fatal
  | some wasmOp =>
    let ret := makeBinary wasmOp leftWasm rightWasm
    if wasmOp = BinaryOp.RemSInt32 ∧ isWasmTypeFloat ret.type then .unmodelled
    else if env.trapMode ≠ TrapMode.Allow ∧
        (wasmOp = BinaryOp.RemSInt32 ∨ wasmOp = BinaryOp.RemUInt32 ∨
          wasmOp = BinaryOp.DivSInt32 ∨ wasmOp = BinaryOp.DivUInt32) then .unmodelled
    else .ok ret

/-- Whether a called name is a table call: it starts with `ftCall_` or `mftCall_`
(lines 2023-2026). -/
def isTableCall (name : IString) : Bool :=
  (name.take 1 = "f" && name.take 7 = FTCALL) ||
  (name.take 1 = "m" && name.take 8 = MFTCALL)

/-- The function `getFunctionType(parent, operands)`: the name and the result of the function
type of an indirect call. -/
def getFunctionType (env : TranslateEnv) (parent : Option Ref) (operands : List Expression) :
    IString × WasmType :=
  let result := match parent with
    | some p => env.detectWasmType p
    | none => WasmType.none
  (env.ensureFunctionType result (operands.map Expression.type), result)

/-- Modelled from the spec: the source operator `~`. -/
def B_NOT : IString := "~"

/-- The function `isParentUnsignedCoercion` (lines 488-494): the parent exists,
is a `BINARY` node and is detected as an unsigned coercion. -/
def isParentUnsignedCoercion (env : TranslateEnv) (parent : Option Ref) : Bool :=
  match parent with
  | some (.binary op left right) => env.isUnsignedCoercion (.binary op left right)
  | _ => false

/-- The branch of `makeTrappingFloatToInt` for the trap mode `Allow` (lines
747-758): the truncation chosen by the signedness and by whether the operand is
`f64`. -/
def truncFloatToInt (signed_ : Bool) (value : Expression) : Expression :=
  Expression.unary
    (if signed_ then
      (if value.type = WasmType.f64 then UnaryOp.TruncSFloat64ToInt32
        else UnaryOp.TruncSFloat32ToInt32)
    else
      (if value.type = WasmType.f64 then UnaryOp.TruncUFloat64ToInt32
        else UnaryOp.TruncUFloat32ToInt32))
    value WasmType.i32

mutual
/-- The translator `process`, on the embedded fragment. `parent` is what
`astStackHelper.getParent()` returns for the node, `types` is the registry
`importedFunctionTypes`, which import calls update. -/
def process (env : TranslateEnv) (parent : Option Ref) (types : ImportedFunctionTypes) :
    Ref → Outcome (Expression × ImportedFunctionTypes)
  | .name n => do
      let e ← processName env n
      pure (e, types)
  | .num v => do
      let e ← processNumber v
      pure (e, types)
  | .binary op left right =>
      if (op = OR ∨ op = TRSHIFT) ∧ right.isZero = true then do
        let (ret, types2) ← process env (some (.binary op left right)) types left
        pure (fixCallType ret WasmType.i32, types2)
      else do
        let (leftWasm, types2) ← process env (some (.binary op left right)) types left
        let (rightWasm, types3) ← process env (some (.binary op left right)) types2 right
        let ret ← finishBinary env op left right leftWasm rightWasm
        pure (ret, types3)
  | .sub (.name heap) index =>
      match env.views heap with
      | none => .fatal
      | some view => do
        let (ptr, types2) ←
          processUnshifted env (some (.sub (.name heap) index)) types view.bytes index
        match getWasmType view.bytes (!view.integer) with
        | none => .fatal
        | some type =>
          pure (.load view.bytes view.signed_ 0 view.bytes ptr type, types2)
  | .sub _ _ => .fatal
  | .assign (.name _) _ => .unmodelled
  | .assign (.sub (.name heap) index) value =>
      match env.views heap with
      | none => .fatal
      | some view => do
        let (ptr, types2) ←
          processUnshifted env (some (.assign (.sub (.name heap) index) value)) types
            view.bytes index
        let (valueWasm, types3) ←
          process env (some (.assign (.sub (.name heap) index) value)) types2 value
        let valueType := asmToWasmType view.type
        let type := finalizeStore ptr valueWasm
        if valueType ≠ valueWasm.type then
          if valueType = WasmType.f32 ∧ valueWasm.type = WasmType.f64 then
            pure (.store view.bytes 0 view.bytes ptr
              (.unary UnaryOp.DemoteFloat64 valueWasm WasmType.f32) valueType type, types3)
          else if valueType = WasmType.f64 ∧ valueWasm.type = WasmType.f32 then
            pure (.store view.bytes 0 view.bytes ptr
              (.unary UnaryOp.PromoteFloat32 valueWasm WasmType.f64) valueType type, types3)
          else .fatal
        else pure (.store view.bytes 0 view.bytes ptr valueWasm valueType type, types3)
  | .assign _ _ => .fatal
  | .call (.name name) args =>
      if env.intrinsics name = true ∨ env.wasmOnly = true then .unmodelled
      else if isTableCall name = true then
        match args with
        | [] => .fatal
        | first :: rest => do
          let (target, types2) ← process env (some (.call (.name name) args)) types first
          let (operands, types3) ← processList env (some (.call (.name name) args)) types2 rest
          let fullType := getFunctionType env parent operands
          pure (.callIndirect fullType.1 operands target fullType.2, types3)
      else if env.imports name = true then do
        let (operands, types2) ← processList env (some (.call (.name name) args)) types args
        let type := match parent with
          | some p => env.detectWasmType p
          | none => WasmType.none
        pure (.callImport name operands type,
          noteImportedFunctionCall types2 name type (operands.map Expression.type))
      else do
        let (operands, types2) ← processList env (some (.call (.name name) args)) types args
        pure (.call name operands WasmType.none, types2)
  | .call (.sub (.name table) (.binary op index (.num mask))) args =>
      if op = AND then do
        let (target, types2) ←
          process env (some (.call (.sub (.name table) (.binary op index (.num mask))) args))
            types (.binary op index (.num mask))
        let (operands, types3) ←
          processList env (some (.call (.sub (.name table) (.binary op index (.num mask))) args))
            types2 args
        let fullType := getFunctionType env parent operands
        pure (.callIndirect fullType.1 operands
          (makeBinary BinaryOp.AddInt32 target (makeCallImport table [] WasmType.i32))
          fullType.2, types3)
      else .fatal
  | .call _ _ => .fatal
  | .unaryPrefix op (.unaryPrefix op2 inner) =>
      if op = B_NOT ∧ op2 = B_NOT then
        if env.trapMode = TrapMode.Allow then do
          let (value, types2) ←
            process env (some (.unaryPrefix op (.unaryPrefix op2 inner))) types inner
          pure (truncFloatToInt (!isParentUnsignedCoercion env parent) value, types2)
        else .unmodelled
      else .unmodelled
  | .unaryPrefix _ _ => .unmodelled
  | .seq _ _ => .unmodelled
/-- The function `processUnshifted(ptr, bytes)` (lines 2532-2546), called for the
index of a heap access; `parent` is the heap access node. -/
def processUnshifted (env : TranslateEnv) (parent : Option Ref)
    (types : ImportedFunctionTypes) (bytes : Nat) :
    Ref → Outcome (Expression × ImportedFunctionTypes)
  | .binary op inner (.num k) =>
      match bytesToShift bytes with
      | none => .fatal
      | some shifts =>
        if op = RSHIFT then
          match getInteger k with
          | none => .fatal
          | some amount =>
            if amount = (shifts : Int) then process env parent types inner
            else .fatal
        else if bytes = 1 ∧ op = OR then
          match getInteger k with
          | none => .fatal
          | some amount =>
            if amount = 0 then process env parent types inner
            else .fatal
        else .fatal
  | .num c =>
      match bytesToShift bytes with
      | none => .fatal
      | some shifts =>
        match getInteger c with
        | none => .fatal
        | some value =>
          let addr := (value % 4294967296).toNat
          let shifted := (addr <<< shifts) % 4294967296
          pure (makeConst (Literal.ofInt32 (shifted : Int)), types)
  | _ => .fatal
/-- The loop `operands->push_back(process(args[i]))` over the arguments. -/
def processList (env : TranslateEnv) (parent : Option Ref) (types : ImportedFunctionTypes) :
    List Ref → Outcome (List Expression × ImportedFunctionTypes)
  | [] => pure ([], types)
  | arg :: args => do
      let (e, types2) ← process env parent types arg
      let (es, types3) ← processList env parent types2 args
      pure (e :: es, types3)
end

/-- Modelled from the spec: the letter of a type in a signature string
(`getSig` of `asm_v_wasm.h`): `v` for `none`, `i`, `j`, `f`, `d` for the value types. -/
def sigChar : WasmType → Char
  | .i32 => 'i'
  | .i64 => 'j'
  | .f32 => 'f'
  | .f64 => 'd'
  | _ => 'v'

/-- Modelled from the spec: the name of the function type
`ensureFunctionType(getSig(result, operands), &wasm)`, `FUNCSIG$` followed by the
letters of the result and of the operands. -/
def functionTypeName (result : WasmType) (params : List WasmType) : IString :=
  "FUNCSIG$" ++ String.mk (sigChar result :: params.map sigChar)

/-- A translation environment for the examples: the `i32` locals `f` and `x`, no
globals, no imports, trap mode `Allow`; every parent node is detected as `i32`. -/
def exampleTranslateEnv : TranslateEnv where
  locals := [("f", WasmType.i32), ("x", WasmType.i32)]
  mappedGlobals := fun _ => none
  imports := fun _ => false
  intrinsics := fun _ => false
  views := fun _ => none
  wasmOnly := false
  trapMode := TrapMode.Allow
  detectWasmType := fun _ => WasmType.i32
  isUnsignedCoercion := fun _ => false
  ensureFunctionType := functionTypeName

/-- The source expression `FUNCTION_TABLE_ii[(f + 3) & 7](x|0)`. -/
def exampleFunctionPointerCall : Ref :=
  .call (.sub (.name "FUNCTION_TABLE_ii") (.binary AND (.binary PLUS (.name "f") (.num 3)) (.num 7)))
    [.binary OR (.name "x") (.num 0)]

/-- The source expression `ftCall_ii(f, x|0)`. -/
def exampleTableCall : Ref :=
  .call (.name "ftCall_ii") [.name "f", .binary OR (.name "x") (.num 0)]

/-- The translation of `FUNCTION_TABLE_ii[(f + 3) & 7](x|0)`: the mask is kept and
the placeholder `callImport(FUNCTION_TABLE_ii)` is added. -/
def exampleTranslated : Expression :=
  .callIndirect "FUNCSIG$vi" [.getLocal 1 WasmType.i32]
    (.binary .AddInt32
      (.binary .AndInt32
        (.binary .AddInt32 (.getLocal 0 WasmType.i32)
          (.const ⟨WasmType.i32, 3⟩ WasmType.i32) WasmType.i32)
        (.const ⟨WasmType.i32, 7⟩ WasmType.i32) WasmType.i32)
      (.callImport "FUNCTION_TABLE_ii" [] WasmType.i32) WasmType.i32) WasmType.none

/-- The finalized translation of `FUNCTION_TABLE_ii[(f + 3) & 7](x|0)` when the
table starts at 16. -/
def exampleFinalized : Expression :=
  .callIndirect "FUNCSIG$vi" [.getLocal 1 WasmType.i32]
    (.binary .AddInt32
      (.binary .AndInt32
        (.binary .AddInt32 (.getLocal 0 WasmType.i32)
          (.const ⟨WasmType.i32, 3⟩ WasmType.i32) WasmType.i32)
        (.const ⟨WasmType.i32, 7⟩ WasmType.i32) WasmType.i32)
      (.const ⟨WasmType.i32, 16⟩ WasmType.i32) WasmType.i32) WasmType.none

/-- A translation environment with heap views for the examples: the `i32` locals
`p` and `v`, the `f64` local `d`, and the views `HEAP8`, `HEAP32`, `HEAPF32`
and `HEAPF64`. -/
def exampleHeapEnv : TranslateEnv where
  locals := [("p", WasmType.i32), ("v", WasmType.i32), ("d", WasmType.f64)]
  mappedGlobals := fun _ => none
  imports := fun _ => false
  intrinsics := fun _ => false
  views := fun n =>
    if n = "HEAP8" then some ⟨1, true, true, AsmType.ASM_INT⟩
    else if n = "HEAP32" then some ⟨4, true, true, AsmType.ASM_INT⟩
    else if n = "HEAPF32" then some ⟨4, false, true, AsmType.ASM_FLOAT⟩
    else if n = "HEAPF64" then some ⟨8, false, true, AsmType.ASM_DOUBLE⟩
    else none
  wasmOnly := false
  trapMode := TrapMode.Allow
  detectWasmType := fun _ => WasmType.i32
  isUnsignedCoercion := fun _ => false
  ensureFunctionType := functionTypeName

/-- The source statement `HEAP32[(p+4) >> 2] = v|0`. -/
def exampleHeapStore : Ref :=
  .assign (.sub (.name "HEAP32") (.binary RSHIFT (.binary PLUS (.name "p") (.num 4)) (.num 2)))
    (.binary OR (.name "v") (.num 0))

/-- The source expression `HEAP32[(p+4) >> 2]`. -/
def exampleHeapLoad : Ref :=
  .sub (.name "HEAP32") (.binary RSHIFT (.binary PLUS (.name "p") (.num 4)) (.num 2))

/-! ## Function tables in the first pass (lines 1103-1118) -/

/-- Modelled from the spec: an element segment of the table (`Table::Segment` of
the IR), its offset expression and its entries. -/
structure Segment where
  offset : Expression
  data : List IString

/-- Modelled from the spec: the module's table (`Table` of the IR), as far as the
first pass writes it. -/
structure Table where
  initial : Nat
  max : Nat
  segments : List Segment

/-- The part of the translator's state the function-table declarations write:
the module's table and the registry `functionTableStarts`. The registry holds
`int`s; a table of 2^31 or more entries is not modelled. -/
structure TableState where
  table : Table
  functionTableStarts : IString → Option Int

/-- Modelled from the spec: `Builder::makeGetGlobal`. -/
def makeGetGlobal (name : IString) (type : WasmType) : Expression :=
  Expression.getGlobal name type

/-- The first pass on one declaration `var name = [contents...]` of a function
table (lines 1103-1118). -/
def processFunctionTable (st : TableState) (name : IString) (contents : List IString) :
    TableState :=
  let segments :=
    if st.table.segments.length = 0 then
      [({ offset := makeGetGlobal "tableBase" WasmType.i32, data := [] } : Segment)]
    else st.table.segments
  match segments with
  | [] => st
  | segment :: rest =>
    let start := segment.data.length
    let data := segment.data ++ contents
    { table := { initial := data.length, max := data.length,
                 segments := { segment with data := data } :: rest }
      functionTableStarts := fun n =>
        if n = name then some (start : Int) else st.functionTableStarts n }

/-- The first pass over the function-table declarations of a module, in source
order. -/
def processFunctionTables (st : TableState) (tables : List (IString × List IString)) :
    TableState :=
  tables.foldl (fun s t => processFunctionTable s t.1 t.2) st

/-- The number of entries of the first `k` declared tables. -/
def entriesBefore (tables : List (IString × List IString)) (k : Nat) : Nat :=
  ((tables.take k).map (fun t => t.2.length)).sum

/-! ## `return` (lines 2089-2099) -/

/-- What a `return` reads and writes: the function's `result` and the flag
`seenReturn` (line 1556). -/
structure ReturnState where
  result : WasmType
  seenReturn : Bool
  deriving DecidableEq, Repr

/-- The state at the start of a function: `seenReturn = false`; the result of a
new function is `none`. -/
def ReturnState.initial : ReturnState := { result := WasmType.none, seenReturn := false }

/-- The type part of the `RETURN` case (lines 2090-2095) for a `return` of detected
type `type`; `none` is the failed `assert(function->result == type)`. No
statement of the source assigns `seenReturn`. -/
def processReturn (st : ReturnState) (type : WasmType) : Option ReturnState :=
  if st.seenReturn then
    if st.result = type then some st else none
  else some { st with result := type }

/-- The `return` statements of one function, in translation order, given by
their detected types. -/
def processReturns (st : ReturnState) (types : List WasmType) : Option ReturnState :=
  types.foldlM processReturn st

/-! ## Trap shims (lines 633-835) -/

/-- Modelled from the spec: `Builder::makeGetLocal`. -/
def makeGetLocal (index : Nat) (type : WasmType) : Expression :=
  Expression.getLocal index type

/-- Whether a type is one of the value types `i32`, `i64`, `f32`, `f64`. -/
def WasmType.isValue (t : WasmType) : Bool :=
  t = WasmType.i32 || t = WasmType.i64 || t = WasmType.f32 || t = WasmType.f64

/-- Modelled from the spec: `If::finalize`, the type of an `If`: with both arms,
their common type, or the type of the arm that is a value when the other is
`unreachable`; `none` otherwise. -/
def finalizeIf (ifTrue : Expression) (ifFalse : Option Expression) : WasmType :=
  match ifFalse with
  | none => WasmType.none
  | some ifFalse =>
    if ifTrue.type = ifFalse.type then ifTrue.type
    else if ifTrue.type.isValue = true ∧ ifFalse.type = WasmType.unreachable then ifTrue.type
    else if ifFalse.type.isValue = true ∧ ifTrue.type = WasmType.unreachable then
      ifFalse.type
    else WasmType.none

/-- Modelled from the spec: `Builder::makeIf`. -/
def makeIf (condition ifTrue : Expression) (ifFalse : Option Expression) : Expression :=
  Expression.if_ condition ifTrue ifFalse (finalizeIf ifTrue ifFalse)

/-- The literal `Literal((int64_t) v)`: the two's complement bits of `v`. -/
def Literal.ofInt64 (v : Int) : Literal :=
  { type := WasmType.i64, bits := (v % 18446744073709551616).toNat }

/-- Modelled from the spec: a function of the module (`Function` of the IR). -/
structure Function where
  name : IString
  params : List WasmType
  vars : List WasmType
  result : WasmType
  body : Expression

/-- Modelled from the spec: a function import of the module (`Import` of the IR). -/
structure Import where
  name : IString
  module : IString
  base : IString
  functionType : IString

/-- Modelled from the spec: the name `I32S_REM` of the shim for `i32` signed remainder. -/
def I32S_REM : IString := "i32s-rem"
/-- Modelled from the spec: the name `I32U_REM` of the shim for `i32` unsigned remainder. -/
def I32U_REM : IString := "i32u-rem"
/-- Modelled from the spec: the name `I32S_DIV` of the shim for `i32` signed division. -/
def I32S_DIV : IString := "i32s-div"
/-- Modelled from the spec: the name `I32U_DIV` of the shim for `i32` unsigned division. -/
def I32U_DIV : IString := "i32u-div"
/-- The name `I64S_REM` (line 92). -/
def I64S_REM : IString := "i64s-rem"
/-- The name `I64U_REM` (line 93). -/
def I64U_REM : IString := "i64u-rem"
/-- The name `I64S_DIV` (line 94). -/
def I64S_DIV : IString := "i64s-div"
/-- The name `I64U_DIV` (line 95). -/
def I64U_DIV : IString := "i64u-div"
/-- Modelled from the spec: the name `F64_TO_INT` of the float-to-int shim. -/
def F64_TO_INT : IString := "f64-to-int"
/-- Modelled from the spec: the name `ASM2WASM` of the synthetic import module. -/
def ASM2WASM : IString := "asm2wasm"

/-- The state the trap shims read and write. The first four fields are the
`static` variables of `makeTrappingI32Binary`, `makeTrappingI64Binary` and
`makeTrappingFloatToInt`: they live as long as the process. The last two are the
functions and imports of the module being built. -/
structure ShimState where
  addedFunctions32 : List IString
  addedFunctions64 : List IString
  addedImport : Bool
  added : Bool
  functions : List Function
  imports : List Import

/-- The state of a process that has translated nothing yet, with an empty module. -/
def ShimState.initial : ShimState :=
  { addedFunctions32 := [], addedFunctions64 := [], addedImport := false, added := false,
    functions := [], imports := [] }

/-- The start of another translation run in the same process: a new, empty module;
the `static` variables keep their values. -/
def ShimState.newRun (st : ShimState) : ShimState :=
  { st with functions := [], imports := [] }

/-- The `switch (op)` of `makeTrappingI32Binary` (lines 638-644); `none` is
`WASM_UNREACHABLE()`. -/
def trappingI32Target : BinaryOp → Option IString
  | .RemSInt32 => some I32S_REM
  | .RemUInt32 => some I32U_REM
  | .DivSInt32 => some I32S_DIV
  | .DivUInt32 => some I32U_DIV
  | _ => none

/-- The body of the helper that `makeTrappingI32Binary` synthesizes for `op`
(lines 650-670 and 677-683). -/
def trappingI32Body (op : BinaryOp) : Expression :=
  let result := makeBinary op (makeGetLocal 0 WasmType.i32) (makeGetLocal 1 WasmType.i32)
  let result :=
    if op = BinaryOp.DivSInt32 then
      makeIf
        (makeBinary BinaryOp.AndInt32
          (makeBinary BinaryOp.EqInt32 (makeGetLocal 0 WasmType.i32)
            (makeConst (Literal.ofInt32 (-2147483648))))
          (makeBinary BinaryOp.EqInt32 (makeGetLocal 1 WasmType.i32)
            (makeConst (Literal.ofInt32 (-1)))))
        (makeConst (Literal.ofInt32 0))
        (some result)
    else result
  makeIf (makeUnary UnaryOp.EqZInt32 (makeGetLocal 1 WasmType.i32))
    (makeConst (Literal.ofInt32 0)) (some result)

/-- The function `makeTrappingI32Binary` (lines 634-687). -/
def makeTrappingI32Binary (trapMode : TrapMode) (op : BinaryOp) (left right : Expression)
    (st : ShimState) : Option (Expression × ShimState) :=
  if trapMode = TrapMode.Allow then some (makeBinary op left right, st)
  else
    match trappingI32Target op with
    | none => none
    | some target =>
      let call := Expression.call target [left, right] WasmType.i32
      if st.addedFunctions32.count target = 0 then
        let func : Function :=
          { name := target, params := [WasmType.i32, WasmType.i32], vars := [],
            result := WasmType.i32, body := trappingI32Body op }
        some (call, { st with addedFunctions32 := target :: st.addedFunctions32,
                              functions := st.functions ++ [func] })
      else some (call, st)

/-- The `switch (op)` of `makeTrappingI64Binary` (lines 694-700). -/
def trappingI64Target : BinaryOp → Option IString
  | .RemSInt64 => some I64S_REM
  | .RemUInt64 => some I64U_REM
  | .DivSInt64 => some I64S_DIV
  | .DivUInt64 => some I64U_DIV
  | _ => none

/-- The body of the helper that `makeTrappingI64Binary` synthesizes for `op`
(lines 706-726 and 733-739). -/
def trappingI64Body (op : BinaryOp) : Expression :=
  let result := makeBinary op (makeGetLocal 0 WasmType.i64) (makeGetLocal 1 WasmType.i64)
  let result :=
    if op = BinaryOp.DivSInt64 then
      makeIf
        (makeBinary BinaryOp.AndInt32
          (makeBinary BinaryOp.EqInt64 (makeGetLocal 0 WasmType.i64)
            (makeConst (Literal.ofInt64 (-9223372036854775808))))
          (makeBinary BinaryOp.EqInt64 (makeGetLocal 1 WasmType.i64)
            (makeConst (Literal.ofInt64 (-1)))))
        (makeConst (Literal.ofInt64 0))
        (some result)
    else result
  makeIf (makeUnary UnaryOp.EqZInt64 (makeGetLocal 1 WasmType.i64))
    (makeConst (Literal.ofInt64 0)) (some result)

/-- The function `makeTrappingI64Binary` (lines 690-743). -/
def makeTrappingI64Binary (trapMode : TrapMode) (op : BinaryOp) (left right : Expression)
    (st : ShimState) : Option (Expression × ShimState) :=
  if trapMode = TrapMode.Allow then some (makeBinary op left right, st)
  else
    match trappingI64Target op with
    | none => none
    | some target =>
      let call := Expression.call target [left, right] WasmType.i64
      if st.addedFunctions64.count target = 0 then
        let func : Function :=
          { name := target, params := [WasmType.i64, WasmType.i64], vars := [],
            result := WasmType.i64, body := trappingI64Body op }
        some (call, { st with addedFunctions64 := target :: st.addedFunctions64,
                              functions := st.functions ++ [func] })
      else some (call, st)

/-- The bits of the `f64` constant `double(INT32_MIN) - 1`, that is -2147483649. -/
def f64BitsBelowInt32 : Nat := 0xC1E0000000200000

/-- The bits of the `f64` constant `double(INT32_MAX) + 1`, that is 2147483648. -/
def f64BitsAboveInt32 : Nat := 0x41E0000000000000

/-- The body of the clamping helper `f64-to-int` (lines 802-831). -/
def f64ToIntBody : Expression :=
  let body := makeUnary UnaryOp.TruncSFloat64ToInt32 (makeGetLocal 0 WasmType.f64)
  let body :=
    makeIf
      (makeBinary BinaryOp.LeFloat64 (makeGetLocal 0 WasmType.f64)
        (makeConst ⟨WasmType.f64, f64BitsBelowInt32⟩))
      (makeConst (Literal.ofInt32 (-2147483648)))
      (some body)
  let body :=
    makeIf
      (makeBinary BinaryOp.GeFloat64 (makeGetLocal 0 WasmType.f64)
        (makeConst ⟨WasmType.f64, f64BitsAboveInt32⟩))
      (makeConst (Literal.ofInt32 (-2147483648)))
      (some body)
  makeIf
    (makeBinary BinaryOp.NeFloat64 (makeGetLocal 0 WasmType.f64)
      (makeGetLocal 0 WasmType.f64))
    (makeConst (Literal.ofInt32 (-2147483648)))
    (some body)

/-- The function `makeTrappingFloatToInt` (lines 746-835). The
`assert(trapMode == TrapMode::Clamp)` of line 790 holds in the last branch, the
trap mode being neither `Allow` nor `JS`. The name of the function type that
`ensureFunctionType("id", ...)` returns is modelled from the spec. -/
def makeTrappingFloatToInt (trapMode : TrapMode) (signed_ : Bool) (value : Expression)
    (st : ShimState) : Expression × ShimState :=
  if trapMode = TrapMode.Allow then
    let isF64 := decide (value.type = WasmType.f64)
    let op :=
      if signed_ then
        (if isF64 then UnaryOp.TruncSFloat64ToInt32 else UnaryOp.TruncSFloat32ToInt32)
      else (if isF64 then UnaryOp.TruncUFloat64ToInt32 else UnaryOp.TruncUFloat32ToInt32)
    (Expression.unary op value WasmType.i32, st)
  else
    let input :=
      if value.type = WasmType.f32 then
        Expression.unary UnaryOp.PromoteFloat32 value WasmType.f64
      else value
    if trapMode = TrapMode.JS then
      let ret := Expression.callImport F64_TO_INT [input] WasmType.i32
      if st.addedImport = false then
        (ret, { st with addedImport := true,
                        imports := st.imports ++
                          [{ name := F64_TO_INT, module := ASM2WASM, base := F64_TO_INT,
                             functionType := "FUNCSIG$id" }] })
      else (ret, st)
    else
      let ret := Expression.call F64_TO_INT [input] WasmType.i32
      if st.added = false then
        let func : Function :=
          { name := F64_TO_INT, params := [WasmType.f64], vars := [],
            result := WasmType.i32, body := f64ToIntBody }
        (ret, { st with added := true, functions := st.functions ++ [func] })
      else (ret, st)

/-- The end of the binary case of `process` (lines 1672-1698) with the trapping
integer operators, on the state the shims live in: `finishBinary` with
`makeTrappingI32Binary` in the place it leaves unmodelled. -/
def finishBinaryWithShims (env : TranslateEnv) (op : IString) (left right : Ref)
    (leftWasm rightWasm : Expression) (st : ShimState) : Outcome (Expression × ShimState) :=
  match parseAsmBinaryOp env op left right leftWasm rightWasm with
  | none => .fatal
  | some wasmOp =>
    let ret := makeBinary wasmOp leftWasm rightWasm
    if wasmOp = BinaryOp.RemSInt32 ∧ isWasmTypeFloat ret.type then .unmodelled
    else if env.trapMode ≠ TrapMode.Allow ∧
        (wasmOp = BinaryOp.RemSInt32 ∨ wasmOp = BinaryOp.RemUInt32 ∨
          wasmOp = BinaryOp.DivSInt32 ∨ wasmOp = BinaryOp.DivUInt32) then
      match makeTrappingI32Binary env.trapMode wasmOp leftWasm rightWasm st with
      | none => .fatal
      | some r => .ok r
    else .ok (ret, st)

/-! ## Evaluation of the synthesized helper bodies -/

/-- The result of evaluating an expression: a value, a WebAssembly trap, or
`unsupported` for an expression outside the evaluated fragment. -/
inductive EvalResult where
  | value (v : Literal)
  | trap
  | unsupported
  deriving DecidableEq, Repr

/-- The signed reading of the bits of an `i32`. -/
def signed32 (bits : Nat) : Int :=
  if bits < 2147483648 then (bits : Int) else (bits : Int) - 4294967296

/-- The signed reading of the bits of an `i64`. -/
def signed64 (bits : Nat) : Int :=
  if bits < 9223372036854775808 then (bits : Int) else (bits : Int) - 18446744073709551616

/-- The value of an `f64`: not a number, an infinity, or a finite number kept as
the integer `scaled` with value `scaled * 2^(-1074)`. -/
inductive F64Value where
  | nan
  | negInf
  | posInf
  | finite (scaled : Int)
  deriving DecidableEq, Repr

/-- The sign bit of an `f64`. -/
def f64Negative (bits : Nat) : Bool :=
  decide (bits / 9223372036854775808 % 2 = 1)

/-- The biased exponent of an `f64`, 11 bits. -/
def f64Exponent (bits : Nat) : Nat :=
  bits / 4503599627370496 % 2048

/-- The fraction of an `f64`, 52 bits. -/
def f64Fraction (bits : Nat) : Nat :=
  bits % 4503599627370496

/-- Modelled from the spec: the IEEE 754 binary64 reading of 64 bits. -/
def decodeF64 (bits : Nat) : F64Value :=
  if f64Exponent bits = 2047 then
    if f64Fraction bits = 0 then
      (if f64Negative bits then F64Value.negInf else F64Value.posInf)
    else F64Value.nan
  else
    let magnitude : Nat :=
      if f64Exponent bits = 0 then f64Fraction bits
      else (4503599627370496 + f64Fraction bits) * 2 ^ (f64Exponent bits - 1)
    F64Value.finite (if f64Negative bits then - (magnitude : Int) else (magnitude : Int))

/-- The comparison `x <= y` of two `f64` values; false when either is not a number. -/
def F64Value.le : F64Value → F64Value → Bool
  | .nan, _ => false
  | _, .nan => false
  | .negInf, _ => true
  | _, .posInf => true
  | .finite a, .finite b => decide (a ≤ b)
  | _, _ => false

/-- The comparison `x == y` of two `f64` values; false when either is not a number. -/
def F64Value.eq : F64Value → F64Value → Bool
  | .negInf, .negInf => true
  | .posInf, .posInf => true
  | .finite a, .finite b => decide (a = b)
  | _, _ => false

/-- The integer 2^1074, the scale of a finite `F64Value`. -/
def f64Scale : Int := 2 ^ 1074

/-- Modelled from the spec: WebAssembly's `i32.trunc_s/f64`. It traps on a value
that is not a number, on an infinity, and when the truncation toward zero is
outside the `i32` range. -/
def truncSFloat64ToInt32 : F64Value → EvalResult
  | .finite scaled =>
    let truncated := Int.tdiv scaled f64Scale
    if -2147483648 ≤ truncated ∧ truncated ≤ 2147483647 then
      EvalResult.value (Literal.ofInt32 truncated)
    else EvalResult.trap
  | _ => EvalResult.trap

/-- The literal of a comparison's result. -/
def Literal.ofBool (b : Bool) : Literal :=
  { type := WasmType.i32, bits := if b then 1 else 0 }

/-- Modelled from the spec: WebAssembly's semantics of the unary operators that
the synthesized helpers use. -/
def evalUnary (op : UnaryOp) (x : Literal) : EvalResult :=
  match op with
  | .EqZInt32 =>
    if x.type = WasmType.i32 then .value (Literal.ofBool (decide (x.bits = 0)))
    else .unsupported
  | .EqZInt64 =>
    if x.type = WasmType.i64 then .value (Literal.ofBool (decide (x.bits = 0)))
    else .unsupported
  | .TruncSFloat64ToInt32 =>
    if x.type = WasmType.f64 then truncSFloat64ToInt32 (decodeF64 x.bits) else .unsupported
  | _ => .unsupported

/-- Modelled from the spec: WebAssembly's semantics of the binary operators that
the synthesized helpers use. Integer division and remainder trap on a zero
divisor, signed division also on `INT_MIN / -1`; signed remainder of
`INT_MIN` by `-1` is 0. -/
def evalBinary (op : BinaryOp) (a b : Literal) : EvalResult :=
  match op with
  | .DivSInt32 =>
    if a.type = WasmType.i32 ∧ b.type = WasmType.i32 then
      if b.bits = 0 then .trap
      else if a.bits = 2147483648 ∧ b.bits = 4294967295 then .trap
      else .value (Literal.ofInt32 (Int.tdiv (signed32 a.bits) (signed32 b.bits)))
    else .unsupported
  | .DivUInt32 =>
    if a.type = WasmType.i32 ∧ b.type = WasmType.i32 then
      if b.bits = 0 then .trap else .value ⟨WasmType.i32, a.bits / b.bits⟩
    else .unsupported
  | .RemSInt32 =>
    if a.type = WasmType.i32 ∧ b.type = WasmType.i32 then
      if b.bits = 0 then .trap
      else .value (Literal.ofInt32 (Int.tmod (signed32 a.bits) (signed32 b.bits)))
    else .unsupported
  | .RemUInt32 =>
    if a.type = WasmType.i32 ∧ b.type = WasmType.i32 then
      if b.bits = 0 then .trap else .value ⟨WasmType.i32, a.bits % b.bits⟩
    else .unsupported
  | .EqInt32 =>
    if a.type = WasmType.i32 ∧ b.type = WasmType.i32 then
      .value (Literal.ofBool (decide (a.bits = b.bits)))
    else .unsupported
  | .AndInt32 =>
    if a.type = WasmType.i32 ∧ b.type = WasmType.i32 then
      .value ⟨WasmType.i32, a.bits &&& b.bits⟩
    else .unsupported
  | .DivSInt64 =>
    if a.type = WasmType.i64 ∧ b.type = WasmType.i64 then
      if b.bits = 0 then .trap
      else if a.bits = 9223372036854775808 ∧ b.bits = 18446744073709551615 then .trap
      else .value (Literal.ofInt64 (Int.tdiv (signed64 a.bits) (signed64 b.bits)))
    else .unsupported
  | .DivUInt64 =>
    if a.type = WasmType.i64 ∧ b.type = WasmType.i64 then
      if b.bits = 0 then .trap else .value ⟨WasmType.i64, a.bits / b.bits⟩
    else .unsupported
  | .RemSInt64 =>
    if a.type = WasmType.i64 ∧ b.type = WasmType.i64 then
      if b.bits = 0 then .trap
      else .value (Literal.ofInt64 (Int.tmod (signed64 a.bits) (signed64 b.bits)))
    else .unsupported
  | .RemUInt64 =>
    if a.type = WasmType.i64 ∧ b.type = WasmType.i64 then
      if b.bits = 0 then .trap else .value ⟨WasmType.i64, a.bits % b.bits⟩
    else .unsupported
  | .EqInt64 =>
    if a.type = WasmType.i64 ∧ b.type = WasmType.i64 then
      .value (Literal.ofBool (decide (a.bits = b.bits)))
    else .unsupported
  | .LeFloat64 =>
    if a.type = WasmType.f64 ∧ b.type = WasmType.f64 then
      .value (Literal.ofBool ((decodeF64 a.bits).le (decodeF64 b.bits)))
    else .unsupported
  | .GeFloat64 =>
    if a.type = WasmType.f64 ∧ b.type = WasmType.f64 then
      .value (Literal.ofBool ((decodeF64 b.bits).le (decodeF64 a.bits)))
    else .unsupported
  | .NeFloat64 =>
    if a.type = WasmType.f64 ∧ b.type = WasmType.f64 then
      .value (Literal.ofBool (!(decodeF64 a.bits).eq (decodeF64 b.bits)))
    else .unsupported
  | _ => .unsupported

mutual
/-- Modelled from the spec: WebAssembly's evaluation of an expression made of
constants, reads of locals, unary and binary operators and two-armed `if`, with
the locals `locals`. Only the taken arm of an `if` is evaluated, and a trap in
an evaluated operand is the result. -/
def eval (locals : List Literal) : Expression → EvalResult
  | .const v _ => .value v
  | .getLocal index _ =>
    match locals[index]? with
    | some v => .value v
    | none => .unsupported
  | .unary op value _ =>
    match eval locals value with
    | .value x => evalUnary op x
    | r => r
  | .binary op left right _ =>
    match eval locals left with
    | .value a =>
      match eval locals right with
      | .value b => evalBinary op a b
      | r => r
    | r => r
  | .if_ condition ifTrue ifFalse _ =>
    match eval locals condition with
    | .value c =>
      if c.type = WasmType.i32 then
        if c.bits ≠ 0 then eval locals ifTrue else evalOpt locals ifFalse
      else .unsupported
    | r => r
  | _ => .unsupported
/-- The evaluation of the second arm of an `if`; one without a second arm is
outside the evaluated fragment. -/
def evalOpt (locals : List Literal) : Option Expression → EvalResult
  | some e => eval locals e
  | none => .unsupported
end

/-- The operands of a call as values, when each evaluates to one. -/
def evalOperands (locals : List Literal) : List Expression → Option (List Literal)
  | [] => some []
  | e :: rest =>
    match eval locals e with
    | .value v => (evalOperands locals rest).map (fun vs => v :: vs)
    | _ => none

/-- Modelled from the spec: the evaluation of a direct call of a function of the
module whose operands and body are in the evaluated fragment: the body runs
with the operands' values as its locals. -/
def evalCall (functions : List Function) (locals : List Literal) : Expression → EvalResult
  | .call target operands _ =>
    match functions.find? (fun f => f.name = target) with
    | none => .unsupported
    | some f =>
      match evalOperands locals operands with
      | none => .unsupported
      | some args => if args.length = f.params.length then eval args f.body else .unsupported
  | _ => .unsupported

/-! ## Binary nodes with the shim state (lines 1663-1698) -/

/-- The lines 1767-1770 for a node `~~x` once the operand `x` is translated to
`value`: `makeTrappingFloatToInt`, signed unless the parent is an unsigned
coercion. -/
def processDoubleNot (env : TranslateEnv) (parent : Option Ref) (value : Expression)
    (st : ShimState) : Expression × ShimState :=
  makeTrappingFloatToInt env.trapMode (!isParentUnsignedCoercion env parent) value st

/-- The binary case (lines 1663-1698) and the case `~~x` (lines 1765-1770) of
`process` with the state of the trap shims threaded through the operands: the
coercion `e|0` or `e>>>0` is looked through, other binary nodes translate both
operands, left first, and end in `finishBinaryWithShims`; `~~x` translates `x`
and ends in `makeTrappingFloatToInt`. Any other node is translated by `process`,
which leaves the state alone. -/
def processWithShims (env : TranslateEnv) (parent : Option Ref)
    (types : ImportedFunctionTypes) (st : ShimState) :
    Ref → Outcome (Expression × ImportedFunctionTypes × ShimState)
  | .binary op left right =>
      if (op = OR ∨ op = TRSHIFT) ∧ right.isZero = true then do
        let (ret, types2, st2) ←
          processWithShims env (some (.binary op left right)) types st left
        pure (fixCallType ret WasmType.i32, types2, st2)
      else do
        let (leftWasm, types2, st2) ←
          processWithShims env (some (.binary op left right)) types st left
        let (rightWasm, types3, st3) ←
          processWithShims env (some (.binary op left right)) types2 st2 right
        let (ret, st4) ← finishBinaryWithShims env op left right leftWasm rightWasm st3
        pure (ret, types3, st4)
  | .num v => do
      let (e, types2) ← process env parent types (.num v)
      pure (e, types2, st)
  | .name s => do
      let (e, types2) ← process env parent types (.name s)
      pure (e, types2, st)
  | .sub a b => do
      let (e, types2) ← process env parent types (.sub a b)
      pure (e, types2, st)
  | .call a b => do
      let (e, types2) ← process env parent types (.call a b)
      pure (e, types2, st)
  | .assign a b => do
      let (e, types2) ← process env parent types (.assign a b)
      pure (e, types2, st)
  | .unaryPrefix op (.unaryPrefix op2 inner) =>
      if op = B_NOT ∧ op2 = B_NOT then do
        let (value, types2, st2) ←
          processWithShims env (some (.unaryPrefix op (.unaryPrefix op2 inner))) types st inner
        pure ((processDoubleNot env parent value st2).1, types2,
          (processDoubleNot env parent value st2).2)
      else do
        let (e, types2) ← process env parent types (.unaryPrefix op (.unaryPrefix op2 inner))
        pure (e, types2, st)
  | .unaryPrefix a b => do
      let (e, types2) ← process env parent types (.unaryPrefix a b)
      pure (e, types2, st)
  | .seq a b => do
      let (e, types2) ← process env parent types (.seq a b)
      pure (e, types2, st)

/-- A translation environment in trap mode `Clamp` for the examples: the `i32`
parameter `x` and the `f64` local `d`. -/
def exampleClampEnv : TranslateEnv where
  locals := [("x", WasmType.i32), ("d", WasmType.f64)]
  mappedGlobals := fun _ => none
  imports := fun _ => false
  intrinsics := fun _ => false
  views := fun _ => none
  wasmOnly := false
  trapMode := TrapMode.Clamp
  detectWasmType := fun _ => WasmType.i32
  isUnsignedCoercion := fun _ => false
  ensureFunctionType := functionTypeName

/-- The source expression `(x/0)|0`. -/
def exampleDivByZero : Ref :=
  .binary OR (.binary DIV (.name "x") (.num 0)) (.num 0)

/-! ## Switch lowering (lines 2369-2525) -/

/-- One entry `cases[i]` of a source `switch` as the lowering reads it. -/
structure SwitchCase where
  /-- The literal `getLiteral(curr[0])` of the case, `none` for `default:`. -/
  condition : Option Literal
  /-- The translated body `processStatements(curr[1], 0)`. -/
  body : Expression
  /-- The name that `nameMapper.pushLabelName` returns for the case. -/
  label : IString

/-- Modelled from the spec: `Literal::getInteger`, the signed value of an `i32`
or `i64` literal; `none` is the `abort()` on any other type. -/
def Literal.getInteger (l : Literal) : Option Int :=
  if l.type = WasmType.i32 then some (signed32 l.bits)
  else if l.type = WasmType.i64 then some (signed64 l.bits)
  else none

/-- One round of the loop of lines 2387-2401 on the state `(seen, min, max)`. -/
def switchBoundsStep (st : Bool × Int × Int) (c : SwitchCase) : Option (Bool × Int × Int) :=
  match c.condition with
  | none => some st
  | some lit =>
    match lit.getInteger with
    | none => none
    | some index =>
      if st.1 = false then some (true, index, index)
      else
        let min := if index < st.2.1 then index else st.2.1
        let max := if index > st.2.2 then index else st.2.2
        some (true, min, max)

/-- The loop of lines 2384-2401: the lowest and the highest case value, both 0
when no case has a value. -/
def switchBounds (cases : List SwitchCase) : Option (Int × Int) :=
  (cases.foldlM switchBoundsStep (false, 0, 0)).map (fun st => st.2)

/-- How many bits a magnitude `m` of at least `2^53` has beyond 53, for `m` below
`2^65`. -/
def doubleExponent (m : Nat) : Nat :=
  ((List.range 12).filter (fun k => 2 ^ (53 + k) ≤ m)).length

/-- Modelled from the spec: the `double` nearest to the integer `v`, ties to the
even significand, as C++ converts and subtracts in IEEE 754 binary64. The
`double` is kept as the integer it equals. It covers magnitudes below `2^65`:
every `int64_t` and every difference of two of them. -/
def roundToDouble (v : Int) : Int :=
  let m := v.natAbs
  if m < 2 ^ 53 then v
  else
    let e := doubleExponent m
    let q := m / 2 ^ e
    let r := m % 2 ^ e
    let half := 2 ^ (e - 1)
    let q2 := if r > half ∨ (r = half ∧ q % 2 = 1) then q + 1 else q
    if v < 0 then - ((q2 * 2 ^ e : Nat) : Int) else ((q2 * 2 ^ e : Nat) : Int)

/-- The value `range` of line 2403: `double(max) - double(min)`. -/
def switchRange (min max : Int) : Int :=
  roundToDouble (roundToDouble max - roundToDouble min)

/-- The test `canSwitch` of line 2404. -/
def canSwitch (min max : Int) : Bool :=
  decide (0 ≤ switchRange min max ∧ switchRange min max < 10240)

/-- Modelled from the spec: `Block::finalize` on a block that has no name: the
type of the last element of its list, `none` for an empty list. -/
def finalizeBlock (list : List Expression) : WasmType :=
  match list.getLast? with
  | some e => e.type
  | none => WasmType.none

/-- Modelled from the spec: `Builder::makeBreak` without value and condition. -/
def makeBreak (name : IString) : Expression :=
  Expression.break_ name none none WasmType.unreachable

/-- Modelled from the spec: `Builder::makeSetLocal`. -/
def makeSetLocal (index : Nat) (value : Expression) : Expression :=
  Expression.setLocal index value false WasmType.none

/-- The selector of the `br_table` (lines 2408-2424): the condition minus `min`,
for an `i64` condition wrapped to `i32`; `none` is the failed
`assert(br->condition->type == i64)`. -/
def switchSelector (condition : Expression) (min : Int) : Option Expression :=
  if condition.type = WasmType.i32 then
    some (Expression.binary BinaryOp.SubInt32 condition (makeConst (Literal.ofInt32 min))
      WasmType.i32)
  else if condition.type = WasmType.i64 then
    some (makeUnary UnaryOp.WrapInt64
      (Expression.binary BinaryOp.SubInt64 condition (makeConst (Literal.ofInt64 min))
        WasmType.i64))
  else none

/-- The lines 2444-2447: `targets` resized to hold `index`, then written there.
An entry that `resize` adds is the null name, `none`. -/
def setTarget (targets : List (Option IString)) (index : Nat) (name : IString) :
    List (Option IString) :=
  let resized :=
    if targets.length ≤ index then targets ++ List.replicate (index + 1 - targets.length) none
    else targets
  resized.set index (some name)

/-- What one round of the loop of lines 2429-2456 does to `br->targets` and
`br->default_`; `none` is a failed `assert` or the `abort()` of `getInteger`. The
difference `index - min` is taken on the integers. -/
def switchTableStep (min : Int) (st : List (Option IString) × Option IString)
    (c : SwitchCase) : Option (List (Option IString) × Option IString) :=
  match c.condition with
  | none => some (st.1, some c.label)
  | some lit =>
    match lit.getInteger with
    | none => none
    | some index =>
      if index ≥ min then
        let index := index - min
        if index ≥ 0 then some (setTarget st.1 index.toNat c.label, st.2)
        else none
      else none

/-- What the loops of lines 2429-2456 and 2476-2505 do to `top`: each case wraps
the block so far, now named with the case's label, and the case's body in a new
block; the outermost block gets the switch's name. A block is given as its list
and its type until it gets its name. -/
def nestCases (name : IString) (top : List Expression × WasmType) (cases : List SwitchCase) :
    Expression :=
  let outer := cases.foldl
    (fun top c =>
      let inner := Expression.block c.label top.1 top.2
      ([inner, c.body], finalizeBlock [inner, c.body]))
    top
  Expression.block name outer.1 outer.2

/-- The `br_table` strategy (lines 2407-2467) for a switch named `name` with the
translated condition `condition`. The node `br` is shared with the innermost
block, so the blocks hold it with its final targets and default. -/
def processSwitchTable (name : IString) (condition : Expression) (min : Int)
    (cases : List SwitchCase) : Option Expression :=
  match switchSelector condition min with
  | none => none
  | some selector =>
    match cases.foldlM (switchTableStep min) ([], none) with
    | none => none
    | some st =>
      let default_ := st.2.getD name
      let targets := st.1.map (fun t => t.getD default_)
      let br := Expression.switch targets default_ selector none WasmType.unreachable
      some (nestCases name ([br], finalizeBlock [br]) cases)

/-- The value of `br->default_` after the loop and lines 2510-2512: the label of
the last `default:` case, else the switch's name. -/
def chainDefault (name : IString) (cases : List SwitchCase) : IString :=
  (cases.foldl (fun d c => if c.condition.isNone then some c.label else d) none).getD name

/-- One round of the loop of lines 2476-2505 on `chain`, with the else-arm of the
first `If` already set as line 2514 sets it in the end; the type of each `If` is
the one `makeIf` computed when it was made. -/
def switchChainStep (condition : Expression) (var : Nat) (default_ : IString)
    (chain : Option Expression) (c : SwitchCase) : Option Expression :=
  match c.condition with
  | none => chain
  | some lit =>
    let test := makeBinary
      (if condition.type = WasmType.i32 then BinaryOp.EqInt32 else BinaryOp.EqInt64)
      (makeGetLocal var condition.type) (makeConst lit)
    let ifFalse := match chain with
      | none => makeBreak default_
      | some previous => previous
    some (Expression.if_ test (makeBreak c.label) (some ifFalse)
      (finalizeIf (makeBreak c.label) chain))

/-- The if-chain strategy (lines 2468-2519) with the selector cached in the new
local `var`; `blockType` is the type that `Block::finalize` of the IR gives the
named block that holds the chain. The value `none` is the write through the
null `first` when no case has a value. -/
def processSwitchChain (blockType : IString → List Expression → WasmType) (name : IString)
    (condition : Expression) (var : Nat) (cases : List SwitchCase) : Option Expression :=
  let default_ := chainDefault name cases
  match cases.foldl (switchChainStep condition var default_) none with
  | none => none
  | some chain =>
    let holderName := match cases with
      | [] => name
      | c :: _ => c.label
    let list := [makeSetLocal var condition, chain]
    some (nestCases name (list, blockType holderName list) cases)

/-- The switch case of `process` after the condition and the case bodies are
translated (lines 2383-2519): the `br_table` when `canSwitch`, else the
if-chain. -/
def processSwitch (blockType : IString → List Expression → WasmType) (name : IString)
    (condition : Expression) (var : Nat) (cases : List SwitchCase) : Option Expression :=
  match switchBounds cases with
  | none => none
  | some (min, max) =>
    if canSwitch min max then processSwitchTable name condition min cases
    else processSwitchChain blockType name condition var cases

/-- The case values of a switch in source order. -/
def caseValues (cases : List SwitchCase) : List Int :=
  cases.filterMap (fun c => c.condition.bind Literal.getInteger)

/-- The label of the last case with the value `k`. -/
def lastLabel (cases : List SwitchCase) (k : Int) : Option IString :=
  ((cases.filter (fun c => c.condition.bind Literal.getInteger = some k)).getLast?).map
    (fun c => c.label)

/-- The switch `switch(x|0){ case 0: a(); break; case 1: b(); break; default: c(); }`
after its parts are translated: `x` is local 0, the bodies are calls, and the
labels are `L0`, `L1` and `Ldefault`. -/
def exampleSwitchCases : List SwitchCase :=
  [ { condition := some (Literal.ofInt32 0),
      body := Expression.block "" [Expression.call "a" [] WasmType.none,
        makeBreak "switch"] WasmType.unreachable,
      label := "L0" },
    { condition := some (Literal.ofInt32 1),
      body := Expression.block "" [Expression.call "b" [] WasmType.none,
        makeBreak "switch"] WasmType.unreachable,
      label := "L1" },
    { condition := none,
      body := Expression.call "c" [] WasmType.none,
      label := "Ldefault" } ]

/-- A switch on an `i64` selector with the case values `2^62` and `2^62 + 10239`. -/
def exampleWideCases : List SwitchCase :=
  [ { condition := some (Literal.ofInt64 4611686018427387904),
      body := Expression.nop, label := "L0" },
    { condition := some (Literal.ofInt64 4611686018427398143),
      body := Expression.nop, label := "L1" } ]

/-- The label of the last `default:` case. -/
def lastDefault (cases : List SwitchCase) : Option IString :=
  ((cases.filter (fun c => c.condition.isNone)).getLast?).map (fun c => c.label)

/-! ## The preprocessor (lines 153-304) -/

/-- The outcome of running the preprocessor's C code on its buffers. -/
inductive Run (α : Type) where
  /-- The code ran to its end. -/
  | ok (a : α)
  /-- A failed `assert`, or `Fatal()`. -/
  | fatal
  /-- An access outside the input buffer or through a null pointer, which C
  leaves undefined. -/
  | undefined
  /-- A write past the end of the output buffer `copy`, which C leaves
  undefined. -/
  | overflow
  deriving DecidableEq, Repr

/-- Sequencing of two runs. -/
def Run.bind {α β : Type} (x : Run α) (f : α → Run β) : Run β :=
  match x with
  | .ok a => f a
  | .fatal => .fatal
  | .undefined => .undefined
  | .overflow => .overflow

instance : Monad Run where
  pure := Run.ok
  bind := Run.bind

/-- The terminator of a C string. -/
def NUL : Char := Char.ofNat 0

/-- The double quote character. -/
def QUOTE : Char := Char.ofNat 34

/-- The single quote character. -/
def APOSTROPHE : Char := Char.ofNat 39

/-- The opening brace character. -/
def LBRACE : Char := Char.ofNat 123

/-- The closing brace character. -/
def RBRACE : Char := Char.ofNat 125

/-- The byte at index `p` of a buffer; the buffer is the list `mem` followed by
the terminator of the string that was read into it. -/
def peek (mem : List Char) (p : Nat) : Char :=
  mem.getD p NUL

/-- The C string at the pointer `p`: the bytes from `p` up to the first
terminator. -/
def cstring (mem : List Char) (p : Nat) : List Char :=
  (mem.drop p).takeWhile (fun c => c ≠ NUL)

/-- Modelled from the spec: `strlen`. -/
def strlen (mem : List Char) (p : Nat) : Nat :=
  (cstring mem p).length

/-- The function `startsWith` (lines 153-159) on the bytes from the pointer on. -/
def startsWith : List Char → List Char → Bool
  | _, [] => true
  | [], _ :: _ => false
  | c :: s, p :: ps =>
    if c = NUL then false
    else if c ≠ p then false
    else startsWith s ps

/-- The offset of the first occurrence of `pat` in a string. -/
def findSub (pat : List Char) : List Char → Option Nat
  | [] => if pat = [] then some 0 else none
  | c :: s =>
    if pat.isPrefixOf (c :: s) then some 0
    else (findSub pat s).map (fun i => i + 1)

/-- Modelled from the spec: `strstr`, the pointer to the first occurrence of
`pat` in the C string at `p`, `none` for the null pointer. -/
def strstr (mem : List Char) (p : Nat) (pat : List Char) : Option Nat :=
  (findSub pat (cstring mem p)).map (fun i => p + i)

/-- The offset of the first `c` in a string. -/
def scanTo (c : Char) : List Char → Option Nat
  | [] => none
  | x :: xs => if x = c then some 0 else (scanTo c xs).map (fun i => i + 1)

/-- Modelled from the spec: `strchr`, the pointer to the first `c` in the C
string at `p`, `none` for the null pointer. -/
def strchr (mem : List Char) (p : Nat) (c : Char) : Option Nat :=
  (scanTo c (cstring mem p)).map (fun i => p + i)

/-- A loop `while (*p != c) p++` (line 189): it does not stop at a terminator, and
running off the buffer is undefined. -/
def forwardTo (mem : List Char) (p : Nat) (c : Char) : Run Nat :=
  match scanTo c (mem.drop p) with
  | some i => .ok (p + i)
  | none => .undefined

/-- A loop `while (*p != c) p--` (lines 212-215) from the pointer `p`; running
off the start of the buffer is undefined. -/
def backTo (mem : List Char) (c : Char) : Nat → Run Nat
  | 0 => if peek mem 0 = c then .ok 0 else .undefined
  | p + 1 => if peek mem (p + 1) = c then .ok (p + 1) else backTo mem c p

/-- The loop of lines 194-197 from the pointer `end`: the bytes after the last
closing brace are overwritten with terminators. -/
def zeroBack (mem : List Char) : Nat → Run (List Char)
  | 0 => if peek mem 0 = RBRACE then .ok mem else .undefined
  | e + 1 =>
    if peek mem (e + 1) = RBRACE then .ok mem
    else zeroBack (mem.set (e + 1) NUL) e

/-- The wrapper clean-up (lines 187-198): the buffer and the pointer `input`
after it. The string starts with `M`, so `num` is at least 1 and `end` starts at
its last byte, `input + num - 1` before `input` moved. -/
def stripWrapper (mem : List Char) (input : Nat) : Run (List Char × Nat) :=
  if peek mem input = 'M' then
    let num := strlen mem input
    match forwardTo mem input 'f' with
    | .ok start =>
      match zeroBack mem (input + num - 1) with
      | .ok mem2 => .ok (mem2, start)
      | .fatal => .fatal
      | .undefined => .undefined
      | .overflow => .overflow
    | .fatal => .fatal
    | .undefined => .undefined
    | .overflow => .overflow
  else .ok (mem, input)

/-- The string `START_FUNCS` (line 202). -/
def START_FUNCS : List Char := "// EMSCRIPTEN_START_FUNCS".toList

/-- The text that marks the growth helper (line 207). -/
def GROWTH_SIGN : List Char := "return true;".toList

/-- The excision of the growth helper (lines 210-223) once `growthSign` is
found. -/
def exciseGrowth (mem : List Char) (growthSign : Nat) : Run (List Char) := do
  let p1 ← backTo mem LBRACE growthSign
  let p2 ← backTo mem '(' p1
  let p3 ← backTo mem ' ' p2
  let growthFuncStart ← backTo mem 'f' p3
  if strstr mem growthFuncStart "function ".toList = some growthFuncStart then
    match strchr mem growthSign RBRACE with
    | none => .fatal
    | some growthFuncEnd =>
      if growthFuncEnd > growthFuncStart + 5 then
        .ok ((((mem.set growthFuncStart '/').set (growthFuncStart + 1) '*').set
          (growthFuncEnd - 1) '*').set growthFuncEnd '/')
      else .fatal
  else .fatal

/-- The growth detection (lines 202-227): the buffer after it and whether the
growth sign was found. -/
def detectGrowth (mem : List Char) (input : Nat) : Run (List Char × Bool) :=
  let marker := strstr mem input START_FUNCS
  let mem1 := match marker with
    | some m => mem.set m NUL
    | none => mem
  let restore := fun (mem2 : List Char) =>
    match marker with
    | some m => mem2.set m (START_FUNCS.headD NUL)
    | none => mem2
  match strstr mem1 input GROWTH_SIGN with
  | none => .ok (restore mem1, false)
  | some growthSign =>
    match exciseGrowth mem1 growthSign with
    | .ok mem2 => .ok (restore mem2, true)
    | .fatal => .fatal
    | .undefined => .undefined
    | .overflow => .overflow

/-- The name `EMSCRIPTEN_DEBUGINFO` (line 136) as the text `DEBUGINFO_INTRINSIC`
of line 246. -/
def DEBUGINFO_INTRINSIC : List Char := "emscripten_debuginfo".toList

/-- The text `import` of line 288. -/
def DEBUGINFO_IMPORT : List Char :=
  "\n var emscripten_debuginfo = env.emscripten_debuginfo;".toList

/-- The text that starts a debug comment (line 253). -/
def DEBUG_LINE : List Char := "//@line".toList

/-- The text `asm` and a single quote (line 280). -/
def ASM_APOSTROPHE : List Char := "asm".toList ++ [APOSTROPHE]

/-- The text `asm` and a double quote (line 280). -/
def ASM_QUOTE : List Char := "asm".toList ++ [QUOTE]

/-- The constant `ADD_FACTOR` (line 240). -/
def ADD_FACTOR : Nat := 100

/-- The value `upperBound` of line 242 for a string of `size` bytes:
`Index(size * 1.25) + 100` in 32-bit unsigned arithmetic. -/
def upperBound (size : Nat) : Nat :=
  ((size * 5 / 4) % 4294967296 + ADD_FACTOR) % 4294967296

/-- What lines 254-261 read from a debug comment at `input`: the texts `line` and
`file`, and `consumed`, the distance from `input` to `fileEnd + 1`. -/
structure DebugLine where
  line : List Char
  file : List Char
  consumed : Nat
  deriving DecidableEq, Repr

/-- The lines 254-261 on the string `s` at `input`; `none` is undefined
behaviour: `input + 8` beyond the terminator, or a `strchr` that finds nothing
and returns the null pointer that the next line uses. -/
def parseDebugLine (s : List Char) : Option DebugLine :=
  if s.length < 8 then none
  else
    let a := s.drop 8
    match scanTo ' ' a with
    | none => none
    | some i =>
      match scanTo QUOTE (a.drop i) with
      | none => none
      | some j =>
        match scanTo QUOTE (a.drop (i + j + 1)) with
        | none => none
        | some k =>
          some { line := a.take i, file := (a.drop (i + j + 1)).take k,
                 consumed := 8 + i + j + 1 + k + 1 }

/-- The variables of the debug info rewrite (lines 243-248 and the fields of lines
170-171): `out` holds the bytes written to `copy` so far, so the pointer `out` is
`copy` plus its length. -/
structure DebugState where
  out : List Char
  seenUseAsm : Bool
  debugInfoFileNames : List (List Char)
  debugInfoFileIndices : List (List Char × Nat)
  deriving DecidableEq, Repr

/-- The lines 262-268: the file's index as decimal text, after the file is added
to the table when it is new. -/
def noteFile (st : DebugState) (file : List Char) : DebugState × List Char :=
  let st2 :=
    match st.debugInfoFileIndices.lookup file with
    | none =>
      { st with debugInfoFileNames := st.debugInfoFileNames ++ [file],
                debugInfoFileIndices :=
                  (file, st.debugInfoFileNames.length) :: st.debugInfoFileIndices }
    | some _ => st
  (st2, (Nat.repr ((st2.debugInfoFileIndices.lookup file).getD 0)).toList)

/-- The rewrite loop of lines 249-294 with the final check of lines 295-297, on
the string at `input`, for a buffer `copy` of `bound` bytes. The argument `skip`
counts the bytes that `input` has already moved over. A write of the last byte
of a step at or beyond `copy + bound` is `overflow`. The terminators that lines
259-260 write into the old buffer lie behind `input` and are not kept. -/
def debugLoop (bound : Nat) : Nat → DebugState → List Char → Run DebugState
  | 0, st, [] => if st.out.length ≥ bound then .fatal else .ok st
  | _ + 1, _, [] => .undefined
  | skip + 1, st, _ :: rest => debugLoop bound skip st rest
  | 0, st, c :: rest =>
    if st.out.length + ADD_FACTOR ≥ bound then .fatal
    else if startsWith (c :: rest) DEBUG_LINE then
      match parseDebugLine (c :: rest) with
      | none => .undefined
      | some d =>
        let (st2, fileIndex) := noteFile st d.file
        let written := DEBUGINFO_INTRINSIC ++ ['('] ++ fileIndex ++ [','] ++ d.line ++ [')', ';']
        if st.out.length + written.length > bound then .overflow
        else debugLoop bound (d.consumed - 1) { st2 with out := st.out ++ written } rest
    else if !st.seenUseAsm &&
        (startsWith (c :: rest) ASM_APOSTROPHE || startsWith (c :: rest) ASM_QUOTE) then
      if st.out.length + 5 + DEBUGINFO_IMPORT.length ≥ bound then .overflow
      else
        debugLoop bound 4
          { st with out := st.out ++ (c :: rest).take 5 ++ DEBUGINFO_IMPORT, seenUseAsm := true }
          rest
    else debugLoop bound 0 { st with out := st.out ++ [c] } rest

/-- The fields of `Asm2WasmPreProcessor` (lines 167-171). -/
structure Asm2WasmPreProcessor where
  memoryGrowth : Bool
  debugInfo : Bool
  debugInfoFileNames : List (List Char)
  debugInfoFileIndices : List (List Char × Nat)
  deriving DecidableEq, Repr

/-- A preprocessor as constructed, with the given `debugInfo` setting. -/
def Asm2WasmPreProcessor.fresh (debugInfo : Bool) : Asm2WasmPreProcessor :=
  { memoryGrowth := false, debugInfo := debugInfo, debugInfoFileNames := [],
    debugInfoFileIndices := [] }

/-- The method `process` (lines 179-303) on the buffer `mem` and the pointer
`input` into it: the object, the buffer that holds the result and the returned
pointer. With `debugInfo` the result is the new buffer `copy`. -/
def Asm2WasmPreProcessor.process (self : Asm2WasmPreProcessor) (mem : List Char)
    (input : Nat) : Run (Asm2WasmPreProcessor × List Char × Nat) :=
  match stripWrapper mem input with
  | .ok (mem1, input1) =>
    match detectGrowth mem1 input1 with
    | .ok (mem2, growth) =>
      let self1 := if growth then { self with memoryGrowth := true } else self
      if self.debugInfo then
        let s := cstring mem2 input1
        match debugLoop (upperBound s.length) 0
            { out := [], seenUseAsm := false,
              debugInfoFileNames := self.debugInfoFileNames,
              debugInfoFileIndices := self.debugInfoFileIndices } s with
        | .ok st =>
          .ok ({ self1 with debugInfoFileNames := st.debugInfoFileNames,
                            debugInfoFileIndices := st.debugInfoFileIndices }, st.out, 0)
        | .fatal => .fatal
        | .undefined => .undefined
        | .overflow => .overflow
      else .ok (self1, mem2, input1)
    | .fatal => .fatal
    | .undefined => .undefined
    | .overflow => .overflow
  | .fatal => .fatal
  | .undefined => .undefined
  | .overflow => .overflow

/-- The text that a completed `process` returns: the C string at the returned
pointer. -/
def resultText (r : Asm2WasmPreProcessor × List Char × Nat) : List Char :=
  cstring r.2.1 r.2.2

/-- The prologue of a text: what stands before the first `START_FUNCS` marker,
the whole text when there is no marker. -/
def prologue (text : List Char) : List Char :=
  match findSub START_FUNCS text with
  | some i => text.take i
  | none => text

/-- Whether the rewrite loop copies the text `cs`, followed by `after`, byte by
byte: at no byte of `cs` does a debug comment start, nor, while the directive
has not been seen, the end `asm"` or `asm'` of a directive. -/
def noTrigger (seen : Bool) : List Char → List Char → Bool
  | [], _ => true
  | c :: cs, after =>
    !startsWith (c :: cs ++ after) DEBUG_LINE &&
    (seen || (!startsWith (c :: cs ++ after) ASM_APOSTROPHE &&
      !startsWith (c :: cs ++ after) ASM_QUOTE)) &&
    noTrigger seen cs after

/-- A source text cut into the pieces that the debug info rewrite tells apart. -/
inductive Piece where
  /-- Text that is copied. -/
  | text (cs : List Char)
  /-- The end of the first directive: `asm`, the quote `q` and one more byte. -/
  | useAsm (q c : Char)
  /-- A debug comment `//@line N "path"`. -/
  | line (number file : List Char)
  deriving DecidableEq, Repr

/-- The source text of a piece. -/
def Piece.source : Piece → List Char
  | .text cs => cs
  | .useAsm q c => "asm".toList ++ [q, c]
  | .line number file => "//@line ".toList ++ number ++ [' ', QUOTE] ++ file ++ [QUOTE]

/-- The source text of a list of pieces. -/
def sourceText : List Piece → List Char
  | [] => []
  | p :: ps => p.source ++ sourceText ps

/-- Whether the pieces are what the rewrite loop tells apart, `seen` saying
whether a directive came before: text has no trigger, there is one directive
piece at most, a line number has no blank and a path has no double quote. -/
def wellFormed (seen : Bool) : List Piece → Bool
  | [] => true
  | .text cs :: ps => noTrigger seen cs (sourceText ps) && wellFormed seen ps
  | .useAsm q _ :: ps => !seen && (q = QUOTE || q = APOSTROPHE) && wellFormed true ps
  | .line number file :: ps =>
    !number.contains ' ' && !file.contains QUOTE && wellFormed seen ps

/-- The paths of the debug comments, in source order. -/
def piecePaths : List Piece → List (List Char)
  | [] => []
  | .line _ file :: ps => file :: piecePaths ps
  | _ :: ps => piecePaths ps

/-- The file-name table for a list of paths: every distinct path once, in order
of first occurrence, after the entries of `table`. -/
def fileTable (table : List (List Char)) (paths : List (List Char)) : List (List Char) :=
  paths.foldl (fun t f => if f ∈ t then t else t ++ [f]) table

/-- The text that a piece is rewritten to, for the file-name table `table`. -/
def Piece.target (table : List (List Char)) : Piece → List Char
  | .text cs => cs
  | .useAsm q c => "asm".toList ++ [q, c] ++ DEBUGINFO_IMPORT
  | .line number file =>
    DEBUGINFO_INTRINSIC ++ ['('] ++ (Nat.repr (table.indexOf file)).toList ++ [','] ++ number ++
      [')', ';']

/-- The text that a list of pieces is rewritten to. -/
def targetText (table : List (List Char)) : List Piece → List Char
  | [] => []
  | p :: ps => p.target table ++ targetText table ps


/-- The shape of a growth helper as the specification words it,
`function NAME(PARAMS) { ... return true; ... }`, from its name, its parameter
text and the body text before and after the growth sign. -/
def growthHelper (name params body1 body2 : List Char) : List Char :=
  "function ".toList ++ name ++ ['('] ++ params ++ [')', ' ', LBRACE] ++ body1 ++
    GROWTH_SIGN ++ body2 ++ [RBRACE]

/-! ## Module assembly: imported globals and the export object

The lambda `addImport` of `processAsm` (lines 863-961), the variable
declarations that reach it with a global type (lines 1002-1018), and the loop
over the pairs of the trailing `return { ... }` object (lines 1131-1180). -/

/-- Modelled from the spec: the IR's `ExternalKind`. -/
inductive ExternalKind where
  | Function
  | Table
  | Memory
  | Global
  deriving DecidableEq, Repr

/-- Modelled from the spec: the IR's `Import`, with the members that `addImport`
sets; `globalType` is `none` in a new `Import`. -/
structure ImportRecord where
  name : IString
  module : IString
  base : IString
  kind : ExternalKind
  globalType : WasmType
  deriving DecidableEq, Repr

/-- Modelled from the spec: the IR's `Global`. -/
structure Global where
  name : IString
  type : WasmType
  init : Expression
  mutable_ : Bool

/-- Modelled from the spec: the IR's `Export`. -/
structure Export where
  name : IString
  value : IString
  kind : ExternalKind
  deriving DecidableEq, Repr

/-- Modelled from the spec: the name `ENV` of the shared constants. -/
def ENV : IString := "env"
/-- Modelled from the spec: the name `GLOBAL` of the shared constants. -/
def GLOBAL : IString := "global"
/-- Modelled from the spec: the name `MATH` of the shared constants. -/
def MATH : IString := "Math"
/-- Modelled from the spec: the name `IMUL` of the shared constants. -/
def IMUL : IString := "imul"
/-- Modelled from the spec: the name `CLZ32` of the shared constants. -/
def CLZ32 : IString := "clz32"
/-- Modelled from the spec: the name `FROUND` of the shared constants. -/
def FROUND : IString := "fround"
/-- Modelled from the spec: the name `ABS` of the shared constants. -/
def ABS : IString := "abs"
/-- Modelled from the spec: the name `FLOOR` of the shared constants. -/
def FLOOR : IString := "floor"
/-- Modelled from the spec: the name `CEIL` of the shared constants. -/
def CEIL : IString := "ceil"
/-- Modelled from the spec: the name `SQRT` of the shared constants. -/
def SQRT : IString := "sqrt"
/-- The name `MAX_` (line 112). -/
def MAX_ : IString := "max"
/-- The name `MIN_` (line 113). -/
def MIN_ : IString := "min"
/-- Modelled from the spec: the name `TEMP_DOUBLE_PTR` of the shared constants. -/
def TEMP_DOUBLE_PTR : IString := "tempDoublePtr"
/-- Modelled from the spec: the name `LLVM_CTTZ_I32` of the shared constants. -/
def LLVM_CTTZ_I32 : IString := "_llvm_cttz_i32"
/-- Modelled from the spec: the name `NAN_` of the shared constants. -/
def NAN_ : IString := "NaN"
/-- Modelled from the spec: the name `INFINITY_` of the shared constants. -/
def INFINITY_ : IString := "Infinity"
/-- Modelled from the spec: the name `UDIVMODDI4` of the shared constants. -/
def UDIVMODDI4 : IString := "___udivmoddi4"
/-- Modelled from the spec: the name `GET_TEMP_RET0` of the shared constants. -/
def GET_TEMP_RET0 : IString := "_getTempRet0"

/-- Modelled from the spec: the node `imported[1]` of the source AST, the module
of a dotted import: a string `module`, a node `outer.inner`, or anything else. -/
inductive ImportedModule where
  | plain (module : IString)
  | dotted (outer inner : IString)
  | other
  deriving DecidableEq, Repr

/-- Modelled from the spec: the node `imported` of the source AST: a node
`[DOT, module, base]`, or anything else. -/
inductive Imported where
  | dot (module : ImportedModule) (base : IString)
  | other
  deriving DecidableEq, Repr

/-- The variables that `addImport` reads and writes: the module's imports and
globals, `mappedGlobals` with the type of each entry, and the names bound to
the intercepted imports (an `IString` that `isNull` is `none`). -/
structure ImportState where
  imports : List ImportRecord
  globals : List Global
  mappedGlobals : IString → Option WasmType
  Math_imul : Option IString
  Math_clz32 : Option IString
  Math_fround : Option IString
  Math_abs : Option IString
  Math_floor : Option IString
  Math_ceil : Option IString
  Math_sqrt : Option IString
  Math_max : Option IString
  Math_min : Option IString
  llvm_cttz_i32 : Option IString
  tempDoublePtr : Option IString

/-- Modelled from the spec: `std::map::emplace` on `mappedGlobals`, which keeps
an entry that is already there. -/
def emplace (mappedGlobals : IString → Option WasmType) (name : IString) (type : WasmType) :
    IString → Option WasmType :=
  fun n => if n = name ∧ mappedGlobals name = none then some type else mappedGlobals n

/-- The lines 929-960 of `addImport`: the import for `name` from `moduleName` and
`base`, and for a global other than `tableBase` and `memoryBase` the mutable
global that is initialized from it. `Module::addImport` and `Module::addGlobal`
are modelled from the spec as appending to the module's lists. -/
def finishImport (st : ImportState) (name moduleName base : IString) (type : WasmType) :
    ImportState :=
  let type := if moduleName = GLOBAL ∧ (base = NAN_ ∨ base = INFINITY_) then WasmType.f64 else type
  if type ≠ WasmType.none then
    let st1 := { st with mappedGlobals := emplace st.mappedGlobals name type }
    if name ≠ "tableBase" ∧ name ≠ "memoryBase" then
      { st1 with
        globals := st1.globals ++
          [{ name := name, type := type,
             init := makeGetGlobal (name ++ "$asm2wasm$import") type, mutable_ := true }],
        imports := st1.imports ++
          [{ name := name ++ "$asm2wasm$import", module := moduleName, base := base,
             kind := ExternalKind.Global, globalType := type }] }
    else
      { st1 with
        imports := st1.imports ++
          [{ name := name, module := moduleName, base := base,
             kind := ExternalKind.Global, globalType := type }] }
  else
    { st with
      imports := st.imports ++
        [{ name := name, module := moduleName, base := base,
           kind := ExternalKind.Function, globalType := WasmType.none }] }

/-- One intercepted `Math` function (lines 871-906): the slot must be null and
gets the name. -/
def bindSlot (slot : Option IString) (name : IString) : Outcome (Option IString) :=
  match slot with
  | none => .ok (some name)
  | some _ => .fatal

/-- The lambda `addImport` (lines 863-961). -/
def addImport (st : ImportState) (name : IString) (imported : Imported) (type : WasmType) :
    Outcome ImportState :=
  match imported with
  | .other => .fatal
  | .dot (.dotted outer inner) base =>
    if inner = MATH ∧ base = IMUL then
      (bindSlot st.Math_imul name).bind fun s => .ok { st with Math_imul := s }
    else if inner = MATH ∧ base = CLZ32 then
      (bindSlot st.Math_clz32 name).bind fun s => .ok { st with Math_clz32 := s }
    else if inner = MATH ∧ base = FROUND then
      (bindSlot st.Math_fround name).bind fun s => .ok { st with Math_fround := s }
    else if inner = MATH ∧ base = ABS then
      (bindSlot st.Math_abs name).bind fun s => .ok { st with Math_abs := s }
    else if inner = MATH ∧ base = FLOOR then
      (bindSlot st.Math_floor name).bind fun s => .ok { st with Math_floor := s }
    else if inner = MATH ∧ base = CEIL then
      (bindSlot st.Math_ceil name).bind fun s => .ok { st with Math_ceil := s }
    else if inner = MATH ∧ base = SQRT then
      (bindSlot st.Math_sqrt name).bind fun s => .ok { st with Math_sqrt := s }
    else if inner = MATH ∧ base = MAX_ then
      (bindSlot st.Math_max name).bind fun s => .ok { st with Math_max := s }
    else if inner = MATH ∧ base = MIN_ then
      (bindSlot st.Math_min name).bind fun s => .ok { st with Math_min := s }
    else .ok (finishImport st name (outer ++ "." ++ inner) base type)
  | .dot .other _ => .fatal
  | .dot (.plain moduleName) base =>
    if moduleName = ENV ∧ base = TEMP_DOUBLE_PTR then
      (bindSlot st.tempDoublePtr name).bind fun s =>
        .ok (finishImport { st with tempDoublePtr := s } name moduleName base type)
    else if moduleName = ENV ∧ base = LLVM_CTTZ_I32 then
      (bindSlot st.llvm_cttz_i32 name).bind fun s => .ok { st with llvm_cttz_i32 := s }
    else .ok (finishImport st name moduleName base type)

/-- Modelled from the spec: the value `pair[1]` of a variable declaration, for
the shapes of lines 1002-1018: `[BINARY, op, operand, right]` and
`[UNARY_PREFIX, op, operand]`, the operand being a dotted import or a number. -/
inductive VarValue where
  | binary (op : IString) (operand : Imported) (right : Ref)
  | unaryPrefix (op : IString) (operand : Imported)
  | unaryPrefixNumber (op : IString) (operand : Int)

/-- The branches of lines 1002-1018 that reach `addImport`: `x = imp | 0` is an
`i32` import and `x = +imp` an `f64` import. The global `x = +0` of lines
1011-1014 is not modelled. -/
def processVar (st : ImportState) (name : IString) (value : VarValue) : Outcome ImportState :=
  match value with
  | .binary op operand right =>
    if op = OR ∧ right.isZero then addImport st name operand WasmType.i32 else .fatal
  | .unaryPrefix op operand =>
    if op = PLUS then addImport st name operand WasmType.f64 else .fatal
  | .unaryPrefixNumber op _ =>
    if op = PLUS then .unmodelled else .fatal

/-- Modelled from the spec: the value `pair[1]` of a pair of the export object:
a string node, a number node, or anything else. -/
inductive ExportValue where
  | string (value : IString)
  | number (value : Int)
  | other
  deriving DecidableEq, Repr

/-- The variables that the export loop reads and writes: the module's exports,
globals and function names, the local map `exported` (each key with the index
of its `Export` in the module's exports), and `udivmoddi4` and `getTempRet0`. -/
structure ExportState where
  exports : List Export
  globals : List Global
  functions : List IString
  exported : List (IString × Nat)
  udivmoddi4 : Option IString
  getTempRet0 : Option IString

/-- One round of the loop of lines 1136-1180 for the pair `key: value`.
`Module::addExport` and `Module::addGlobal` are modelled from the spec as
appending to the module's lists; a number outside the `int32_t` range fails
the `assert` of `getInteger`. The map `exported` only holds indices of exports,
so the branch for an index outside the exports is never taken. -/
def processExport (st : ExportState) (key : IString) (value : ExportValue) :
    Outcome ExportState :=
  match value with
  | .string value =>
    if key = "_emscripten_replace_memory" then
      if value ∈ st.functions then .fatal else .ok st
    else
      let st1 :=
        if key = UDIVMODDI4 then { st with udivmoddi4 := some value }
        else if key = GET_TEMP_RET0 then { st with getTempRet0 := some value }
        else st
      match st1.exported.lookup key with
      | some i =>
        match st1.exports[i]? with
        | some e => .ok { st1 with exports := st1.exports.set i { e with value := value } }
        | none => .fatal
      | none =>
        .ok { st1 with
              exports := st1.exports ++
                [{ name := key, value := value, kind := ExternalKind.Function }],
              exported := (key, st1.exports.length) :: st1.exported }
  | .number value =>
    match st.exported.lookup key with
    | some _ => .fatal
    | none =>
      match getInteger value with
      | none => .fatal
      | some v =>
        .ok { st with
              globals := st.globals ++
                [{ name := key, type := WasmType.i32, init := makeConst (Literal.ofInt32 v),
                   mutable_ := false }],
              exports := st.exports ++
                [{ name := key, value := key, kind := ExternalKind.Global }],
              exported := (key, st.exports.length) :: st.exported }
  | .other => .fatal

/-- The loop of lines 1136-1180 over the pairs that are left. -/
def processExportPairs (st : ExportState) : List (IString × ExportValue) → Outcome ExportState
  | [] => .ok st
  | (key, value) :: rest =>
    match processExport st key value with
    | .ok st2 => processExportPairs st2 rest
    | .fatal => .fatal
    | .unmodelled => .unmodelled

/-- The `RETURN` branch of the first pass (lines 1131-1181): the loop over the
pairs of the export object, with a new map `exported`. -/
def processExports (st : ExportState) (contents : List (IString × ExportValue)) :
    Outcome ExportState :=
  processExportPairs { st with exported := [] } contents

/-- The `moduleName` of lines 909-915 for the node `imported[1]`. -/
def moduleNameOf : ImportedModule → Option IString
  | .plain module => some module
  | .dotted outer inner => some (outer ++ "." ++ inner)
  | .other => none

/-- An import state before any declaration, for examples. -/
def exampleImportState : ImportState where
  imports := []
  globals := []
  mappedGlobals := fun _ => none
  Math_imul := none
  Math_clz32 := none
  Math_fround := none
  Math_abs := none
  Math_floor := none
  Math_ceil := none
  Math_sqrt := none
  Math_max := none
  Math_min := none
  llvm_cttz_i32 := none
  tempDoublePtr := none

/-- An export state of a module with the functions `_main` and `_malloc` and no
export, for examples. -/
def exampleExportState : ExportState where
  exports := []
  globals := []
  functions := ["_main", "_malloc"]
  exported := []
  udivmoddi4 := none
  getTempRet0 := none

/-- The map `exported` agrees with the module: each key is mapped to the index
of an export with that name. -/
def ExportsAgree (st : ExportState) : Prop :=
  ∀ k i, st.exported.lookup k = some i → ∃ e, st.exports[i]? = some e ∧ e.name = k

/-- What the first binding of `key` makes of its export `e`: a function export
for an identifier; for a number a global export, with an immutable `i32` global
named `key` that is initialized to the number. -/
def ExportKindOf (key : IString) (st : ExportState) (e : Export) : ExportValue → Prop
  | .string _ => e.kind = ExternalKind.Function
  | .number n =>
    e.kind = ExternalKind.Global ∧
    ∃ v, getInteger n = some v ∧
      ∃ g ∈ st.globals, g.name = key ∧ g.type = WasmType.i32 ∧
        g.init = makeConst (Literal.ofInt32 v) ∧ g.mutable_ = false
  | .other => False

/-- What the last binding of `key` makes of the value of its export `e`: the
identifier, or for a number the global named `key`. -/
def ExportValueOf (key : IString) (e : Export) : Option ExportValue → Prop
  | some (.string v) => e.value = v
  | some (.number _) => e.value = key
  | _ => True

/-- The state of the export loop after the pairs `pairs`, as far as `key` goes:
without a binding there is no export named `key`; with one there is exactly one,
its kind is that of the first binding and its value that of the last. -/
def ExportPost (key : IString) (pairs : List (IString × ExportValue)) (st : ExportState) :
    Prop :=
  ExportsAgree st ∧
  (pairs.lookup key = none →
    st.exported.lookup key = none ∧ key ∉ st.exports.map Export.name) ∧
  (∀ first, pairs.lookup key = some first →
    ∃ i e, st.exported.lookup key = some i ∧ st.exports[i]? = some e ∧ e.name = key ∧
      (st.exports.map Export.name).count key = 1 ∧ ExportKindOf key st e first ∧
      ExportValueOf key e (pairs.reverse.lookup key))

/-- A condition under which no assertion of the export loop fails, `bound`
being the keys of the pairs before: every value is an identifier or a 32-bit
integer, the key of a number is not the key of a pair before it, and an
identifier bound to `_emscripten_replace_memory` is not a function of the
module. -/
def exportsComplete (functions : List IString) :
    List IString → List (IString × ExportValue) → Bool
  | _, [] => true
  | bound, (k, .string v) :: rest =>
    (decide (k ≠ "_emscripten_replace_memory") || decide (v ∉ functions)) &&
      exportsComplete functions (k :: bound) rest
  | bound, (k, .number n) :: rest =>
    decide (k ∉ bound) && (getInteger n).isSome && exportsComplete functions (k :: bound) rest
  | _, (_, .other) :: _ => false

/-! ## The coercion `~~x` and the nodes that read their parent -/

/-- The node `~~x`. -/
def doubleNot (x : Ref) : Ref :=
  .unaryPrefix B_NOT (.unaryPrefix B_NOT x)

/-- Modelled from the spec: the sign detection `detectSign` of the external
optimizer on the nodes used in the examples: `e >>> k` is unsigned, other nodes
are not. -/
def exampleDetectUnsigned : Ref → Bool
  | .binary op _ _ => op = TRSHIFT
  | _ => false

/-- The blocks `B0 .. Bn` of the specification for the cases `c1 .. cn`: `B0` is
the dispatch block, and `Bi` holds `B(i-1)`, named with the label of `ci`, and
the body of `ci`. A block is given as its list and its type until it gets its
name; the type of `Bi` is the one `Block::finalize` gives it while it has no
name. -/
def nestedBlock (dispatch : List Expression × WasmType) (cases : List SwitchCase) :
    Nat → List Expression × WasmType
  | 0 => dispatch
  | i + 1 =>
    match cases[i]? with
    | some c =>
      ([Expression.block c.label (nestedBlock dispatch cases i).1 (nestedBlock dispatch cases i).2,
        c.body],
       finalizeBlock
        [Expression.block c.label (nestedBlock dispatch cases i).1
          (nestedBlock dispatch cases i).2, c.body])
    | none => nestedBlock dispatch cases i

/-- A switch with the case values 0 and 20000, too far apart for a `br_table`. -/
def exampleSparseCases : List SwitchCase :=
  [ { condition := some (Literal.ofInt32 0),
      body := Expression.call "a" [] WasmType.none, label := "L0" },
    { condition := some (Literal.ofInt32 20000),
      body := Expression.call "b" [] WasmType.none, label := "L1" } ]

/-! ## The preprocessor: texts whose call texts are no longer than the comments -/

/-- Whether the path of every debug comment has at least 13 bytes plus the
digits of its index in `table`, so that the call text written for the comment
is no longer than the comment. -/
def longPaths (table : List (List Char)) : List Piece → Bool
  | [] => true
  | .line _ file :: ps =>
    decide (13 + (Nat.repr (table.indexOf file)).toList.length ≤ file.length) &&
      longPaths table ps
  | _ :: ps => longPaths table ps

/-- A module of 245 bytes with a directive and two debug comments, cut into
pieces. -/
def exampleDebugPieces : List Piece :=
  [Piece.text "function asmModule(global, env, buffer) \x7b \x22use ".toList,
   Piece.useAsm QUOTE ';',
   Piece.text (" var a = env.a; var b = env.b; var c = env.c; " ++
     "function f() \x7b a(); ").toList,
   Piece.line "4".toList "tests/hello_world.c".toList,
   Piece.text "\n b(); ".toList,
   Piece.line "5".toList "tests/other_file.c".toList,
   Piece.text "\n c();  \x7d return \x7b f: f \x7d; \x7d // end of the module asmModule".toList]

/-! ## Comma expressions (lines 2304-2368) -/

/-- The test made on `target` and on `readValue` (lines 2312-2313 and
2331-2332): the node is `X[tempDoublePtr >> 2]` for a string `X`, which is
returned. `tempDoublePtr` is `none` while no import has that name. -/
def tempDoubleAccess (tempDoublePtr : Option IString) : Ref → Option IString
  | .sub (.name heap) (.binary op (.name p) (.num k)) =>
      if op = RSHIFT ∧ some p = tempDoublePtr ∧ k = 2 then some heap else none
  | _ => none

/-- The lines 2318-2329: the coercion around the second operand gives the type
read and the node read, `none` when it is none of `x | 0`, `+x` and
`Math_fround(x)`. Taking the first argument of a call without arguments is
fatal. -/
def seqRead (Math_fround : Option IString) : Ref → Outcome (Option (AsmType × Ref))
  | .binary op value (.num k) =>
      if op = OR ∧ k = 0 then .ok (some (AsmType.ASM_INT, value)) else .ok none
  | .unaryPrefix op value =>
      if op = PLUS then .ok (some (AsmType.ASM_DOUBLE, value)) else .ok none
  | .call (.name f) args =>
      if some f = Math_fround then
        match args with
        | [] => .fatal
        | first :: _ => .ok (some (AsmType.ASM_FLOAT, first))
      else .ok none
  | _ => .ok none

/-- The lines 2309-2333 up to `pattern looks right!`: the type of the view
written, the type read and the value written, when the first operand assigns to
`W[tempDoublePtr >> 2]` for a registered view `W` and the second operand is a
coercion of some `X[tempDoublePtr >> 2]`. -/
def seqPattern (env : TranslateEnv) (tempDoublePtr Math_fround : Option IString)
    (left right : Ref) : Outcome (Option (AsmType × AsmType × Ref)) :=
  match left with
  | .assign target writtenValue =>
    match tempDoubleAccess tempDoublePtr target with
    | none => .ok none
    | some heap =>
      match env.views heap with
      | none => .ok none
      | some view => do
        let read ← seqRead Math_fround right
        match read with
        | none => pure none
        | some (readType, readValue) =>
          match tempDoubleAccess tempDoublePtr readValue with
          | none => pure none
          | some _ => pure (some (view.type, readType, writtenValue))
  | _ => .ok none

/-- The end of the `SEQ` case (lines 2363-2367): an unnamed block of both
translated operands. -/
def processSeqBlock (env : TranslateEnv) (types : ImportedFunctionTypes) (left right : Ref) :
    Outcome (Expression × ImportedFunctionTypes) := do
  let (first, types2) ← process env (some (.seq left right)) types left
  let (second, types3) ← process env (some (.seq left right)) types2 right
  pure (Expression.block "" [first, second] (finalizeBlock [first, second]), types3)

/-- The `SEQ` case of `process` (lines 2304-2368) for the node
`[SEQ, left, right]`. -/
def processSeq (env : TranslateEnv) (tempDoublePtr Math_fround : Option IString)
    (types : ImportedFunctionTypes) (left right : Ref) :
    Outcome (Expression × ImportedFunctionTypes) := do
  let pattern ← seqPattern env tempDoublePtr Math_fround left right
  match pattern with
  | some (writeType, readType, writtenValue) =>
    if writeType = AsmType.ASM_INT ∧
        (readType = AsmType.ASM_FLOAT ∨ readType = AsmType.ASM_DOUBLE) then do
      let (value, types2) ← process env (some (.seq left right)) types writtenValue
      let conv := Expression.unary UnaryOp.ReinterpretInt32 value WasmType.f32
      if readType = AsmType.ASM_DOUBLE then
        pure (Expression.unary UnaryOp.PromoteFloat32 conv WasmType.f64, types2)
      else pure (conv, types2)
    else if writeType = AsmType.ASM_FLOAT ∧ readType = AsmType.ASM_INT then do
      let (value, types2) ← process env (some (.seq left right)) types writtenValue
      if value.type = WasmType.f64 then
        pure (Expression.unary UnaryOp.ReinterpretFloat32
          (makeUnary UnaryOp.DemoteFloat64 value) WasmType.i32, types2)
      else pure (Expression.unary UnaryOp.ReinterpretFloat32 value WasmType.i32, types2)
    else processSeqBlock env types left right
  | none => processSeqBlock env types left right

/-- A function with the locals `x : i32`, `f : f32` and `d : f64`, the views
`HEAP32`, `HEAPF32` and `HEAPF64`, and the imported global `tempDoublePtr`. -/
def exampleSeqEnv : TranslateEnv where
  locals := [("x", WasmType.i32), ("f", WasmType.f32), ("d", WasmType.f64)]
  mappedGlobals := fun n => if n = "tempDoublePtr" then some WasmType.i32 else none
  imports := fun _ => false
  intrinsics := fun _ => false
  views := fun n =>
    if n = "HEAP32" then some ⟨4, true, true, AsmType.ASM_INT⟩
    else if n = "HEAPF32" then some ⟨4, false, true, AsmType.ASM_FLOAT⟩
    else if n = "HEAPF64" then some ⟨8, false, true, AsmType.ASM_DOUBLE⟩
    else none
  wasmOnly := false
  trapMode := TrapMode.Allow
  detectWasmType := fun _ => WasmType.i32
  isUnsignedCoercion := fun _ => false
  ensureFunctionType := functionTypeName

/-- The node `heap[p >> 2]`. -/
def tempDoubleSlot (p heap : IString) : Ref :=
  .sub (.name heap) (.binary RSHIFT (.name p) (.num 2))

/-- The comma expressions that are folded: the first operand assigns to
`W[p >> 2]`, where `p` is the name `tempDoublePtr` holds and `W` is a registered
view, and either `W` is an integer view and the second operand is `+X[p >> 2]`
or `Math_fround(X[p >> 2], ...)`, or `W` is a view of floats and the second
operand is `X[p >> 2] | 0`; `X` is any name. -/
def SeqFolds (env : TranslateEnv) (tempDoublePtr Math_fround : Option IString)
    (left right : Ref) : Prop :=
  ∃ (p W X : IString) (x : Ref) (view : View),
    tempDoublePtr = some p ∧ left = .assign (tempDoubleSlot p W) x ∧
    env.views W = some view ∧
    ((view.type = AsmType.ASM_INT ∧
        (right = .unaryPrefix PLUS (tempDoubleSlot p X) ∨
         ∃ g rest, Math_fround = some g ∧
           right = .call (.name g) (tempDoubleSlot p X :: rest))) ∨
     (view.type = AsmType.ASM_FLOAT ∧ right = .binary OR (tempDoubleSlot p X) (.num 0)))

/-! ## Statements: labels, loops and the break and continue stacks

The statement cases of `process` (lines 1786-1789, 2089-2296, 2369-2524) and
`processStatements` (lines 2548-2558), with the label state of lines 1506-1520.
The expression nodes below a statement are translated by a function that is a
parameter here: no expression case of `process` reads or writes the label
state. What `RETURN` does to `function->result` is the subject of
`processReturn` and is left out here. -/

/-- Modelled from the spec: the scoped name mapper `UniqueNameMapper` of the IR.
`labelStack` holds the unique names in scope, `labelMappings` the stack of unique
names of each source name, `reverseLabelMapping` the source name of every unique
name ever given (newest first), `otherIndex` the next suffix to try. -/
structure UniqueNameMapper where
  labelStack : List IString
  labelMappings : IString → List IString
  reverseLabelMapping : List (IString × IString)
  otherIndex : Nat

/-- The mapper of a new function. -/
def UniqueNameMapper.empty : UniqueNameMapper :=
  { labelStack := [], labelMappings := fun _ => [], reverseLabelMapping := [], otherIndex := 0 }

/-- The first suffix from `index` on whose name is not in `used`, trying `fuel`
suffixes. -/
def firstFreeSuffix (used : List IString) (base : IString) : Nat → Nat → Nat
  | 0, index => index
  | fuel + 1, index =>
    if (base ++ toString index) ∈ used then firstFreeSuffix used base fuel (index + 1)
    else index

/-- Modelled from the spec: `UniqueNameMapper::getPrefixedName`: the name itself
when it was never given, else the name with the first suffix, counting up from
`otherIndex`, that makes a name never given; the counter moves past that suffix.
One more suffix than there are names given is enough to find one. -/
def UniqueNameMapper.getPrefixedName (m : UniqueNameMapper) (base : IString) : IString × Nat :=
  let used := m.reverseLabelMapping.map Prod.fst
  if base ∈ used then
    let suffix := firstFreeSuffix used base (used.length + 1) m.otherIndex
    (base ++ toString suffix, suffix + 1)
  else (base, m.otherIndex)

/-- Modelled from the spec: `UniqueNameMapper::pushLabelName`: a unique name for
the source name is made, pushed and returned. -/
def UniqueNameMapper.pushLabelName (m : UniqueNameMapper) (sName : IString) :
    IString × UniqueNameMapper :=
  let name := (m.getPrefixedName sName).1
  (name,
   { labelStack := m.labelStack ++ [name],
     labelMappings := fun s => if s = sName then m.labelMappings s ++ [name]
       else m.labelMappings s,
     reverseLabelMapping := (name, sName) :: m.reverseLabelMapping,
     otherIndex := (m.getPrefixedName sName).2 })

/-- Modelled from the spec: `UniqueNameMapper::popLabelName`: the name must be
the newest in scope (`none` is the failed `assert`); it is popped, and the
source name gets back the mapping it had before. -/
def UniqueNameMapper.popLabelName (m : UniqueNameMapper) (name : IString) :
    Option UniqueNameMapper :=
  if m.labelStack.getLast? = some name then
    let sName := (m.reverseLabelMapping.lookup name).getD ""
    some { m with
      labelStack := m.labelStack.dropLast,
      labelMappings := fun s => if s = sName then (m.labelMappings s).dropLast
        else m.labelMappings s }
  else none

/-- Modelled from the spec: `UniqueNameMapper::sourceToUnique`: the newest unique
name in scope of a source name; `none` is the exception thrown for a name that
has none. -/
def UniqueNameMapper.sourceToUnique (m : UniqueNameMapper) (sName : IString) : Option IString :=
  (m.labelMappings sName).getLast?

/-- The function `getBreakLabelName` (lines 1509-1511). -/
def getBreakLabelName (label : IString) : IString := "label$break$" ++ label

/-- The function `getContinueLabelName` (lines 1512-1514). -/
def getContinueLabelName (label : IString) : IString := "label$continue$" ++ label

mutual
/-- Modelled from the spec: the statement nodes of the source AST. The nodes
below a statement that are expressions are `Ref`s. -/
inductive Stmt where
  /-- An expression node in statement position. -/
  | expr (e : Ref)
  /-- A `[RETURN, value]` node. -/
  | return_ (value : Option Ref)
  /-- A `[BLOCK, stats]` node. -/
  | block (stats : List Stmt)
  /-- An `[IF, condition, ifTrue, ifFalse]` node. -/
  | if_ (condition : Ref) (ifTrue : Stmt) (ifFalse : Option Stmt)
  /-- A `[BREAK, label]` node. -/
  | break_ (label : Option IString)
  /-- A `[CONTINUE, label]` node. -/
  | continue_ (label : Option IString)
  /-- A `[WHILE, condition, body]` node. -/
  | while_ (condition : Ref) (body : Stmt)
  /-- A `[DO, condition, body]` node. -/
  | do_ (condition : Ref) (body : Stmt)
  /-- A `[FOR, init, condition, inc, body]` node. -/
  | for_ (init condition inc : Ref) (body : Stmt)
  /-- A `[LABEL, name, body]` node. -/
  | label (name : IString) (body : Stmt)
  /-- A `[SWITCH, condition, cases]` node. -/
  | switch (condition : Ref) (cases : List SourceCase)
/-- One entry `[condition, body]` of the cases of a `switch`; the condition is
given as its literal `getLiteral(condition)`, `none` for `default:`. -/
inductive SourceCase where
  | mk (condition : Option Literal) (body : List Stmt)
end

/-- The label state of `processFunction` (lines 1506, 1518-1520), the number of
locals of the function, and the state `exprState` that the translation of
expressions reads and writes. -/
structure LabelState (σ : Type) where
  nameMapper : UniqueNameMapper
  parentLabel : Option IString
  breakStack : List IString
  continueStack : List IString
  numLocals : Nat
  exprState : σ

/-- What the statement cases take from outside: `expr` is `process` on an
expression node below a statement; `blockType` is the type `Block::finalize`
gives a named block; `breakCount` is the count `found` of a `BreakSeeker`. -/
structure StatementEnv (σ : Type) where
  expr : Ref → σ → Outcome (Expression × σ)
  blockType : IString → List Expression → WasmType
  breakCount : IString → Expression → Nat

/-- A step of the translation of statements on the label state. -/
def Translate (σ α : Type) : Type := LabelState σ → Outcome (α × LabelState σ)

/-- A step that returns a value and leaves the state. -/
def Translate.pure {σ α : Type} (a : α) : Translate σ α := fun st => .ok (a, st)

/-- Sequencing of steps. -/
def Translate.bind {σ α β : Type} (m : Translate σ α) (f : α → Translate σ β) :
    Translate σ β :=
  fun st =>
    match m st with
    | .ok (a, st2) => f a st2
    | .fatal => .fatal
    | .unmodelled => .unmodelled

instance (σ : Type) : Monad (Translate σ) where
  pure := Translate.pure
  bind := Translate.bind

/-- A failed `assert`, an `abort` or an uncaught exception. -/
def Translate.fatal {σ α : Type} : Translate σ α := fun _ => .fatal

/-- The step `process(e)` on an expression node. -/
def translateExpr {σ : Type} (P : StatementEnv σ) (e : Ref) : Translate σ Expression :=
  fun st =>
    match P.expr e st.exprState with
    | .ok (r, s) => .ok (r, { st with exprState := s })
    | .fatal => .fatal
    | .unmodelled => .unmodelled

/-- The step `nameMapper.pushLabelName(sName)`. -/
def pushLabelName {σ : Type} (sName : IString) : Translate σ IString :=
  fun st => .ok ((st.nameMapper.pushLabelName sName).1,
    { st with nameMapper := (st.nameMapper.pushLabelName sName).2 })

/-- The step `nameMapper.popLabelName(name)`. -/
def popLabelName {σ : Type} (name : IString) : Translate σ Unit :=
  fun st =>
    match st.nameMapper.popLabelName name with
    | some m => .ok ((), { st with nameMapper := m })
    | none => .fatal

/-- The step `nameMapper.sourceToUnique(sName)`. -/
def sourceToUnique {σ : Type} (sName : IString) : Translate σ IString :=
  fun st =>
    match st.nameMapper.sourceToUnique sName with
    | some name => .ok (name, st)
    | none => .fatal

/-- Reading `parentLabel` and clearing it (lines 2137-2144 and alike): the label
set by an enclosing `LABEL` node, if any. -/
def takeParentLabel {σ : Type} : Translate σ (Option IString) :=
  fun st => .ok (st.parentLabel, { st with parentLabel := none })

/-- The step `breakStack.push_back(name)`. -/
def pushBreak {σ : Type} (name : IString) : Translate σ Unit :=
  fun st => .ok ((), { st with breakStack := st.breakStack ++ [name] })

/-- The step `continueStack.push_back(name)`. -/
def pushContinue {σ : Type} (name : IString) : Translate σ Unit :=
  fun st => .ok ((), { st with continueStack := st.continueStack ++ [name] })

/-- The step `breakStack.pop_back()`. -/
def popBreak {σ : Type} : Translate σ Unit :=
  fun st => .ok ((), { st with breakStack := st.breakStack.dropLast })

/-- The step `continueStack.pop_back()`. -/
def popContinue {σ : Type} : Translate σ Unit :=
  fun st => .ok ((), { st with continueStack := st.continueStack.dropLast })

/-- The target of a `break` (lines 2125-2126): with a label its unique name, else
the top of `breakStack`; an empty stack fails the `assert`. -/
def breakTarget {σ : Type} (label : Option IString) : Translate σ IString :=
  fun st =>
    match st.breakStack.getLast? with
    | none => .fatal
    | some top =>
      match label with
      | some l => sourceToUnique (getBreakLabelName l) st
      | none => .ok (top, st)

/-- The target of a `continue` (lines 2130-2131): with a label its unique name,
else the top of `continueStack`; an empty stack fails the `assert`. -/
def continueTarget {σ : Type} (label : Option IString) : Translate σ IString :=
  fun st =>
    match st.continueStack.getLast? with
    | none => .fatal
    | some top =>
      match label with
      | some l => sourceToUnique (getContinueLabelName l) st
      | none => .ok (top, st)

/-- The step `Builder::addVar(function, type)`: the index of the new local. -/
def addVar {σ : Type} : Translate σ Nat :=
  fun st => .ok (st.numLocals, { st with numLocals := st.numLocals + 1 })

/-- The function `truncateToInt32` (lines 837-842). -/
def truncateToInt32 (value : Expression) : Expression :=
  if value.type = WasmType.i64 then makeUnary UnaryOp.WrapInt64 value else value

/-- Modelled from the spec: `isConcreteWasmType`: the type of a value. -/
def isConcreteWasmType (t : WasmType) : Bool :=
  t ≠ WasmType.none && t ≠ WasmType.unreachable

/-- Modelled from the spec: `Builder::blockifyWithName(any, name, append)`: an
unnamed block is used as it is, anything else is put into a new block; the block
gets the name, and with `append` that node is added and the block finalized. -/
def blockifyWithName (blockType : IString → List Expression → WasmType) (any : Expression)
    (name : IString) (append : Option Expression) : Expression :=
  let block : List Expression × WasmType :=
    match any with
    | .block inner list type =>
      if inner = "" then (list, type) else ([any], finalizeBlock [any])
    | _ => ([any], finalizeBlock [any])
  match append with
  | none => Expression.block name block.1 block.2
  | some node => Expression.block name (block.1 ++ [node]) (blockType name (block.1 ++ [node]))

/-- The lines 2111-2120: the translated statements of a labelled block get the
name, in a new block unless they are an unnamed block. -/
def nameBlock (blockType : IString → List Expression → WasmType) (name : IString)
    (ret : Expression) : Expression :=
  match ret with
  | .block inner list type =>
    if inner = "" then Expression.block name list type
    else Expression.block name [ret] (blockType name [ret])
  | _ => Expression.block name [ret] (blockType name [ret])

/-- The `If` of lines 2153-2158 and 2265-2270: leave to `out` when the condition
is zero. -/
def breakUnless (condition : Expression) (out : IString) : Expression :=
  Expression.if_ (makeUnary UnaryOp.EqZInt32 condition) (makeBreak out) none
    (finalizeIf (makeBreak out) none)

/-- The conditions of the cases of a source `switch`, as the loop of lines
2384-2401 reads them. -/
def sourceConditions : List SourceCase → List SwitchCase
  | [] => []
  | .mk condition _ :: rest =>
    { condition := condition, body := Expression.nop, label := "" } :: sourceConditions rest

/-- The test `forever` of line 2134: the condition is the number 1. -/
def isForever : Ref → Bool
  | .num v => v = 1
  | _ => false

/-- The end of the loops (lines 2166-2172, 2241-2243, 2280-2282): the body is
made a block named `out` that ends with the branch back `continuer`, and is the
body of the loop named `in_`, whose type `Loop::finalize` takes from the body. -/
def finishLoop {σ : Type} (P : StatementEnv σ) (in_ : IString) (inner : Expression)
    (out : IString) (continuer : Expression) : Expression :=
  Expression.loop in_ (blockifyWithName P.blockType inner out (some continuer))
    (blockifyWithName P.blockType inner out (some continuer)).type

/-- The nodes built for a `for` (lines 2265-2282 and 2287-2292) from the
translated parts: the block of the exit test, the body and the increment, made
the body of the loop with the branch back appended, and the outer block of the
initializer and the loop. -/
def finishFor {σ : Type} (P : StatementEnv σ) (in_ out : IString)
    (first c b i : Expression) : Expression :=
  Expression.block ""
    [first,
     finishLoop P in_
       (Expression.block "" [breakUnless c out, b, i] (finalizeBlock [breakUnless c out, b, i]))
       out (makeBreak in_)]
    (finalizeBlock
      [first,
       finishLoop P in_
         (Expression.block "" [breakUnless c out, b, i]
           (finalizeBlock [breakUnless c out, b, i]))
         out (makeBreak in_)])

/-- The end of a `do {...} while(0)` (lines 2197-2215): a block named `stop`
when nothing branches to `more`, with a `nop` after a child that has a value;
else a loop named `more` in a block named `stop`. -/
def finishDoOnce {σ : Type} (P : StatementEnv σ) (stop more : IString) (child : Expression) :
    Expression :=
  if P.breakCount more child = 0 then
    Expression.block stop
      (if isConcreteWasmType child.type = true then [child, Expression.nop] else [child])
      (P.blockType stop
        (if isConcreteWasmType child.type = true then [child, Expression.nop] else [child]))
  else blockifyWithName P.blockType (Expression.loop more child child.type) stop none

mutual
/-- The statement cases of `process`. -/
def processStmt {σ : Type} (P : StatementEnv σ) : Stmt → Translate σ Expression
  | .expr e => translateExpr P e
  | .return_ none => pure (Expression.return_ none WasmType.unreachable)
  | .return_ (some value) => do
      let r ← translateExpr P value
      pure (Expression.return_ (some r) WasmType.unreachable)
  | .block stats => do
      let label ← takeParentLabel
      match label with
      | some l => do
        let name ← pushLabelName (getBreakLabelName l)
        pushBreak name
        let ret ← processStatements P stats
        popBreak
        popLabelName name
        pure (nameBlock P.blockType name ret)
      | none => processStatements P stats
  | .if_ condition ifTrue ifFalse => do
      let c ← translateExpr P condition
      let t ← processStmt P ifTrue
      let f ← processOptional P ifFalse
      pure (makeIf (truncateToInt32 c) t f)
  | .break_ label => do
      let name ← breakTarget label
      pure (makeBreak name)
  | .continue_ label => do
      let name ← continueTarget label
      pure (makeBreak name)
  | .while_ condition body => do
      let label ← takeParentLabel
      let out ← pushLabelName (match label with
        | some l => getBreakLabelName l
        | none => "while-out")
      let in_ ← pushLabelName (match label with
        | some l => getContinueLabelName l
        | none => "while-in")
      pushBreak out
      pushContinue in_
      let inner ← (if isForever condition = true then processStmt P body
        else do
          let c ← translateExpr P condition
          let b ← processStmt P body
          pure (Expression.block "" [breakUnless c out, b]
            (finalizeBlock [breakUnless c out, b])))
      popContinue
      popBreak
      popLabelName in_
      popLabelName out
      pure (finishLoop P in_ inner out (makeBreak in_))
  | .do_ condition body =>
      if condition.isZero = true then do
        let label ← takeParentLabel
        let stop ← pushLabelName (match label with
          | some l => getBreakLabelName l
          | none => "do-once")
        let more ← pushLabelName "unlikely-continue"
        pushBreak stop
        pushContinue more
        let child ← processStmt P body
        popContinue
        popBreak
        popLabelName more
        popLabelName stop
        pure (finishDoOnce P stop more child)
      else do
        let label ← takeParentLabel
        let out ← pushLabelName (match label with
          | some l => getBreakLabelName l
          | none => "do-out")
        let in_ ← pushLabelName (match label with
          | some l => getContinueLabelName l
          | none => "do-in")
        pushBreak out
        pushContinue in_
        let inner ← processStmt P body
        popContinue
        popBreak
        popLabelName in_
        popLabelName out
        let c ← translateExpr P condition
        pure (finishLoop P in_ inner out
          (Expression.break_ in_ none (some c) WasmType.unreachable))
  | .for_ init condition inc body => do
      let label ← takeParentLabel
      let out ← pushLabelName (match label with
        | some l => getBreakLabelName l
        | none => "for-out")
      let in_ ← pushLabelName (match label with
        | some l => getContinueLabelName l
        | none => "for-in")
      pushBreak out
      pushContinue in_
      let c ← translateExpr P condition
      let b ← processStmt P body
      let i ← translateExpr P inc
      popContinue
      popBreak
      popLabelName in_
      popLabelName out
      let first ← translateExpr P init
      pure (finishFor P in_ out first c b i)
  | .label name body =>
      fun st =>
        match st.parentLabel with
        | some _ => .fatal
        | none => processStmt P body { st with parentLabel := some name }
  | .switch condition cases => do
      let label ← takeParentLabel
      let name ← pushLabelName (match label with
        | some l => getBreakLabelName l
        | none => "switch")
      pushBreak name
      let c ← translateExpr P condition
      match switchBounds (sourceConditions cases) with
      | none => Translate.fatal
      | some (min, max) =>
        if canSwitch min max = true then do
          let translated ← processCases P cases
          match processSwitchTable name c min translated with
          | none => Translate.fatal
          | some top => do
            popBreak
            popLabelName name
            pure top
        else do
          let var ← addVar
          let translated ← processCases P cases
          match processSwitchChain P.blockType name c var translated with
          | none => Translate.fatal
          | some top => do
            popBreak
            popLabelName name
            pure top
/-- The else-arm of an `IF` node: `!!ast[3] ? process(ast[3]) : nullptr`. -/
def processOptional {σ : Type} (P : StatementEnv σ) :
    Option Stmt → Translate σ (Option Expression)
  | none => pure none
  | some s => do
      let r ← processStmt P s
      pure (some r)
/-- The loop `block->list.push_back(process(ast[i]))` of `processStatements`. -/
def processStatementList {σ : Type} (P : StatementEnv σ) :
    List Stmt → Translate σ (List Expression)
  | [] => pure []
  | s :: rest => do
      let r ← processStmt P s
      let rs ← processStatementList P rest
      pure (r :: rs)
/-- The function `processStatements(ast, 0)` (lines 2548-2558). -/
def processStatements {σ : Type} (P : StatementEnv σ) : List Stmt → Translate σ Expression
  | [] => pure Expression.nop
  | [s] => processStmt P s
  | s :: t :: rest => do
      let r ← processStmt P s
      let rs ← processStatementList P (t :: rest)
      pure (Expression.block "" (r :: rs) (finalizeBlock (r :: rs)))
/-- The rounds of the loops of lines 2429-2456 and 2476-2505 on the label state:
the body of a case is translated, then the name of the case is pushed and
popped again. -/
def processCases {σ : Type} (P : StatementEnv σ) :
    List SourceCase → Translate σ (List SwitchCase)
  | [] => pure []
  | .mk condition body :: rest => do
      let case_ ← processStatements P body
      let name ← pushLabelName (match condition with
        | none => "switch-default"
        | some _ => "switch-case")
      popLabelName name
      let cs ← processCases P rest
      pure ({ condition := condition, body := case_, label := name } :: cs)
end

mutual
/-- Modelled from the spec: the count `found` of `BreakSeeker(target)` after its
walk: the `Break` nodes with the name `target`, and for each `Switch` the
entries of `targets` and the `default_` that are `target`. -/
def breakSeekerFound (target : IString) : Expression → Nat
  | .block _ list _ => breakSeekerFoundList target list
  | .if_ condition ifTrue ifFalse _ =>
      breakSeekerFound target condition + breakSeekerFound target ifTrue
        + breakSeekerFoundOpt target ifFalse
  | .loop _ body _ => breakSeekerFound target body
  | .break_ name value condition _ =>
      breakSeekerFoundOpt target value + breakSeekerFoundOpt target condition
        + (if name = target then 1 else 0)
  | .switch targets default_ condition value _ =>
      breakSeekerFoundOpt target value + breakSeekerFound target condition
        + (targets.filter (fun name => name = target)).length
        + (if default_ = target then 1 else 0)
  | .call _ operands _ => breakSeekerFoundList target operands
  | .callImport _ operands _ => breakSeekerFoundList target operands
  | .callIndirect _ operands callee _ =>
      breakSeekerFoundList target operands + breakSeekerFound target callee
  | .getLocal _ _ => 0
  | .setLocal _ value _ _ => breakSeekerFound target value
  | .getGlobal _ _ => 0
  | .setGlobal _ value _ => breakSeekerFound target value
  | .load _ _ _ _ ptr _ => breakSeekerFound target ptr
  | .store _ _ _ ptr value _ _ => breakSeekerFound target ptr + breakSeekerFound target value
  | .const _ _ => 0
  | .unary _ value _ => breakSeekerFound target value
  | .binary _ left right _ => breakSeekerFound target left + breakSeekerFound target right
  | .select ifTrue ifFalse condition _ =>
      breakSeekerFound target ifTrue + breakSeekerFound target ifFalse
        + breakSeekerFound target condition
  | .return_ value _ => breakSeekerFoundOpt target value
  | .nop => 0
  | .unreachable => 0
/-- The count over the elements of a list. -/
def breakSeekerFoundList (target : IString) : List Expression → Nat
  | [] => 0
  | e :: es => breakSeekerFound target e + breakSeekerFoundList target es
/-- The count in an optional child. -/
def breakSeekerFoundOpt (target : IString) : Option Expression → Nat
  | none => 0
  | some e => breakSeekerFound target e
end

/-- The contents of `breakStack` and `continueStack`. -/
def LabelState.stacks {σ : Type} (st : LabelState σ) : List IString × List IString :=
  (st.breakStack, st.continueStack)

/-- Every completed run of the step from a state whose stacks are `before` ends
in a state whose stacks are `after`. -/
def StacksFromTo {σ α : Type} (before : List IString × List IString) (m : Translate σ α)
    (after : List IString × List IString) : Prop :=
  ∀ (st : LabelState σ) (a : α) (st2 : LabelState σ),
    st.stacks = before → m st = Outcome.ok (a, st2) → st2.stacks = after

/-- The label state at the start of a function with `numLocals` parameters and
variables. -/
def LabelState.initial {σ : Type} (numLocals : Nat) (exprState : σ) : LabelState σ :=
  { nameMapper := UniqueNameMapper.empty, parentLabel := none, breakStack := [],
    continueStack := [], numLocals := numLocals, exprState := exprState }

/-- The translation of the body of a function (line 2560) from the state at the
start of the function. -/
def processBody {σ : Type} (P : StatementEnv σ) (numLocals : Nat) (exprState : σ)
    (body : List Stmt) : Outcome (Expression × LabelState σ) :=
  processStatements P body (LabelState.initial numLocals exprState)

/-- The closing `assert` of line 2583 on the final label state. -/
def stacksEmpty {σ : Type} (st : LabelState σ) : Bool :=
  st.breakStack.length = 0 && st.continueStack.length = 0

/-- An environment for the examples: the expressions are translated by `process`
in `exampleTranslateEnv` (their translation does not read a parent node), a
named block has the type `none`. -/
def exampleStatementEnv : StatementEnv ImportedFunctionTypes where
  expr := fun e types => process exampleTranslateEnv none types e
  blockType := fun _ _ => WasmType.none
  breakCount := breakSeekerFound

/-- The loop `for (f; x; x + 1) { if (x) continue; f; }` over the locals `f` and
`x`. -/
def exampleForLoop : Stmt :=
  .for_ (.name "f") (.name "x") (.binary PLUS (.name "x") (.num 1))
    (.block [.if_ (.name "x") (.continue_ none) none, .expr (.name "f")])

/-- The statements `L: while (x) { if (f) break L; continue; }`,
`do { f; } while (0)`, `do { f; } while (x)`, `K: { f; break K; }`,
`switch (x) { case 0: f; break; default: x; }` and the loop `exampleForLoop`. -/
def exampleBody : List Stmt :=
  [ .label "L" (.while_ (.name "x")
      (.block [.if_ (.name "f") (.break_ (some "L")) none, .continue_ none])),
    .do_ (.num 0) (.block [.expr (.name "f")]),
    .do_ (.name "x") (.block [.expr (.name "f")]),
    .label "K" (.block [.expr (.name "f"), .break_ (some "K")]),
    .switch (.name "x")
      [ .mk (some (Literal.ofInt32 0)) [.expr (.name "f"), .break_ none],
        .mk none [.expr (.name "x")] ],
    exampleForLoop ]

/-- What `exampleForLoop` is translated to: the loop `for-in` whose block
`for-out` holds the exit test, the body (its `continue` is `br for-in`), the
increment and the branch back. -/
def exampleForLoopWasm : Expression :=
  Expression.block ""
    [Expression.getLocal 0 WasmType.i32,
     Expression.loop "for-in"
       (Expression.block "for-out"
         [Expression.if_
            (Expression.unary UnaryOp.EqZInt32 (Expression.getLocal 1 WasmType.i32) WasmType.i32)
            (Expression.break_ "for-out" none none WasmType.unreachable) none WasmType.none,
          Expression.block ""
            [Expression.if_ (Expression.getLocal 1 WasmType.i32)
               (Expression.break_ "for-in" none none WasmType.unreachable) none WasmType.none,
             Expression.getLocal 0 WasmType.i32] WasmType.i32,
          Expression.binary BinaryOp.AddInt32 (Expression.getLocal 1 WasmType.i32)
            (Expression.const ⟨WasmType.i32, 1⟩ WasmType.i32) WasmType.i32,
          Expression.break_ "for-in" none none WasmType.unreachable] WasmType.none)
       WasmType.none] WasmType.none

/-! ## The pass `ApplyDebugInfo` (lines 1304-1340)

A node of the function is identified by its number in the post-order walk, the
count of the nodes visited before it. -/

/-- The name `EMSCRIPTEN_DEBUGINFO` (line 114). -/
def EMSCRIPTEN_DEBUGINFO : IString := "emscripten_debuginfo"

/-- The function `checkDebugInfo` (lines 846-853): the operands of the node when
it is a `CallImport` of `emscripten_debuginfo`. -/
def checkDebugInfo : Expression → Option (List Expression)
  | .callImport target operands _ =>
    if target = EMSCRIPTEN_DEBUGINFO then some operands else none
  | _ => none

/-- Whether a node is a `Const`. -/
def Expression.isConst : Expression → Bool
  | .const _ _ => true
  | _ => false

/-- The value `call->operands[i]->cast<Const>()->value.geti32()` as the `uint32_t`
it is stored in; `none` is a failed `assert`: no such operand, an operand that
is no `Const`, or a literal that is no `i32`. -/
def debugOperand (operands : List Expression) (i : Nat) : Option Nat :=
  match operands[i]? with
  | some (.const value _) =>
    if value.type = WasmType.i32 then some (value.bits % 4294967296) else none
  | _ => none

/-- The state of the pass in one function: the number of nodes visited so far,
the member `lastExpression` as the number of that node, and the map
`debugLocations` of the function as the list of its entries `(node, fileIndex,
lineNumber)`, newest first. -/
structure ApplyState where
  visited : Nat
  lastExpression : Option Nat
  debugLocations : List (Nat × Nat × Nat)
  deriving DecidableEq, Repr

/-- The state when the walk of a function starts. -/
def ApplyState.initial : ApplyState :=
  { visited := 0, lastExpression := none, debugLocations := [] }

/-- The function `visitExpression` (lines 1318-1339) on the node `curr`, in a
module with `fileNames` debug file names: the node that stands in its place
afterwards and the new state; `none` is a failed `assert`. -/
def visitExpression (fileNames : Nat) (curr : Expression) (st : ApplyState) :
    Option (Expression × ApplyState) :=
  match checkDebugInfo curr with
  | some operands =>
    match st.lastExpression with
    | some last =>
      match debugOperand operands 0 with
      | none => none
      | some fileIndex =>
        if fileNames > fileIndex then
          match debugOperand operands 1 with
          | none => none
          | some lineNumber =>
            some (Expression.nop,
              { visited := st.visited + 1, lastExpression := none,
                debugLocations := (last, fileIndex, lineNumber) :: st.debugLocations })
        else none
    | none =>
      some (Expression.nop,
        { visited := st.visited + 1, lastExpression := none,
          debugLocations := st.debugLocations })
  | none =>
    if curr.isConst = true then
      some (curr,
        { visited := st.visited + 1, lastExpression := st.lastExpression,
          debugLocations := st.debugLocations })
    else
      some (curr,
        { visited := st.visited + 1, lastExpression := some st.visited,
          debugLocations := st.debugLocations })

mutual
/-- Modelled from the spec: the post-order walk of the pass over the body of a
function: the children of a node are walked first, in the order of the IR, then
the node itself is visited. -/
def applyDebugInfo (fileNames : Nat) :
    Expression → ApplyState → Option (Expression × ApplyState)
  | .block name list type, st => do
      let r ← applyDebugInfoList fileNames list st
      visitExpression fileNames (.block name r.1 type) r.2
  | .if_ condition ifTrue ifFalse type, st => do
      let c ← applyDebugInfo fileNames condition st
      let t ← applyDebugInfo fileNames ifTrue c.2
      let f ← applyDebugInfoOpt fileNames ifFalse t.2
      visitExpression fileNames (.if_ c.1 t.1 f.1 type) f.2
  | .loop name body type, st => do
      let b ← applyDebugInfo fileNames body st
      visitExpression fileNames (.loop name b.1 type) b.2
  | .break_ name value condition type, st => do
      let v ← applyDebugInfoOpt fileNames value st
      let c ← applyDebugInfoOpt fileNames condition v.2
      visitExpression fileNames (.break_ name v.1 c.1 type) c.2
  | .switch targets default_ condition value type, st => do
      let v ← applyDebugInfoOpt fileNames value st
      let c ← applyDebugInfo fileNames condition v.2
      visitExpression fileNames (.switch targets default_ c.1 v.1 type) c.2
  | .call target operands type, st => do
      let r ← applyDebugInfoList fileNames operands st
      visitExpression fileNames (.call target r.1 type) r.2
  | .callImport target operands type, st => do
      let r ← applyDebugInfoList fileNames operands st
      visitExpression fileNames (.callImport target r.1 type) r.2
  | .callIndirect fullType operands target type, st => do
      let r ← applyDebugInfoList fileNames operands st
      let t ← applyDebugInfo fileNames target r.2
      visitExpression fileNames (.callIndirect fullType r.1 t.1 type) t.2
  | .getLocal index type, st => visitExpression fileNames (.getLocal index type) st
  | .setLocal index value isTee type, st => do
      let v ← applyDebugInfo fileNames value st
      visitExpression fileNames (.setLocal index v.1 isTee type) v.2
  | .getGlobal name type, st => visitExpression fileNames (.getGlobal name type) st
  | .setGlobal name value type, st => do
      let v ← applyDebugInfo fileNames value st
      visitExpression fileNames (.setGlobal name v.1 type) v.2
  | .load bytes signed_ offset align ptr type, st => do
      let p ← applyDebugInfo fileNames ptr st
      visitExpression fileNames (.load bytes signed_ offset align p.1 type) p.2
  | .store bytes offset align ptr value valueType type, st => do
      let p ← applyDebugInfo fileNames ptr st
      let v ← applyDebugInfo fileNames value p.2
      visitExpression fileNames (.store bytes offset align p.1 v.1 valueType type) v.2
  | .const value type, st => visitExpression fileNames (.const value type) st
  | .unary op value type, st => do
      let v ← applyDebugInfo fileNames value st
      visitExpression fileNames (.unary op v.1 type) v.2
  | .binary op left right type, st => do
      let l ← applyDebugInfo fileNames left st
      let r ← applyDebugInfo fileNames right l.2
      visitExpression fileNames (.binary op l.1 r.1 type) r.2
  | .select ifTrue ifFalse condition type, st => do
      let t ← applyDebugInfo fileNames ifTrue st
      let f ← applyDebugInfo fileNames ifFalse t.2
      let c ← applyDebugInfo fileNames condition f.2
      visitExpression fileNames (.select t.1 f.1 c.1 type) c.2
  | .return_ value type, st => do
      let v ← applyDebugInfoOpt fileNames value st
      visitExpression fileNames (.return_ v.1 type) v.2
  | .nop, st => visitExpression fileNames .nop st
  | .unreachable, st => visitExpression fileNames .unreachable st
/-- The walk over a list of children. -/
def applyDebugInfoList (fileNames : Nat) :
    List Expression → ApplyState → Option (List Expression × ApplyState)
  | [], st => some ([], st)
  | e :: es, st => do
      let r ← applyDebugInfo fileNames e st
      let rs ← applyDebugInfoList fileNames es r.2
      pure (r.1 :: rs.1, rs.2)
/-- The walk over an optional child. -/
def applyDebugInfoOpt (fileNames : Nat) :
    Option Expression → ApplyState → Option (Option Expression × ApplyState)
  | none, st => some (none, st)
  | some e, st => do
      let r ← applyDebugInfo fileNames e st
      pure (some r.1, r.2)
end

mutual
/-- The nodes of a tree in the order the walk visits them. -/
def postOrder : Expression → List Expression
  | .block name list type => postOrderList list ++ [.block name list type]
  | .if_ condition ifTrue ifFalse type =>
      postOrder condition ++ postOrder ifTrue ++ postOrderOpt ifFalse
        ++ [.if_ condition ifTrue ifFalse type]
  | .loop name body type => postOrder body ++ [.loop name body type]
  | .break_ name value condition type =>
      postOrderOpt value ++ postOrderOpt condition ++ [.break_ name value condition type]
  | .switch targets default_ condition value type =>
      postOrderOpt value ++ postOrder condition
        ++ [.switch targets default_ condition value type]
  | .call target operands type => postOrderList operands ++ [.call target operands type]
  | .callImport target operands type =>
      postOrderList operands ++ [.callImport target operands type]
  | .callIndirect fullType operands target type =>
      postOrderList operands ++ postOrder target
        ++ [.callIndirect fullType operands target type]
  | .getLocal index type => [.getLocal index type]
  | .setLocal index value isTee type => postOrder value ++ [.setLocal index value isTee type]
  | .getGlobal name type => [.getGlobal name type]
  | .setGlobal name value type => postOrder value ++ [.setGlobal name value type]
  | .load bytes signed_ offset align ptr type =>
      postOrder ptr ++ [.load bytes signed_ offset align ptr type]
  | .store bytes offset align ptr value valueType type =>
      postOrder ptr ++ postOrder value ++ [.store bytes offset align ptr value valueType type]
  | .const value type => [.const value type]
  | .unary op value type => postOrder value ++ [.unary op value type]
  | .binary op left right type =>
      postOrder left ++ postOrder right ++ [.binary op left right type]
  | .select ifTrue ifFalse condition type =>
      postOrder ifTrue ++ postOrder ifFalse ++ postOrder condition
        ++ [.select ifTrue ifFalse condition type]
  | .return_ value type => postOrderOpt value ++ [.return_ value type]
  | .nop => [.nop]
  | .unreachable => [.unreachable]
/-- The nodes of a list of children in the order of the walk. -/
def postOrderList : List Expression → List Expression
  | [] => []
  | e :: es => postOrder e ++ postOrderList es
/-- The nodes of an optional child in the order of the walk. -/
def postOrderOpt : Option Expression → List Expression
  | none => []
  | some e => postOrder e
end

mutual
/-- The tree with every call of `emscripten_debuginfo` replaced by a `Nop`. -/
def nopDebugInfo : Expression → Expression
  | .block name list type => .block name (nopDebugInfoList list) type
  | .if_ condition ifTrue ifFalse type =>
      .if_ (nopDebugInfo condition) (nopDebugInfo ifTrue) (nopDebugInfoOpt ifFalse) type
  | .loop name body type => .loop name (nopDebugInfo body) type
  | .break_ name value condition type =>
      .break_ name (nopDebugInfoOpt value) (nopDebugInfoOpt condition) type
  | .switch targets default_ condition value type =>
      .switch targets default_ (nopDebugInfo condition) (nopDebugInfoOpt value) type
  | .call target operands type => .call target (nopDebugInfoList operands) type
  | .callImport target operands type =>
      if target = EMSCRIPTEN_DEBUGINFO then .nop
      else .callImport target (nopDebugInfoList operands) type
  | .callIndirect fullType operands target type =>
      .callIndirect fullType (nopDebugInfoList operands) (nopDebugInfo target) type
  | .getLocal index type => .getLocal index type
  | .setLocal index value isTee type => .setLocal index (nopDebugInfo value) isTee type
  | .getGlobal name type => .getGlobal name type
  | .setGlobal name value type => .setGlobal name (nopDebugInfo value) type
  | .load bytes signed_ offset align ptr type =>
      .load bytes signed_ offset align (nopDebugInfo ptr) type
  | .store bytes offset align ptr value valueType type =>
      .store bytes offset align (nopDebugInfo ptr) (nopDebugInfo value) valueType type
  | .const value type => .const value type
  | .unary op value type => .unary op (nopDebugInfo value) type
  | .binary op left right type => .binary op (nopDebugInfo left) (nopDebugInfo right) type
  | .select ifTrue ifFalse condition type =>
      .select (nopDebugInfo ifTrue) (nopDebugInfo ifFalse) (nopDebugInfo condition) type
  | .return_ value type => .return_ (nopDebugInfoOpt value) type
  | .nop => .nop
  | .unreachable => .unreachable
/-- The replacement in a list of children. -/
def nopDebugInfoList : List Expression → List Expression
  | [] => []
  | e :: es => nopDebugInfo e :: nopDebugInfoList es
/-- The replacement in an optional child. -/
def nopDebugInfoOpt : Option Expression → Option Expression
  | none => none
  | some e => some (nopDebugInfo e)
end

mutual
/-- The number of calls of `emscripten_debuginfo` in a tree. -/
def debugCalls : Expression → Nat
  | .block _ list _ => debugCallsList list
  | .if_ condition ifTrue ifFalse _ =>
      debugCalls condition + debugCalls ifTrue + debugCallsOpt ifFalse
  | .loop _ body _ => debugCalls body
  | .break_ _ value condition _ => debugCallsOpt value + debugCallsOpt condition
  | .switch _ _ condition value _ => debugCallsOpt value + debugCalls condition
  | .call _ operands _ => debugCallsList operands
  | .callImport target operands _ =>
      debugCallsList operands + (if target = EMSCRIPTEN_DEBUGINFO then 1 else 0)
  | .callIndirect _ operands target _ => debugCallsList operands + debugCalls target
  | .getLocal _ _ => 0
  | .setLocal _ value _ _ => debugCalls value
  | .getGlobal _ _ => 0
  | .setGlobal _ value _ => debugCalls value
  | .load _ _ _ _ ptr _ => debugCalls ptr
  | .store _ _ _ ptr value _ _ => debugCalls ptr + debugCalls value
  | .const _ _ => 0
  | .unary _ value _ => debugCalls value
  | .binary _ left right _ => debugCalls left + debugCalls right
  | .select ifTrue ifFalse condition _ =>
      debugCalls ifTrue + debugCalls ifFalse + debugCalls condition
  | .return_ value _ => debugCallsOpt value
  | .nop => 0
  | .unreachable => 0
/-- The number of such calls in a list of children. -/
def debugCallsList : List Expression → Nat
  | [] => 0
  | e :: es => debugCalls e + debugCallsList es
/-- The number of such calls in an optional child. -/
def debugCallsOpt : Option Expression → Nat
  | none => 0
  | some e => debugCalls e
end

/-- What the visits of the nodes `nodes`, in this order, do to the state. -/
def visitAll (fileNames : Nat) (nodes : List Expression) (st : ApplyState) : Option ApplyState :=
  nodes.foldlM (fun s node => (visitExpression fileNames node s).map Prod.snd) st

/-- The call `emscripten_debuginfo(fileIndex, lineNumber)` as the translator makes
it. -/
def debugInfoCall (fileIndex lineNumber : Nat) : Expression :=
  Expression.callImport EMSCRIPTEN_DEBUGINFO
    [Expression.const ⟨WasmType.i32, fileIndex⟩ WasmType.i32,
     Expression.const ⟨WasmType.i32, lineNumber⟩ WasmType.i32] WasmType.none

/-- A function body that starts with a debug call and has two debug calls in a
row after the statement `x = 1`: `emscripten_debuginfo(0, 5); x = 1;
emscripten_debuginfo(0, 6); emscripten_debuginfo(0, 7);`. -/
def exampleDebugBody : Expression :=
  Expression.block ""
    [debugInfoCall 0 5,
     Expression.setLocal 0 (Expression.const ⟨WasmType.i32, 1⟩ WasmType.i32) false
       WasmType.none,
     debugInfoCall 0 6,
     debugInfoCall 0 7] WasmType.none

/-- Whether the visit of a node cannot fail an `assert` in a module with
`fileNames` debug file names: a debug call has two `i32` constants as first
operands, the first below `fileNames`. -/
def debugCallOk (fileNames : Nat) (x : Expression) : Bool :=
  match checkDebugInfo x with
  | some operands =>
    match debugOperand operands 0, debugOperand operands 1 with
    | some fileIndex, some _ => decide (fileIndex < fileNames)
    | _, _ => false
  | none => true
/-! ## Lemmas on the parameter loop -/

theorem mergeParamAt_getElem? (type previous : List WasmType) (k : Nat)
    (hk : k < type.length) (hlen : k ≤ previous.length) (i : Nat) :
    (mergeParamAt type previous k)[i]? =
      if i = k then joinParam previous[k]? type[k]? else previous[i]? := by
  have ht : type[k]? = some type[k] := List.getElem?_eq_getElem hk
  have htD : type.getD k WasmType.none = type[k] := by
    simp [List.getD, ht]
  unfold mergeParamAt
  by_cases hlt : previous.length > k
  · have hp : previous[k]? = some previous[k] := List.getElem?_eq_getElem hlt
    have hpD : previous.getD k WasmType.none = previous[k] := by
      simp [List.getD, hp]
    rw [if_pos hlt, hpD, htD, hp, ht]
    by_cases h1 : previous[k] = WasmType.none
    · rw [if_pos h1]
      by_cases hik : i = k
      · subst hik; simp [List.getElem?_set, hlt, joinParam, h1]
      · simp [List.getElem?_set, hik, Ne.symm hik]
    · rw [if_neg h1]
      by_cases h2 : previous[k] ≠ type[k]
      · rw [if_pos h2]
        by_cases hik : i = k
        · subst hik; simp [List.getElem?_set, hlt, joinParam, h1, h2]
        · simp [List.getElem?_set, hik, Ne.symm hik]
      · rw [if_neg h2]
        by_cases hik : i = k
        · subst hik; simp [hp, joinParam, h1, h2]
        · simp [hik]
  · have hlen' : previous.length = k := by omega
    have hp : previous[k]? = none := List.getElem?_eq_none (by omega)
    rw [if_neg hlt, htD, hp, ht]
    by_cases hik : i = k
    · subst hik
      simp [List.getElem?_append_right, hlen', joinParam]
    · rw [if_neg hik]
      by_cases hi : i < previous.length
      · simp [List.getElem?_append_left, hi]
      · have : previous.length < i := by omega
        rw [List.getElem?_eq_none (by simp; omega), List.getElem?_eq_none (by omega)]

theorem mergeParamAt_length (type previous : List WasmType) (k : Nat) :
    (mergeParamAt type previous k).length =
      if previous.length > k then previous.length else previous.length + 1 := by
  unfold mergeParamAt
  by_cases hlt : previous.length > k
  · simp only [hlt, if_true]
    split_ifs <;> simp
  · simp [hlt]

theorem foldl_mergeParamAt (type : List WasmType) (previous : List WasmType) :
    ∀ k : Nat, k ≤ type.length →
      ((List.range k).foldl (mergeParamAt type) previous).length = max previous.length k ∧
      ∀ i : Nat, ((List.range k).foldl (mergeParamAt type) previous)[i]? =
        if i < k then joinParam previous[i]? type[i]? else previous[i]? := by
  intro k
  induction k with
  | zero => intro _; simp
  | succ k ih =>
    intro hk
    obtain ⟨ihlen, ihget⟩ := ih (by omega)
    rw [List.range_succ, List.foldl_append]
    simp only [List.foldl_cons, List.foldl_nil]
    constructor
    · rw [mergeParamAt_length, ihlen]
      split_ifs with h <;> omega
    · intro i
      rw [mergeParamAt_getElem? type _ k (by omega) (by rw [ihlen]; omega) i]
      by_cases hik : i = k
      · subst hik
        have := ihget i
        simp only [lt_irrefl, if_false] at this
        simp [this]
      · simp only [hik, if_false, ihget i]
        by_cases hlt : i < k
        · have : i < k + 1 := by omega
          simp [hlt, this]
        · have : ¬ i < k + 1 := by omega
          simp [hlt, this]

theorem mergeParams_getElem? (previous type : List WasmType) (i : Nat) :
    (mergeParams previous type)[i]? = joinParam previous[i]? type[i]? := by
  unfold mergeParams
  rw [(foldl_mergeParamAt type previous type.length le_rfl).2 i]
  by_cases h : i < type.length
  · simp [h]
  · have ht : type[i]? = none := List.getElem?_eq_none (by omega)
    simp only [h, if_false, ht]
    cases previous[i]? <;> rfl

theorem mergeParams_length (previous type : List WasmType) :
    (mergeParams previous type).length = max previous.length type.length :=
  (foldl_mergeParamAt type previous type.length le_rfl).1

/-! ## Lemmas on `noteCall` -/

theorem joinParam_self (p : Option WasmType) : joinParam p p = p := by
  cases p with
  | none => rfl
  | some x => cases x <;> rfl

theorem mergeParams_self (ps : List WasmType) : mergeParams ps ps = ps := by
  apply List.ext_getElem?
  intro i
  rw [mergeParams_getElem?, joinParam_self]

theorem mergeResult_self (r : WasmType) : mergeResult r r = r := by
  cases r <;> rfl

theorem mergeInto_self (p : FunctionType) : mergeInto p p = p := by
  cases p
  simp [mergeInto, mergeParams_self, mergeResult_self]

/-- The comparison `*type != *previous` only skips a merge that would change nothing. -/
theorem noteCall_some (previous type : FunctionType) :
    noteCall (some previous) type = some (mergeInto previous type) := by
  unfold noteCall
  by_cases h : type = previous
  · subst h; simp [mergeInto_self]
  · simp [h]

theorem storedParam_noteCall (s : Option FunctionType) (t : FunctionType) (i : Nat) :
    storedParam (noteCall s t) i = joinParam (storedParam s i) t.params[i]? := by
  cases s with
  | none => simp [noteCall, storedParam, joinParam]
  | some p =>
    rw [noteCall_some]
    simp [storedParam, mergeInto, mergeParams_getElem?]

theorem noteCalls_nil (name : IString) (s : Option FunctionType) :
    noteCalls name s [] = s := rfl

theorem noteCalls_cons (name : IString) (s : Option FunctionType) (o : Observation)
    (sites : List Observation) :
    noteCalls name s (o :: sites) =
      noteCalls name (noteCall s (callSiteType name o.1 o.2)) sites := rfl

theorem noteImportedFunctionCall_same (types : ImportedFunctionTypes) (name : IString)
    (r : WasmType) (ops : List WasmType) :
    noteImportedFunctionCall types name r ops name =
      noteCall (types name) (callSiteType name r ops) := by
  simp [noteImportedFunctionCall]

theorem noteImportedFunctionCall_other (types : ImportedFunctionTypes) (name other : IString)
    (r : WasmType) (ops : List WasmType) (h : other ≠ name) :
    noteImportedFunctionCall types name r ops other = types other := by
  simp [noteImportedFunctionCall, h]

/-- The registry after a list of call sites of one import: the entry of that import
is `noteCalls` of its former state, the other entries are untouched. -/
theorem noteImportedFunctionCalls_apply (name : IString) (sites : List Observation) :
    ∀ (types : ImportedFunctionTypes) (other : IString),
      noteImportedFunctionCalls types name sites other =
        if other = name then noteCalls name (types name) sites else types other := by
  induction sites with
  | nil => intro types other; by_cases h : other = name <;> simp [noteImportedFunctionCalls, noteCalls, h]
  | cons o sites ih =>
    intro types other
    have := ih (noteImportedFunctionCall types name o.1 o.2) other
    simp only [noteImportedFunctionCalls, List.foldl_cons] at this ⊢
    rw [this]
    by_cases h : other = name
    · simp [h, noteCalls, noteImportedFunctionCall_same]
    · simp [h, noteImportedFunctionCall_other]

/-! ## C1, C2: what one call site does to the stored signature -/

/-- C1: recording a call site of an import without a stored signature stores the
call site's parameter types and result type as they are; merging into a stored
signature that differs turns, at every position of the call site, a stored `none`
into the call-site type, a stored type different from the call-site type into
`f64`, keeps a stored type equal to the call-site type, and appends the call-site
type at a position the stored signature lacks; positions beyond the call site's
arity are unchanged. -/
theorem noteImportedFunctionCall_params (types : ImportedFunctionTypes)
    (importName : IString) (resultType : WasmType) (operandTypes : List WasmType) :
    (types importName = none →
      ∃ stored, noteImportedFunctionCall types importName resultType operandTypes importName
          = some stored ∧
        stored.params = operandTypes ∧ stored.result = resultType) ∧
    (∀ previous, types importName = some previous →
      callSiteType importName resultType operandTypes ≠ previous →
      ∃ merged, noteImportedFunctionCall types importName resultType operandTypes importName
          = some merged ∧
        merged.params.length = max previous.params.length operandTypes.length ∧
        ∀ i : Nat,
          (∀ t, operandTypes[i]? = some t →
            (previous.params[i]? = some WasmType.none → merged.params[i]? = some t) ∧
            (∀ p, previous.params[i]? = some p → p ≠ WasmType.none → p ≠ t →
              merged.params[i]? = some WasmType.f64) ∧
            (∀ p, previous.params[i]? = some p → p = t → merged.params[i]? = some p) ∧
            (previous.params[i]? = none → merged.params[i]? = some t ∧
              previous.params.length ≤ i)) ∧
          (operandTypes[i]? = none → merged.params[i]? = previous.params[i]?)) := by
  refine ⟨?_, ?_⟩
  · intro h
    refine ⟨callSiteType importName resultType operandTypes, ?_, rfl, rfl⟩
    rw [noteImportedFunctionCall_same, h]; rfl
  · intro previous h hne
    refine ⟨mergeInto previous (callSiteType importName resultType operandTypes), ?_, ?_, ?_⟩
    · rw [noteImportedFunctionCall_same, h, noteCall_some]
    · simp [mergeInto, mergeParams_length, callSiteType]
    · intro i
      have key : (mergeInto previous (callSiteType importName resultType operandTypes)).params[i]?
          = joinParam previous.params[i]? operandTypes[i]? := by
        simp [mergeInto, mergeParams_getElem?, callSiteType]
      rw [key]
      refine ⟨?_, ?_⟩
      · intro t ht
        rw [ht]
        refine ⟨?_, ?_, ?_, ?_⟩
        · intro hp; rw [hp]; simp [joinParam]
        · intro p hp h1 h2; rw [hp]; simp [joinParam, h1, h2]
        · intro p hp h1; rw [hp]; subst h1; exact joinParam_self (some p)
        · intro hp; rw [hp]
          refine ⟨rfl, ?_⟩
          by_contra hlt
          rw [List.getElem?_eq_getElem (by omega)] at hp
          exact Option.noConfusion hp
      · intro ht
        rw [ht]
        cases previous.params[i]? <;> rfl

/-- C1 at a concrete input: the stored `(none, i32, f32) -> none` merged with the
call site `(i32, i32, f64, f32) -> i32`. -/
theorem noteImportedFunctionCall_params_witness :
    ∃ merged,
      noteImportedFunctionCall
          (fun n => if n = "f" then
            some ⟨"type$f", WasmType.none, [WasmType.none, WasmType.i32, WasmType.f32]⟩ else none)
          "f" WasmType.i32 [WasmType.i32, WasmType.i32, WasmType.f64, WasmType.f32] "f"
        = some merged ∧
      merged.params.length = max 3 4 ∧
      merged.params[0]? = some WasmType.i32 ∧
      merged.params[1]? = some WasmType.i32 ∧
      merged.params[2]? = some WasmType.f64 ∧
      merged.params[3]? = some WasmType.f32 := by
  obtain ⟨merged, h1, h2, h3⟩ :=
    (noteImportedFunctionCall_params
      (fun n => if n = "f" then
        some ⟨"type$f", WasmType.none, [WasmType.none, WasmType.i32, WasmType.f32]⟩ else none)
      "f" WasmType.i32 [WasmType.i32, WasmType.i32, WasmType.f64, WasmType.f32]).2
      ⟨"type$f", WasmType.none, [WasmType.none, WasmType.i32, WasmType.f32]⟩
      (by simp) (by simp [callSiteType])
  refine ⟨merged, h1, h2, ?_, ?_, ?_, ?_⟩
  · exact ((h3 0).1 WasmType.i32 rfl).1 rfl
  · exact ((h3 1).1 WasmType.i32 rfl).2.2.1 WasmType.i32 rfl rfl
  · exact ((h3 2).1 WasmType.f64 rfl).2.1 WasmType.f32 rfl (by decide) (by decide)
  · exact (((h3 3).1 WasmType.f32 rfl).2.2.2 rfl).1

/-- C2: merging a call site into a stored signature makes the stored result the
call site's result when the stored result was `none`, `f64` when stored and
call-site result differ and neither is `none`, and leaves it unchanged otherwise,
in particular when the call-site result is `none`. -/
theorem noteImportedFunctionCall_result (types : ImportedFunctionTypes)
    (importName : IString) (resultType : WasmType) (operandTypes : List WasmType)
    (previous : FunctionType) (hstored : types importName = some previous) :
    ∃ merged, noteImportedFunctionCall types importName resultType operandTypes importName
        = some merged ∧
      (previous.result = WasmType.none → merged.result = resultType) ∧
      (previous.result ≠ WasmType.none → resultType ≠ WasmType.none →
        previous.result ≠ resultType → merged.result = WasmType.f64) ∧
      (previous.result ≠ WasmType.none →
        (resultType = WasmType.none ∨ resultType = previous.result) →
        merged.result = previous.result) := by
  refine ⟨mergeInto previous (callSiteType importName resultType operandTypes), ?_, ?_, ?_, ?_⟩
  · rw [noteImportedFunctionCall_same, hstored, noteCall_some]
  · intro h; simp [mergeInto, mergeResult, callSiteType, h]
  · intro h1 h2 h3; simp [mergeInto, mergeResult, callSiteType, h1, h2, h3]
  · intro h1 h2
    rcases h2 with h2 | h2
    · simp [mergeInto, mergeResult, callSiteType, h1, h2]
    · simp [mergeInto, mergeResult, callSiteType, h1, h2]

/-- C2 at a concrete input: stored result `i32`, call-site result `f32`. -/
theorem noteImportedFunctionCall_result_witness :
    ∃ merged,
      noteImportedFunctionCall
          (fun n => if n = "f" then some ⟨"type$f", WasmType.i32, []⟩ else none)
          "f" WasmType.f32 [] "f" = some merged ∧
      merged.result = WasmType.f64 := by
  obtain ⟨merged, h1, _, h3, _⟩ :=
    noteImportedFunctionCall_result
      (fun n => if n = "f" then some ⟨"type$f", WasmType.i32, []⟩ else none)
      "f" WasmType.f32 [] ⟨"type$f", WasmType.i32, []⟩ (by simp)
  exact ⟨merged, h1, h3 (by decide) (by decide) (by decide)⟩

/-! ## C3: order of the call sites -/

theorem joinParam_comm_of_ne_none (p a b : Option WasmType)
    (ha : a ≠ some WasmType.none) (hb : b ≠ some WasmType.none) :
    joinParam (joinParam p a) b = joinParam (joinParam p b) a := by
  rcases p with _ | p <;> rcases a with _ | a <;> rcases b with _ | b <;>
    first
    | rfl
    | (cases a <;> cases b <;> first | rfl | exact absurd rfl ha | exact absurd rfl hb)
    | (cases p <;> cases a <;> first | rfl | exact absurd rfl ha)
    | (cases p <;> cases b <;> first | rfl | exact absurd rfl hb)
    | (cases p <;> cases a <;> cases b <;>
        first | rfl | exact absurd rfl ha | exact absurd rfl hb)

theorem mergeResult_comm (r a b : WasmType) :
    mergeResult (mergeResult r a) b = mergeResult (mergeResult r b) a := by
  cases r <;> cases a <;> cases b <;> rfl

theorem getElem?_ne_some_of_not_mem (l : List WasmType) (x : WasmType) (h : x ∉ l) (i : Nat) :
    l[i]? ≠ some x := by
  intro hx
  exact h (List.getElem?_mem hx)

theorem FunctionType.ext_params (f g : FunctionType) (hn : f.name = g.name)
    (hr : f.result = g.result) (hp : ∀ i : Nat, f.params[i]? = g.params[i]?) : f = g := by
  cases f; cases g
  simp only [FunctionType.mk.injEq]
  exact ⟨hn, hr, List.ext_getElem? hp⟩

/-- Two call sites whose operands all have a type other than `none` can be
recorded in either order. -/
theorem noteCall_comm (name : IString) (s : Option FunctionType) (x y : Observation)
    (hx : WasmType.none ∉ x.2) (hy : WasmType.none ∉ y.2) :
    noteCall (noteCall s (callSiteType name x.1 x.2)) (callSiteType name y.1 y.2) =
      noteCall (noteCall s (callSiteType name y.1 y.2)) (callSiteType name x.1 x.2) := by
  have hparam : ∀ i : Nat,
      joinParam (joinParam (storedParam s i) x.2[i]?) y.2[i]? =
        joinParam (joinParam (storedParam s i) y.2[i]?) x.2[i]? := fun i =>
    joinParam_comm_of_ne_none _ _ _ (getElem?_ne_some_of_not_mem _ _ hx i)
      (getElem?_ne_some_of_not_mem _ _ hy i)
  cases s with
  | none =>
    simp only [noteCall]
    rw [← noteCall, ← noteCall, noteCall_some, noteCall_some]
    congr 1
    apply FunctionType.ext_params
    · rfl
    · simp only [mergeInto, callSiteType]
      have := mergeResult_comm WasmType.none x.1 y.1
      simpa [mergeResult] using this
    · intro i
      have := hparam i
      simp only [storedParam, joinParam] at this
      simp only [mergeInto, callSiteType, mergeParams_getElem?]
      cases hxi : x.2[i]? <;> cases hyi : y.2[i]? <;> simp only [hxi, hyi] at this ⊢ <;>
        first | rfl | exact this
  | some p =>
    rw [noteCall_some, noteCall_some, noteCall_some, noteCall_some]
    congr 1
    apply FunctionType.ext_params
    · rfl
    · simp only [mergeInto, callSiteType]
      exact mergeResult_comm _ _ _
    · intro i
      have := hparam i
      simp only [storedParam] at this
      simp only [mergeInto, callSiteType, mergeParams_getElem?]
      exact this

/-- C3 fails as stated: the call sites `f(<i32>)` and `f(<none>)` give the
parameter `f64` in one order and `i32` in the other, so the stored signature
depends on the order of the observations when an operand type is `none`. -/
theorem noteImportedFunctionCalls_order_dependent :
    ¬ (∀ (types : ImportedFunctionTypes) (importName : IString)
        (sites sites2 : List Observation), sites.Perm sites2 →
        noteImportedFunctionCalls types importName sites =
          noteImportedFunctionCalls types importName sites2) := by
  intro h
  have hperm : List.Perm
      [((WasmType.none, [WasmType.i32]) : Observation), (WasmType.none, [WasmType.none])]
      [(WasmType.none, [WasmType.none]), (WasmType.none, [WasmType.i32])] :=
    List.Perm.swap _ _ _
  have h2 := congrFun (h (fun _ => none) "f" _ _ hperm) "f"
  rw [noteImportedFunctionCalls_apply, noteImportedFunctionCalls_apply] at h2
  simp only [if_true] at h2
  revert h2
  decide

/-- C3 (amended): when no operand of an observed call site has type `none`
(result types may be `none`), feeding the observations one by one yields the same
registry for every permutation of the list. -/
theorem noteImportedFunctionCalls_perm (types : ImportedFunctionTypes)
    (importName : IString) (sites sites2 : List Observation)
    (hperm : sites.Perm sites2) (hops : ∀ o ∈ sites, WasmType.none ∉ o.2) :
    noteImportedFunctionCalls types importName sites =
      noteImportedFunctionCalls types importName sites2 := by
  unfold noteImportedFunctionCalls
  refine List.Perm.foldl_eq' hperm ?_ types
  intro x hx y hy m
  funext other
  by_cases h : other = importName
  · subst h
    rw [noteImportedFunctionCall_same, noteImportedFunctionCall_same,
      noteImportedFunctionCall_same, noteImportedFunctionCall_same]
    exact noteCall_comm other (m other) x y (hops x hx) (hops y hy)
  · rw [noteImportedFunctionCall_other _ _ _ _ _ h, noteImportedFunctionCall_other _ _ _ _ _ h,
      noteImportedFunctionCall_other _ _ _ _ _ h, noteImportedFunctionCall_other _ _ _ _ _ h]

/-- C3 (amended) at a concrete input: three call sites in two orders. -/
theorem noteImportedFunctionCalls_perm_witness :
    noteImportedFunctionCalls (fun _ => none) "f"
        [(WasmType.i32, [WasmType.i32]), (WasmType.none, [WasmType.f32, WasmType.f64]),
          (WasmType.f32, [])] =
      noteImportedFunctionCalls (fun _ => none) "f"
        [(WasmType.none, [WasmType.f32, WasmType.f64]), (WasmType.i32, [WasmType.i32]),
          (WasmType.f32, [])] :=
  noteImportedFunctionCalls_perm (fun _ => none) "f" _ _ (List.Perm.swap _ _ _)
    (by decide)

/-! ## C4: observed positions after concrete call sites -/

theorem storedParam_noteCalls (name : IString) (i : Nat) (sites : List Observation) :
    ∀ s : Option FunctionType,
      storedParam (noteCalls name s sites) i =
        (sites.map (fun o => o.2[i]?)).foldl joinParam (storedParam s i) := by
  induction sites with
  | nil => intro s; rfl
  | cons o sites ih =>
    intro s
    rw [noteCalls_cons, ih, storedParam_noteCall]
    rfl

theorem JoinInv_step (acc : Option WasmType) (seen : List (Option WasmType))
    (t : Option WasmType) (hinv : JoinInv acc seen)
    (ht : ∀ x, t = some x → x.isConcrete = true) :
    JoinInv (joinParam acc t) (seen ++ [t]) := by
  cases t with
  | none =>
    cases acc with
    | none =>
      simp only [joinParam, JoinInv] at hinv ⊢
      intro u hu
      rcases List.mem_append.1 hu with hu | hu
      · exact hinv u hu
      · simpa using hu
    | some p =>
      simp only [joinParam, JoinInv] at hinv ⊢
      refine ⟨hinv.1, ?_⟩
      rcases hinv.2 with ⟨hmem, hall⟩ | ⟨hp, x, y, hx, hy, hxy⟩
      · left
        refine ⟨List.mem_append_left _ hmem, ?_⟩
        intro x hx
        rcases List.mem_append.1 hx with hx | hx
        · exact hall x hx
        · simp at hx
      · right
        exact ⟨hp, x, y, List.mem_append_left _ hx, List.mem_append_left _ hy, hxy⟩
  | some t =>
    have htc := ht t rfl
    cases acc with
    | none =>
      simp only [joinParam, JoinInv] at hinv ⊢
      refine ⟨htc, Or.inl ⟨by simp, ?_⟩⟩
      intro x hx
      rcases List.mem_append.1 hx with hx | hx
      · exact absurd (hinv _ hx) (by simp)
      · simpa using hx
    | some p =>
      simp only [JoinInv] at hinv
      obtain ⟨hpc, hcase⟩ := hinv
      have hpn : p ≠ WasmType.none := by
        intro h; subst h; exact absurd hpc (by decide)
      by_cases hpt : p = t
      · subst hpt
        have hj : joinParam (some p) (some p) = some p := joinParam_self _
        rw [hj]
        simp only [JoinInv]
        refine ⟨hpc, ?_⟩
        rcases hcase with ⟨hmem, hall⟩ | ⟨hp, x, y, hx, hy, hxy⟩
        · left
          refine ⟨List.mem_append_left _ hmem, ?_⟩
          intro x hx
          rcases List.mem_append.1 hx with hx | hx
          · exact hall x hx
          · simpa using hx
        · right
          exact ⟨hp, x, y, List.mem_append_left _ hx, List.mem_append_left _ hy, hxy⟩
      · have hj : joinParam (some p) (some t) = some WasmType.f64 := by
          simp [joinParam, hpn, hpt]
        rw [hj]
        simp only [JoinInv]
        refine ⟨by decide, Or.inr ⟨trivial, ?_⟩⟩
        rcases hcase with ⟨hmem, _⟩ | ⟨_, x, y, hx, hy, hxy⟩
        · exact ⟨p, t, List.mem_append_left _ hmem, by simp, hpt⟩
        · exact ⟨x, y, List.mem_append_left _ hx, List.mem_append_left _ hy, hxy⟩

theorem JoinInv_foldl (ts : List (Option WasmType))
    (hts : ∀ t ∈ ts, ∀ x, t = some x → x.isConcrete = true) :
    ∀ (acc : Option WasmType) (seen : List (Option WasmType)), JoinInv acc seen →
      JoinInv (ts.foldl joinParam acc) (seen ++ ts) := by
  induction ts with
  | nil => intro acc seen h; simpa using h
  | cons t ts ih =>
    intro acc seen h
    have h1 := JoinInv_step acc seen t h (hts t (by simp))
    have h2 := ih (fun u hu => hts u (List.mem_cons_of_mem _ hu)) _ _ h1
    simpa using h2

/-- C4: after any sequence of call sites of one import whose operand types are
all concrete (`i32`, `f32` or `f64`), every parameter position observed by some
site is stored with a type that is not `none`: the operand type shared by all
sites that observed the position, or `f64` when two of them disagree; hence at
every observed site and position the operand type equals the stored parameter
type or the stored parameter type is `f64`. -/
theorem noteImportedFunctionCalls_observed (types : ImportedFunctionTypes)
    (importName : IString) (hfresh : types importName = none) (sites : List Observation)
    (hconcrete : ∀ o ∈ sites, ∀ t ∈ o.2, t.isConcrete = true)
    (o : Observation) (ho : o ∈ sites) (i : Nat) (t : WasmType) (hobs : o.2[i]? = some t) :
    ∃ sig p, noteImportedFunctionCalls types importName sites importName = some sig ∧
      sig.params[i]? = some p ∧ p ≠ WasmType.none ∧
      (t = p ∨ p = WasmType.f64) ∧
      ((∀ o2 ∈ sites, ∀ t2, o2.2[i]? = some t2 → t2 = t) → p = t) ∧
      ((∃ o1 ∈ sites, ∃ o2 ∈ sites, ∃ t1 t2,
          o1.2[i]? = some t1 ∧ o2.2[i]? = some t2 ∧ t1 ≠ t2) → p = WasmType.f64) := by
  have hinv : JoinInv (storedParam (noteCalls importName none sites) i)
      ([] ++ sites.map (fun o => o.2[i]?)) := by
    rw [storedParam_noteCalls]
    refine JoinInv_foldl _ ?_ _ _ ?_
    · intro u hu x hx
      obtain ⟨o2, ho2, rfl⟩ := List.mem_map.1 hu
      exact hconcrete o2 ho2 x (List.getElem?_mem hx)
    · intro u hu; simp at hu
  rw [List.nil_append] at hinv
  have hmem : some t ∈ sites.map (fun o => o.2[i]?) :=
    List.mem_map.2 ⟨o, ho, hobs⟩
  rw [noteImportedFunctionCalls_apply, if_pos rfl, hfresh]
  cases hs : noteCalls importName none sites with
  | none =>
    rw [hs] at hinv
    simp only [storedParam, JoinInv] at hinv
    exact absurd (hinv _ hmem) (by simp)
  | some sig =>
    rw [hs] at hinv
    simp only [storedParam] at hinv
    cases hp : sig.params[i]? with
    | none =>
      rw [hp] at hinv
      simp only [JoinInv] at hinv
      exact absurd (hinv _ hmem) (by simp)
    | some p =>
      rw [hp] at hinv
      simp only [JoinInv] at hinv
      obtain ⟨hpc, hcase⟩ := hinv
      have hpn : p ≠ WasmType.none := by
        intro h; subst h; exact absurd hpc (by decide)
      have hmem_of : ∀ o2 ∈ sites, ∀ t2, o2.2[i]? = some t2 →
          some t2 ∈ sites.map (fun o => o.2[i]?) := fun o2 ho2 t2 h2 =>
        List.mem_map.2 ⟨o2, ho2, h2⟩
      have hor : ∀ x, some x ∈ sites.map (fun o => o.2[i]?) → x = p ∨ p = WasmType.f64 := by
        intro x hx
        rcases hcase with ⟨_, hall⟩ | ⟨hp64, _⟩
        · exact Or.inl (hall x hx)
        · exact Or.inr hp64
      refine ⟨sig, p, rfl, hp, hpn, hor t hmem, ?_, ?_⟩
      · intro hall
        rcases hcase with ⟨hpmem, _⟩ | ⟨_, x, y, hx, hy, hxy⟩
        · obtain ⟨o2, ho2, h2⟩ := List.mem_map.1 hpmem
          exact hall o2 ho2 p h2
        · obtain ⟨o1, ho1, h1⟩ := List.mem_map.1 hx
          obtain ⟨o2, ho2, h2⟩ := List.mem_map.1 hy
          exact absurd ((hall o1 ho1 x h1).trans (hall o2 ho2 y h2).symm) hxy
      · rintro ⟨o1, ho1, o2, ho2, t1, t2, h1, h2, hne⟩
        rcases hor t1 (hmem_of o1 ho1 t1 h1) with e1 | e1
        · rcases hor t2 (hmem_of o2 ho2 t2 h2) with e2 | e2
          · exact absurd (e1.trans e2.symm) hne
          · exact e2
        · exact e1

/-- C4 at a concrete input: position 0 is observed as `i32` and as `f32`. -/
theorem noteImportedFunctionCalls_observed_witness :
    ∃ sig p,
      noteImportedFunctionCalls (fun _ => none) "f"
          [(WasmType.i32, [WasmType.i32, WasmType.f64]), (WasmType.none, [WasmType.f32])] "f"
        = some sig ∧
      sig.params[0]? = some p ∧ p ≠ WasmType.none ∧
      (WasmType.f32 = p ∨ p = WasmType.f64) ∧
      ((∀ o2 ∈ [((WasmType.i32, [WasmType.i32, WasmType.f64]) : Observation),
            (WasmType.none, [WasmType.f32])],
          ∀ t2, o2.2[0]? = some t2 → t2 = WasmType.f32) → p = WasmType.f32) ∧
      ((∃ o1 ∈ [((WasmType.i32, [WasmType.i32, WasmType.f64]) : Observation),
            (WasmType.none, [WasmType.f32])],
          ∃ o2 ∈ [((WasmType.i32, [WasmType.i32, WasmType.f64]) : Observation),
            (WasmType.none, [WasmType.f32])],
          ∃ t1 t2, o1.2[0]? = some t1 ∧ o2.2[0]? = some t2 ∧ t1 ≠ t2) → p = WasmType.f64) :=
  noteImportedFunctionCalls_observed (fun _ => none) "f" rfl
    [(WasmType.i32, [WasmType.i32, WasmType.f64]), (WasmType.none, [WasmType.f32])]
    (by decide) (WasmType.none, [WasmType.f32]) (by simp) 0 WasmType.f32 rfl

/-! ## C5: merging is one-way -/

theorem WasmType.widensTo_refl (p : WasmType) : p.widensTo p := Or.inl rfl

theorem WasmType.widensTo_trans {p q r : WasmType} (h1 : p.widensTo q) (h2 : q.widensTo r) :
    p.widensTo r := by
  unfold WasmType.widensTo at *
  rcases h1 with h1 | h1 | h1
  · subst h1; exact h2
  · exact Or.inr (Or.inl h1)
  · subst h1
    rcases h2 with h2 | h2 | h2
    · exact Or.inr (Or.inr h2)
    · exact absurd h2 (by decide)
    · exact Or.inr (Or.inr h2)

theorem FunctionType.signature_widensTo_refl (f : FunctionType) : f.widensTo f :=
  ⟨le_rfl, fun _ p hp => ⟨p, hp, WasmType.widensTo_refl p⟩, WasmType.widensTo_refl _⟩

theorem FunctionType.signature_widensTo_trans {f g h : FunctionType} (h1 : f.widensTo g)
    (h2 : g.widensTo h) : f.widensTo h := by
  obtain ⟨l1, p1, r1⟩ := h1
  obtain ⟨l2, p2, r2⟩ := h2
  refine ⟨le_trans l1 l2, ?_, WasmType.widensTo_trans r1 r2⟩
  intro i p hp
  obtain ⟨q, hq, hpq⟩ := p1 i p hp
  obtain ⟨r, hr, hqr⟩ := p2 i q hq
  exact ⟨r, hr, WasmType.widensTo_trans hpq hqr⟩

theorem joinParam_widens (p : WasmType) (t : Option WasmType) :
    ∃ q, joinParam (some p) t = some q ∧ p.widensTo q := by
  cases t with
  | none => exact ⟨p, rfl, Or.inl rfl⟩
  | some t =>
    by_cases h1 : p = WasmType.none
    · exact ⟨t, by simp [joinParam, h1], Or.inr (Or.inl h1)⟩
    · by_cases h2 : p = t
      · exact ⟨p, by simp [joinParam, h1, h2], Or.inl rfl⟩
      · exact ⟨WasmType.f64, by simp [joinParam, h1, h2], Or.inr (Or.inr rfl)⟩

theorem mergeResult_widens (r t : WasmType) : r.widensTo (mergeResult r t) := by
  cases r <;> cases t <;> simp [mergeResult, WasmType.widensTo]

theorem mergeInto_widens (previous type : FunctionType) :
    previous.widensTo (mergeInto previous type) := by
  refine ⟨?_, ?_, ?_⟩
  · simp [mergeInto, mergeParams_length]
  · intro i p hp
    obtain ⟨q, hq, hpq⟩ := joinParam_widens p type.params[i]?
    refine ⟨q, ?_, hpq⟩
    simp only [mergeInto, mergeParams_getElem?, hp, hq]
  · exact mergeResult_widens _ _

theorem noteCalls_widens (name : IString) (sites : List Observation) :
    ∀ previous : FunctionType,
      ∃ later, noteCalls name (some previous) sites = some later ∧ previous.widensTo later := by
  induction sites with
  | nil => intro previous; exact ⟨previous, rfl, FunctionType.signature_widensTo_refl _⟩
  | cons o sites ih =>
    intro previous
    rw [noteCalls_cons, noteCall_some]
    obtain ⟨later, hl, hw⟩ := ih (mergeInto previous (callSiteType name o.1 o.2))
    exact ⟨later, hl, FunctionType.signature_widensTo_trans (mergeInto_widens _ _) hw⟩

/-- C5: across any sequence of call sites of one import the entry stays, its
number of parameters never decreases, a parameter or result that is `f64` stays
`f64`, one that is not `none` never becomes `none`, and each of them only stays,
is learned from `none`, or widens to `f64`. -/
theorem noteImportedFunctionCalls_one_way (types : ImportedFunctionTypes)
    (importName : IString) (previous : FunctionType)
    (hstored : types importName = some previous) (sites : List Observation) :
    ∃ later, noteImportedFunctionCalls types importName sites importName = some later ∧
      previous.params.length ≤ later.params.length ∧
      (∀ (i : Nat) (p : WasmType), previous.params[i]? = some p →
        ∃ q, later.params[i]? = some q ∧
          (p = WasmType.f64 → q = WasmType.f64) ∧
          (p ≠ WasmType.none → q ≠ WasmType.none) ∧
          (q = p ∨ p = WasmType.none ∨ q = WasmType.f64)) ∧
      (previous.result = WasmType.f64 → later.result = WasmType.f64) ∧
      (previous.result ≠ WasmType.none → later.result ≠ WasmType.none) ∧
      (later.result = previous.result ∨ previous.result = WasmType.none ∨
        later.result = WasmType.f64) := by
  have hf64 : ∀ p q : WasmType, p.widensTo q → p = WasmType.f64 → q = WasmType.f64 := by
    intro p q h hp
    subst hp
    rcases h with h | h | h
    · exact h
    · exact absurd h (by decide)
    · exact h
  have hnone : ∀ p q : WasmType, p.widensTo q → p ≠ WasmType.none → q ≠ WasmType.none := by
    intro p q h hp hq
    subst hq
    rcases h with h | h | h
    · exact hp h.symm
    · exact hp h
    · exact absurd h (by decide)
  obtain ⟨later, hl, hlen, hpar, hres⟩ := noteCalls_widens importName sites previous
  refine ⟨later, ?_, hlen, ?_, hf64 _ _ hres, hnone _ _ hres, hres⟩
  · rw [noteImportedFunctionCalls_apply, if_pos rfl, hstored, hl]
  · intro i p hp
    obtain ⟨q, hq, hpq⟩ := hpar i p hp
    exact ⟨q, hq, hf64 _ _ hpq, hnone _ _ hpq, hpq⟩

/-- C5 at a concrete input: a stored `(f64, i32, none) -> i32` and two more sites. -/
theorem noteImportedFunctionCalls_one_way_witness :
    ∃ later,
      noteImportedFunctionCalls
          (fun n => if n = "f" then
            some ⟨"type$f", WasmType.i32, [WasmType.f64, WasmType.i32, WasmType.none]⟩
          else none)
          "f" [(WasmType.none, [WasmType.i32]), (WasmType.f32, [WasmType.none, WasmType.f32])] "f"
        = some later ∧
      3 ≤ later.params.length ∧
      later.params[0]? = some WasmType.f64 ∧
      later.result ≠ WasmType.none := by
  obtain ⟨later, h1, h2, h3, _, h5, _⟩ :=
    noteImportedFunctionCalls_one_way
      (fun n => if n = "f" then
        some ⟨"type$f", WasmType.i32, [WasmType.f64, WasmType.i32, WasmType.none]⟩
      else none)
      "f" ⟨"type$f", WasmType.i32, [WasmType.f64, WasmType.i32, WasmType.none]⟩ (by simp)
      [(WasmType.none, [WasmType.i32]), (WasmType.f32, [WasmType.none, WasmType.f32])]
  obtain ⟨q, hq, hq64, _, _⟩ := h3 0 WasmType.f64 rfl
  refine ⟨later, h1, h2, ?_, h5 (by decide)⟩
  rw [hq, hq64 rfl]

/-! ## The operand loop of `visitCallImport` -/

theorem visitCallImportOperandAt_append (pre : List WasmType) (p : WasmType)
    (ps : List WasmType) (done : List Expression) (hlen : done.length = pre.length)
    (os : List Expression) :
    visitCallImportOperandAt (pre ++ p :: ps) (done ++ os) pre.length =
      match os with
      | [] => some (done ++ [zeroConst p])
      | o :: rest => (fixOperand p o).map (fun o2 => done ++ o2 :: rest) := by
  have hp : (pre ++ p :: ps).getD pre.length WasmType.none = p := by
    rw [List.getD_eq_getElem?_getD, List.getElem?_append_right (le_refl _)]
    simp
  unfold visitCallImportOperandAt
  rw [hp]
  cases os with
  | nil =>
    simp [hlen, zeroConst, Literal.default]
  | cons o rest =>
    have hlt : ¬ (pre.length ≥ (done ++ o :: rest).length) := by
      simp [hlen]
    have hget : (done ++ o :: rest)[pre.length]? = some o := by
      rw [← hlen, List.getElem?_append_right (le_refl _)]
      simp
    rw [if_neg hlt, hget]
    simp only [fixOperand]
    have hset : ∀ x : Expression, (done ++ o :: rest).set pre.length x = done ++ x :: rest := by
      intro x
      rw [← hlen]; simp
    by_cases h1 : o.type ≠ p
    · rw [if_pos h1, if_pos h1]
      by_cases h2 : p = WasmType.f64 ∨ o.type = WasmType.unreachable
      · rw [if_pos h2, if_pos h2]
        cases ht : o.type <;> simp [hset]
      · rw [if_neg h2, if_neg h2]; rfl
    · rw [if_neg h1, if_neg h1]; rfl

theorem foldlM_visitCallImportOperandAt (ps : List WasmType) :
    ∀ (pre : List WasmType) (done os : List Expression), done.length = pre.length →
      (List.range' pre.length ps.length).foldlM
          (visitCallImportOperandAt (pre ++ ps)) (done ++ os) =
        (fixOperands ps os).map (fun rest => done ++ rest) := by
  induction ps with
  | nil => intro pre done os _; simp [fixOperands]
  | cons p ps ih =>
    intro pre done os hlen
    simp only [List.length_cons, List.range'_succ, List.foldlM_cons]
    rw [visitCallImportOperandAt_append pre p ps done hlen os]
    have hpre : pre ++ p :: ps = (pre ++ [p]) ++ ps := by simp
    have hl : pre.length + 1 = (pre ++ [p]).length := by simp
    cases os with
    | nil =>
      simp only [Option.bind_eq_bind, Option.some_bind]
      have := ih (pre ++ [p]) (done ++ [zeroConst p]) [] (by simp [hlen])
      rw [hpre, hl]
      simp only [List.append_nil] at this
      rw [this]
      simp only [fixOperands]
      cases fixOperands ps [] <;> simp
    | cons o rest =>
      simp only [fixOperands]
      cases hf : fixOperand p o with
      | none => simp
      | some o2 =>
        simp only [Option.map_some', Option.bind_eq_bind, Option.some_bind]
        have := ih (pre ++ [p]) (done ++ [o2]) rest (by simp [hlen])
        rw [hl]
        simp only [List.append_assoc, List.singleton_append] at this
        rw [this]
        cases fixOperands ps rest <;> simp

/-- The indexed operand loop of the source is the position-by-position `fixOperands`. -/
theorem visitCallImportOperands_eq (params : List WasmType) (operands : List Expression) :
    visitCallImportOperands params operands = fixOperands params operands := by
  have := foldlM_visitCallImportOperandAt params [] [] operands rfl
  simp only [List.nil_append, List.length_nil] at this
  unfold visitCallImportOperands
  rw [List.range_eq_range', this]
  cases fixOperands params operands <;> simp

theorem fixOperands_nil_right (ps : List WasmType) :
    fixOperands ps [] = some (ps.map zeroConst) := by
  induction ps with
  | nil => rfl
  | cons p ps ih => simp [fixOperands, ih]

theorem fixOperands_length : ∀ (ps : List WasmType) (os os2 : List Expression),
    fixOperands ps os = some os2 → os2.length = max ps.length os.length := by
  intro ps
  induction ps with
  | nil => intro os os2 h; simp [fixOperands] at h; subst h; simp
  | cons p ps ih =>
    intro os os2 h
    cases os with
    | nil =>
      rw [fixOperands_nil_right] at h
      simp at h; subst h; simp
    | cons o os =>
      simp only [fixOperands] at h
      cases hf : fixOperand p o with
      | none => simp [hf] at h
      | some o2 =>
        simp only [hf] at h
        cases hr : fixOperands ps os with
        | none => simp [hr] at h
        | some rest =>
          simp [hr] at h; subst h
          simp only [List.length_cons, ih os rest hr]
          omega

theorem fixOperands_getElem? : ∀ (ps : List WasmType) (os os2 : List Expression),
    fixOperands ps os = some os2 → ∀ i : Nat, os2[i]? = fixAt ps[i]? os[i]? := by
  intro ps
  induction ps with
  | nil =>
    intro os os2 h i
    simp [fixOperands] at h; subst h
    simp [fixAt]
  | cons p ps ih =>
    intro os os2 h i
    cases os with
    | nil =>
      rw [fixOperands_nil_right] at h
      simp at h; subst h
      cases i with
      | zero => simp [fixAt]
      | succ i =>
        simp only [List.map_cons, List.getElem?_cons_succ, List.getElem?_nil, List.getElem?_map]
        cases ps[i]? <;> simp [fixAt]
    | cons o os =>
      simp only [fixOperands] at h
      cases hf : fixOperand p o with
      | none => simp [hf] at h
      | some o2 =>
        simp only [hf] at h
        cases hr : fixOperands ps os with
        | none => simp [hr] at h
        | some rest =>
          simp [hr] at h; subst h
          cases i with
          | zero => simp [fixAt, hf]
          | succ i =>
            simp only [List.getElem?_cons_succ]
            exact ih os rest hr i

theorem fixOperands_isSome : ∀ (ps : List WasmType) (os : List Expression),
    (∀ (i : Nat) (p : WasmType) (o : Expression), ps[i]? = some p → os[i]? = some o →
      (fixOperand p o).isSome) →
    ∃ os2, fixOperands ps os = some os2 := by
  intro ps
  induction ps with
  | nil => intro os _; exact ⟨os, rfl⟩
  | cons p ps ih =>
    intro os h
    cases os with
    | nil => exact ⟨_, fixOperands_nil_right _⟩
    | cons o os =>
      have h0 := h 0 p o (by simp) (by simp)
      obtain ⟨o2, ho2⟩ := Option.isSome_iff_exists.1 h0
      obtain ⟨rest, hrest⟩ := ih os (fun i q x hq hx => h (i + 1) q x (by simpa using hq) (by simpa using hx))
      exact ⟨o2 :: rest, by simp [fixOperands, ho2, hrest]⟩

theorem fixOperand_cases (p : WasmType) (o o2 : Expression) (h : fixOperand p o = some o2) :
    (o.type = p ∧ o2 = o) ∨
    (o.type ≠ p ∧ (p = WasmType.f64 ∨ o.type = WasmType.unreachable) ∧
      ((o.type = WasmType.i32 ∧ o2 = makeUnary UnaryOp.ConvertSInt32ToFloat64 o) ∨
       (o.type = WasmType.f32 ∧ o2 = makeUnary UnaryOp.PromoteFloat32 o) ∨
       (o.type ≠ WasmType.i32 ∧ o.type ≠ WasmType.f32 ∧ o2 = o))) := by
  unfold fixOperand at h
  by_cases h1 : o.type ≠ p
  · rw [if_pos h1] at h
    by_cases h2 : p = WasmType.f64 ∨ o.type = WasmType.unreachable
    · rw [if_pos h2] at h
      right
      refine ⟨h1, h2, ?_⟩
      cases ht : o.type <;> simp only [ht] at h <;> simp at h <;> simp [h]
    · rw [if_neg h2] at h; exact absurd h (by simp)
  · rw [if_neg h1] at h
    left
    simp at h
    exact ⟨not_not.1 h1, h.symm⟩

theorem fixOperand_isSome (p : WasmType) (o : Expression)
    (h : o.type ≠ p → p = WasmType.f64 ∨ o.type = WasmType.unreachable) :
    (fixOperand p o).isSome := by
  unfold fixOperand
  by_cases h1 : o.type ≠ p
  · rw [if_pos h1, if_pos (h h1)]
    cases o.type <;> rfl
  · rw [if_neg h1]; rfl

theorem makeUnary_type_of_ne (op : UnaryOp) (o : Expression)
    (h : o.type ≠ WasmType.unreachable) : (makeUnary op o).type = op.resultType := by
  unfold makeUnary
  rw [if_neg h]
  rfl

/-! ## C6, C7, C8: `visitCallImport` -/

theorem visitCallImport_of_sig (env : FinalizeEnv) (target : IString)
    (operands : List Expression) (type : WasmType) (sig : FunctionType)
    (hsig : env.importedFunctionTypes target = some sig) (result : Expression)
    (h : visitCallImport env target operands type = some result) :
    ∃ operands2 importResult,
      visitCallImportOperands sig.params operands = some operands2 ∧
      env.importResult target = some importResult ∧
      visitCallImportResult importResult target operands2 type = some result := by
  unfold visitCallImport at h
  rw [hsig] at h
  simp only at h
  cases h1 : visitCallImportOperands sig.params operands with
  | none => rw [h1] at h; exact absurd h (by simp)
  | some operands2 =>
    rw [h1] at h
    simp only at h
    cases h2 : env.importResult target with
    | none => rw [h2] at h; exact absurd h (by simp)
    | some importResult =>
      rw [h2] at h
      exact ⟨operands2, importResult, rfl, rfl, h⟩

theorem visitCallImportResult_cases (importResult : WasmType) (target : IString)
    (operands : List Expression) (type : WasmType) (result : Expression)
    (h : visitCallImportResult importResult target operands type = some result) :
    (type = importResult ∧ result = Expression.callImport target operands type) ∨
    (type ≠ importResult ∧ importResult = WasmType.f64 ∧ type = WasmType.i32 ∧
      result = Expression.unary UnaryOp.TruncSFloat64ToInt32
        (Expression.callImport target operands importResult) WasmType.i32) ∨
    (type ≠ importResult ∧ importResult = WasmType.f64 ∧ type = WasmType.f32 ∧
      result = Expression.unary UnaryOp.DemoteFloat64
        (Expression.callImport target operands importResult) WasmType.f32) ∨
    (type ≠ importResult ∧ type = WasmType.none ∧
      result = Expression.callImport target operands importResult) := by
  unfold visitCallImportResult at h
  by_cases h1 : type ≠ importResult
  · rw [if_pos h1] at h
    by_cases h2 : importResult = WasmType.f64
    · rw [if_pos h2] at h
      cases type with
      | i32 =>
        simp only [makeUnary, Expression.type, Option.some.injEq] at h
        right; left
        refine ⟨h1, h2, rfl, ?_⟩
        rw [← h]; simp [UnaryOp.resultType]
      | f32 =>
        simp only [makeUnary, Expression.type, Option.some.injEq] at h
        right; right; left
        refine ⟨h1, h2, rfl, ?_⟩
        rw [← h]; simp [UnaryOp.resultType]
      | none =>
        simp only [Option.some.injEq] at h
        right; right; right
        exact ⟨h1, rfl, h.symm⟩
      | i64 => simp at h
      | f64 => simp at h
      | unreachable => simp at h
    · rw [if_neg h2] at h
      by_cases h3 : type = WasmType.none
      · rw [if_pos h3] at h
        simp only [Option.some.injEq] at h
        right; right; right
        exact ⟨h1, h3, h.symm⟩
      · rw [if_neg h3] at h; exact absurd h (by simp)
  · rw [if_neg h1] at h
    simp only [Option.some.injEq] at h
    left
    exact ⟨not_not.1 h1, h.symm⟩

theorem visitCallImportResult_isSome (importResult : WasmType) (target : IString)
    (operands : List Expression) (type : WasmType)
    (h : type = importResult ∨ type = WasmType.none ∨
      (importResult = WasmType.f64 ∧ (type = WasmType.i32 ∨ type = WasmType.f32))) :
    ∃ result, visitCallImportResult importResult target operands type = some result := by
  unfold visitCallImportResult
  by_cases h1 : type ≠ importResult
  · rw [if_pos h1]
    rcases h with h | h | ⟨h, h2 | h2⟩
    · exact absurd h h1
    · subst h
      by_cases h2 : importResult = WasmType.f64
      · rw [if_pos h2]; exact ⟨_, rfl⟩
      · rw [if_neg h2, if_pos rfl]; exact ⟨_, rfl⟩
    · subst h2; rw [if_pos h]; exact ⟨_, rfl⟩
    · subst h2; rw [if_pos h]; exact ⟨_, rfl⟩
  · rw [if_neg h1]; exact ⟨_, rfl⟩

theorem visitCallImport_isSome (env : FinalizeEnv) (target : IString)
    (operands : List Expression) (type : WasmType) (sig : FunctionType)
    (hsig : env.importedFunctionTypes target = some sig)
    (hops : ∀ (i : Nat) (p : WasmType) (o : Expression), sig.params[i]? = some p →
      operands[i]? = some o → o.type ≠ p →
      p = WasmType.f64 ∨ o.type = WasmType.unreachable)
    (importResult : WasmType) (himp : env.importResult target = some importResult)
    (hres : type = importResult ∨ type = WasmType.none ∨
      (importResult = WasmType.f64 ∧ (type = WasmType.i32 ∨ type = WasmType.f32))) :
    ∃ result, visitCallImport env target operands type = some result := by
  obtain ⟨operands2, h2⟩ := fixOperands_isSome sig.params operands
    (fun i p o hp ho => fixOperand_isSome p o (hops i p o hp ho))
  obtain ⟨result, hr⟩ := visitCallImportResult_isSome importResult target operands2 type hres
  refine ⟨result, ?_⟩
  unfold visitCallImport
  rw [hsig]
  simp only
  rw [visitCallImportOperands_eq, h2]
  simp only
  rw [himp]
  exact hr

/-- C6: for a `CallImport` whose target has an inferred signature with `p`
parameters, a completed `visitCallImport` leaves the call with
`max(p, previous operand count)` operands; the existing operands keep their
positions (each is the former operand, possibly wrapped in a conversion) and each
missing position `i < p` holds a constant of type `params[i]` with value zero.
The visit completes whenever the finalizer's assertions hold. -/
theorem visitCallImport_pads (env : FinalizeEnv) (target : IString)
    (operands : List Expression) (type : WasmType) (sig : FunctionType)
    (hsig : env.importedFunctionTypes target = some sig) :
    (∀ result, visitCallImport env target operands type = some result →
      ∃ operands2 callType,
        (result = Expression.callImport target operands2 callType ∨
          ∃ op ty, result = Expression.unary op
            (Expression.callImport target operands2 callType) ty) ∧
        operands2.length = max sig.params.length operands.length ∧
        (∀ (i : Nat) (o : Expression), operands[i]? = some o →
          ∃ o2, operands2[i]? = some o2 ∧ (o2 = o ∨ ∃ op, o2 = makeUnary op o)) ∧
        (∀ (i : Nat) (p : WasmType), operands.length ≤ i → sig.params[i]? = some p →
          operands2[i]? = some (Expression.const { type := p, bits := 0 } p))) ∧
    ((∀ (i : Nat) (p : WasmType) (o : Expression), sig.params[i]? = some p →
        operands[i]? = some o → o.type ≠ p →
        p = WasmType.f64 ∨ o.type = WasmType.unreachable) →
      ∀ importResult, env.importResult target = some importResult →
      (type = importResult ∨ type = WasmType.none ∨
        (importResult = WasmType.f64 ∧ (type = WasmType.i32 ∨ type = WasmType.f32))) →
      ∃ result, visitCallImport env target operands type = some result) := by
  refine ⟨?_, fun hops importResult himp hres =>
    visitCallImport_isSome env target operands type sig hsig hops importResult himp hres⟩
  intro result h
  obtain ⟨operands2, importResult, h1, _, h3⟩ :=
    visitCallImport_of_sig env target operands type sig hsig result h
  rw [visitCallImportOperands_eq] at h1
  have hget := fixOperands_getElem? sig.params operands operands2 h1
  have hshape : ∃ callType,
      (result = Expression.callImport target operands2 callType ∨
        ∃ op ty, result = Expression.unary op
          (Expression.callImport target operands2 callType) ty) := by
    rcases visitCallImportResult_cases importResult target operands2 type result h3 with
      ⟨_, hr⟩ | ⟨_, _, _, hr⟩ | ⟨_, _, _, hr⟩ | ⟨_, _, hr⟩
    · exact ⟨type, Or.inl hr⟩
    · exact ⟨importResult, Or.inr ⟨_, _, hr⟩⟩
    · exact ⟨importResult, Or.inr ⟨_, _, hr⟩⟩
    · exact ⟨importResult, Or.inl hr⟩
  obtain ⟨callType, hshape⟩ := hshape
  refine ⟨operands2, callType, hshape, fixOperands_length _ _ _ h1, ?_, ?_⟩
  · intro i o ho
    have hi := hget i
    rw [ho] at hi
    cases hp : sig.params[i]? with
    | none =>
      rw [hp] at hi
      exact ⟨o, hi, Or.inl rfl⟩
    | some p =>
      rw [hp] at hi
      simp only [fixAt] at hi
      cases hf : fixOperand p o with
      | none =>
        rw [hf] at hi
        have hlt : i < operands2.length := by
          rw [fixOperands_length _ _ _ h1]
          have := (List.getElem?_eq_some.1 ho).1
          omega
        rw [List.getElem?_eq_getElem hlt] at hi
        exact absurd hi (by simp)
      | some o2 =>
        rw [hf] at hi
        refine ⟨o2, hi, ?_⟩
        rcases fixOperand_cases p o o2 hf with ⟨_, h⟩ | ⟨_, _, ⟨_, h⟩ | ⟨_, h⟩ | ⟨_, _, h⟩⟩
        · exact Or.inl h
        · exact Or.inr ⟨_, h⟩
        · exact Or.inr ⟨_, h⟩
        · exact Or.inl h
  · intro i p hi hp
    have h := hget i
    rw [hp, List.getElem?_eq_none hi] at h
    exact h

/-- C6 at a concrete input: the call `imp(x)` with one `i32` operand against the
signature `(i32, f64, f32) -> f64` gets two zero constants appended. -/
theorem visitCallImport_pads_witness :
    ∃ operands2 callType,
      (Expression.unary UnaryOp.TruncSFloat64ToInt32
          (Expression.callImport "imp"
            [Expression.getLocal 0 WasmType.i32,
              Expression.const ⟨WasmType.f64, 0⟩ WasmType.f64,
              Expression.const ⟨WasmType.f32, 0⟩ WasmType.f32] WasmType.f64) WasmType.i32
          = Expression.callImport "imp" operands2 callType ∨
        ∃ op ty, Expression.unary UnaryOp.TruncSFloat64ToInt32
          (Expression.callImport "imp"
            [Expression.getLocal 0 WasmType.i32,
              Expression.const ⟨WasmType.f64, 0⟩ WasmType.f64,
              Expression.const ⟨WasmType.f32, 0⟩ WasmType.f32] WasmType.f64) WasmType.i32
          = Expression.unary op (Expression.callImport "imp" operands2 callType) ty) ∧
      operands2.length = max 3 1 ∧
      (∀ (i : Nat) (o : Expression), [Expression.getLocal 0 WasmType.i32][i]? = some o →
        ∃ o2, operands2[i]? = some o2 ∧ (o2 = o ∨ ∃ op, o2 = makeUnary op o)) ∧
      (∀ (i : Nat) (p : WasmType), 1 ≤ i →
        [WasmType.i32, WasmType.f64, WasmType.f32][i]? = some p →
        operands2[i]? = some (Expression.const { type := p, bits := 0 } p)) :=
  (visitCallImport_pads exampleEnv "imp" [Expression.getLocal 0 WasmType.i32] WasmType.i32
    ⟨"type$imp", WasmType.f64, [WasmType.i32, WasmType.f64, WasmType.f32]⟩ rfl).1 _ rfl

/-- C7 fails as stated: against the parameter `f64`, an operand of type `i64` is
left as it is, so after the visit its type is neither `f64` nor `unreachable`,
although the only differing position of the signature is `f64`. -/
theorem visitCallImport_operand_type_counterexample :
    ¬ (∀ (env : FinalizeEnv) (target : IString) (operands : List Expression)
        (type : WasmType) (sig : FunctionType) (result : Expression),
        env.importedFunctionTypes target = some sig →
        (∀ (i : Nat) (p : WasmType) (o : Expression), sig.params[i]? = some p →
          operands[i]? = some o → o.type ≠ p → p = WasmType.f64) →
        visitCallImport env target operands type = some result →
        ∀ operands2 callType, result = Expression.callImport target operands2 callType →
          ∀ (i : Nat) (p : WasmType) (o2 : Expression), sig.params[i]? = some p →
            operands2[i]? = some o2 →
            o2.type = p ∨ o2.type = WasmType.unreachable) := by
  intro h
  have h1 := h
    { functionResult := fun _ => none
      importedFunctionTypes := fun _ => some ⟨"type$f", WasmType.none, [WasmType.f64]⟩
      importResult := fun _ => some WasmType.none
      functionTableStarts := fun _ => none }
    "f" [Expression.getLocal 0 WasmType.i64] WasmType.none
    ⟨"type$f", WasmType.none, [WasmType.f64]⟩
    (Expression.callImport "f" [Expression.getLocal 0 WasmType.i64] WasmType.none)
    rfl
    (by
      intro i p o hp ho _
      cases i with
      | zero => simp at hp; exact hp.symm
      | succ i => simp at hp)
    rfl
    [Expression.getLocal 0 WasmType.i64] WasmType.none rfl
    0 WasmType.f64 (Expression.getLocal 0 WasmType.i64) rfl rfl
  revert h1
  decide

/-- C7 (amended): for a `CallImport` with an inferred signature, the operand loop
of `visitCallImport` wraps an `i32` operand whose type differs from the
signature's parameter in `ConvertSInt32ToFloat64` and an `f32` operand whose type
differs in `PromoteFloat32`, and leaves matching operands untouched; so whenever
at every differing position the signature is `f64` and the operand has type
`i32`, `f32` or `unreachable`, the loop completes and afterwards every operand at
a position below the parameter count has type `params[i]` or `unreachable`; these
are the operands of the call a completed visit leaves. -/
theorem visitCallImport_converts (env : FinalizeEnv) (target : IString)
    (operands : List Expression) (type : WasmType) (sig : FunctionType)
    (hsig : env.importedFunctionTypes target = some sig) :
    (∀ operands2, visitCallImportOperands sig.params operands = some operands2 →
      ∀ (i : Nat) (p : WasmType) (o : Expression), sig.params[i]? = some p →
        operands[i]? = some o →
        (o.type ≠ p → o.type = WasmType.i32 →
          operands2[i]? =
            some (Expression.unary UnaryOp.ConvertSInt32ToFloat64 o WasmType.f64)) ∧
        (o.type ≠ p → o.type = WasmType.f32 →
          operands2[i]? = some (Expression.unary UnaryOp.PromoteFloat32 o WasmType.f64)) ∧
        (o.type = p → operands2[i]? = some o)) ∧
    ((∀ (i : Nat) (p : WasmType) (o : Expression), sig.params[i]? = some p →
        operands[i]? = some o → o.type ≠ p →
        p = WasmType.f64 ∧
          (o.type = WasmType.i32 ∨ o.type = WasmType.f32 ∨ o.type = WasmType.unreachable)) →
      ∃ operands2, visitCallImportOperands sig.params operands = some operands2 ∧
        (∀ (i : Nat) (p : WasmType) (o2 : Expression), sig.params[i]? = some p →
          operands2[i]? = some o2 → o2.type = p ∨ o2.type = WasmType.unreachable) ∧
        (∀ result, visitCallImport env target operands type = some result →
          ∃ callType, result = Expression.callImport target operands2 callType ∨
            ∃ op ty, result = Expression.unary op
              (Expression.callImport target operands2 callType) ty)) := by
  refine ⟨?_, ?_⟩
  · intro operands2 h i p o hp ho
    rw [visitCallImportOperands_eq] at h
    have hi := fixOperands_getElem? sig.params operands operands2 h i
    rw [hp, ho] at hi
    simp only [fixAt] at hi
    have hlt : i < operands2.length := by
      rw [fixOperands_length _ _ _ h]
      have := (List.getElem?_eq_some.1 ho).1
      omega
    cases hf : fixOperand p o with
    | none =>
      rw [hf, List.getElem?_eq_getElem hlt] at hi
      exact absurd hi (by simp)
    | some o2 =>
      rw [hf] at hi
      rw [hi]
      rcases fixOperand_cases p o o2 hf with ⟨h1, h2⟩ | ⟨h1, _, ⟨h3, h4⟩ | ⟨h3, h4⟩ | ⟨h3, h4, h5⟩⟩
      · exact ⟨fun hne => absurd h1 hne, fun hne => absurd h1 hne, fun _ => by rw [h2]⟩
      · refine ⟨fun _ _ => ?_, fun _ h32 => ?_, fun he => absurd he h1⟩
        · rw [h4]; simp [makeUnary, h3, UnaryOp.resultType]
        · rw [h3] at h32; exact absurd h32 (by decide)
      · refine ⟨fun _ h32 => ?_, fun _ _ => ?_, fun he => absurd he h1⟩
        · rw [h3] at h32; exact absurd h32 (by decide)
        · rw [h4]; simp [makeUnary, h3, UnaryOp.resultType]
      · exact ⟨fun _ h32 => absurd h32 h3, fun _ h32 => absurd h32 h4,
          fun he => absurd he h1⟩
  · intro hdiff
    obtain ⟨operands2, h⟩ := fixOperands_isSome sig.params operands
      (fun i p o hp ho => fixOperand_isSome p o (fun hne => Or.inl (hdiff i p o hp ho hne).1))
    refine ⟨operands2, by rw [visitCallImportOperands_eq, h], ?_, ?_⟩
    · intro i p o2 hp ho2
      have hi := fixOperands_getElem? sig.params operands operands2 h i
      rw [hp, ho2] at hi
      cases ho : operands[i]? with
      | none =>
        rw [ho] at hi
        simp only [fixAt, Option.some.injEq] at hi
        left; rw [hi]; rfl
      | some o =>
        rw [ho] at hi
        simp only [fixAt] at hi
        rcases fixOperand_cases p o o2 hi.symm with
          ⟨h1, h2⟩ | ⟨h1, _, ⟨h3, h4⟩ | ⟨h3, h4⟩ | ⟨h3, h4, h5⟩⟩
        · left; rw [h2, h1]
        · left
          rw [h4, (hdiff i p o hp ho h1).1, makeUnary_type_of_ne _ _ (by rw [h3]; decide)]
          rfl
        · left
          rw [h4, (hdiff i p o hp ho h1).1, makeUnary_type_of_ne _ _ (by rw [h3]; decide)]
          rfl
        · right
          rcases (hdiff i p o hp ho h1).2 with h6 | h6 | h6
          · exact absurd h6 h3
          · exact absurd h6 h4
          · rw [h5, h6]
    · intro result hr
      obtain ⟨operands3, importResult, h1, _, h3⟩ :=
        visitCallImport_of_sig env target operands type sig hsig result hr
      rw [visitCallImportOperands_eq, h] at h1
      cases h1
      rcases visitCallImportResult_cases importResult target operands2 type result h3 with
        ⟨_, hr⟩ | ⟨_, _, _, hr⟩ | ⟨_, _, _, hr⟩ | ⟨_, _, hr⟩
      · exact ⟨type, Or.inl hr⟩
      · exact ⟨importResult, Or.inr ⟨_, _, hr⟩⟩
      · exact ⟨importResult, Or.inr ⟨_, _, hr⟩⟩
      · exact ⟨importResult, Or.inl hr⟩

/-- C7 (amended) at a concrete input: `imp(<i32>, <f32>)` against `(i32, f64, f32)`. -/
theorem visitCallImport_converts_witness :
    ∃ operands2,
      visitCallImportOperands [WasmType.i32, WasmType.f64, WasmType.f32]
          [Expression.getLocal 0 WasmType.i32, Expression.getLocal 1 WasmType.f32]
        = some operands2 ∧
      (∀ (i : Nat) (p : WasmType) (o2 : Expression),
        [WasmType.i32, WasmType.f64, WasmType.f32][i]? = some p →
        operands2[i]? = some o2 → o2.type = p ∨ o2.type = WasmType.unreachable) ∧
      (∀ result,
        visitCallImport exampleEnv "imp"
            [Expression.getLocal 0 WasmType.i32, Expression.getLocal 1 WasmType.f32]
            WasmType.f64 = some result →
        ∃ callType, result = Expression.callImport "imp" operands2 callType ∨
          ∃ op ty, result = Expression.unary op
            (Expression.callImport "imp" operands2 callType) ty) :=
  (visitCallImport_converts exampleEnv "imp"
    [Expression.getLocal 0 WasmType.i32, Expression.getLocal 1 WasmType.f32] WasmType.f64
    ⟨"type$imp", WasmType.f64, [WasmType.i32, WasmType.f64, WasmType.f32]⟩ rfl).2
    (by
      intro i p o hp ho hne
      rcases i with _ | _ | i
      · simp at hp ho; subst hp; subst ho; exact absurd rfl hne
      · simp at hp ho; subst hp; subst ho; exact ⟨rfl, Or.inr (Or.inl rfl)⟩
      · simp at ho)

/-- C8: for a `CallImport` with an inferred signature whose import is declared
with result `importResult`, a completed `visitCallImport` gives: when the call's
type differs from `importResult`, the call's type is set to `importResult`, and
when `importResult` is `f64` the call is replaced by `TruncSFloat64ToInt32` of the
call if it was expected to yield `i32`, by `DemoteFloat64` of the call if `f32`,
and is left unwrapped if no value was expected; a call whose type already equals
the import's result keeps its type and is not wrapped. The visit completes when
the operand loop does and the type is one of those cases. -/
theorem visitCallImport_result (env : FinalizeEnv) (target : IString)
    (operands : List Expression) (type : WasmType) (sig : FunctionType)
    (importResult : WasmType)
    (hsig : env.importedFunctionTypes target = some sig)
    (himp : env.importResult target = some importResult) :
    (∀ result, visitCallImport env target operands type = some result →
      ∃ operands2, visitCallImportOperands sig.params operands = some operands2 ∧
        (type ≠ importResult →
          (result = Expression.callImport target operands2 importResult ∨
            ∃ op ty, result = Expression.unary op
              (Expression.callImport target operands2 importResult) ty) ∧
          (importResult = WasmType.f64 → type = WasmType.i32 →
            result = Expression.unary UnaryOp.TruncSFloat64ToInt32
              (Expression.callImport target operands2 WasmType.f64) WasmType.i32) ∧
          (importResult = WasmType.f64 → type = WasmType.f32 →
            result = Expression.unary UnaryOp.DemoteFloat64
              (Expression.callImport target operands2 WasmType.f64) WasmType.f32) ∧
          (type = WasmType.none →
            result = Expression.callImport target operands2 importResult)) ∧
        (type = importResult → result = Expression.callImport target operands2 type)) ∧
    (∀ operands2, visitCallImportOperands sig.params operands = some operands2 →
      (type = importResult ∨ type = WasmType.none ∨
        (importResult = WasmType.f64 ∧ (type = WasmType.i32 ∨ type = WasmType.f32))) →
      ∃ result, visitCallImport env target operands type = some result) := by
  refine ⟨?_, ?_⟩
  · intro result h
    obtain ⟨operands2, importResult2, h1, h2, h3⟩ :=
      visitCallImport_of_sig env target operands type sig hsig result h
    rw [himp] at h2
    cases h2
    refine ⟨operands2, h1, ?_, ?_⟩
    · intro hne
      rcases visitCallImportResult_cases importResult target operands2 type result h3 with
        ⟨he, _⟩ | ⟨_, h64, h32, hr⟩ | ⟨_, h64, h32, hr⟩ | ⟨_, hn, hr⟩
      · exact absurd he hne
      · refine ⟨Or.inr ⟨_, _, hr⟩, fun _ _ => by rw [hr, h64], fun _ hf => ?_, fun hf => ?_⟩
        · rw [h32] at hf; exact absurd hf (by decide)
        · rw [h32] at hf; exact absurd hf (by decide)
      · refine ⟨Or.inr ⟨_, _, hr⟩, fun _ hf => ?_, fun _ _ => by rw [hr, h64], fun hf => ?_⟩
        · rw [h32] at hf; exact absurd hf (by decide)
        · rw [h32] at hf; exact absurd hf (by decide)
      · refine ⟨Or.inl hr, fun _ hf => ?_, fun _ hf => ?_, fun _ => hr⟩
        · rw [hn] at hf; exact absurd hf (by decide)
        · rw [hn] at hf; exact absurd hf (by decide)
    · intro he
      rcases visitCallImportResult_cases importResult target operands2 type result h3 with
        ⟨_, hr⟩ | ⟨hne, _⟩ | ⟨hne, _⟩ | ⟨hne, _⟩
      · exact hr
      · exact absurd he hne
      · exact absurd he hne
      · exact absurd he hne
  · intro operands2 h1 hres
    obtain ⟨result, hr⟩ := visitCallImportResult_isSome importResult target operands2 type hres
    refine ⟨result, ?_⟩
    unfold visitCallImport
    rw [hsig]
    simp only
    rw [h1]
    simp only
    rw [himp]
    exact hr

/-- C8 at a concrete input: the call `imp(x)` expected to yield `i32`, while the import
`imp` is declared with result `f64`. -/
theorem visitCallImport_result_witness :
    ∃ operands2,
      visitCallImportOperands [WasmType.i32, WasmType.f64, WasmType.f32]
          [Expression.getLocal 0 WasmType.i32] = some operands2 ∧
      (WasmType.i32 ≠ WasmType.f64 →
        (Expression.unary UnaryOp.TruncSFloat64ToInt32
            (Expression.callImport "imp"
              [Expression.getLocal 0 WasmType.i32,
                Expression.const ⟨WasmType.f64, 0⟩ WasmType.f64,
                Expression.const ⟨WasmType.f32, 0⟩ WasmType.f32] WasmType.f64) WasmType.i32
            = Expression.callImport "imp" operands2 WasmType.f64 ∨
          ∃ op ty, Expression.unary UnaryOp.TruncSFloat64ToInt32
            (Expression.callImport "imp"
              [Expression.getLocal 0 WasmType.i32,
                Expression.const ⟨WasmType.f64, 0⟩ WasmType.f64,
                Expression.const ⟨WasmType.f32, 0⟩ WasmType.f32] WasmType.f64) WasmType.i32
            = Expression.unary op (Expression.callImport "imp" operands2 WasmType.f64) ty) ∧
        (WasmType.f64 = WasmType.f64 → WasmType.i32 = WasmType.i32 →
          Expression.unary UnaryOp.TruncSFloat64ToInt32
            (Expression.callImport "imp"
              [Expression.getLocal 0 WasmType.i32,
                Expression.const ⟨WasmType.f64, 0⟩ WasmType.f64,
                Expression.const ⟨WasmType.f32, 0⟩ WasmType.f32] WasmType.f64) WasmType.i32
            = Expression.unary UnaryOp.TruncSFloat64ToInt32
              (Expression.callImport "imp" operands2 WasmType.f64) WasmType.i32) ∧
        (WasmType.f64 = WasmType.f64 → WasmType.i32 = WasmType.f32 →
          Expression.unary UnaryOp.TruncSFloat64ToInt32
            (Expression.callImport "imp"
              [Expression.getLocal 0 WasmType.i32,
                Expression.const ⟨WasmType.f64, 0⟩ WasmType.f64,
                Expression.const ⟨WasmType.f32, 0⟩ WasmType.f32] WasmType.f64) WasmType.i32
            = Expression.unary UnaryOp.DemoteFloat64
              (Expression.callImport "imp" operands2 WasmType.f64) WasmType.f32) ∧
        (WasmType.i32 = WasmType.none →
          Expression.unary UnaryOp.TruncSFloat64ToInt32
            (Expression.callImport "imp"
              [Expression.getLocal 0 WasmType.i32,
                Expression.const ⟨WasmType.f64, 0⟩ WasmType.f64,
                Expression.const ⟨WasmType.f32, 0⟩ WasmType.f32] WasmType.f64) WasmType.i32
            = Expression.callImport "imp" operands2 WasmType.f64)) ∧
      (WasmType.i32 = WasmType.f64 →
        Expression.unary UnaryOp.TruncSFloat64ToInt32
          (Expression.callImport "imp"
            [Expression.getLocal 0 WasmType.i32,
              Expression.const ⟨WasmType.f64, 0⟩ WasmType.f64,
              Expression.const ⟨WasmType.f32, 0⟩ WasmType.f32] WasmType.f64) WasmType.i32
          = Expression.callImport "imp" operands2 WasmType.i32) :=
  (visitCallImport_result exampleEnv "imp" [Expression.getLocal 0 WasmType.i32] WasmType.i32
    ⟨"type$imp", WasmType.f64, [WasmType.i32, WasmType.f64, WasmType.f32]⟩ WasmType.f64
    rfl rfl).1 _ rfl

/-! ## C9: `visitCallIndirect` over a function body -/

theorem indirectCalls_makeUnary (op : UnaryOp) (e : Expression) :
    (makeUnary op e).indirectCalls = e.indirectCalls := by
  simp [makeUnary, Expression.indirectCalls]

theorem indirectCalls_fixOperand (p : WasmType) (o o2 : Expression)
    (h : fixOperand p o = some o2) : o2.indirectCalls = o.indirectCalls := by
  rcases fixOperand_cases p o o2 h with ⟨_, h⟩ | ⟨_, _, ⟨_, h⟩ | ⟨_, h⟩ | ⟨_, _, h⟩⟩
  · rw [h]
  · rw [h, indirectCalls_makeUnary]
  · rw [h, indirectCalls_makeUnary]
  · rw [h]

theorem indirectCallsList_map_zeroConst (ps : List WasmType) :
    indirectCallsList (ps.map zeroConst) = [] := by
  induction ps with
  | nil => rfl
  | cons p ps ih => simp [indirectCallsList, zeroConst, Expression.indirectCalls, ih]

theorem indirectCallsList_fixOperands : ∀ (ps : List WasmType) (os os2 : List Expression),
    fixOperands ps os = some os2 → indirectCallsList os2 = indirectCallsList os := by
  intro ps
  induction ps with
  | nil => intro os os2 h; simp [fixOperands] at h; subst h; rfl
  | cons p ps ih =>
    intro os os2 h
    cases os with
    | nil =>
      rw [fixOperands_nil_right] at h
      simp only [Option.some.injEq] at h
      subst h
      rw [indirectCallsList_map_zeroConst]; rfl
    | cons o os =>
      simp only [fixOperands] at h
      cases hf : fixOperand p o with
      | none => simp [hf] at h
      | some o2 =>
        simp only [hf] at h
        cases hr : fixOperands ps os with
        | none => simp [hr] at h
        | some rest =>
          simp [hr] at h; subst h
          simp only [indirectCallsList, indirectCalls_fixOperand p o o2 hf, ih os rest hr]

theorem indirectCalls_visitCallImport (env : FinalizeEnv) (target : IString)
    (operands : List Expression) (type : WasmType) (result : Expression)
    (h : visitCallImport env target operands type = some result) :
    result.indirectCalls = indirectCallsList operands := by
  cases hsig : env.importedFunctionTypes target with
  | none =>
    unfold visitCallImport at h
    rw [hsig] at h
    simp only [Option.some.injEq] at h
    subst h
    simp [Expression.indirectCalls]
  | some sig =>
    obtain ⟨operands2, importResult, h1, _, h3⟩ :=
      visitCallImport_of_sig env target operands type sig hsig result h
    rw [visitCallImportOperands_eq] at h1
    have hl := indirectCallsList_fixOperands _ _ _ h1
    rcases visitCallImportResult_cases importResult target operands2 type result h3 with
      ⟨_, hr⟩ | ⟨_, _, _, hr⟩ | ⟨_, _, _, hr⟩ | ⟨_, _, hr⟩ <;>
    · rw [hr]; simp [Expression.indirectCalls, hl]

theorem visitCallIndirect_shape (env : FinalizeEnv) (fullType : IString)
    (operands : List Expression) (target : Expression) (type : WasmType) :
    ∃ target2, visitCallIndirect env fullType operands target type =
        Expression.callIndirect fullType operands target2 type ∧
      ∀ c ∈ target2.indirectCalls, c ∈ target.indirectCalls := by
  unfold visitCallIndirect
  split
  · split
    · split
      · exact ⟨_, rfl, fun _ h => h⟩
      · refine ⟨_, rfl, ?_⟩
        intro c hc
        simp only [Expression.indirectCalls, makeConst, List.append_nil] at hc
        simp only [Expression.indirectCalls, List.mem_append]
        exact Or.inl hc
    · split
      · split
        · exact ⟨_, rfl, fun _ h => h⟩
        · refine ⟨_, rfl, ?_⟩
          intro c hc
          simp only [Expression.indirectCalls, makeConst, List.nil_append] at hc
          simp only [Expression.indirectCalls, List.mem_append]
          exact Or.inr hc
      · exact ⟨_, rfl, fun _ h => h⟩
  · exact ⟨_, rfl, fun _ h => h⟩

mutual
/-- Every `CallIndirect` of a finalized tree is the finalization of a
`CallIndirect` of the tree before. -/
theorem finalizeCalls_origin (env : FinalizeEnv) :
    ∀ (e e2 : Expression), finalizeCalls env e = some e2 →
      ∀ c2 ∈ e2.indirectCalls, ∃ c ∈ e.indirectCalls, finalizeCalls env c = some c2
  | .block name list type, e2, h, c2, hc2 => by
      simp only [finalizeCalls, Option.bind_eq_bind, Option.bind_eq_some, Option.pure_def,
        Option.some.injEq] at h
      obtain ⟨list2, hb, rfl⟩ := h
      simp only [Expression.indirectCalls] at hc2 ⊢
      exact finalizeCallsList_origin env list list2 hb c2 hc2
  | .if_ condition ifTrue ifFalse type, e2, h, c2, hc2 => by
      simp only [finalizeCalls, Option.bind_eq_bind, Option.bind_eq_some, Option.pure_def,
        Option.some.injEq] at h
      obtain ⟨c3, h1, t3, h2, f3, h3, rfl⟩ := h
      simp only [Expression.indirectCalls, List.mem_append] at hc2 ⊢
      rcases hc2 with hc2 | hc2 | hc2
      · obtain ⟨c, hc, hf⟩ := finalizeCalls_origin env condition c3 h1 c2 hc2
        exact ⟨c, Or.inl hc, hf⟩
      · obtain ⟨c, hc, hf⟩ := finalizeCalls_origin env ifTrue t3 h2 c2 hc2
        exact ⟨c, Or.inr (Or.inl hc), hf⟩
      · obtain ⟨c, hc, hf⟩ := finalizeCallsOpt_origin env ifFalse f3 h3 c2 hc2
        exact ⟨c, Or.inr (Or.inr hc), hf⟩
  | .loop name body type, e2, h, c2, hc2 => by
      simp only [finalizeCalls, Option.bind_eq_bind, Option.bind_eq_some, Option.pure_def,
        Option.some.injEq] at h
      obtain ⟨body2, hb, rfl⟩ := h
      simp only [Expression.indirectCalls] at hc2 ⊢
      exact finalizeCalls_origin env body body2 hb c2 hc2
  | .break_ name value condition type, e2, h, c2, hc2 => by
      simp only [finalizeCalls, Option.bind_eq_bind, Option.bind_eq_some, Option.pure_def,
        Option.some.injEq] at h
      obtain ⟨v3, h1, c3, h2, rfl⟩ := h
      simp only [Expression.indirectCalls, List.mem_append] at hc2 ⊢
      rcases hc2 with hc2 | hc2
      · obtain ⟨c, hc, hf⟩ := finalizeCallsOpt_origin env value v3 h1 c2 hc2
        exact ⟨c, Or.inl hc, hf⟩
      · obtain ⟨c, hc, hf⟩ := finalizeCallsOpt_origin env condition c3 h2 c2 hc2
        exact ⟨c, Or.inr hc, hf⟩
  | .switch targets default_ condition value type, e2, h, c2, hc2 => by
      simp only [finalizeCalls, Option.bind_eq_bind, Option.bind_eq_some, Option.pure_def,
        Option.some.injEq] at h
      obtain ⟨v3, h1, c3, h2, rfl⟩ := h
      simp only [Expression.indirectCalls, List.mem_append] at hc2 ⊢
      rcases hc2 with hc2 | hc2
      · obtain ⟨c, hc, hf⟩ := finalizeCallsOpt_origin env value v3 h1 c2 hc2
        exact ⟨c, Or.inl hc, hf⟩
      · obtain ⟨c, hc, hf⟩ := finalizeCalls_origin env condition c3 h2 c2 hc2
        exact ⟨c, Or.inr hc, hf⟩
  | .call target operands type, e2, h, c2, hc2 => by
      simp only [finalizeCalls, Option.bind_eq_bind, Option.bind_eq_some] at h
      obtain ⟨ops2, h1, h2⟩ := h
      unfold visitCall at h2
      cases hr : env.functionResult target with
      | none => rw [hr] at h2; exact absurd h2 (by simp)
      | some r =>
        rw [hr] at h2
        simp only [Option.some.injEq] at h2
        subst h2
        simp only [Expression.indirectCalls] at hc2 ⊢
        exact finalizeCallsList_origin env operands ops2 h1 c2 hc2
  | .callImport target operands type, e2, h, c2, hc2 => by
      simp only [finalizeCalls, Option.bind_eq_bind, Option.bind_eq_some] at h
      obtain ⟨ops2, h1, h2⟩ := h
      rw [indirectCalls_visitCallImport env target ops2 type e2 h2] at hc2
      simp only [Expression.indirectCalls]
      exact finalizeCallsList_origin env operands ops2 h1 c2 hc2
  | .callIndirect fullType operands target type, e2, h, c2, hc2 => by
      have h0 := h
      simp only [finalizeCalls, Option.bind_eq_bind, Option.bind_eq_some, Option.pure_def,
        Option.some.injEq] at h
      obtain ⟨ops2, h1, t2, h2, h3⟩ := h
      obtain ⟨t3, hv, hsub⟩ := visitCallIndirect_shape env fullType ops2 t2 type
      rw [hv] at h3
      subst h3
      simp only [Expression.indirectCalls, List.mem_cons, List.mem_append] at hc2 ⊢
      rcases hc2 with hc2 | hc2 | hc2
      · refine ⟨_, Or.inl rfl, ?_⟩
        rw [h0, hc2]
      · obtain ⟨c, hc, hf⟩ := finalizeCallsList_origin env operands ops2 h1 c2 hc2
        exact ⟨c, Or.inr (Or.inl hc), hf⟩
      · obtain ⟨c, hc, hf⟩ := finalizeCalls_origin env target t2 h2 c2 (hsub c2 hc2)
        exact ⟨c, Or.inr (Or.inr hc), hf⟩
  | .getLocal index type, e2, h, c2, hc2 => by
      simp only [finalizeCalls, Option.pure_def, Option.some.injEq] at h
      subst h
      simp [Expression.indirectCalls] at hc2
  | .setLocal index value isTee type, e2, h, c2, hc2 => by
      simp only [finalizeCalls, Option.bind_eq_bind, Option.bind_eq_some, Option.pure_def,
        Option.some.injEq] at h
      obtain ⟨v2, hb, rfl⟩ := h
      simp only [Expression.indirectCalls] at hc2 ⊢
      exact finalizeCalls_origin env value v2 hb c2 hc2
  | .getGlobal name type, e2, h, c2, hc2 => by
      simp only [finalizeCalls, Option.pure_def, Option.some.injEq] at h
      subst h
      simp [Expression.indirectCalls] at hc2
  | .setGlobal name value type, e2, h, c2, hc2 => by
      simp only [finalizeCalls, Option.bind_eq_bind, Option.bind_eq_some, Option.pure_def,
        Option.some.injEq] at h
      obtain ⟨v2, hb, rfl⟩ := h
      simp only [Expression.indirectCalls] at hc2 ⊢
      exact finalizeCalls_origin env value v2 hb c2 hc2
  | .load bytes signed_ offset align ptr type, e2, h, c2, hc2 => by
      simp only [finalizeCalls, Option.bind_eq_bind, Option.bind_eq_some, Option.pure_def,
        Option.some.injEq] at h
      obtain ⟨p2, hb, rfl⟩ := h
      simp only [Expression.indirectCalls] at hc2 ⊢
      exact finalizeCalls_origin env ptr p2 hb c2 hc2
  | .store bytes offset align ptr value valueType type, e2, h, c2, hc2 => by
      simp only [finalizeCalls, Option.bind_eq_bind, Option.bind_eq_some, Option.pure_def,
        Option.some.injEq] at h
      obtain ⟨p3, h1, v3, h2, rfl⟩ := h
      simp only [Expression.indirectCalls, List.mem_append] at hc2 ⊢
      rcases hc2 with hc2 | hc2
      · obtain ⟨c, hc, hf⟩ := finalizeCalls_origin env ptr p3 h1 c2 hc2
        exact ⟨c, Or.inl hc, hf⟩
      · obtain ⟨c, hc, hf⟩ := finalizeCalls_origin env value v3 h2 c2 hc2
        exact ⟨c, Or.inr hc, hf⟩
  | .const value type, e2, h, c2, hc2 => by
      simp only [finalizeCalls, Option.pure_def, Option.some.injEq] at h
      subst h
      simp [Expression.indirectCalls] at hc2
  | .unary op value type, e2, h, c2, hc2 => by
      simp only [finalizeCalls, Option.bind_eq_bind, Option.bind_eq_some, Option.pure_def,
        Option.some.injEq] at h
      obtain ⟨v2, hb, rfl⟩ := h
      simp only [Expression.indirectCalls] at hc2 ⊢
      exact finalizeCalls_origin env value v2 hb c2 hc2
  | .binary op left right type, e2, h, c2, hc2 => by
      simp only [finalizeCalls, Option.bind_eq_bind, Option.bind_eq_some, Option.pure_def,
        Option.some.injEq] at h
      obtain ⟨l3, h1, r3, h2, rfl⟩ := h
      simp only [Expression.indirectCalls, List.mem_append] at hc2 ⊢
      rcases hc2 with hc2 | hc2
      · obtain ⟨c, hc, hf⟩ := finalizeCalls_origin env left l3 h1 c2 hc2
        exact ⟨c, Or.inl hc, hf⟩
      · obtain ⟨c, hc, hf⟩ := finalizeCalls_origin env right r3 h2 c2 hc2
        exact ⟨c, Or.inr hc, hf⟩
  | .select ifTrue ifFalse condition type, e2, h, c2, hc2 => by
      simp only [finalizeCalls, Option.bind_eq_bind, Option.bind_eq_some, Option.pure_def,
        Option.some.injEq] at h
      obtain ⟨t3, h1, f3, h2, c3, h3, rfl⟩ := h
      simp only [Expression.indirectCalls, List.mem_append] at hc2 ⊢
      rcases hc2 with hc2 | hc2 | hc2
      · obtain ⟨c, hc, hf⟩ := finalizeCalls_origin env ifTrue t3 h1 c2 hc2
        exact ⟨c, Or.inl hc, hf⟩
      · obtain ⟨c, hc, hf⟩ := finalizeCalls_origin env ifFalse f3 h2 c2 hc2
        exact ⟨c, Or.inr (Or.inl hc), hf⟩
      · obtain ⟨c, hc, hf⟩ := finalizeCalls_origin env condition c3 h3 c2 hc2
        exact ⟨c, Or.inr (Or.inr hc), hf⟩
  | .return_ value type, e2, h, c2, hc2 => by
      simp only [finalizeCalls, Option.bind_eq_bind, Option.bind_eq_some, Option.pure_def,
        Option.some.injEq] at h
      obtain ⟨v2, hb, rfl⟩ := h
      simp only [Expression.indirectCalls] at hc2 ⊢
      exact finalizeCallsOpt_origin env value v2 hb c2 hc2
  | .nop, e2, h, c2, hc2 => by
      simp only [finalizeCalls, Option.pure_def, Option.some.injEq] at h
      subst h
      simp [Expression.indirectCalls] at hc2
  | .unreachable, e2, h, c2, hc2 => by
      simp only [finalizeCalls, Option.pure_def, Option.some.injEq] at h
      subst h
      simp [Expression.indirectCalls] at hc2
/-- The same over a list of trees. -/
theorem finalizeCallsList_origin (env : FinalizeEnv) :
    ∀ (es es2 : List Expression), finalizeCallsList env es = some es2 →
      ∀ c2 ∈ indirectCallsList es2, ∃ c ∈ indirectCallsList es, finalizeCalls env c = some c2
  | [], es2, h, c2, hc2 => by
      simp only [finalizeCallsList, Option.pure_def, Option.some.injEq] at h
      subst h
      simp [indirectCallsList] at hc2
  | e :: es, es2, h, c2, hc2 => by
      simp only [finalizeCallsList, Option.bind_eq_bind, Option.bind_eq_some, Option.pure_def,
        Option.some.injEq] at h
      obtain ⟨e2, he, es3, hes, rfl⟩ := h
      simp only [indirectCallsList, List.mem_append] at hc2 ⊢
      rcases hc2 with hc2 | hc2
      · obtain ⟨c, hc, hf⟩ := finalizeCalls_origin env e e2 he c2 hc2
        exact ⟨c, Or.inl hc, hf⟩
      · obtain ⟨c, hc, hf⟩ := finalizeCallsList_origin env es es3 hes c2 hc2
        exact ⟨c, Or.inr hc, hf⟩
/-- The same over an optional tree. -/
theorem finalizeCallsOpt_origin (env : FinalizeEnv) :
    ∀ (e e2 : Option Expression), finalizeCallsOpt env e = some e2 →
      ∀ c2 ∈ indirectCallsOpt e2, ∃ c ∈ indirectCallsOpt e, finalizeCalls env c = some c2
  | none, e2, h, c2, hc2 => by
      simp only [finalizeCallsOpt, Option.pure_def, Option.some.injEq] at h
      subst h
      simp [indirectCallsOpt] at hc2
  | some e, e2, h, c2, hc2 => by
      simp only [finalizeCallsOpt, Option.bind_eq_bind, Option.bind_eq_some, Option.pure_def,
        Option.some.injEq] at h
      obtain ⟨e3, he, rfl⟩ := h
      simp only [indirectCallsOpt] at hc2 ⊢
      exact finalizeCalls_origin env e e3 he c2 hc2
end

/-- Finalizing a `CallIndirect` whose target is the translator's placeholder
addition for the table `table`. -/
theorem finalizeCalls_placeholder (env : FinalizeEnv) (fullType : IString)
    (operands : List Expression) (x : Expression) (table : IString)
    (type addType : WasmType) (start : Int)
    (hsig : env.importedFunctionTypes table = none)
    (hstart : env.functionTableStarts table = some start) (c2 : Expression)
    (h : finalizeCalls env
        (Expression.callIndirect fullType operands
          (Expression.binary BinaryOp.AddInt32 x
            (Expression.callImport table [] WasmType.i32) addType) type) = some c2) :
    ∃ operands2 x2, finalizeCallsList env operands = some operands2 ∧
      finalizeCalls env x = some x2 ∧
      c2 = Expression.callIndirect fullType operands2
        (Expression.binary BinaryOp.AddInt32 x2
          (Expression.const (Literal.ofInt32 start) WasmType.i32) addType) type := by
  simp only [finalizeCalls, finalizeCallsList, Option.bind_eq_bind, Option.bind_eq_some,
    Option.pure_def, Option.some.injEq] at h
  obtain ⟨operands2, h1, t2, ⟨x2, hx, r2, ⟨ops0, hops0, hr⟩, ht2⟩, hc⟩ := h
  subst hops0
  unfold visitCallImport at hr
  rw [hsig] at hr
  simp only [Option.some.injEq] at hr
  subst hr
  subst ht2
  refine ⟨operands2, x2, h1, hx, ?_⟩
  rw [← hc]
  simp [visitCallIndirect, hstart, makeConst, Literal.ofInt32]

/-- C9 fails as stated: the table call `ftCall_ii(f, x|0)` is translated to a
`CallIndirect` whose target is the translated first argument, and the finalizer
leaves it so; the target is no addition of a table start. -/
theorem finalizeCalls_tableCall_counterexample :
    ¬ (∀ (tenv : TranslateEnv) (env : FinalizeEnv) (ast : Ref) (body body2 : Expression)
        (types : ImportedFunctionTypes),
        process tenv none (fun _ => none) ast = Outcome.ok (body, types) →
        finalizeCalls env body = some body2 →
        ∀ c2 ∈ body2.indirectCalls, ∀ fullType operands target type,
          c2 = Expression.callIndirect fullType operands target type →
          ∃ x table start constType addType, env.functionTableStarts table = some start ∧
            target = Expression.binary BinaryOp.AddInt32 x
              (Expression.const (Literal.ofInt32 start) constType) addType) := by
  intro h
  have h1 := h exampleTranslateEnv exampleEnv exampleTableCall
    (Expression.callIndirect "FUNCSIG$vi" [Expression.getLocal 1 WasmType.i32]
      (Expression.getLocal 0 WasmType.i32) WasmType.none)
    (Expression.callIndirect "FUNCSIG$vi" [Expression.getLocal 1 WasmType.i32]
      (Expression.getLocal 0 WasmType.i32) WasmType.none)
    (fun _ => none) rfl rfl
    (Expression.callIndirect "FUNCSIG$vi" [Expression.getLocal 1 WasmType.i32]
      (Expression.getLocal 0 WasmType.i32) WasmType.none)
    (by simp [Expression.indirectCalls, indirectCallsList])
    "FUNCSIG$vi" [Expression.getLocal 1 WasmType.i32] (Expression.getLocal 0 WasmType.i32)
    WasmType.none rfl
  obtain ⟨x, table, start, constType, addType, _, h2⟩ := h1
  cases h2

/-- C9 (amended): after the `FinalizeCalls` walk of a function body, every
`CallIndirect` of the body is the finalization of a `CallIndirect` of the body
before the walk, and when that one was translated from a function-pointer call
`FTABLE[...]` (its target is the placeholder addition `x + callImport(FTABLE)`),
with `FTABLE` recorded in `functionTableStarts` and not the name of an import
with an inferred signature, its target afterwards is the `i32` addition of the
finalized index `x` and the constant `functionTableStarts[FTABLE]`. -/
theorem finalizeCalls_callIndirect (env : FinalizeEnv) (body body2 : Expression)
    (h : finalizeCalls env body = some body2) :
    ∀ c2 ∈ body2.indirectCalls, ∃ c ∈ body.indirectCalls,
      finalizeCalls env c = some c2 ∧
      ∀ (fullType : IString) (operands : List Expression) (x : Expression)
        (table : IString) (type addType : WasmType) (start : Int),
        c = Expression.callIndirect fullType operands
          (Expression.binary BinaryOp.AddInt32 x
            (Expression.callImport table [] WasmType.i32) addType) type →
        env.importedFunctionTypes table = none →
        env.functionTableStarts table = some start →
        ∃ operands2 x2, finalizeCallsList env operands = some operands2 ∧
          finalizeCalls env x = some x2 ∧
          c2 = Expression.callIndirect fullType operands2
            (Expression.binary BinaryOp.AddInt32 x2
              (Expression.const (Literal.ofInt32 start) WasmType.i32) addType) type := by
  intro c2 hc2
  obtain ⟨c, hc, hf⟩ := finalizeCalls_origin env body body2 h c2 hc2
  refine ⟨c, hc, hf, ?_⟩
  intro fullType operands x table type addType start hshape hsig hstart
  subst hshape
  exact finalizeCalls_placeholder env fullType operands x table type addType start hsig hstart
    c2 hf

/-- C9 (amended) at a concrete input: the finalized translation of
`FUNCTION_TABLE_ii[(f + 3) & 7](x|0)`, the table starting at 16. -/
theorem finalizeCalls_callIndirect_witness :
    ∃ c ∈ exampleTranslated.indirectCalls,
      finalizeCalls exampleEnv c = some exampleFinalized ∧
      ∀ (fullType : IString) (operands : List Expression) (x : Expression)
        (table : IString) (type addType : WasmType) (start : Int),
        c = Expression.callIndirect fullType operands
          (Expression.binary BinaryOp.AddInt32 x
            (Expression.callImport table [] WasmType.i32) addType) type →
        exampleEnv.importedFunctionTypes table = none →
        exampleEnv.functionTableStarts table = some start →
        ∃ operands2 x2, finalizeCallsList exampleEnv operands = some operands2 ∧
          finalizeCalls exampleEnv x = some x2 ∧
          exampleFinalized = Expression.callIndirect fullType operands2
            (Expression.binary BinaryOp.AddInt32 x2
              (Expression.const (Literal.ofInt32 start) WasmType.i32) addType) type :=
  finalizeCalls_callIndirect exampleEnv exampleTranslated exampleFinalized rfl
    exampleFinalized (by simp [exampleFinalized, Expression.indirectCalls, indirectCallsList])

/-! ## C10: translating a function-pointer call -/

theorem Outcome.bind_eq_ok {α β : Type} (x : Outcome α) (f : α → Outcome β) (b : β)
    (h : x.bind f = Outcome.ok b) : ∃ a, x = Outcome.ok a ∧ f a = Outcome.ok b := by
  cases x with
  | ok a => exact ⟨a, rfl, h⟩
  | fatal => cases h
  | unmodelled => cases h

/-- C10 fails as stated: in the translation of `FUNCTION_TABLE_ii[(f + 3) & 7](x|0)`
the `& 7` is not removed, so after finalization the target is not
`i32.add(i32.add(f, 3), const 16)`. -/
theorem process_functionPointerCall_counterexample :
    ¬ (∃ (e : Expression) (types : ImportedFunctionTypes) (fullType : IString)
        (type : WasmType),
        process exampleTranslateEnv none (fun _ => none) exampleFunctionPointerCall
          = Outcome.ok (e, types) ∧
        finalizeCalls exampleEnv e =
          some (Expression.callIndirect fullType [Expression.getLocal 1 WasmType.i32]
            (Expression.binary BinaryOp.AddInt32
              (Expression.binary BinaryOp.AddInt32 (Expression.getLocal 0 WasmType.i32)
                (Expression.const ⟨WasmType.i32, 3⟩ WasmType.i32) WasmType.i32)
              (Expression.const ⟨WasmType.i32, 16⟩ WasmType.i32) WasmType.i32) type)) := by
  rintro ⟨e, types, fullType, type, h1, h2⟩
  have h3 : process exampleTranslateEnv none (fun _ => none) exampleFunctionPointerCall
      = Outcome.ok (exampleTranslated, fun _ => none) := rfl
  rw [h3] at h1
  injection h1 with h1
  injection h1 with h1 _
  subst h1
  have h4 : finalizeCalls exampleEnv exampleTranslated = some exampleFinalized := rfl
  rw [h4] at h2
  simp [exampleFinalized] at h2

theorem Outcome.bind_def {α β : Type} (x : Outcome α) (f : α → Outcome β) :
    (x >>= f) = x.bind f := rfl

theorem Outcome.pure_def {α : Type} (a : α) : (pure a : Outcome α) = Outcome.ok a := rfl

theorem process_mask (env : TranslateEnv) (parent : Option Ref)
    (types : ImportedFunctionTypes) (index : Ref) (mask : Int) (target : Expression)
    (types2 : ImportedFunctionTypes)
    (h : process env parent types (.binary AND index (.num mask)) = Outcome.ok (target, types2)) :
    ∃ indexWasm maskWasm,
      process env (some (.binary AND index (.num mask))) types index
        = Outcome.ok (indexWasm, types2) ∧
      processNumber mask = Outcome.ok maskWasm ∧
      target = makeBinary BinaryOp.AndInt32 indexWasm maskWasm := by
  have hop : ¬ ((AND = OR ∨ AND = TRSHIFT) ∧ (Ref.num mask).isZero = true) := by
    intro h
    rcases h.1 with h | h
    · exact absurd h (by decide)
    · exact absurd h (by decide)
  rw [process, if_neg hop] at h
  simp only [Outcome.bind_def, Outcome.pure_def] at h
  obtain ⟨⟨indexWasm, types1⟩, h1, h⟩ := Outcome.bind_eq_ok _ _ _ h
  simp only at h
  obtain ⟨⟨maskWasm, types1b⟩, h2, h⟩ := Outcome.bind_eq_ok _ _ _ h
  simp only at h
  obtain ⟨ret, h3, h⟩ := Outcome.bind_eq_ok _ _ _ h
  rw [process] at h2
  simp only [Outcome.bind_def, Outcome.pure_def] at h2
  obtain ⟨m, hm, h2⟩ := Outcome.bind_eq_ok _ _ _ h2
  injection h2 with h2
  injection h2 with h2a h2b
  injection h with h
  injection h with ha hb
  subst h2a; subst h2b; subst ha; subst hb
  refine ⟨indexWasm, m, h1, hm, ?_⟩
  unfold finishBinary at h3
  have hparse : parseAsmBinaryOp env AND index (.num mask) indexWasm m
      = some BinaryOp.AndInt32 := by
    simp [parseAsmBinaryOp, AND, PLUS, MINUS, MUL]
  rw [hparse] at h3
  simp at h3
  exact h3.symm

/-- C10 (amended): translating a function-pointer call `FTABLE[(expr) & mask](args)`
yields a `CallIndirect` whose operands are the translated args in order and whose
target is `i32.add(translate((expr) & mask), callImport(FTABLE, [], i32))`, where
the `& mask` is kept: `translate((expr) & mask)` is
`i32.and(translate(expr), const mask)`. So for a table `FUNCTION_TABLE_ii` starting
at offset 16, `FUNCTION_TABLE_ii[(f + 3) & 7](x|0)` has, after finalization, the
target `i32.add(i32.and(i32.add(f, 3), const 7), const 16)` and the single
operand `x`. -/
theorem process_functionPointerCall :
    (∀ (env : TranslateEnv) (parent : Option Ref) (types : ImportedFunctionTypes)
        (table : IString) (index : Ref) (mask : Int) (args : List Ref) (e : Expression)
        (types3 : ImportedFunctionTypes),
        process env parent types
            (.call (.sub (.name table) (.binary AND index (.num mask))) args)
          = Outcome.ok (e, types3) →
        ∃ indexWasm maskWasm types2 operands,
          process env (some (.binary AND index (.num mask))) types index
            = Outcome.ok (indexWasm, types2) ∧
          processNumber mask = Outcome.ok maskWasm ∧
          processList env
              (some (.call (.sub (.name table) (.binary AND index (.num mask))) args))
              types2 args
            = Outcome.ok (operands, types3) ∧
          e = Expression.callIndirect (getFunctionType env parent operands).1 operands
            (makeBinary BinaryOp.AddInt32 (makeBinary BinaryOp.AndInt32 indexWasm maskWasm)
              (makeCallImport table [] WasmType.i32))
            (getFunctionType env parent operands).2) ∧
    (process exampleTranslateEnv none (fun _ => none) exampleFunctionPointerCall
        = Outcome.ok (exampleTranslated, fun _ => none) ∧
      finalizeCalls exampleEnv exampleTranslated = some exampleFinalized ∧
      exampleFinalized =
        Expression.callIndirect "FUNCSIG$vi" [Expression.getLocal 1 WasmType.i32]
          (Expression.binary BinaryOp.AddInt32
            (Expression.binary BinaryOp.AndInt32
              (Expression.binary BinaryOp.AddInt32 (Expression.getLocal 0 WasmType.i32)
                (Expression.const ⟨WasmType.i32, 3⟩ WasmType.i32) WasmType.i32)
              (Expression.const ⟨WasmType.i32, 7⟩ WasmType.i32) WasmType.i32)
            (Expression.const ⟨WasmType.i32, 16⟩ WasmType.i32) WasmType.i32)
          WasmType.none) := by
  refine ⟨?_, rfl, rfl, rfl⟩
  intro env parent types table index mask args e types3 h
  rw [process, if_pos rfl] at h
  simp only [Outcome.bind_def, Outcome.pure_def] at h
  obtain ⟨⟨target, types2⟩, h1, h⟩ := Outcome.bind_eq_ok _ _ _ h
  simp only at h
  obtain ⟨⟨operands, types4⟩, h2, h⟩ := Outcome.bind_eq_ok _ _ _ h
  simp only at h
  injection h with h
  injection h with ha hb
  subst hb
  obtain ⟨indexWasm, maskWasm, h3, h4, h5⟩ := process_mask env _ types index mask target types2 h1
  subst h5
  exact ⟨indexWasm, maskWasm, types2, operands, h3, h4, h2, ha.symm⟩

/-- C10 (amended) at a concrete input: `FUNCTION_TABLE_ii[(f + 3) & 7](x|0)`. -/
theorem process_functionPointerCall_witness :
    ∃ indexWasm maskWasm types2 operands,
      process exampleTranslateEnv
          (some (.binary AND (.binary PLUS (.name "f") (.num 3)) (.num 7)))
          (fun _ => none) (.binary PLUS (.name "f") (.num 3))
        = Outcome.ok (indexWasm, types2) ∧
      processNumber 7 = Outcome.ok maskWasm ∧
      processList exampleTranslateEnv (some exampleFunctionPointerCall) types2
          [.binary OR (.name "x") (.num 0)]
        = Outcome.ok (operands, fun _ => none) ∧
      exampleTranslated =
        Expression.callIndirect (getFunctionType exampleTranslateEnv none operands).1 operands
          (makeBinary BinaryOp.AddInt32 (makeBinary BinaryOp.AndInt32 indexWasm maskWasm)
            (makeCallImport "FUNCTION_TABLE_ii" [] WasmType.i32))
          (getFunctionType exampleTranslateEnv none operands).2 :=
  process_functionPointerCall.1 exampleTranslateEnv none (fun _ => none) "FUNCTION_TABLE_ii"
    (.binary PLUS (.name "f") (.num 3)) 7 [.binary OR (.name "x") (.num 0)]
    exampleTranslated (fun _ => none) rfl

/-! ## C11: the layout of the function tables -/

theorem processFunctionTable_of_single (st : TableState) (offset : Expression)
    (d : List IString) (h : st.table.segments = [⟨offset, d⟩]) (name : IString)
    (contents : List IString) :
    processFunctionTable st name contents =
      { table := { initial := (d ++ contents).length, max := (d ++ contents).length,
                   segments := [⟨offset, d ++ contents⟩] }
        functionTableStarts := fun n =>
          if n = name then some (d.length : Int) else st.functionTableStarts n } := by
  simp [processFunctionTable, h]

theorem processFunctionTable_of_empty (st : TableState) (h : st.table.segments = [])
    (name : IString) (contents : List IString) :
    processFunctionTable st name contents =
      { table := { initial := contents.length, max := contents.length,
                   segments := [⟨makeGetGlobal "tableBase" WasmType.i32, contents⟩] }
        functionTableStarts := fun n =>
          if n = name then some 0 else st.functionTableStarts n } := by
  simp [processFunctionTable, h]

theorem processFunctionTables_other (tables : List (IString × List IString)) :
    ∀ (st : TableState) (offset : Expression) (d : List IString),
      st.table.segments = [⟨offset, d⟩] → ∀ n : IString, n ∉ tables.map (fun t => t.1) →
      (processFunctionTables st tables).functionTableStarts n = st.functionTableStarts n := by
  induction tables with
  | nil => intro st offset d _ n _; rfl
  | cons t ts ih =>
    intro st offset d h n hn
    simp only [List.map_cons, List.mem_cons, not_or] at hn
    have hstep := processFunctionTable_of_single st offset d h t.1 t.2
    have hunf : processFunctionTables st (t :: ts)
        = processFunctionTables (processFunctionTable st t.1 t.2) ts := rfl
    rw [hunf, ih (processFunctionTable st t.1 t.2) offset (d ++ t.2) (by rw [hstep]) n hn.2,
      hstep]
    simp [hn.1]

theorem processFunctionTables_single (tables : List (IString × List IString)) :
    ∀ (st : TableState) (offset : Expression) (d : List IString),
      st.table.segments = [⟨offset, d⟩] →
      (tables.map (fun t => t.1)).Nodup →
      (processFunctionTables st tables).table.segments
        = [⟨offset, d ++ (tables.map (fun t => t.2)).flatten⟩] ∧
      (tables ≠ [] →
        (processFunctionTables st tables).table.initial
          = d.length + entriesBefore tables tables.length ∧
        (processFunctionTables st tables).table.max
          = d.length + entriesBefore tables tables.length) ∧
      (∀ (k : Nat) (hk : k < tables.length),
        (processFunctionTables st tables).functionTableStarts (tables[k]).1
          = some ((d.length + entriesBefore tables k : Nat) : Int)) := by
  induction tables with
  | nil =>
    intro st offset d h _
    refine ⟨by simp [processFunctionTables, h], fun hne => absurd rfl hne, ?_⟩
    intro k hk
    simp at hk
  | cons t ts ih =>
    intro st offset d h hnodup
    simp only [List.map_cons, List.nodup_cons] at hnodup
    have hstep := processFunctionTable_of_single st offset d h t.1 t.2
    obtain ⟨ih1, ih2, ih3⟩ := ih (processFunctionTable st t.1 t.2) offset (d ++ t.2)
      (by rw [hstep]) hnodup.2
    have hunf : processFunctionTables st (t :: ts)
        = processFunctionTables (processFunctionTable st t.1 t.2) ts := rfl
    rw [hunf]
    refine ⟨?_, ?_, ?_⟩
    · rw [ih1]; simp
    · intro _
      by_cases hts : ts = []
      · subst hts
        simp [processFunctionTables, hstep, entriesBefore]
      · obtain ⟨hi, hm⟩ := ih2 hts
        rw [hi, hm]
        simp [entriesBefore, List.take_succ_cons]
        omega
    · intro k hk
      cases k with
      | zero =>
        simp only [List.getElem_cons_zero]
        rw [processFunctionTables_other ts _ offset (d ++ t.2) (by rw [hstep]) t.1 hnodup.1,
          hstep]
        simp [entriesBefore]
      | succ k =>
        simp only [List.getElem_cons_succ]
        have hk2 : k < ts.length := by simpa using hk
        rw [ih3 k hk2]
        simp [entriesBefore, List.take_succ_cons]
        omega

theorem entriesBefore_mono (tables : List (IString × List IString)) :
    ∀ (i j : Nat), i < j →
      ∀ hi : i < tables.length,
        entriesBefore tables i + (tables[i]).2.length ≤ entriesBefore tables j := by
  induction tables with
  | nil => intro i j _ hi; simp at hi
  | cons t ts ih =>
    intro i j hij hi
    cases j with
    | zero => omega
    | succ j =>
      cases i with
      | zero =>
        simp [entriesBefore, List.take_succ_cons]
      | succ i =>
        have hi2 : i < ts.length := by simpa using hi
        have := ih i j (by omega) hi2
        simp only [entriesBefore, List.take_succ_cons, List.map_cons, List.sum_cons,
          List.getElem_cons_succ] at this ⊢
        omega


/-- C11: after the first pass over a module that declares the function tables
`T1..Tn` (distinct names, in this order), starting from a table without segment,
the single table segment (at the `tableBase` global) holds the concatenation of
their entries in declaration order, `functionTableStarts[Tk]` is the total number
of entries of `T1..T(k-1)`, `table.initial = table.max` is the total number of
entries, and the index ranges of different tables do not overlap; with no
function table the table is left as it was, of size 0 when it started so. -/
theorem processFunctionTables_layout (st : TableState) (hfresh : st.table.segments = [])
    (tables : List (IString × List IString))
    (hnodup : (tables.map (fun t => t.1)).Nodup) :
    (tables = [] → processFunctionTables st tables = st) ∧
    (tables ≠ [] →
      (processFunctionTables st tables).table.segments
        = [⟨makeGetGlobal "tableBase" WasmType.i32, (tables.map (fun t => t.2)).flatten⟩] ∧
      (processFunctionTables st tables).table.initial = entriesBefore tables tables.length ∧
      (processFunctionTables st tables).table.max = entriesBefore tables tables.length ∧
      entriesBefore tables tables.length = ((tables.map (fun t => t.2)).flatten).length) ∧
    (∀ (k : Nat) (hk : k < tables.length),
      (processFunctionTables st tables).functionTableStarts (tables[k]).1
        = some ((entriesBefore tables k : Nat) : Int)) ∧
    (∀ (i j : Nat) (hi : i < tables.length), j < tables.length → i < j →
      entriesBefore tables i + (tables[i]).2.length ≤ entriesBefore tables j) := by
  refine ⟨fun h => by subst h; rfl, ?_, ?_, fun i j hi _ hij => entriesBefore_mono tables i j hij hi⟩
  · intro hne
    cases tables with
    | nil => exact absurd rfl hne
    | cons t ts =>
      simp only [List.map_cons, List.nodup_cons] at hnodup
      have hstep := processFunctionTable_of_empty st hfresh t.1 t.2
      have hunf : processFunctionTables st (t :: ts)
          = processFunctionTables (processFunctionTable st t.1 t.2) ts := rfl
      obtain ⟨h1, h2, _⟩ := processFunctionTables_single ts (processFunctionTable st t.1 t.2)
        (makeGetGlobal "tableBase" WasmType.i32) t.2 (by rw [hstep]) hnodup.2
      rw [hunf]
      have htotal : entriesBefore (t :: ts) (t :: ts).length
          = t.2.length + entriesBefore ts ts.length := by
        simp [entriesBefore, List.take_succ_cons]
      refine ⟨by rw [h1]; simp, ?_, ?_, ?_⟩
      · by_cases hts : ts = []
        · subst hts; simp [processFunctionTables, hstep, entriesBefore]
        · rw [(h2 hts).1, htotal]
      · by_cases hts : ts = []
        · subst hts; simp [processFunctionTables, hstep, entriesBefore]
        · rw [(h2 hts).2, htotal]
      · simp [entriesBefore, List.length_flatten, Function.comp_def]
  · intro k hk
    cases tables with
    | nil => simp at hk
    | cons t ts =>
      simp only [List.map_cons, List.nodup_cons] at hnodup
      have hstep := processFunctionTable_of_empty st hfresh t.1 t.2
      have hunf : processFunctionTables st (t :: ts)
          = processFunctionTables (processFunctionTable st t.1 t.2) ts := rfl
      obtain ⟨_, _, h3⟩ := processFunctionTables_single ts (processFunctionTable st t.1 t.2)
        (makeGetGlobal "tableBase" WasmType.i32) t.2 (by rw [hstep]) hnodup.2
      rw [hunf]
      cases k with
      | zero =>
        simp only [List.getElem_cons_zero]
        rw [processFunctionTables_other ts _ (makeGetGlobal "tableBase" WasmType.i32) t.2
          (by rw [hstep]) t.1 hnodup.1, hstep]
        simp [entriesBefore]
      | succ k =>
        simp only [List.getElem_cons_succ]
        have hk2 : k < ts.length := by simpa using hk
        rw [h3 k hk2]
        simp [entriesBefore, List.take_succ_cons]

/-- C11 at a concrete input: the tables `[foo, b1]` and `[b2, bar, baz]`. -/
theorem processFunctionTables_layout_witness :
    (processFunctionTables ⟨⟨0, 0, []⟩, fun _ => none⟩
        [("FUNCTION_TABLE_ii", ["foo", "b1"]), ("FUNCTION_TABLE_vi", ["b2", "bar", "baz"])]
      ).table.segments
      = [⟨makeGetGlobal "tableBase" WasmType.i32, ["foo", "b1", "b2", "bar", "baz"]⟩] ∧
    (processFunctionTables ⟨⟨0, 0, []⟩, fun _ => none⟩
        [("FUNCTION_TABLE_ii", ["foo", "b1"]), ("FUNCTION_TABLE_vi", ["b2", "bar", "baz"])]
      ).table.initial = 5 ∧
    (processFunctionTables ⟨⟨0, 0, []⟩, fun _ => none⟩
        [("FUNCTION_TABLE_ii", ["foo", "b1"]), ("FUNCTION_TABLE_vi", ["b2", "bar", "baz"])]
      ).functionTableStarts "FUNCTION_TABLE_vi" = some 2 := by
  obtain ⟨_, h2, h3, _⟩ := processFunctionTables_layout ⟨⟨0, 0, []⟩, fun _ => none⟩ rfl
    [("FUNCTION_TABLE_ii", ["foo", "b1"]), ("FUNCTION_TABLE_vi", ["b2", "bar", "baz"])]
    (by decide)
  obtain ⟨h2a, h2b, _, _⟩ := h2 (by simp)
  exact ⟨h2a, h2b, h3 1 (by simp)⟩

/-! ## C12, C13: heap accesses and `processUnshifted` -/

theorem bytesToShift_eq_some (bytes shifts : Nat) (h : bytesToShift bytes = some shifts) :
    (bytes = 1 ∧ shifts = 0) ∨ (bytes = 2 ∧ shifts = 1) ∨ (bytes = 4 ∧ shifts = 2) ∨
      (bytes = 8 ∧ shifts = 3) := by
  unfold bytesToShift at h
  split_ifs at h with h1 h2 h3 h4 <;> simp at h <;> omega

theorem processUnshifted_ok_bytes (env : TranslateEnv) (parent : Option Ref)
    (types : ImportedFunctionTypes) (bytes : Nat) (ptr : Ref)
    (r : Expression × ImportedFunctionTypes)
    (h : processUnshifted env parent types bytes ptr = Outcome.ok r) :
    bytes = 1 ∨ bytes = 2 ∨ bytes = 4 ∨ bytes = 8 := by
  have key : ∃ shifts, bytesToShift bytes = some shifts := by
    cases hb : bytesToShift bytes with
    | some s => exact ⟨s, rfl⟩
    | none =>
      exfalso
      cases ptr with
      | num c => simp [processUnshifted, hb] at h
      | binary op inner right =>
        cases right <;> simp [processUnshifted, hb] at h
      | name s => simp [processUnshifted] at h
      | sub a b => simp [processUnshifted] at h
      | call a b => simp [processUnshifted] at h
      | assign a b => simp [processUnshifted] at h
      | unaryPrefix a b => simp [processUnshifted] at h
      | seq a b => simp [processUnshifted] at h
  obtain ⟨s, hs⟩ := key
  rcases bytesToShift_eq_some bytes s hs with h | h | h | h
  · exact Or.inl h.1
  · exact Or.inr (Or.inl h.1)
  · exact Or.inr (Or.inr (Or.inl h.1))
  · exact Or.inr (Or.inr (Or.inr h.1))

/-- C12: every `Load` and `Store` that `process` produces for a heap-view access
`V[expr]` (read or assignment) has `bytes = V.bytes`, one of 1, 2, 4, 8,
`align = bytes` and `offset = 0`; a `Load` carries the signedness `V.signed_` and
the value type determined by `(V.bytes, V.integer)`, a `Store` carries the value
type of the element type of `V`. -/
theorem process_heap_access :
    (∀ (env : TranslateEnv) (parent : Option Ref) (types : ImportedFunctionTypes)
        (heap : IString) (index : Ref) (e : Expression) (types2 : ImportedFunctionTypes),
        process env parent types (.sub (.name heap) index) = Outcome.ok (e, types2) →
        ∃ view ptr type, env.views heap = some view ∧
          (view.bytes = 1 ∨ view.bytes = 2 ∨ view.bytes = 4 ∨ view.bytes = 8) ∧
          getWasmType view.bytes (!view.integer) = some type ∧
          e = Expression.load view.bytes view.signed_ 0 view.bytes ptr type) ∧
    (∀ (env : TranslateEnv) (parent : Option Ref) (types : ImportedFunctionTypes)
        (heap : IString) (index value : Ref) (e : Expression)
        (types2 : ImportedFunctionTypes),
        process env parent types (.assign (.sub (.name heap) index) value)
          = Outcome.ok (e, types2) →
        ∃ view ptr valueWasm type, env.views heap = some view ∧
          (view.bytes = 1 ∨ view.bytes = 2 ∨ view.bytes = 4 ∨ view.bytes = 8) ∧
          e = Expression.store view.bytes 0 view.bytes ptr valueWasm
            (asmToWasmType view.type) type) := by
  refine ⟨?_, ?_⟩
  · intro env parent types heap index e types2 h
    rw [process] at h
    cases hv : env.views heap with
    | none => rw [hv] at h; cases h
    | some view =>
      rw [hv] at h
      simp only [Outcome.bind_def, Outcome.pure_def] at h
      obtain ⟨⟨ptr, types3⟩, h1, h⟩ := Outcome.bind_eq_ok _ _ _ h
      simp only at h
      have hb := processUnshifted_ok_bytes _ _ _ _ _ _ h1
      cases ht : getWasmType view.bytes (!view.integer) with
      | none => rw [ht] at h; cases h
      | some type =>
        rw [ht] at h
        injection h with h
        injection h with ha _
        exact ⟨view, ptr, type, rfl, hb, ht, ha.symm⟩
  · intro env parent types heap index value e types2 h
    rw [process] at h
    cases hv : env.views heap with
    | none => rw [hv] at h; cases h
    | some view =>
      rw [hv] at h
      simp only [Outcome.bind_def, Outcome.pure_def] at h
      obtain ⟨⟨ptr, types3⟩, h1, h⟩ := Outcome.bind_eq_ok _ _ _ h
      simp only at h
      have hb := processUnshifted_ok_bytes _ _ _ _ _ _ h1
      obtain ⟨⟨valueWasm, types4⟩, h2, h⟩ := Outcome.bind_eq_ok _ _ _ h
      simp only at h
      split_ifs at h with c1 c2 c3
      · injection h with h; injection h with ha _
        exact ⟨view, ptr, _, _, rfl, hb, ha.symm⟩
      · injection h with h; injection h with ha _
        exact ⟨view, ptr, _, _, rfl, hb, ha.symm⟩
      · injection h with h; injection h with ha _
        exact ⟨view, ptr, _, _, rfl, hb, ha.symm⟩

/-- C12 at a concrete input: `HEAP32[(p+4) >> 2] = v|0` is translated to
`i32.store offset=0 align=4 (i32.add p, 4) v`. -/
theorem process_heap_access_witness :
    process exampleHeapEnv none (fun _ => none) exampleHeapStore =
      Outcome.ok
        (Expression.store 4 0 4
          (Expression.binary BinaryOp.AddInt32 (Expression.getLocal 0 WasmType.i32)
            (Expression.const ⟨WasmType.i32, 4⟩ WasmType.i32) WasmType.i32)
          (Expression.getLocal 1 WasmType.i32) WasmType.i32 WasmType.none,
          fun _ => none) ∧
    ∃ view ptr valueWasm type, exampleHeapEnv.views "HEAP32" = some view ∧
      (view.bytes = 1 ∨ view.bytes = 2 ∨ view.bytes = 4 ∨ view.bytes = 8) ∧
      Expression.store 4 0 4
          (Expression.binary BinaryOp.AddInt32 (Expression.getLocal 0 WasmType.i32)
            (Expression.const ⟨WasmType.i32, 4⟩ WasmType.i32) WasmType.i32)
          (Expression.getLocal 1 WasmType.i32) WasmType.i32 WasmType.none
        = Expression.store view.bytes 0 view.bytes ptr valueWasm
          (asmToWasmType view.type) type :=
  ⟨rfl, process_heap_access.2 exampleHeapEnv none (fun _ => none) "HEAP32"
    (.binary RSHIFT (.binary PLUS (.name "p") (.num 4)) (.num 2))
    (.binary OR (.name "v") (.num 0)) _ (fun _ => none) rfl⟩

/-- C13 (amended): for `bytes` in {1, 2, 4, 8}, `processUnshifted(expr, bytes)`
translates `ptr >> k` with `2^k = bytes`, and `x | 0` when `bytes = 1`, to the
translation of the inner operand alone; a numeric literal `c` in the range of
`int32_t` to the `i32` constant `(c * bytes) mod 2^32`; a numeric literal outside
that range fails the `assert` of `getInteger`; every other expression (a shift
by another amount, another operator, a right operand that is no number, a name,
a heap access, a call, an assignment, a prefix operator, a comma expression)
fails fatally. -/
theorem processUnshifted_spec (env : TranslateEnv) (parent : Option Ref)
    (types : ImportedFunctionTypes) (bytes : Nat)
    (hbytes : bytes = 1 ∨ bytes = 2 ∨ bytes = 4 ∨ bytes = 8) :
    (∀ (inner : Ref) (k : Nat), bytes = 2 ^ k →
      processUnshifted env parent types bytes (.binary RSHIFT inner (.num k))
        = process env parent types inner) ∧
    (∀ inner : Ref, bytes = 1 →
      processUnshifted env parent types bytes (.binary OR inner (.num 0))
        = process env parent types inner) ∧
    (∀ c : Int, -2147483648 ≤ c → c ≤ 2147483647 →
      processUnshifted env parent types bytes (.num c)
        = Outcome.ok (Expression.const
            ⟨WasmType.i32, ((c * (bytes : Int)) % 4294967296).toNat⟩ WasmType.i32, types)) ∧
    (∀ c : Int, ¬ (-2147483648 ≤ c ∧ c ≤ 2147483647) →
      processUnshifted env parent types bytes (.num c) = Outcome.fatal) ∧
    (∀ (op : IString) (inner : Ref) (k : Int),
      ¬ (op = RSHIFT ∧ bytes = 2 ^ k.toNat ∧ 0 ≤ k) → ¬ (op = OR ∧ bytes = 1 ∧ k = 0) →
      processUnshifted env parent types bytes (.binary op inner (.num k)) = Outcome.fatal) ∧
    (∀ (op : IString) (inner right : Ref), (∀ k, right ≠ .num k) →
      processUnshifted env parent types bytes (.binary op inner right) = Outcome.fatal) ∧
    (∀ s, processUnshifted env parent types bytes (.name s) = Outcome.fatal) ∧
    (∀ a b, processUnshifted env parent types bytes (.sub a b) = Outcome.fatal) ∧
    (∀ a b, processUnshifted env parent types bytes (.call a b) = Outcome.fatal) ∧
    (∀ a b, processUnshifted env parent types bytes (.assign a b) = Outcome.fatal) ∧
    (∀ a b, processUnshifted env parent types bytes (.unaryPrefix a b) = Outcome.fatal) ∧
    (∀ a b, processUnshifted env parent types bytes (.seq a b) = Outcome.fatal) := by
  have hor : ¬ (OR = RSHIFT) := by decide
  refine ⟨?_, ?_, ?_, ?_, ?_, ?_, ?_, ?_, ?_, ?_, ?_, ?_⟩
  · intro inner k hk
    have hk4 : k < 4 := by
      by_contra hge
      have : 2 ^ 4 ≤ 2 ^ k := Nat.pow_le_pow_right (by decide) (by omega)
      omega
    have hs : bytesToShift bytes = some k := by
      interval_cases k <;> simp [hk, bytesToShift]
    have hi : getInteger (k : Int) = some (k : Int) := by
      simp only [getInteger]
      rw [if_pos (by constructor <;> omega)]
    simp [processUnshifted, hs, hi]
  · intro inner h1
    subst h1
    have hi : getInteger 0 = some 0 := by decide
    simp [processUnshifted, bytesToShift, hor, hi]
  · intro c hlo hhi
    have hi : getInteger c = some c := by
      simp only [getInteger]
      rw [if_pos ⟨hlo, hhi⟩]
    rcases hbytes with h | h | h | h <;> subst h <;>
      simp only [processUnshifted, bytesToShift, hi, Outcome.pure_def, makeConst,
        Literal.ofInt32, Nat.shiftLeft_eq] <;>
      norm_num <;> congr 1 <;> omega
  · intro c hc
    have hi : getInteger c = none := by
      simp only [getInteger]
      rw [if_neg hc]
    rcases hbytes with h | h | h | h <;> subst h <;>
      simp [processUnshifted, bytesToShift, hi]
  · intro op inner k hshift hzero
    by_cases hrange : -2147483648 ≤ k ∧ k ≤ 2147483647
    swap
    · have hi : getInteger k = none := by
        simp only [getInteger]
        rw [if_neg hrange]
      rcases hbytes with h | h | h | h <;> subst h <;>
        simp only [processUnshifted, bytesToShift, hi] <;>
        split_ifs <;> rfl
    have hi : getInteger k = some k := by
      simp only [getInteger]
      rw [if_pos hrange]
    rcases hbytes with h | h | h | h <;> subst h
    · simp only [processUnshifted, bytesToShift, hi]
      by_cases h1 : op = RSHIFT
      · have : k ≠ 0 := by
          intro hk; subst hk; exact hshift ⟨h1, by simp, le_refl _⟩
        simp [h1, this]
      · by_cases h2 : op = OR
        · have : k ≠ 0 := fun hk => hzero ⟨h2, rfl, hk⟩
          simp [h1, h2, this]
        · simp [h1, h2]
    · simp only [processUnshifted, bytesToShift, hi]
      by_cases h1 : op = RSHIFT
      · have : k ≠ 1 := by
          intro hk; subst hk; exact hshift ⟨h1, by simp, by decide⟩
        simp [h1, this]
      · simp [h1]
    · simp only [processUnshifted, bytesToShift, hi]
      by_cases h1 : op = RSHIFT
      · have : k ≠ 2 := by
          intro hk; subst hk; exact hshift ⟨h1, by simp, by decide⟩
        simp [h1, this]
      · simp [h1]
    · simp only [processUnshifted, bytesToShift, hi]
      by_cases h1 : op = RSHIFT
      · have : k ≠ 3 := by
          intro hk; subst hk; exact hshift ⟨h1, by simp, by decide⟩
        simp [h1, this]
      · simp [h1]
  · intro op inner right hr
    cases right with
    | num k => exact absurd rfl (hr k)
    | name s => simp [processUnshifted]
    | binary a b c => simp [processUnshifted]
    | sub a b => simp [processUnshifted]
    | call a b => simp [processUnshifted]
    | assign a b => simp [processUnshifted]
    | unaryPrefix a b => simp [processUnshifted]
    | seq a b => simp [processUnshifted]
  · intro s; simp [processUnshifted]
  · intro a b; simp [processUnshifted]
  · intro a b; simp [processUnshifted]
  · intro a b; simp [processUnshifted]
  · intro a b; simp [processUnshifted]
  · intro a b; simp [processUnshifted]


/-- Counterexample to C13 as stated: the index of `HEAP32[4294967295]` is a
numeric literal, for which the claim gives the constant
`(4294967295 * 4) mod 2^32 = 4294967292`; the literal is no `int32_t`, the
`assert` of `getInteger` fails, and no constant is made. -/
theorem processUnshifted_literal_counterexample :
    (4294967295 * 4 : Int) % 4294967296 = 4294967292 ∧
    getInteger 4294967295 = none ∧
    processUnshifted exampleHeapEnv (some (.sub (.name "HEAP32") (.num 4294967295)))
      (fun _ => none) 4 (.num 4294967295) = Outcome.fatal ∧
    process exampleHeapEnv none (fun _ => none) (.sub (.name "HEAP32") (.num 4294967295))
      = Outcome.fatal :=
  ⟨by decide, by decide, rfl, rfl⟩

/-- Witness for C13 with 4-byte elements: `HEAP32[-1]` addresses the constant
`4294967292`, and the index `(p+4) >> 2` is translated as `p+4` alone. -/
theorem processUnshifted_spec_witness :
    ((4 : Nat) = 1 ∨ (4 : Nat) = 2 ∨ (4 : Nat) = 4 ∨ (4 : Nat) = 8) ∧
    processUnshifted exampleHeapEnv none (fun _ => none) 4 (.num (-1))
      = Outcome.ok (Expression.const ⟨WasmType.i32, 4294967292⟩ WasmType.i32, fun _ => none) ∧
    processUnshifted exampleHeapEnv none (fun _ => none) 4
        (.binary RSHIFT (.binary PLUS (.name "p") (.num 4)) (.num 2))
      = process exampleHeapEnv none (fun _ => none) (.binary PLUS (.name "p") (.num 4)) :=
  ⟨by decide,
   (processUnshifted_spec exampleHeapEnv none (fun _ => none) 4 (by decide)).2.2.1 (-1)
     (by decide) (by decide),
   (processUnshifted_spec exampleHeapEnv none (fun _ => none) 4 (by decide)).1
     (.binary PLUS (.name "p") (.num 4)) 2 (by decide)⟩

/-! ## Return statements (lines 2089-2099) -/

/-- The flag `seenReturn` is never set: every `return` leaves it `false`. -/
theorem processReturn_seenReturn (st st2 : ReturnState) (type : WasmType)
    (h : processReturn st type = some st2) : st2.seenReturn = st.seenReturn := by
  unfold processReturn at h
  split at h
  · split at h
    · cases h; rfl
    · cases h
  · cases h; rfl

/-- From the initial state no `return` is rejected and the last one decides the
result type. -/
theorem processReturns_initial (types : List WasmType) :
    processReturns ReturnState.initial types
      = some { result := (types.getLast?).getD WasmType.none, seenReturn := false } := by
  have key : ∀ (ts : List WasmType) (r : WasmType),
      processReturns { result := r, seenReturn := false } ts
        = some { result := (ts.getLast?).getD r, seenReturn := false } := by
    intro ts
    induction ts with
    | nil => intro r; rfl
    | cons t ts ih =>
      intro r
      have hstep : processReturns { result := r, seenReturn := false } (t :: ts)
          = processReturns { result := t, seenReturn := false } ts := by
        simp [processReturns, processReturn]
      rw [hstep, ih t]
      cases ts with
      | nil => rfl
      | cons u us =>
        rw [List.getLast?_cons_cons, List.getLast?_eq_getLast _ (List.cons_ne_nil u us)]
        rfl
  exact key types WasmType.none

/-- C20 fails in the code: after `return +x;` (type `f64`) a later `return x|0;`
(type `i32`) is not rejected; it completes and changes the function's result
type to `i32`, because `seenReturn` is still `false`. -/
theorem processReturns_later_return_overwrites :
    processReturns ReturnState.initial [WasmType.f64, WasmType.i32]
      = some { result := WasmType.i32, seenReturn := false } ∧
    processReturn ReturnState.initial WasmType.f64
      = some { result := WasmType.f64, seenReturn := false } ∧
    processReturn { result := WasmType.f64, seenReturn := false } WasmType.i32
      = some { result := WasmType.i32, seenReturn := false } := by
  refine ⟨by rfl, by rfl, by rfl⟩

/-! ## The synthesized integer helpers (lines 634-743) -/

/-- The body of the `i32` helper on the arguments `a`, `b`. -/
theorem eval_trappingI32Body (op : BinaryOp) (target : IString)
    (hop : trappingI32Target op = some target) (a b : Nat) :
    eval [⟨WasmType.i32, a⟩, ⟨WasmType.i32, b⟩] (trappingI32Body op) =
      if b = 0 then EvalResult.value ⟨WasmType.i32, 0⟩
      else if op = BinaryOp.DivSInt32 ∧ a = 2147483648 ∧ b = 4294967295 then
        EvalResult.value ⟨WasmType.i32, 0⟩
      else evalBinary op ⟨WasmType.i32, a⟩ ⟨WasmType.i32, b⟩ := by
  have hmin : (Literal.ofInt32 (-2147483648)) = ⟨WasmType.i32, 2147483648⟩ := by decide
  have hm1 : (Literal.ofInt32 (-1)) = ⟨WasmType.i32, 4294967295⟩ := by decide
  have h0 : (Literal.ofInt32 0) = ⟨WasmType.i32, 0⟩ := by decide
  cases op <;> simp [trappingI32Target] at hop <;>
    simp only [trappingI32Body, makeIf, makeBinary, makeUnary, makeGetLocal, makeConst, eval,
      evalOpt, hmin, hm1, h0] <;>
    by_cases hb : b = 0 <;>
    simp [evalUnary, evalBinary, Literal.ofBool, hb]
  by_cases h1 : a = 2147483648 <;> by_cases h2 : b = 4294967295 <;> simp [h1, h2]

/-- The body of the `i64` helper on the arguments `a`, `b`. -/
theorem eval_trappingI64Body (op : BinaryOp) (target : IString)
    (hop : trappingI64Target op = some target) (a b : Nat) :
    eval [⟨WasmType.i64, a⟩, ⟨WasmType.i64, b⟩] (trappingI64Body op) =
      if b = 0 then EvalResult.value ⟨WasmType.i64, 0⟩
      else if op = BinaryOp.DivSInt64 ∧ a = 9223372036854775808 ∧
          b = 18446744073709551615 then
        EvalResult.value ⟨WasmType.i64, 0⟩
      else evalBinary op ⟨WasmType.i64, a⟩ ⟨WasmType.i64, b⟩ := by
  have hmin : (Literal.ofInt64 (-9223372036854775808)) = ⟨WasmType.i64, 9223372036854775808⟩ := by
    decide
  have hm1 : (Literal.ofInt64 (-1)) = ⟨WasmType.i64, 18446744073709551615⟩ := by decide
  have h0 : (Literal.ofInt64 0) = ⟨WasmType.i64, 0⟩ := by decide
  cases op <;> simp [trappingI64Target] at hop <;>
    simp only [trappingI64Body, makeIf, makeBinary, makeUnary, makeGetLocal, makeConst, eval,
      evalOpt, hmin, hm1, h0] <;>
    by_cases hb : b = 0 <;>
    simp [evalUnary, evalBinary, Literal.ofBool, hb]
  by_cases h1 : a = 9223372036854775808 <;> by_cases h2 : b = 18446744073709551615 <;>
    simp [h1, h2]

/-- The inputs on which a raw `i32` division or remainder traps. -/
theorem evalBinary_i32_trap (op : BinaryOp) (target : IString)
    (hop : trappingI32Target op = some target) (a b : Nat) :
    evalBinary op ⟨WasmType.i32, a⟩ ⟨WasmType.i32, b⟩ = EvalResult.trap ↔
      (b = 0 ∨ (op = BinaryOp.DivSInt32 ∧ a = 2147483648 ∧ b = 4294967295)) := by
  cases op <;> simp [trappingI32Target] at hop <;>
    by_cases hb : b = 0 <;> simp [evalBinary, hb]

/-- The inputs on which a raw `i64` division or remainder traps. -/
theorem evalBinary_i64_trap (op : BinaryOp) (target : IString)
    (hop : trappingI64Target op = some target) (a b : Nat) :
    evalBinary op ⟨WasmType.i64, a⟩ ⟨WasmType.i64, b⟩ = EvalResult.trap ↔
      (b = 0 ∨ (op = BinaryOp.DivSInt64 ∧ a = 9223372036854775808 ∧
        b = 18446744073709551615)) := by
  cases op <;> simp [trappingI64Target] at hop <;>
    by_cases hb : b = 0 <;> simp [evalBinary, hb]

/-- A raw `i32` division or remainder is a value of type `i32` or a trap. -/
theorem evalBinary_i32_value (op : BinaryOp) (target : IString)
    (hop : trappingI32Target op = some target) (a b : Nat)
    (h : evalBinary op ⟨WasmType.i32, a⟩ ⟨WasmType.i32, b⟩ ≠ EvalResult.trap) :
    ∃ v, evalBinary op ⟨WasmType.i32, a⟩ ⟨WasmType.i32, b⟩ = EvalResult.value v ∧
      v.type = WasmType.i32 := by
  cases op <;> simp [trappingI32Target] at hop <;> revert h <;>
    simp only [evalBinary] <;> intro h <;> (repeat' split) <;>
    simp_all [Literal.ofInt32]

/-- A raw `i64` division or remainder is a value of type `i64` or a trap. -/
theorem evalBinary_i64_value (op : BinaryOp) (target : IString)
    (hop : trappingI64Target op = some target) (a b : Nat)
    (h : evalBinary op ⟨WasmType.i64, a⟩ ⟨WasmType.i64, b⟩ ≠ EvalResult.trap) :
    ∃ v, evalBinary op ⟨WasmType.i64, a⟩ ⟨WasmType.i64, b⟩ = EvalResult.value v ∧
      v.type = WasmType.i64 := by
  cases op <;> simp [trappingI64Target] at hop <;> revert h <;>
    simp only [evalBinary] <;> intro h <;> (repeat' split) <;>
    simp_all [Literal.ofInt64]

/-- C14: in a trap mode other than `Allow`, the helper that `makeTrappingI32Binary`
(resp. `makeTrappingI64Binary`) adds to the module for a signed or unsigned
division or remainder has the shim's name, two parameters of the operator's
width and a result of that width. On arguments `a`, `b` its body evaluates to 0
when `b = 0`, for signed division also to 0 when `a = INT_MIN` and `b = -1`,
and to the raw operator's value otherwise. Those are exactly the inputs on which
the raw operator traps, so the body never traps: it always yields a value of
the operator's width. -/
theorem makeTrappingBinary_helper :
    (∀ (trapMode : TrapMode) (op : BinaryOp) (target : IString) (left right : Expression)
        (st : ShimState),
      trapMode ≠ TrapMode.Allow → trappingI32Target op = some target →
      st.addedFunctions32.count target = 0 →
      ∃ (func : Function) (st2 : ShimState),
        makeTrappingI32Binary trapMode op left right st
          = some (Expression.call target [left, right] WasmType.i32, st2) ∧
        st2.functions = st.functions ++ [func] ∧
        func.name = target ∧ func.params = [WasmType.i32, WasmType.i32] ∧
        func.vars = [] ∧ func.result = WasmType.i32 ∧
        ∀ a b : Nat,
          (evalBinary op ⟨WasmType.i32, a⟩ ⟨WasmType.i32, b⟩ = EvalResult.trap ↔
            (b = 0 ∨ (op = BinaryOp.DivSInt32 ∧ a = 2147483648 ∧ b = 4294967295))) ∧
          eval [⟨WasmType.i32, a⟩, ⟨WasmType.i32, b⟩] func.body =
            (if b = 0 then EvalResult.value ⟨WasmType.i32, 0⟩
             else if op = BinaryOp.DivSInt32 ∧ a = 2147483648 ∧ b = 4294967295 then
               EvalResult.value ⟨WasmType.i32, 0⟩
             else evalBinary op ⟨WasmType.i32, a⟩ ⟨WasmType.i32, b⟩) ∧
          ∃ v, eval [⟨WasmType.i32, a⟩, ⟨WasmType.i32, b⟩] func.body = EvalResult.value v ∧
            v.type = WasmType.i32) ∧
    (∀ (trapMode : TrapMode) (op : BinaryOp) (target : IString) (left right : Expression)
        (st : ShimState),
      trapMode ≠ TrapMode.Allow → trappingI64Target op = some target →
      st.addedFunctions64.count target = 0 →
      ∃ (func : Function) (st2 : ShimState),
        makeTrappingI64Binary trapMode op left right st
          = some (Expression.call target [left, right] WasmType.i64, st2) ∧
        st2.functions = st.functions ++ [func] ∧
        func.name = target ∧ func.params = [WasmType.i64, WasmType.i64] ∧
        func.vars = [] ∧ func.result = WasmType.i64 ∧
        ∀ a b : Nat,
          (evalBinary op ⟨WasmType.i64, a⟩ ⟨WasmType.i64, b⟩ = EvalResult.trap ↔
            (b = 0 ∨ (op = BinaryOp.DivSInt64 ∧ a = 9223372036854775808 ∧
              b = 18446744073709551615))) ∧
          eval [⟨WasmType.i64, a⟩, ⟨WasmType.i64, b⟩] func.body =
            (if b = 0 then EvalResult.value ⟨WasmType.i64, 0⟩
             else if op = BinaryOp.DivSInt64 ∧ a = 9223372036854775808 ∧
                 b = 18446744073709551615 then
               EvalResult.value ⟨WasmType.i64, 0⟩
             else evalBinary op ⟨WasmType.i64, a⟩ ⟨WasmType.i64, b⟩) ∧
          ∃ v, eval [⟨WasmType.i64, a⟩, ⟨WasmType.i64, b⟩] func.body = EvalResult.value v ∧
            v.type = WasmType.i64) := by
  constructor
  · intro trapMode op target left right st hmode hop hcount
    refine ⟨{ name := target, params := [WasmType.i32, WasmType.i32], vars := [],
              result := WasmType.i32, body := trappingI32Body op },
            { st with addedFunctions32 := target :: st.addedFunctions32,
                      functions := st.functions ++
                        [{ name := target, params := [WasmType.i32, WasmType.i32], vars := [],
                           result := WasmType.i32, body := trappingI32Body op }] },
            ?_, rfl, rfl, rfl, rfl, rfl, ?_⟩
    · simp only [makeTrappingI32Binary, if_neg hmode, hop, if_pos hcount]
    · intro a b
      have htrap := evalBinary_i32_trap op target hop a b
      have hbody := eval_trappingI32Body op target hop a b
      refine ⟨htrap, hbody, ?_⟩
      show ∃ v, eval [⟨WasmType.i32, a⟩, ⟨WasmType.i32, b⟩] (trappingI32Body op)
        = EvalResult.value v ∧ v.type = WasmType.i32
      rw [hbody]
      by_cases hb : b = 0
      · rw [if_pos hb]; exact ⟨_, rfl, rfl⟩
      · rw [if_neg hb]
        by_cases hg : op = BinaryOp.DivSInt32 ∧ a = 2147483648 ∧ b = 4294967295
        · rw [if_pos hg]; exact ⟨_, rfl, rfl⟩
        · rw [if_neg hg]
          apply evalBinary_i32_value op target hop a b
          rw [Ne, htrap]
          rintro (h | h)
          · exact hb h
          · exact hg h
  · intro trapMode op target left right st hmode hop hcount
    refine ⟨{ name := target, params := [WasmType.i64, WasmType.i64], vars := [],
              result := WasmType.i64, body := trappingI64Body op },
            { st with addedFunctions64 := target :: st.addedFunctions64,
                      functions := st.functions ++
                        [{ name := target, params := [WasmType.i64, WasmType.i64], vars := [],
                           result := WasmType.i64, body := trappingI64Body op }] },
            ?_, rfl, rfl, rfl, rfl, rfl, ?_⟩
    · simp only [makeTrappingI64Binary, if_neg hmode, hop, if_pos hcount]
    · intro a b
      have htrap := evalBinary_i64_trap op target hop a b
      have hbody := eval_trappingI64Body op target hop a b
      refine ⟨htrap, hbody, ?_⟩
      show ∃ v, eval [⟨WasmType.i64, a⟩, ⟨WasmType.i64, b⟩] (trappingI64Body op)
        = EvalResult.value v ∧ v.type = WasmType.i64
      rw [hbody]
      by_cases hb : b = 0
      · rw [if_pos hb]; exact ⟨_, rfl, rfl⟩
      · rw [if_neg hb]
        by_cases hg : op = BinaryOp.DivSInt64 ∧ a = 9223372036854775808 ∧
            b = 18446744073709551615
        · rw [if_pos hg]; exact ⟨_, rfl, rfl⟩
        · rw [if_neg hg]
          apply evalBinary_i64_value op target hop a b
          rw [Ne, htrap]
          rintro (h | h)
          · exact hb h
          · exact hg h

/-- Witness for C14: the helper made for a clamp-mode signed `i32` division in a
fresh module evaluates `INT_MIN / -1` to 0 and `-7 / 2` to `-3`. -/
theorem makeTrappingBinary_helper_witness :
    ∃ (func : Function) (st2 : ShimState),
      makeTrappingI32Binary TrapMode.Clamp BinaryOp.DivSInt32
          (Expression.getLocal 0 WasmType.i32) (Expression.getLocal 1 WasmType.i32)
          ShimState.initial
        = some (Expression.call "i32s-div"
            [Expression.getLocal 0 WasmType.i32, Expression.getLocal 1 WasmType.i32]
            WasmType.i32, st2) ∧
      st2.functions = [func] ∧
      eval [⟨WasmType.i32, 2147483648⟩, ⟨WasmType.i32, 4294967295⟩] func.body
        = EvalResult.value ⟨WasmType.i32, 0⟩ ∧
      eval [⟨WasmType.i32, 4294967289⟩, ⟨WasmType.i32, 2⟩] func.body
        = EvalResult.value ⟨WasmType.i32, 4294967293⟩ := by
  obtain ⟨func, st2, h1, h2, -, -, -, -, h3⟩ :=
    makeTrappingBinary_helper.1 TrapMode.Clamp BinaryOp.DivSInt32 "i32s-div"
      (Expression.getLocal 0 WasmType.i32) (Expression.getLocal 1 WasmType.i32)
      ShimState.initial (by decide) rfl rfl
  refine ⟨func, st2, h1, h2, ?_, ?_⟩
  · rw [(h3 2147483648 4294967295).2.1]; rfl
  · rw [(h3 4294967289 2).2.1]; decide

/-! ## Integer division and remainder by trap mode (lines 1663-1698) -/

/-- The operator that `parseAsmBinaryOp` picks for `/` and `%` on an `i32` left
operand. -/
theorem parseAsmBinaryOp_division (env : TranslateEnv) (op : IString) (left right : Ref)
    (l r : Expression) (hop : op = DIV ∨ op = MOD) (hi32 : l.type = WasmType.i32) :
    parseAsmBinaryOp env op left right l r = some
      (if op = DIV then
        (if (env.isUnsignedCoercion left || env.isUnsignedCoercion right) = true then
          BinaryOp.DivUInt32 else BinaryOp.DivSInt32)
       else
        (if (env.isUnsignedCoercion left || env.isUnsignedCoercion right) = true then
          BinaryOp.RemUInt32 else BinaryOp.RemSInt32)) := by
  have hne : MOD ≠ DIV := by decide
  rcases hop with h | h <;> subst h
  · have h1 : ¬ DIV = PLUS := by decide
    have h2 : ¬ DIV = MINUS := by decide
    have h3 : ¬ DIV = MUL := by decide
    have h4 : ¬ DIV = AND := by decide
    have h5 : ¬ DIV = OR := by decide
    have h6 : ¬ DIV = XOR := by decide
    have h7 : ¬ DIV = LSHIFT := by decide
    have h8 : ¬ DIV = RSHIFT := by decide
    have h9 : ¬ DIV = TRSHIFT := by decide
    have h10 : ¬ DIV = EQ := by decide
    have h11 : ¬ DIV = NE := by decide
    simp only [parseAsmBinaryOp, h1, h2, h3, h4, h5, h6, h7, h8, h9, h10, h11, if_false,
      if_true, hi32, decide_True]
  · have h1 : ¬ MOD = PLUS := by decide
    have h2 : ¬ MOD = MINUS := by decide
    have h3 : ¬ MOD = MUL := by decide
    have h4 : ¬ MOD = AND := by decide
    have h5 : ¬ MOD = OR := by decide
    have h6 : ¬ MOD = XOR := by decide
    have h7 : ¬ MOD = LSHIFT := by decide
    have h8 : ¬ MOD = RSHIFT := by decide
    have h9 : ¬ MOD = TRSHIFT := by decide
    have h10 : ¬ MOD = EQ := by decide
    have h11 : ¬ MOD = NE := by decide
    simp only [parseAsmBinaryOp, h1, h2, h3, h4, h5, h6, h7, h8, h9, h10, h11, hne, if_false,
      if_true, hi32, decide_True]

/-- C15: an `i32` division or remainder `left op right` (`op` is `/` or `%`, the
translated left operand has type `i32`) whose operands translate to `l` and `r`
translates, in trap mode `Allow`, to the raw `Binary` on `l` and `r`, signed or
unsigned by the operands' coercions; in the modes `Clamp` and `JS` it translates
to a `Call` of type `i32` of the helper named for the operator (`i32s-div`,
`i32u-div`, `i32s-rem`, `i32u-rem`) with the operands `[l, r]`. In clamp mode
`(x/0)|0` with the `i32` parameter `x` becomes the call `i32s-div(x, 0)` in a
module that now holds that helper, and the call evaluates to 0 for every `x`. -/
theorem processWithShims_division :
    (∀ (env : TranslateEnv) (parent : Option Ref) (types types2 types3 : ImportedFunctionTypes)
        (st st2 st3 : ShimState) (op : IString) (left right : Ref) (l r : Expression),
      (op = DIV ∨ op = MOD) →
      processWithShims env (some (.binary op left right)) types st left
        = Outcome.ok (l, types2, st2) →
      processWithShims env (some (.binary op left right)) types2 st2 right
        = Outcome.ok (r, types3, st3) →
      l.type = WasmType.i32 →
      ∃ (wasmOp : BinaryOp) (target : IString),
        wasmOp =
          (if op = DIV then
            (if (env.isUnsignedCoercion left || env.isUnsignedCoercion right) = true then
              BinaryOp.DivUInt32 else BinaryOp.DivSInt32)
           else
            (if (env.isUnsignedCoercion left || env.isUnsignedCoercion right) = true then
              BinaryOp.RemUInt32 else BinaryOp.RemSInt32)) ∧
        trappingI32Target wasmOp = some target ∧
        (wasmOp = BinaryOp.DivSInt32 → target = "i32s-div") ∧
        (wasmOp = BinaryOp.DivUInt32 → target = "i32u-div") ∧
        (wasmOp = BinaryOp.RemSInt32 → target = "i32s-rem") ∧
        (wasmOp = BinaryOp.RemUInt32 → target = "i32u-rem") ∧
        (env.trapMode = TrapMode.Allow →
          processWithShims env parent types st (.binary op left right)
            = Outcome.ok (Expression.binary wasmOp l r (finalizeBinary wasmOp l r),
                types3, st3)) ∧
        (env.trapMode ≠ TrapMode.Allow →
          ∃ st4, processWithShims env parent types st (.binary op left right)
            = Outcome.ok (Expression.call target [l, r] WasmType.i32, types3, st4))) ∧
    (∃ st : ShimState,
      processWithShims exampleClampEnv none (fun _ => none) ShimState.initial exampleDivByZero
        = Outcome.ok
            (Expression.call "i32s-div"
              [Expression.getLocal 0 WasmType.i32,
               Expression.const ⟨WasmType.i32, 0⟩ WasmType.i32] WasmType.i32,
             fun _ => none, st) ∧
      (st.functions.map (fun f => f.name)) = ["i32s-div"] ∧
      ∀ x : Nat,
        evalCall st.functions [⟨WasmType.i32, x⟩]
          (Expression.call "i32s-div"
            [Expression.getLocal 0 WasmType.i32,
             Expression.const ⟨WasmType.i32, 0⟩ WasmType.i32] WasmType.i32)
          = EvalResult.value ⟨WasmType.i32, 0⟩) := by
  constructor
  · intro env parent types types2 types3 st st2 st3 op left right l r hop hl hr hi32
    have hparse := parseAsmBinaryOp_division env op left right l r hop hi32
    have hnot : ¬ ((op = OR ∨ op = TRSHIFT) ∧ right.isZero = true) := by
      have h1 : ¬ DIV = OR := by decide
      have h2 : ¬ DIV = TRSHIFT := by decide
      have h3 : ¬ MOD = OR := by decide
      have h4 : ¬ MOD = TRSHIFT := by decide
      rintro ⟨h | h, -⟩ <;> rcases hop with h5 | h5 <;> subst h5 <;> simp_all
    have hunf : processWithShims env parent types st (.binary op left right)
        = (finishBinaryWithShims env op left right l r st3).bind
            (fun p => Outcome.ok (p.1, types3, p.2)) := by
      rw [processWithShims, if_neg hnot]
      simp only [bind, hl, hr, Outcome.bind, pure]
    have hfloat : isWasmTypeFloat (finalizeBinary
        (if op = DIV then
          (if (env.isUnsignedCoercion left || env.isUnsignedCoercion right) = true then
            BinaryOp.DivUInt32 else BinaryOp.DivSInt32)
         else
          (if (env.isUnsignedCoercion left || env.isUnsignedCoercion right) = true then
            BinaryOp.RemUInt32 else BinaryOp.RemSInt32)) l r) = false := by
      simp only [finalizeBinary, hi32]
      repeat' split
      all_goals rfl
    generalize hW : (if op = DIV then
          (if (env.isUnsignedCoercion left || env.isUnsignedCoercion right) = true then
            BinaryOp.DivUInt32 else BinaryOp.DivSInt32)
         else
          (if (env.isUnsignedCoercion left || env.isUnsignedCoercion right) = true then
            BinaryOp.RemUInt32 else BinaryOp.RemSInt32)) = W at hparse hfloat
    have hWcases : W = BinaryOp.DivSInt32 ∨ W = BinaryOp.DivUInt32 ∨
        W = BinaryOp.RemSInt32 ∨ W = BinaryOp.RemUInt32 := by
      rw [← hW]
      repeat' split
      all_goals simp
    have hshim : W = BinaryOp.RemSInt32 ∨ W = BinaryOp.RemUInt32 ∨
        W = BinaryOp.DivSInt32 ∨ W = BinaryOp.DivUInt32 := by
      rcases hWcases with h | h | h | h <;> simp [h]
    have hnofloat : ¬ (W = BinaryOp.RemSInt32 ∧ isWasmTypeFloat (makeBinary W l r).type = true) := by
      rintro ⟨-, h⟩
      simp [makeBinary, Expression.type, hfloat] at h
    obtain ⟨target, htarget⟩ : ∃ target, trappingI32Target W = some target := by
      rcases hWcases with h | h | h | h <;> subst h <;> exact ⟨_, rfl⟩
    refine ⟨W, target, rfl, htarget, ?_, ?_, ?_, ?_, ?_, ?_⟩
    · intro h; subst h; cases htarget; rfl
    · intro h; subst h; cases htarget; rfl
    · intro h; subst h; cases htarget; rfl
    · intro h; subst h; cases htarget; rfl
    · intro hallow
      rw [hunf]
      have : finishBinaryWithShims env op left right l r st3
          = Outcome.ok (makeBinary W l r, st3) := by
        simp only [finishBinaryWithShims, hparse]
        rw [if_neg hnofloat, if_neg (by simp [hallow])]
      rw [this]
      rfl
    · intro hmode
      rw [hunf]
      have : ∃ st4, finishBinaryWithShims env op left right l r st3
          = Outcome.ok (Expression.call target [l, r] WasmType.i32, st4) := by
        simp only [finishBinaryWithShims, hparse]
        rw [if_neg hnofloat, if_pos ⟨hmode, hshim⟩]
        simp only [makeTrappingI32Binary, if_neg hmode, htarget]
        by_cases hc : List.count target st3.addedFunctions32 = 0
        · rw [if_pos hc]; exact ⟨_, rfl⟩
        · rw [if_neg hc]; exact ⟨_, rfl⟩
      obtain ⟨st4, h4⟩ := this
      exact ⟨st4, by rw [h4]; rfl⟩
  · refine ⟨{ ShimState.initial with
                addedFunctions32 := [I32S_DIV],
                functions := [{ name := I32S_DIV, params := [WasmType.i32, WasmType.i32],
                                vars := [], result := WasmType.i32,
                                body := trappingI32Body BinaryOp.DivSInt32 }] },
            by rfl, by rfl, ?_⟩
    intro x
    have hbody := eval_trappingI32Body BinaryOp.DivSInt32 I32S_DIV rfl x 0
    rw [if_pos rfl] at hbody
    have hfind : List.find? (fun f : Function => decide (f.name = "i32s-div"))
        [{ name := I32S_DIV, params := [WasmType.i32, WasmType.i32],
           vars := [], result := WasmType.i32,
           body := trappingI32Body BinaryOp.DivSInt32 }]
        = some { name := I32S_DIV, params := [WasmType.i32, WasmType.i32],
                 vars := [], result := WasmType.i32,
                 body := trappingI32Body BinaryOp.DivSInt32 } := by
      rfl
    simp only [evalCall, hfind, ShimState.initial]
    have hops : evalOperands [⟨WasmType.i32, x⟩]
        [Expression.getLocal 0 WasmType.i32, Expression.const ⟨WasmType.i32, 0⟩ WasmType.i32]
        = some [⟨WasmType.i32, x⟩, ⟨WasmType.i32, 0⟩] := by
      simp [evalOperands, eval]
    rw [hops]
    simp only [List.length_cons, List.length_nil, if_true]
    exact hbody

/-- Witness for C15: in clamp mode `x/0` with the `i32` parameter `x` becomes a
call of `i32s-div` with the operands `x` and `0`. -/
theorem processWithShims_division_witness :
    (DIV = DIV ∨ DIV = MOD) ∧
    ∃ st4 : ShimState,
      processWithShims exampleClampEnv none (fun _ => none) ShimState.initial
          (.binary DIV (.name "x") (.num 0))
        = Outcome.ok
            (Expression.call "i32s-div"
              [Expression.getLocal 0 WasmType.i32,
               Expression.const ⟨WasmType.i32, 0⟩ WasmType.i32] WasmType.i32,
             fun _ => none, st4) := by
  obtain ⟨W, target, hW, -, h1, -, -, -, -, hclamp⟩ :=
    processWithShims_division.1 exampleClampEnv none (fun _ => none) (fun _ => none)
      (fun _ => none) ShimState.initial ShimState.initial ShimState.initial DIV (.name "x")
      (.num 0) (Expression.getLocal 0 WasmType.i32)
      (Expression.const ⟨WasmType.i32, 0⟩ WasmType.i32) (Or.inl rfl) (by rfl) (by rfl) rfl
  have hdiv : W = BinaryOp.DivSInt32 := by rw [hW]; rfl
  rw [h1 hdiv] at hclamp
  exact ⟨Or.inl rfl, hclamp (by decide)⟩

/-- Where `finishBinary` completes, no shim is involved and the state is left alone. -/
theorem finishBinaryWithShims_of_finishBinary (env : TranslateEnv) (op : IString)
    (left right : Ref) (l r ret : Expression) (st : ShimState)
    (h : finishBinary env op left right l r = Outcome.ok ret) :
    finishBinaryWithShims env op left right l r st = Outcome.ok (ret, st) := by
  unfold finishBinary at h
  unfold finishBinaryWithShims
  cases hp : parseAsmBinaryOp env op left right l r with
  | none => simp only [hp] at h; cases h
  | some wasmOp =>
    simp only [hp] at h ⊢
    split at h
    · cases h
    · split at h
      · cases h
      · rename_i h1 h2
        rw [if_neg h1, if_neg h2]
        cases h
        rfl

/-- In the trap mode `Allow`, `makeTrappingFloatToInt` is the plain truncation and
leaves the state alone. -/
theorem makeTrappingFloatToInt_allow (signed_ : Bool) (value : Expression) (st : ShimState) :
    makeTrappingFloatToInt TrapMode.Allow signed_ value st
      = (truncFloatToInt signed_ value, st) := by
  cases signed_ <;> by_cases hf : value.type = WasmType.f64 <;>
    simp [makeTrappingFloatToInt, truncFloatToInt, hf]

/-- Threading the shim state through changes nothing where `process` completes:
`processWithShims` returns the same translation and the state it was given. -/
theorem processWithShims_of_process (env : TranslateEnv) (st : ShimState) :
    ∀ (e : Ref) (parent : Option Ref) (types types2 : ImportedFunctionTypes) (ret : Expression),
      process env parent types e = Outcome.ok (ret, types2) →
      processWithShims env parent types st e = Outcome.ok (ret, types2, st)
  | .binary op left right, parent, types, types2, ret, h => by
    rw [process] at h
    rw [processWithShims]
    by_cases hc : (op = OR ∨ op = TRSHIFT) ∧ right.isZero = true
    · rw [if_pos hc] at h ⊢
      obtain ⟨⟨a, t⟩, h1, h2⟩ := Outcome.bind_eq_ok _ _ _ h
      have ih := processWithShims_of_process env st left _ types t a h1
      simp only [Outcome.bind_def, ih, Outcome.bind]
      simp only [Outcome.pure_def, Outcome.ok.injEq, Prod.mk.injEq] at h2
      rw [Outcome.pure_def, h2.1, h2.2]
    · rw [if_neg hc] at h ⊢
      obtain ⟨⟨a, t⟩, h1, h2⟩ := Outcome.bind_eq_ok _ _ _ h
      obtain ⟨⟨b, t3⟩, h3, h4⟩ := Outcome.bind_eq_ok _ _ _ h2
      obtain ⟨r, h5, h6⟩ := Outcome.bind_eq_ok _ _ _ h4
      have ih1 := processWithShims_of_process env st left _ types t a h1
      have ih2 := processWithShims_of_process env st right _ t t3 b h3
      have hfin := finishBinaryWithShims_of_finishBinary env op left right a b r st h5
      simp only [Outcome.bind_def, ih1, ih2, hfin, Outcome.bind]
      simp only [Outcome.pure_def, Outcome.ok.injEq, Prod.mk.injEq] at h6
      rw [Outcome.pure_def, h6.1, h6.2]
  | .num v, parent, types, types2, ret, h => by
    rw [processWithShims, Outcome.bind_def, h]; rfl
  | .name s, parent, types, types2, ret, h => by
    rw [processWithShims, Outcome.bind_def, h]; rfl
  | .sub a b, parent, types, types2, ret, h => by
    rw [processWithShims, Outcome.bind_def, h]; rfl
  | .call a b, parent, types, types2, ret, h => by
    rw [processWithShims, Outcome.bind_def, h]; rfl
  | .assign a b, parent, types, types2, ret, h => by
    rw [processWithShims, Outcome.bind_def, h]; rfl
  | .unaryPrefix op (.unaryPrefix op2 inner), parent, types, types2, ret, h => by
    rw [process] at h
    rw [processWithShims]
    by_cases hc : op = B_NOT ∧ op2 = B_NOT
    · rw [if_pos hc] at h ⊢
      by_cases ha : env.trapMode = TrapMode.Allow
      · rw [if_pos ha] at h
        obtain ⟨⟨a, t⟩, h1, h2⟩ := Outcome.bind_eq_ok _ _ _ h
        have ih := processWithShims_of_process env st inner _ types t a h1
        simp only [Outcome.bind_def, ih, Outcome.bind]
        simp only [Outcome.pure_def, Outcome.ok.injEq, Prod.mk.injEq] at h2
        simp only [processDoubleNot, ha, makeTrappingFloatToInt_allow, Outcome.pure_def,
          h2.1, h2.2]
      · rw [if_neg ha] at h
        simp at h
    · rw [if_neg hc] at h
      simp at h
  | .unaryPrefix op (.name s), parent, types, types2, ret, h => by
    simp [process] at h
  | .unaryPrefix op (.num v), parent, types, types2, ret, h => by
    simp [process] at h
  | .unaryPrefix op (.binary a b c), parent, types, types2, ret, h => by
    simp [process] at h
  | .unaryPrefix op (.sub a b), parent, types, types2, ret, h => by
    simp [process] at h
  | .unaryPrefix op (.call a b), parent, types, types2, ret, h => by
    simp [process] at h
  | .unaryPrefix op (.assign a b), parent, types, types2, ret, h => by
    simp [process] at h
  | .unaryPrefix op (.seq a b), parent, types, types2, ret, h => by
    simp [process] at h
  | .seq a b, parent, types, types2, ret, h => by
    simp [process] at h

/-! ## The shims across translation runs (static state of lines 648, 704, 795) -/

/-- Once the static set holds a shim's name, `makeTrappingI32Binary` emits the
call and leaves the module as it is, whichever module that is. -/
theorem makeTrappingI32Binary_already_added (trapMode : TrapMode) (op : BinaryOp)
    (target : IString) (left right : Expression) (st : ShimState)
    (hmode : trapMode ≠ TrapMode.Allow) (hop : trappingI32Target op = some target)
    (hin : target ∈ st.addedFunctions32) :
    makeTrappingI32Binary trapMode op left right st
      = some (Expression.call target [left, right] WasmType.i32, st) := by
  have hc : ¬ List.count target st.addedFunctions32 = 0 := by
    rw [List.count_eq_zero]
    exact fun h => h hin
  simp only [makeTrappingI32Binary, if_neg hmode, hop, if_neg hc]

/-- C16 fails in the code: the sets and flags that record which shims exist are
`static`, so they outlive the module. A first clamp-mode run translating
`(x/0)|0` adds the function `i32s-div` to its module once; a second run in the
same process, on a new empty module, translates the same expression to the same
call of `i32s-div` and adds no function: its module calls a shim it does not
contain. The `i64` helpers and the clamping `f64-to-int` helper behave alike. -/
theorem shims_missing_in_second_run :
    ∃ st1 st2 : ShimState,
      processWithShims exampleClampEnv none (fun _ => none) ShimState.initial exampleDivByZero
        = Outcome.ok
            (Expression.call "i32s-div"
              [Expression.getLocal 0 WasmType.i32,
               Expression.const ⟨WasmType.i32, 0⟩ WasmType.i32] WasmType.i32,
             fun _ => none, st1) ∧
      (st1.functions.filter (fun f => f.name = "i32s-div")).length = 1 ∧
      processWithShims exampleClampEnv none (fun _ => none) st1.newRun exampleDivByZero
        = Outcome.ok
            (Expression.call "i32s-div"
              [Expression.getLocal 0 WasmType.i32,
               Expression.const ⟨WasmType.i32, 0⟩ WasmType.i32] WasmType.i32,
             fun _ => none, st2) ∧
      st2.functions.length = 0 ∧
      (∃ st3 st4 : ShimState,
        makeTrappingI64Binary TrapMode.Clamp BinaryOp.RemUInt64
            (Expression.getLocal 0 WasmType.i64) (Expression.getLocal 1 WasmType.i64)
            ShimState.initial
          = some (Expression.call "i64u-rem"
              [Expression.getLocal 0 WasmType.i64, Expression.getLocal 1 WasmType.i64]
              WasmType.i64, st3) ∧
        (st3.functions.filter (fun f => f.name = "i64u-rem")).length = 1 ∧
        makeTrappingI64Binary TrapMode.Clamp BinaryOp.RemUInt64
            (Expression.getLocal 0 WasmType.i64) (Expression.getLocal 1 WasmType.i64)
            st3.newRun
          = some (Expression.call "i64u-rem"
              [Expression.getLocal 0 WasmType.i64, Expression.getLocal 1 WasmType.i64]
              WasmType.i64, st4) ∧
        st4.functions.length = 0) ∧
      (∃ st5 st6 : ShimState,
        makeTrappingFloatToInt TrapMode.Clamp true (Expression.getLocal 1 WasmType.f64)
            ShimState.initial
          = (Expression.call "f64-to-int" [Expression.getLocal 1 WasmType.f64] WasmType.i32,
              st5) ∧
        (st5.functions.filter (fun f => f.name = "f64-to-int")).length = 1 ∧
        makeTrappingFloatToInt TrapMode.Clamp true (Expression.getLocal 1 WasmType.f64)
            st5.newRun
          = (Expression.call "f64-to-int" [Expression.getLocal 1 WasmType.f64] WasmType.i32,
              st6) ∧
        st6.functions.length = 0) := by
  refine ⟨_, _, by rfl, by rfl, by rfl, by rfl, ⟨_, _, by rfl, by rfl, by rfl, by rfl⟩,
    ⟨_, _, by rfl, by rfl, by rfl, by rfl⟩⟩

/-! ## The clamping float-to-int helper (lines 790-834) -/

/-- The scale of finite values is positive. -/
theorem f64Scale_pos : 0 < f64Scale := by
  unfold f64Scale; positivity

/-- The constant `double(INT32_MIN) - 1` is -2147483649. -/
theorem decodeF64_below :
    decodeF64 f64BitsBelowInt32 = F64Value.finite (-2147483649 * f64Scale) := by
  have h : (2 : Int) ^ 1074 = 2 ^ 21 * 2 ^ 1053 := by rw [← pow_add]
  have he : f64Exponent f64BitsBelowInt32 = 1054 := by decide
  have hf : f64Fraction f64BitsBelowInt32 = 2097152 := by decide
  have hn : f64Negative f64BitsBelowInt32 = true := by decide
  simp only [decodeF64, he, hf, hn, f64Scale, h]
  norm_num

/-- The constant `double(INT32_MAX) + 1` is 2147483648. -/
theorem decodeF64_above :
    decodeF64 f64BitsAboveInt32 = F64Value.finite (2147483648 * f64Scale) := by
  have h : (2 : Int) ^ 1074 = 2 ^ 21 * 2 ^ 1053 := by rw [← pow_add]
  have he : f64Exponent f64BitsAboveInt32 = 1054 := by decide
  have hf : f64Fraction f64BitsAboveInt32 = 0 := by decide
  have hn : f64Negative f64BitsAboveInt32 = false := by decide
  simp only [decodeF64, he, hf, hn, f64Scale, h]
  norm_num

/-- The reading of the bits of `1.0`. -/
theorem decodeF64_one : decodeF64 0x3FF0000000000000 = F64Value.finite f64Scale := by
  have h : (2 : Int) ^ 1074 = 2 ^ 52 * 2 ^ 1022 := by rw [← pow_add]
  have he : f64Exponent 0x3FF0000000000000 = 1023 := by decide
  have hf : f64Fraction 0x3FF0000000000000 = 0 := by decide
  have hn : f64Negative 0x3FF0000000000000 = false := by decide
  simp only [decodeF64, he, hf, hn, f64Scale, h]
  norm_num

/-- The body of `f64-to-int` as a chain of tests on its argument. -/
theorem eval_f64ToIntBody (bits : Nat) :
    eval [⟨WasmType.f64, bits⟩] f64ToIntBody =
      if (decodeF64 bits).eq (decodeF64 bits) = false then
        EvalResult.value ⟨WasmType.i32, 2147483648⟩
      else if (decodeF64 f64BitsAboveInt32).le (decodeF64 bits) = true then
        EvalResult.value ⟨WasmType.i32, 2147483648⟩
      else if (decodeF64 bits).le (decodeF64 f64BitsBelowInt32) = true then
        EvalResult.value ⟨WasmType.i32, 2147483648⟩
      else truncSFloat64ToInt32 (decodeF64 bits) := by
  have hmin : (Literal.ofInt32 (-2147483648)) = ⟨WasmType.i32, 2147483648⟩ := by decide
  simp only [f64ToIntBody, makeIf, makeBinary, makeUnary, makeGetLocal, makeConst, eval,
    evalOpt, hmin, evalBinary, evalUnary, Literal.ofBool, List.getElem?_cons_zero, and_self,
    and_true, if_true]
  generalize (decodeF64 bits).eq (decodeF64 bits) = b1
  generalize (decodeF64 f64BitsAboveInt32).le (decodeF64 bits) = b2
  generalize (decodeF64 bits).le (decodeF64 f64BitsBelowInt32) = b3
  cases b1 <;> cases b2 <;> cases b3 <;> simp

/-- The comparison of two finite values. -/
theorem F64Value.le_finite_iff (a b : Int) :
    (F64Value.finite a).le (F64Value.finite b) = true ↔ a ≤ b := by
  simp [F64Value.le]

/-- A finite value equals itself. -/
theorem F64Value.eq_finite_self (a : Int) :
    ¬ ((F64Value.finite a).eq (F64Value.finite a) = false) := by
  simp [F64Value.eq]

/-- The truncation toward zero of a finite value strictly between `-2^31 - 1` and
`2^31` is in the `i32` range. -/
theorem tdiv_f64Scale_bounds (s : Int) (hlo : -2147483649 * f64Scale < s)
    (hhi : s < 2147483648 * f64Scale) :
    -2147483648 ≤ Int.tdiv s f64Scale ∧ Int.tdiv s f64Scale ≤ 2147483647 := by
  have hS := f64Scale_pos
  by_cases hs : 0 ≤ s
  · rw [Int.tdiv_eq_ediv hs (le_of_lt hS)]
    have h1 : 0 ≤ s / f64Scale := Int.ediv_nonneg hs (le_of_lt hS)
    have h2 : s / f64Scale < 2147483648 := Int.ediv_lt_of_lt_mul hS hhi
    omega
  · have hneg : 0 ≤ -s := by omega
    have hrw : Int.tdiv s f64Scale = -((-s) / f64Scale) := by
      rw [← Int.tdiv_eq_ediv hneg (le_of_lt hS), Int.neg_tdiv, neg_neg]
    rw [hrw]
    have h1 : 0 ≤ (-s) / f64Scale := Int.ediv_nonneg hneg (le_of_lt hS)
    have h2 : (-s) / f64Scale < 2147483649 := by
      apply Int.ediv_lt_of_lt_mul hS
      linarith
    omega

/-- C17: in clamp mode the helper `f64-to-int` that `makeTrappingFloatToInt` adds
takes one `f64` and returns an `i32`. On an argument with bits `bits` its body
evaluates to `INT32_MIN` when the argument is not a number, when it is at least
`2^31` (`+inf` included) and when it is at most `-2^31 - 1` (`-inf` included);
for a finite argument strictly between `-2^31 - 1` and `2^31` it is the signed
truncation of the argument, which is in the `i32` range there, so the body
always yields an `i32` value and never traps. A finite argument is `s * 2^(-1074)`
for the integer `s` of `F64Value.finite`. -/
theorem f64ToInt_clamps :
    (∀ (signed_ : Bool) (value : Expression) (st : ShimState), st.added = false →
      ∃ (func : Function) (st2 : ShimState),
        makeTrappingFloatToInt TrapMode.Clamp signed_ value st
          = (Expression.call "f64-to-int"
              [if value.type = WasmType.f32 then
                 Expression.unary UnaryOp.PromoteFloat32 value WasmType.f64
               else value] WasmType.i32, st2) ∧
        st2.functions = st.functions ++ [func] ∧
        func.name = "f64-to-int" ∧ func.params = [WasmType.f64] ∧ func.vars = [] ∧
        func.result = WasmType.i32 ∧ func.body = f64ToIntBody) ∧
    (∀ bits : Nat,
      (decodeF64 bits = F64Value.nan →
        eval [⟨WasmType.f64, bits⟩] f64ToIntBody
          = EvalResult.value (Literal.ofInt32 (-2147483648))) ∧
      (decodeF64 bits = F64Value.posInf →
        eval [⟨WasmType.f64, bits⟩] f64ToIntBody
          = EvalResult.value (Literal.ofInt32 (-2147483648))) ∧
      (decodeF64 bits = F64Value.negInf →
        eval [⟨WasmType.f64, bits⟩] f64ToIntBody
          = EvalResult.value (Literal.ofInt32 (-2147483648))) ∧
      (∀ s : Int, decodeF64 bits = F64Value.finite s →
        (2147483648 * f64Scale ≤ s →
          eval [⟨WasmType.f64, bits⟩] f64ToIntBody
            = EvalResult.value (Literal.ofInt32 (-2147483648))) ∧
        (s ≤ -2147483649 * f64Scale →
          eval [⟨WasmType.f64, bits⟩] f64ToIntBody
            = EvalResult.value (Literal.ofInt32 (-2147483648))) ∧
        (-2147483649 * f64Scale < s → s < 2147483648 * f64Scale →
          eval [⟨WasmType.f64, bits⟩] f64ToIntBody
            = evalUnary UnaryOp.TruncSFloat64ToInt32 ⟨WasmType.f64, bits⟩ ∧
          eval [⟨WasmType.f64, bits⟩] f64ToIntBody
            = EvalResult.value (Literal.ofInt32 (Int.tdiv s f64Scale)) ∧
          -2147483648 ≤ Int.tdiv s f64Scale ∧ Int.tdiv s f64Scale ≤ 2147483647)) ∧
      ∃ v, eval [⟨WasmType.f64, bits⟩] f64ToIntBody = EvalResult.value v ∧
        v.type = WasmType.i32) := by
  have hmin : (Literal.ofInt32 (-2147483648)) = ⟨WasmType.i32, 2147483648⟩ := by decide
  have hS := f64Scale_pos
  constructor
  · intro signed_ value st hadded
    refine ⟨{ name := F64_TO_INT, params := [WasmType.f64], vars := [],
              result := WasmType.i32, body := f64ToIntBody },
            { st with added := true, functions := st.functions ++
                [{ name := F64_TO_INT, params := [WasmType.f64], vars := [],
                   result := WasmType.i32, body := f64ToIntBody }] },
            ?_, rfl, rfl, rfl, rfl, rfl, rfl⟩
    have h1 : ¬ TrapMode.Clamp = TrapMode.Allow := by decide
    have h2 : ¬ TrapMode.Clamp = TrapMode.JS := by decide
    simp only [makeTrappingFloatToInt, if_neg h1, if_neg h2, hadded, if_true]
    rfl
  · intro bits
    have hbody := eval_f64ToIntBody bits
    rw [decodeF64_above, decodeF64_below] at hbody
    have hfin : ∀ s : Int, decodeF64 bits = F64Value.finite s →
        (2147483648 * f64Scale ≤ s →
          eval [⟨WasmType.f64, bits⟩] f64ToIntBody
            = EvalResult.value (Literal.ofInt32 (-2147483648))) ∧
        (s ≤ -2147483649 * f64Scale →
          eval [⟨WasmType.f64, bits⟩] f64ToIntBody
            = EvalResult.value (Literal.ofInt32 (-2147483648))) ∧
        (-2147483649 * f64Scale < s → s < 2147483648 * f64Scale →
          eval [⟨WasmType.f64, bits⟩] f64ToIntBody
            = evalUnary UnaryOp.TruncSFloat64ToInt32 ⟨WasmType.f64, bits⟩ ∧
          eval [⟨WasmType.f64, bits⟩] f64ToIntBody
            = EvalResult.value (Literal.ofInt32 (Int.tdiv s f64Scale)) ∧
          -2147483648 ≤ Int.tdiv s f64Scale ∧ Int.tdiv s f64Scale ≤ 2147483647) := by
      intro s hs
      rw [hs] at hbody
      refine ⟨?_, ?_, ?_⟩
      · intro h
        rw [hbody, hmin, if_neg (F64Value.eq_finite_self s),
          if_pos ((F64Value.le_finite_iff _ _).mpr h)]
      · intro h
        rw [hbody, hmin, if_neg (F64Value.eq_finite_self s)]
        by_cases hge : (F64Value.finite (2147483648 * f64Scale)).le (F64Value.finite s) = true
        · rw [if_pos hge]
        · rw [if_neg hge, if_pos ((F64Value.le_finite_iff _ _).mpr h)]
      · intro hlo hhi
        have hb := tdiv_f64Scale_bounds s hlo hhi
        have htr : truncSFloat64ToInt32 (F64Value.finite s)
            = EvalResult.value (Literal.ofInt32 (Int.tdiv s f64Scale)) := by
          simp only [truncSFloat64ToInt32]
          rw [if_pos hb]
        have he : eval [⟨WasmType.f64, bits⟩] f64ToIntBody
            = truncSFloat64ToInt32 (F64Value.finite s) := by
          rw [hbody, if_neg (F64Value.eq_finite_self s),
            if_neg (fun hc => not_le.mpr hhi ((F64Value.le_finite_iff _ _).mp hc)),
            if_neg (fun hc => not_le.mpr hlo ((F64Value.le_finite_iff _ _).mp hc))]
        refine ⟨?_, ?_, hb⟩
        · rw [he]
          simp [evalUnary, hs]
        · rw [he, htr]
    refine ⟨?_, ?_, ?_, hfin, ?_⟩
    · intro h
      rw [hbody, h, hmin]
      simp [F64Value.eq]
    · intro h
      rw [hbody, h, hmin]
      simp [F64Value.eq, F64Value.le]
    · intro h
      rw [hbody, h, hmin]
      simp [F64Value.eq, F64Value.le]
    · cases hd : decodeF64 bits with
      | nan =>
        rw [hbody, hd]
        exact ⟨⟨WasmType.i32, 2147483648⟩, by simp [F64Value.eq], rfl⟩
      | posInf =>
        rw [hbody, hd]
        exact ⟨⟨WasmType.i32, 2147483648⟩, by simp [F64Value.eq, F64Value.le], rfl⟩
      | negInf =>
        rw [hbody, hd]
        exact ⟨⟨WasmType.i32, 2147483648⟩, by simp [F64Value.eq, F64Value.le], rfl⟩
      | finite s =>
        obtain ⟨h1, h2, h3⟩ := hfin s hd
        by_cases hhi : 2147483648 * f64Scale ≤ s
        · exact ⟨_, h1 hhi, rfl⟩
        · by_cases hlo : s ≤ -2147483649 * f64Scale
          · exact ⟨_, h2 hlo, rfl⟩
          · exact ⟨_, (h3 (not_le.mp hlo) (not_le.mp hhi)).2.1, rfl⟩

/-- The reading of the bits of `3.75`. -/
theorem decodeF64_example :
    decodeF64 0x400E000000000000 = F64Value.finite (8444249301319680 * 2 ^ 1023) := by
  have he : f64Exponent 0x400E000000000000 = 1024 := by decide
  have hf : f64Fraction 0x400E000000000000 = 3940649673949184 := by decide
  have hn : f64Negative 0x400E000000000000 = false := by decide
  simp only [decodeF64, he, hf, hn]
  norm_num

/-- Witness for C17: on the bits of `3.75` the helper body yields 3, and on the
bits of a quiet NaN it yields `INT32_MIN`. -/
theorem f64ToInt_clamps_witness :
    eval [⟨WasmType.f64, 0x400E000000000000⟩] f64ToIntBody
      = EvalResult.value ⟨WasmType.i32, 3⟩ ∧
    eval [⟨WasmType.f64, 0x7FF8000000000000⟩] f64ToIntBody
      = EvalResult.value ⟨WasmType.i32, 2147483648⟩ := by
  have hP : (0 : Int) < 2 ^ 1023 := by positivity
  have hscale : f64Scale = 2251799813685248 * 2 ^ 1023 := by
    have h : (2 : Int) ^ 1074 = 2 ^ 51 * 2 ^ 1023 := by rw [← pow_add]
    rw [f64Scale, h]
    norm_num
  have htdiv : Int.tdiv (8444249301319680 * 2 ^ 1023) f64Scale = 3 := by
    rw [hscale, Int.tdiv_eq_ediv (by positivity) (by positivity),
      Int.mul_ediv_mul_of_pos_left _ _ hP]
    decide
  have hnan : decodeF64 0x7FF8000000000000 = F64Value.nan := by decide
  constructor
  · have h := ((f64ToInt_clamps.2 0x400E000000000000).2.2.2.1 _ decodeF64_example).2.2
      (by rw [hscale]; nlinarith) (by rw [hscale]; nlinarith)
    rw [h.2.1, htdiv]
    rfl
  · rw [(f64ToInt_clamps.2 0x7FF8000000000000).1 hnan]
    rfl

/-! ## The switch strategy (lines 2383-2407) -/

/-- An integer of magnitude below `2^53` is a `double`. -/
theorem roundToDouble_of_small (v : Int) (h : v.natAbs < 2 ^ 53) : roundToDouble v = v := by
  simp only [roundToDouble]
  rw [if_pos h]

/-- What the loop of lines 2387-2401 keeps true of `(seen, min, max)` for the case
values `vs` read so far. -/
theorem switchBoundsStep_inv (c : SwitchCase) (st st2 : Bool × Int × Int) (vs : List Int)
    (hstep : switchBoundsStep st c = some st2)
    (h1 : st.1 = false → vs = [])
    (h2 : st.1 = true → st.2.1 ∈ vs ∧ st.2.2 ∈ vs ∧ ∀ v ∈ vs, st.2.1 ≤ v ∧ v ≤ st.2.2) :
    (st2.1 = false → vs ++ caseValues [c] = []) ∧
    (st2.1 = true → st2.2.1 ∈ vs ++ caseValues [c] ∧ st2.2.2 ∈ vs ++ caseValues [c] ∧
      ∀ v ∈ vs ++ caseValues [c], st2.2.1 ≤ v ∧ v ≤ st2.2.2) := by
  obtain ⟨seen, mn, mx⟩ := st
  unfold switchBoundsStep at hstep
  cases hc : c.condition with
  | none =>
    rw [hc] at hstep
    cases hstep
    simp only [caseValues, List.filterMap_cons, hc, Option.bind, List.filterMap_nil,
      List.append_nil]
    exact ⟨h1, h2⟩
  | some lit =>
    simp only [hc] at hstep
    cases hi : lit.getInteger with
    | none => simp only [hi] at hstep; cases hstep
    | some index =>
      simp only [hi] at hstep
      have hvals : caseValues [c] = [index] := by
        simp [caseValues, hc, hi]
      rw [hvals]
      cases seen with
      | false =>
        simp only [if_true] at hstep
        cases hstep
        have hvs := h1 rfl
        subst hvs
        simp
      | true =>
        simp only [Bool.true_eq_false, if_false] at hstep
        cases hstep
        obtain ⟨hmn, hmx, hall⟩ := h2 rfl
        dsimp only at hmn hmx hall ⊢
        refine ⟨by simp, fun _ => ⟨?_, ?_, ?_⟩⟩
        · simp only [List.mem_append, List.mem_singleton]
          by_cases h : index < mn
          · simp [h]
          · simp [h, hmn]
        · simp only [List.mem_append, List.mem_singleton]
          by_cases h : index > mx
          · simp [h]
          · simp [h, hmx]
        · intro v hv
          simp only [List.mem_append, List.mem_singleton] at hv
          rcases hv with hv | hv
          · have := hall v hv
            constructor
            · split <;> omega
            · split <;> omega
          · subst hv
            constructor
            · split <;> omega
            · split <;> omega

/-- The case values of a list of cases, one list after the other. -/
theorem caseValues_append (xs ys : List SwitchCase) :
    caseValues (xs ++ ys) = caseValues xs ++ caseValues ys := by
  simp [caseValues, List.filterMap_append]

/-- The loop of lines 2387-2401 from any state. -/
theorem switchBounds_fold (cases : List SwitchCase) :
    ∀ (st st2 : Bool × Int × Int) (vs : List Int),
      cases.foldlM switchBoundsStep st = some st2 →
      (st.1 = false → vs = []) →
      (st.1 = true → st.2.1 ∈ vs ∧ st.2.2 ∈ vs ∧ ∀ v ∈ vs, st.2.1 ≤ v ∧ v ≤ st.2.2) →
      (st.1 = false → st.2 = (0, 0)) →
      (st2.1 = false → vs ++ caseValues cases = [] ∧ st2.2 = (0, 0)) ∧
      (st2.1 = true → st2.2.1 ∈ vs ++ caseValues cases ∧ st2.2.2 ∈ vs ++ caseValues cases ∧
        ∀ v ∈ vs ++ caseValues cases, st2.2.1 ≤ v ∧ v ≤ st2.2.2) := by
  induction cases with
  | nil =>
    intro st st2 vs h h1 h2 h3
    simp only [List.foldlM_nil, Option.pure_def, Option.some.injEq] at h
    subst h
    simp only [caseValues, List.filterMap_nil, List.append_nil]
    exact ⟨fun hf => ⟨h1 hf, h3 hf⟩, h2⟩
  | cons c rest ih =>
    intro st st2 vs h h1 h2 h3
    rw [List.foldlM_cons] at h
    cases hstep : switchBoundsStep st c with
    | none => rw [hstep] at h; cases h
    | some st1 =>
      rw [hstep] at h
      have hinv := switchBoundsStep_inv c st st1 vs hstep h1 h2
      have h3b : st1.1 = false → st1.2 = (0, 0) := by
        intro hf
        obtain ⟨seen, mn, mx⟩ := st
        unfold switchBoundsStep at hstep
        cases hc : c.condition with
        | none =>
          rw [hc] at hstep
          cases hstep
          exact h3 hf
        | some lit =>
          simp only [hc] at hstep
          cases hi : lit.getInteger with
          | none => simp only [hi] at hstep; cases hstep
          | some index =>
            simp only [hi] at hstep
            cases seen <;> simp at hstep <;> subst hstep <;> simp at hf
      have := ih st1 st2 (vs ++ caseValues [c]) h hinv.1 hinv.2 h3b
      have happ : vs ++ caseValues (c :: rest) = vs ++ caseValues [c] ++ caseValues rest := by
        rw [List.append_assoc, ← caseValues_append]
        rfl
      rw [happ]
      exact this

/-- The bounds that `switchBounds` returns: both 0 when no case has a value, else
the smallest and the largest case value. -/
theorem switchBounds_spec (cases : List SwitchCase) (min max : Int)
    (h : switchBounds cases = some (min, max)) :
    (caseValues cases = [] → min = 0 ∧ max = 0) ∧
    (caseValues cases ≠ [] → min ∈ caseValues cases ∧ max ∈ caseValues cases) ∧
    (∀ v ∈ caseValues cases, min ≤ v ∧ v ≤ max) ∧ min ≤ max := by
  unfold switchBounds at h
  cases hf : cases.foldlM switchBoundsStep (false, 0, 0) with
  | none => rw [hf] at h; cases h
  | some st2 =>
    rw [hf] at h
    simp only [Option.map_some', Option.some.injEq] at h
    have key := switchBounds_fold cases (false, 0, 0) st2 [] hf (fun _ => rfl)
      (fun hc => by cases hc) (fun _ => rfl)
    simp only [List.nil_append] at key
    obtain ⟨seen, mn, mx⟩ := st2
    cases h
    cases seen with
    | false =>
      obtain ⟨hnil, hz⟩ := key.1 rfl
      cases hz
      refine ⟨fun _ => ⟨rfl, rfl⟩, fun hne => absurd hnil hne, ?_, le_refl _⟩
      intro v hv
      rw [hnil] at hv
      cases hv
    | true =>
      obtain ⟨hmn, hmx, hall⟩ := key.2 rfl
      refine ⟨?_, fun _ => ⟨hmn, hmx⟩, hall, (hall _ hmn).2⟩
      intro hnil
      rw [hnil] at hmn
      cases hmn

/-- The nesting of the cases keeps the innermost block apart: two nestings of
the same cases are equal only when they start from the same block. -/
theorem nestCases_injective (name : IString) (cases : List SwitchCase) :
    ∀ (top top2 : List Expression × WasmType),
      nestCases name top cases = nestCases name top2 cases → top = top2 := by
  induction cases with
  | nil =>
    intro top top2 h
    simp only [nestCases, List.foldl_nil, Expression.block.injEq, true_and] at h
    exact Prod.ext h.1 h.2
  | cons c rest ih =>
    intro top top2 h
    have h2 := ih _ _ (by simpa only [nestCases, List.foldl_cons] using h)
    simp only [Prod.mk.injEq, List.cons.injEq, Expression.block.injEq, true_and, and_true] at h2
    exact Prod.ext h2.1.1 h2.1.2

/-- The two strategies never emit the same tree: the innermost block of the
if-chain holds two nodes, that of the `br_table` one. -/
theorem processSwitchChain_ne_table (blockType : IString → List Expression → WasmType)
    (name : IString) (condition : Expression) (var : Nat) (cases : List SwitchCase)
    (min : Int) (e : Expression)
    (h : processSwitchChain blockType name condition var cases = some e) :
    processSwitchTable name condition min cases ≠ some e := by
  intro ht
  simp only [processSwitchChain] at h
  simp only [processSwitchTable] at ht
  split at h
  · cases h
  · split at ht
    · cases ht
    · split at ht
      · cases ht
      · simp only [Option.some.injEq] at h ht
        rw [← h] at ht
        have := nestCases_injective name cases _ _ ht
        simp at this

/-- C18, amended: with `min` and `max` the smallest and largest case value (both
0 when no case has a value), `processSwitch` emits the `br_table` exactly when
the `double` value `double(max) - double(min)` is in `[0, 10240)`, and the
if-chain otherwise. For case values of magnitude below `2^52`, so for every
`i32` selector, that is exactly `max - min < 10240`, whatever the sign of
`min`. -/
theorem processSwitch_strategy (blockType : IString → List Expression → WasmType)
    (name : IString) (condition : Expression) (var : Nat) (cases : List SwitchCase)
    (min max : Int) (h : switchBounds cases = some (min, max)) :
    ((caseValues cases = [] → min = 0 ∧ max = 0) ∧
      (caseValues cases ≠ [] → min ∈ caseValues cases ∧ max ∈ caseValues cases) ∧
      (∀ v ∈ caseValues cases, min ≤ v ∧ v ≤ max)) ∧
    (0 ≤ switchRange min max ∧ switchRange min max < 10240 →
      processSwitch blockType name condition var cases
        = processSwitchTable name condition min cases) ∧
    (¬ (0 ≤ switchRange min max ∧ switchRange min max < 10240) →
      processSwitch blockType name condition var cases
        = processSwitchChain blockType name condition var cases) ∧
    (-4503599627370496 < min → max < 4503599627370496 →
      switchRange min max = max - min ∧
      (max - min < 10240 →
        processSwitch blockType name condition var cases
          = processSwitchTable name condition min cases) ∧
      (¬ (max - min < 10240) →
        processSwitch blockType name condition var cases
          = processSwitchChain blockType name condition var cases)) := by
  have hspec := switchBounds_spec cases min max h
  have htable : (0 ≤ switchRange min max ∧ switchRange min max < 10240) →
      processSwitch blockType name condition var cases
        = processSwitchTable name condition min cases := by
    intro hr
    simp only [processSwitch, h, canSwitch, decide_eq_true_eq]
    rw [if_pos hr]
  have hchain : ¬ (0 ≤ switchRange min max ∧ switchRange min max < 10240) →
      processSwitch blockType name condition var cases
        = processSwitchChain blockType name condition var cases := by
    intro hr
    simp only [processSwitch, h, canSwitch, decide_eq_true_eq]
    rw [if_neg hr]
  refine ⟨⟨hspec.1, hspec.2.1, hspec.2.2.1⟩, htable, hchain, ?_⟩
  intro hmin hmax
  have hle := hspec.2.2.2
  have hr : switchRange min max = max - min := by
    unfold switchRange
    rw [roundToDouble_of_small max (by omega), roundToDouble_of_small min (by omega),
      roundToDouble_of_small (max - min) (by omega)]
  refine ⟨hr, ?_, ?_⟩
  · intro hlt
    exact htable (by rw [hr]; omega)
  · intro hge
    exact hchain (by rw [hr]; omega)

/-- Witness for C18: the example switch with the case values 0 and 1 is lowered
to a `br_table`. -/
theorem processSwitch_strategy_witness :
    switchBounds exampleSwitchCases = some (0, 1) ∧
    processSwitch (fun _ _ => WasmType.none) "switch" (Expression.getLocal 0 WasmType.i32) 1
        exampleSwitchCases
      = processSwitchTable "switch" (Expression.getLocal 0 WasmType.i32) 0 exampleSwitchCases :=
  ⟨by decide,
   ((processSwitch_strategy (fun _ _ => WasmType.none) "switch"
      (Expression.getLocal 0 WasmType.i32) 1 exampleSwitchCases 0 1 (by decide)).2.2.2
        (by decide) (by decide)).2.1 (by decide)⟩

/-- Counterexample to C18 as stated: an `i64` switch with the case values `2^62`
and `2^62 + 10239` has `max - min = 10239 < 10240`, yet `double(max)` rounds up
to `2^62 + 10240`, the range is `10240`, and the if-chain is emitted, not the
`br_table`. -/
theorem processSwitch_wide_counterexample :
    switchBounds exampleWideCases = some (4611686018427387904, 4611686018427398143) ∧
    (4611686018427398143 : Int) - 4611686018427387904 < 10240 ∧
    switchRange 4611686018427387904 4611686018427398143 = 10240 ∧
    processSwitch (fun _ _ => WasmType.none) "switch" (Expression.getLocal 0 WasmType.i64) 1
        exampleWideCases
      = processSwitchChain (fun _ _ => WasmType.none) "switch"
          (Expression.getLocal 0 WasmType.i64) 1 exampleWideCases ∧
    processSwitch (fun _ _ => WasmType.none) "switch" (Expression.getLocal 0 WasmType.i64) 1
        exampleWideCases
      ≠ processSwitchTable "switch" (Expression.getLocal 0 WasmType.i64) 4611686018427387904
          exampleWideCases := by
  have hb : switchBounds exampleWideCases
      = some (4611686018427387904, 4611686018427398143) := by decide
  have hc : canSwitch 4611686018427387904 4611686018427398143 = false := by decide
  have hp : processSwitch (fun _ _ => WasmType.none) "switch"
      (Expression.getLocal 0 WasmType.i64) 1 exampleWideCases
      = processSwitchChain (fun _ _ => WasmType.none) "switch"
          (Expression.getLocal 0 WasmType.i64) 1 exampleWideCases := by
    simp only [processSwitch, hb, hc]
    rfl
  refine ⟨hb, by decide, by decide, hp, ?_⟩
  rw [hp]
  intro heq
  cases hch : processSwitchChain (fun _ _ => WasmType.none) "switch"
      (Expression.getLocal 0 WasmType.i64) 1 exampleWideCases with
  | none => exact absurd hch (by simp [processSwitchChain, exampleWideCases, switchChainStep])
  | some e =>
    rw [hch] at heq
    exact processSwitchChain_ne_table _ _ _ _ _ _ e hch heq.symm

/-! ## The `br_table` strategy (lines 2407-2467) -/

/-- The length of `targets` after a write at `index`. -/
theorem setTarget_length (targets : List (Option IString)) (index : Nat) (name : IString) :
    (setTarget targets index name).length = max targets.length (index + 1) := by
  simp only [setTarget]
  split
  · simp only [List.length_set, List.length_append, List.length_replicate]
    omega
  · simp only [List.length_set]
    omega

/-- The entries of `targets` after a write at `index`. -/
theorem setTarget_getElem? (targets : List (Option IString)) (index : Nat) (name : IString)
    (i : Nat) :
    (setTarget targets index name)[i]? =
      if i = index then some (some name)
      else if i < targets.length then targets[i]?
      else if i < index + 1 then some none
      else none := by
  simp only [setTarget]
  by_cases hi : i = index
  · subst hi
    rw [if_pos rfl, List.getElem?_set_self]
    split
    · simp only [List.length_append, List.length_replicate]; omega
    · omega
  · rw [if_neg hi, List.getElem?_set_ne (fun h => hi h.symm)]
    split
    · by_cases hlt : i < targets.length
      · rw [if_pos hlt, List.getElem?_append_left hlt]
      · rw [if_neg hlt, List.getElem?_append_right (by omega)]
        by_cases h2 : i < index + 1
        · rw [if_pos h2, List.getElem?_replicate]
          rw [if_pos (by omega)]
        · rw [if_neg h2, List.getElem?_replicate]
          rw [if_neg (by omega)]
    · by_cases hlt : i < targets.length
      · rw [if_pos hlt]
      · rw [if_neg hlt, if_neg (by omega)]
        exact List.getElem?_eq_none (by omega)

/-- The last label for `k` after one more case. -/
theorem lastLabel_append_singleton (pre : List SwitchCase) (c : SwitchCase) (k : Int) :
    lastLabel (pre ++ [c]) k =
      if c.condition.bind Literal.getInteger = some k then some c.label else lastLabel pre k := by
  simp only [lastLabel, List.filter_append, List.filter_cons, List.filter_nil]
  by_cases h : c.condition.bind Literal.getInteger = some k
  · simp [h]
  · simp [h]

/-- No case has the value `k` exactly when `k` has no last label. -/
theorem lastLabel_eq_none (cases : List SwitchCase) (k : Int) :
    lastLabel cases k = none ↔ k ∉ caseValues cases := by
  simp only [lastLabel, Option.map_eq_none', List.getLast?_eq_none_iff, caseValues,
    List.mem_filterMap, not_exists, not_and, List.filter_eq_nil_iff, decide_eq_true_eq]

/-- When the bounds loop completes, every case literal has an integer value. -/
theorem switchBounds_fold_getInteger (cases : List SwitchCase) :
    ∀ (st st2 : Bool × Int × Int), cases.foldlM switchBoundsStep st = some st2 →
      ∀ c ∈ cases, ∀ lit, c.condition = some lit → ∃ v, lit.getInteger = some v := by
  induction cases with
  | nil => intro st st2 _ c hc; cases hc
  | cons c0 rest ih =>
    intro st st2 h c hc lit hlit
    rw [List.foldlM_cons] at h
    cases hstep : switchBoundsStep st c0 with
    | none => rw [hstep] at h; cases h
    | some st1 =>
      rw [hstep] at h
      rcases List.mem_cons.mp hc with heq | hmem
      · subst heq
        unfold switchBoundsStep at hstep
        simp only [hlit] at hstep
        cases hi : lit.getInteger with
        | none => simp only [hi] at hstep; cases hstep
        | some v => exact ⟨v, rfl⟩
      · exact ih st1 st2 h c hmem lit hlit

/-- The last `default:` label after one more case. -/
theorem lastDefault_append_singleton (pre : List SwitchCase) (c : SwitchCase) :
    lastDefault (pre ++ [c]) = if c.condition.isNone then some c.label else lastDefault pre := by
  simp only [lastDefault, List.filter_append, List.filter_cons, List.filter_nil]
  by_cases h : c.condition.isNone = true
  · simp [h]
  · simp [h]

/-- The loop of lines 2429-2456 from the state reached after the cases `pre`: it
completes, `targets` reaches one past the largest offset of a case value, entry
`i` is the last label for `min + i`, null when there is none, and `default_` is
the last `default:` label. -/
theorem switchTable_fold (min : Int) (rest : List SwitchCase) :
    ∀ (pre : List SwitchCase) (T : List (Option IString)) (d : Option IString),
      (∀ v ∈ caseValues (pre ++ rest), min ≤ v) →
      (∀ c ∈ rest, ∀ lit, c.condition = some lit → ∃ v, lit.getInteger = some v) →
      (∀ v ∈ caseValues pre, (v - min).toNat < T.length) →
      (T.length = 0 ∨ ∃ v ∈ caseValues pre, T.length = (v - min).toNat + 1) →
      (∀ i, i < T.length → T[i]? = some (lastLabel pre (min + (i : Int)))) →
      d = lastDefault pre →
      ∃ T2, rest.foldlM (switchTableStep min) (T, d) = some (T2, lastDefault (pre ++ rest)) ∧
        (∀ v ∈ caseValues (pre ++ rest), (v - min).toNat < T2.length) ∧
        (T2.length = 0 ∨ ∃ v ∈ caseValues (pre ++ rest), T2.length = (v - min).toNat + 1) ∧
        (∀ i, i < T2.length → T2[i]? = some (lastLabel (pre ++ rest) (min + (i : Int)))) := by
  induction rest with
  | nil =>
    intro pre T d _ _ h1 h2 h3 hd
    refine ⟨T, ?_, ?_, ?_, ?_⟩
    · simp [hd]
    · simpa using h1
    · simpa using h2
    · simpa using h3
  | cons c rest ih =>
    intro pre T d hmin hlit h1 h2 h3 hd
    have happ : pre ++ c :: rest = (pre ++ [c]) ++ rest := by simp
    rw [happ] at hmin ⊢
    have hlit2 : ∀ c2 ∈ rest, ∀ lit, c2.condition = some lit → ∃ v, lit.getInteger = some v :=
      fun c2 hc2 => hlit c2 (List.mem_cons_of_mem _ hc2)
    rw [List.foldlM_cons]
    cases hc : c.condition with
    | none =>
      have hstep : switchTableStep min (T, d) c = some (T, some c.label) := by
        simp [switchTableStep, hc]
      have hvals : caseValues (pre ++ [c]) = caseValues pre := by
        simp [caseValues_append, caseValues, hc]
      have hlab : ∀ k, lastLabel (pre ++ [c]) k = lastLabel pre k := by
        intro k
        rw [lastLabel_append_singleton, hc]
        simp
      have hdef : some c.label = lastDefault (pre ++ [c]) := by
        rw [lastDefault_append_singleton, hc]
        simp
      rw [hstep]
      exact ih (pre ++ [c]) T (some c.label) hmin hlit2 (by rw [hvals]; exact h1)
        (by rw [hvals]; exact h2) (fun i hi => by rw [hlab]; exact h3 i hi) hdef
    | some lit =>
      obtain ⟨v, hv⟩ := hlit c (List.mem_cons_self _ _) lit hc
      have hvals : caseValues (pre ++ [c]) = caseValues pre ++ [v] := by
        simp [caseValues_append, caseValues, hc, hv]
      have hvmin : min ≤ v := by
        apply hmin v
        rw [caseValues_append, hvals]
        simp
      have hstep : switchTableStep min (T, d) c
          = some (setTarget T (v - min).toNat c.label, d) := by
        simp only [switchTableStep, hc, hv]
        rw [if_pos (by omega), if_pos (by omega)]
      have hlab : ∀ k, lastLabel (pre ++ [c]) k
          = if v = k then some c.label else lastLabel pre k := by
        intro k
        rw [lastLabel_append_singleton, hc]
        simp [hv]
      have hdef : d = lastDefault (pre ++ [c]) := by
        rw [lastDefault_append_singleton, hc]
        simpa using hd
      have hpremin : ∀ w ∈ caseValues pre, min ≤ w := by
        intro w hw
        apply hmin w
        rw [caseValues_append, hvals]
        simp [hw]
      rw [hstep]
      refine ih (pre ++ [c]) _ d hmin hlit2 ?_ ?_ ?_ hdef
      · intro w hw
        rw [hvals] at hw
        rw [setTarget_length]
        rcases List.mem_append.mp hw with hw | hw
        · have := h1 w hw
          omega
        · simp only [List.mem_singleton] at hw
          subst hw
          omega
      · right
        rw [setTarget_length, hvals]
        by_cases hlen : T.length ≤ (v - min).toNat + 1
        · exact ⟨v, by simp, by omega⟩
        · rcases h2 with h0 | ⟨w, hw, hwl⟩
          · omega
          · exact ⟨w, by simp [hw], by omega⟩
      · intro i hi
        rw [setTarget_length] at hi
        rw [setTarget_getElem?, hlab]
        by_cases hidx : i = (v - min).toNat
        · rw [if_pos hidx, if_pos (show v = min + (i : Int) by omega)]
        · rw [if_neg hidx, if_neg (show ¬ v = min + (i : Int) by omega)]
          by_cases hlt : i < T.length
          · rw [if_pos hlt]
            exact h3 i hlt
          · rw [if_neg hlt, if_pos (show i < (v - min).toNat + 1 by omega)]
            have : lastLabel pre (min + (i : Int)) = none := by
              rw [lastLabel_eq_none]
              intro hmem
              have hw1 := h1 _ hmem
              omega
            rw [this]

/-- C19: when `min` and `max` are the bounds of the case values and the condition
is an `i32` or an `i64`, the `br_table` strategy completes and emits the nested
case blocks around one `Switch` whose selector is `condition - min` (`SubInt32`
with the constant `int32(min)`; for `i64`, `SubInt64` with `int64(min)` wrapped
by `WrapInt64`); its target vector has `max - min + 1` entries when a case
value exists and none otherwise; for every case value `k` the entry at `k - min`
is the label of the last case with value `k`; every entry whose index is no
case value's offset is the default label; and the default label is the last
`default:` case's label, or the switch's exit label when there is none. The
example switch becomes a `br_table` over `i32.sub(x, 0)` with the targets
`L0`, `L1` and the default `Ldefault`. -/
theorem processSwitchTable_spec :
    (∀ (name : IString) (condition : Expression) (cases : List SwitchCase) (min max : Int),
      switchBounds cases = some (min, max) →
      (condition.type = WasmType.i32 ∨ condition.type = WasmType.i64) →
      ∃ (targets : List IString) (default_ : IString) (selector : Expression),
        processSwitchTable name condition min cases
          = some (nestCases name
              ([Expression.switch targets default_ selector none WasmType.unreachable],
                WasmType.unreachable) cases) ∧
        (condition.type = WasmType.i32 →
          selector = Expression.binary BinaryOp.SubInt32 condition
            (Expression.const (Literal.ofInt32 min) WasmType.i32) WasmType.i32) ∧
        (condition.type = WasmType.i64 →
          selector = Expression.unary UnaryOp.WrapInt64
            (Expression.binary BinaryOp.SubInt64 condition
              (Expression.const (Literal.ofInt64 min) WasmType.i64) WasmType.i64)
            WasmType.i32) ∧
        (caseValues cases ≠ [] → (targets.length : Int) = max - min + 1) ∧
        (caseValues cases = [] → targets = []) ∧
        (∀ k ∈ caseValues cases,
          ∃ l, lastLabel cases k = some l ∧ targets[(k - min).toNat]? = some l) ∧
        (∀ i, i < targets.length → min + (i : Int) ∉ caseValues cases →
          targets[i]? = some default_) ∧
        default_ = (lastDefault cases).getD name) ∧
    processSwitch (fun _ _ => WasmType.none) "switch" (Expression.getLocal 0 WasmType.i32) 1
        exampleSwitchCases
      = some (Expression.block "switch"
          [Expression.block "Ldefault"
            [Expression.block "L1"
              [Expression.block "L0"
                [Expression.switch ["L0", "L1"] "Ldefault"
                  (Expression.binary BinaryOp.SubInt32 (Expression.getLocal 0 WasmType.i32)
                    (Expression.const ⟨WasmType.i32, 0⟩ WasmType.i32) WasmType.i32)
                  none WasmType.unreachable]
                WasmType.unreachable,
               Expression.block "" [Expression.call "a" [] WasmType.none, makeBreak "switch"]
                 WasmType.unreachable]
              WasmType.unreachable,
             Expression.block "" [Expression.call "b" [] WasmType.none, makeBreak "switch"]
               WasmType.unreachable]
            WasmType.unreachable,
           Expression.call "c" [] WasmType.none]
          WasmType.none) := by
  constructor
  · intro name condition cases min max hb htype
    have hspec := switchBounds_spec cases min max hb
    have hlit : ∀ c ∈ cases, ∀ lit, c.condition = some lit → ∃ v, lit.getInteger = some v := by
      unfold switchBounds at hb
      cases hf : cases.foldlM switchBoundsStep (false, 0, 0) with
      | none => rw [hf] at hb; cases hb
      | some st2 => exact switchBounds_fold_getInteger cases _ st2 hf
    obtain ⟨T, hfold, hT1, hT2, hT3⟩ := switchTable_fold min cases [] [] none
      (by simpa using fun v hv => (hspec.2.2.1 v hv).1) hlit
      (by intro v hv; simp [caseValues] at hv) (Or.inl rfl)
      (by intro i hi; simp at hi) (by simp [lastDefault])
    simp only [List.nil_append] at hfold hT1 hT2 hT3
    obtain ⟨selector, hsel, hs32, hs64⟩ : ∃ selector, switchSelector condition min = some selector ∧
        (condition.type = WasmType.i32 →
          selector = Expression.binary BinaryOp.SubInt32 condition
            (Expression.const (Literal.ofInt32 min) WasmType.i32) WasmType.i32) ∧
        (condition.type = WasmType.i64 →
          selector = Expression.unary UnaryOp.WrapInt64
            (Expression.binary BinaryOp.SubInt64 condition
              (Expression.const (Literal.ofInt64 min) WasmType.i64) WasmType.i64)
            WasmType.i32) := by
      rcases htype with h | h
      · refine ⟨_, by simp only [switchSelector, if_pos h]; rfl, fun _ => rfl, fun h2 => ?_⟩
        rw [h] at h2; cases h2
      · have hne : ¬ condition.type = WasmType.i32 := by rw [h]; decide
        refine ⟨_, by simp only [switchSelector, if_neg hne, if_pos h]; rfl,
          fun h2 => absurd h2 hne, fun _ => rfl⟩
    refine ⟨T.map (fun t => t.getD ((lastDefault cases).getD name)),
      (lastDefault cases).getD name, selector, ?_, hs32, hs64, ?_, ?_, ?_, ?_, rfl⟩
    · simp only [processSwitchTable, hsel, hfold]
      rfl
    · intro hne
      rw [List.length_map]
      obtain ⟨hmn, hmx⟩ := hspec.2.1 hne
      have h1 := hT1 max hmx
      have hle := hspec.2.2.2
      rcases hT2 with h0 | ⟨w, hw, hwl⟩
      · omega
      · have := (hspec.2.2.1 w hw)
        omega
    · intro hnil
      rcases hT2 with h0 | ⟨w, hw, -⟩
      · rw [List.length_eq_zero] at h0
        rw [h0]; rfl
      · rw [hnil] at hw; cases hw
    · intro k hk
      have hidx := hT1 k hk
      have hkmin := (hspec.2.2.1 k hk).1
      have hT := hT3 _ hidx
      have hcast : min + (((k - min).toNat : Nat) : Int) = k := by omega
      rw [hcast] at hT
      cases hl : lastLabel cases k with
      | none => exact absurd hk ((lastLabel_eq_none cases k).mp hl)
      | some l =>
        refine ⟨l, rfl, ?_⟩
        rw [List.getElem?_map, hT, hl]
        rfl
    · intro i hi hnot
      rw [List.length_map] at hi
      rw [List.getElem?_map, hT3 i hi, (lastLabel_eq_none cases _).mpr hnot]
      rfl
  · rfl

/-- Witness for C19 on the example switch: two targets and the default
`Ldefault`. -/
theorem processSwitchTable_spec_witness :
    ∃ (targets : List IString) (default_ : IString) (selector : Expression),
      processSwitchTable "switch" (Expression.getLocal 0 WasmType.i32) 0 exampleSwitchCases
        = some (nestCases "switch"
            ([Expression.switch targets default_ selector none WasmType.unreachable],
              WasmType.unreachable) exampleSwitchCases) ∧
      (targets.length : Int) = 2 ∧ default_ = "Ldefault" := by
  obtain ⟨t, d, s, h1, -, -, h4, -, -, -, h8⟩ :=
    processSwitchTable_spec.1 "switch" (Expression.getLocal 0 WasmType.i32)
      exampleSwitchCases 0 1 (by decide) (Or.inl rfl)
  refine ⟨t, d, s, h1, ?_, ?_⟩
  · rw [h4 (by decide)]; rfl
  · rw [h8]; rfl

/-! ## The preprocessor: strings and buffers -/

/-- A string without terminator is the C string at its start. -/
theorem cstring_zero_of_not_mem (t : List Char) (h : NUL ∉ t) : cstring t 0 = t := by
  simp only [cstring, List.drop_zero]
  rw [List.takeWhile_eq_self_iff]
  intro c hc
  simp only [ne_eq, decide_eq_true_eq, decide_not, Bool.not_eq_true', decide_eq_false_iff_not]
  intro hcn
  exact h (hcn ▸ hc)

/-- Where `startsWith` succeeds the pattern is a prefix. -/
theorem prefix_of_startsWith : ∀ (s pat : List Char), startsWith s pat = true → pat <+: s
  | _, [], _ => List.nil_prefix
  | [], _ :: _, h => by simp [startsWith] at h
  | c :: s, p :: ps, h => by
    simp only [startsWith] at h
    split at h
    · cases h
    · split at h
      · cases h
      · rename_i h1 h2
        have hcp : c = p := by simpa using h2
        subst hcp
        exact (List.prefix_cons_inj c).mpr (prefix_of_startsWith s ps h)

/-- A pattern without terminator that is a prefix makes `startsWith` succeed. -/
theorem startsWith_of_prefix : ∀ (s pat : List Char), NUL ∉ pat → pat <+: s →
    startsWith s pat = true
  | _, [], _, _ => by simp [startsWith]
  | [], p :: ps, _, h => by simp at h
  | c :: s, p :: ps, hn, h => by
    obtain ⟨hcp, hps⟩ := List.cons_prefix_cons.mp h
    subst hcp
    have hp : p ≠ NUL := fun h0 => hn (h0 ▸ List.mem_cons_self _ _)
    simp only [startsWith, hp, if_false, ne_eq, not_true_eq_false]
    exact startsWith_of_prefix s ps (fun h0 => hn (List.mem_cons_of_mem _ h0)) hps

/-- The search `findSub` finds nothing exactly when the pattern does not occur. -/
theorem findSub_eq_none_iff (pat : List Char) : ∀ s : List Char,
    findSub pat s = none ↔ ¬ pat <:+: s
  | [] => by
    simp only [findSub]
    constructor
    · intro h hi
      have : pat = [] := List.eq_nil_of_infix_nil hi
      simp [this] at h
    · intro h
      by_cases hp : pat = []
      · exact absurd (hp ▸ List.infix_refl []) h
      · simp [hp]
  | c :: s => by
    simp only [findSub]
    by_cases hpre : pat.isPrefixOf (c :: s) = true
    · simp only [hpre, if_true]
      constructor
      · intro h; cases h
      · intro h
        exact absurd (List.isPrefixOf_iff_prefix.mp hpre).isInfix h
    · simp only [hpre, Option.map_eq_none', findSub_eq_none_iff pat s]
      simp only [Bool.false_eq_true, if_false, Option.map_eq_none', findSub_eq_none_iff pat s]
      constructor
      · intro h hi
        rcases List.infix_cons_iff.mp hi with h1 | h1
        · exact hpre (List.isPrefixOf_iff_prefix.mpr h1)
        · exact h h1
      · intro h hi
        exact h (List.infix_cons hi)

/-- What `findSub` returns is the offset of an occurrence, and the first one. -/
theorem findSub_some (pat : List Char) (hne : pat ≠ []) : ∀ (s : List Char) (i : Nat),
    findSub pat s = some i →
    pat <+: s.drop i ∧ i + pat.length ≤ s.length ∧ ¬ pat <:+: s.take (i + pat.length - 1)
  | [], i, h => by
    simp only [findSub, hne, if_false] at h
    cases h
  | c :: s, i, h => by
    have hpl : 0 < pat.length := List.length_pos.mpr hne
    simp only [findSub] at h
    by_cases hpre : pat.isPrefixOf (c :: s) = true
    · simp only [hpre, if_true, Option.some.injEq] at h
      subst h
      have hp := List.isPrefixOf_iff_prefix.mp hpre
      refine ⟨by simpa using hp, by simpa using hp.length_le, ?_⟩
      intro hi
      have := hi.length_le
      simp only [zero_add, List.length_take] at this
      omega
    · simp only [hpre, Bool.false_eq_true, if_false] at h
      cases hf : findSub pat s with
      | none => simp [hf] at h
      | some j =>
        simp only [hf, Option.map_some', Option.some.injEq] at h
        subst h
        obtain ⟨h1, h2, h3⟩ := findSub_some pat hne s j hf
        refine ⟨by simpa using h1, by simp; omega, ?_⟩
        intro hi
        have hrw : (c :: s).take (j + 1 + pat.length - 1) = c :: s.take (j + pat.length - 1) := by
          have : j + 1 + pat.length - 1 = (j + pat.length - 1) + 1 := by omega
          rw [this, List.take_succ_cons]
        rw [hrw] at hi
        rcases List.infix_cons_iff.mp hi with h4 | h4
        · apply hpre
          apply List.isPrefixOf_iff_prefix.mpr
          exact h4.trans ((List.prefix_cons_inj c).mpr (List.take_prefix _ s))
        · exact h3 h4

/-- No byte of a C string is the terminator. -/
theorem not_mem_cstring (mem : List Char) (p : Nat) : NUL ∉ cstring mem p := by
  intro h
  have := List.mem_takeWhile_imp h
  simp at this

/-- The first byte that `dropWhile` keeps fails the test. -/
theorem head_of_dropWhile_eq_cons (q : Char → Bool) : ∀ (l : List Char) (c : Char)
    (tail : List Char), l.dropWhile q = c :: tail → q c = false
  | [], _, _, h => by simp at h
  | x :: xs, c, tail, h => by
    by_cases hx : q x = true
    · rw [List.dropWhile_cons_of_pos hx] at h
      exact head_of_dropWhile_eq_cons q xs c tail h
    · rw [List.dropWhile_cons_of_neg hx] at h
      cases h
      simpa using hx

/-- The buffer from `p` on is the C string at `p` and a rest that is empty or
starts with a terminator. -/
theorem drop_eq_cstring_append (mem : List Char) (p : Nat) :
    ∃ rest, mem.drop p = cstring mem p ++ rest ∧ (rest = [] ∨ ∃ tail, rest = NUL :: tail) := by
  refine ⟨(mem.drop p).dropWhile (fun c => c ≠ NUL), ?_, ?_⟩
  · simp only [cstring]
    exact (List.takeWhile_append_dropWhile _ _).symm
  · cases h : (mem.drop p).dropWhile (fun c => c ≠ NUL) with
    | nil => exact Or.inl rfl
    | cons c tail =>
      right
      have := head_of_dropWhile_eq_cons _ _ c tail h
      simp only [ne_eq, decide_not, Bool.not_eq_false', decide_eq_true_eq] at this
      exact ⟨tail, by rw [this]⟩

/-- The C string of a buffer given by its parts. -/
theorem cstring_of_parts (front s rest : List Char) (hs : NUL ∉ s)
    (hrest : rest = [] ∨ ∃ tail, rest = NUL :: tail) :
    cstring (front ++ s ++ rest) front.length = s := by
  simp only [cstring, List.append_assoc, List.drop_left]
  rcases hrest with h | ⟨tail, h⟩
  · subst h
    rw [List.append_nil, List.takeWhile_eq_self_iff]
    intro c hc
    simp only [ne_eq, decide_not, Bool.not_eq_true', decide_eq_false_iff_not]
    exact fun h0 => hs (h0 ▸ hc)
  · subst h
    rw [List.takeWhile_append_of_pos]
    · simp
    · intro c hc
      simp only [ne_eq, decide_not, Bool.not_eq_true', decide_eq_false_iff_not]
      exact fun h0 => hs (h0 ▸ hc)

/-- A buffer as the bytes before `p`, the C string at `p` and the rest. -/
theorem mem_eq_parts (mem : List Char) (p : Nat) (hp : p ≤ mem.length) :
    ∃ rest, mem = mem.take p ++ cstring mem p ++ rest ∧ (mem.take p).length = p ∧
      (rest = [] ∨ ∃ tail, rest = NUL :: tail) := by
  obtain ⟨rest, h1, h2⟩ := drop_eq_cstring_append mem p
  refine ⟨rest, ?_, by simp [hp], h2⟩
  rw [List.append_assoc, ← h1, List.take_append_drop]

/-- A terminator written into a C string cuts it there. -/
theorem cstring_set_nul (mem : List Char) (p i : Nat) (hi : i < (cstring mem p).length) :
    cstring (mem.set (p + i) NUL) p = (cstring mem p).take i := by
  have hp : p ≤ mem.length := by
    by_contra hlt
    have : mem.drop p = [] := List.drop_eq_nil_of_le (by omega)
    simp [cstring, this] at hi
  obtain ⟨rest, h1, h2, h3⟩ := mem_eq_parts mem p hp
  generalize hr : cstring mem p = r at h1 hi ⊢
  have hrn : NUL ∉ r := hr ▸ not_mem_cstring mem p
  have hset : mem.set (p + i) NUL
      = mem.take p ++ r.take i ++ (NUL :: (r.drop (i + 1) ++ rest)) := by
    conv_lhs => rw [h1]
    rw [List.append_assoc, List.set_append_right _ _ (by omega)]
    simp only [h2, Nat.add_sub_cancel_left]
    rw [List.set_append_left _ _ hi, List.set_eq_take_append_cons_drop, if_pos hi]
    simp [List.append_assoc]
  have := cstring_of_parts (mem.take p) (r.take i) (NUL :: (r.drop (i + 1) ++ rest))
    (fun h => hrn (List.mem_of_mem_take h)) (Or.inr ⟨_, rfl⟩)
  rw [h2] at this
  rw [hset]
  exact this

/-- What `strstr` returns is the first occurrence in the C string. -/
theorem strstr_some (mem : List Char) (p m : Nat) (pat : List Char)
    (h : strstr mem p pat = some m) :
    ∃ i, m = p + i ∧ findSub pat (cstring mem p) = some i := by
  simp only [strstr, Option.map_eq_some'] at h
  obtain ⟨i, hi, hm⟩ := h
  exact ⟨i, hm.symm, hi⟩

/-- The buffer at an occurrence that `strstr` found starts with the pattern. -/
theorem drop_of_strstr (mem : List Char) (p m : Nat) (pat : List Char) (hne : pat ≠ [])
    (h : strstr mem p pat = some m) : pat <+: mem.drop m := by
  obtain ⟨i, hm, hi⟩ := strstr_some mem p m pat h
  obtain ⟨h1, h2, -⟩ := findSub_some pat hne _ i hi
  obtain ⟨rest, hrest, -⟩ := drop_eq_cstring_append mem p
  have : mem.drop m = (cstring mem p).drop i ++ rest := by
    rw [hm, ← List.drop_drop, hrest, List.drop_append_of_le_length (by omega)]
  rw [this]
  exact h1.trans (List.prefix_append _ _)

/-- Writing the marker's first byte back undoes the terminator at the marker. -/
theorem set_marker_restore (mem : List Char) (p m : Nat)
    (h : strstr mem p START_FUNCS = some m) (mem2 : List Char)
    (h2 : mem2.set m '/' = mem.set m '/') :
    mem2.set m (START_FUNCS.headD NUL) = mem := by
  have hpre := drop_of_strstr mem p m START_FUNCS (by decide) h
  obtain ⟨t, ht⟩ := hpre
  have hd : mem.drop m = '/' :: (START_FUNCS.tail ++ t) := by
    rw [← ht]; rfl
  have hhead : START_FUNCS.headD NUL = '/' := by decide
  rw [hhead, h2]
  have hlt : m < mem.length := by
    by_contra hge
    have : mem.drop m = [] := List.drop_eq_nil_of_le (by omega)
    rw [this] at hd
    cases hd
  rw [List.set_eq_take_append_cons_drop, if_pos hlt]
  have hd2 : mem.drop (m + 1) = START_FUNCS.tail ++ t := by
    rw [← List.drop_drop, hd]; rfl
  rw [hd2, ← hd, List.take_append_drop]

/-! ## The preprocessor: growth detection (lines 202-227) -/

/-- With the terminator at the marker the C string at `input` is the prologue. -/
theorem cstring_truncated (mem : List Char) (input : Nat) :
    cstring (match strstr mem input START_FUNCS with
      | some m => mem.set m NUL
      | none => mem) input = prologue (cstring mem input) := by
  cases hm : strstr mem input START_FUNCS with
  | none =>
    have : findSub START_FUNCS (cstring mem input) = none := by
      simpa [strstr] using hm
    simp [prologue, this]
  | some m =>
    obtain ⟨i, hmi, hi⟩ := strstr_some mem input m START_FUNCS hm
    obtain ⟨-, h2, -⟩ := findSub_some START_FUNCS (by decide) _ i hi
    have hlen : START_FUNCS.length = 25 := by decide
    simp only [prologue, hi, hmi]
    exact cstring_set_nul mem input i (by omega)

/-- Without the growth sign in the prologue the growth detection leaves the
buffer as it was. -/
theorem detectGrowth_of_none (mem : List Char) (input : Nat)
    (h : ¬ GROWTH_SIGN <:+: prologue (cstring mem input)) :
    detectGrowth mem input = Run.ok (mem, false) := by
  have hc := cstring_truncated mem input
  have hf := (findSub_eq_none_iff GROWTH_SIGN _).mpr h
  unfold detectGrowth
  cases hm : strstr mem input START_FUNCS with
  | none =>
    simp only [hm] at hc ⊢
    rw [← hc] at hf
    simp only [strstr, hf, Option.map_none']
  | some m =>
    simp only [hm] at hc ⊢
    simp only [strstr, hc, hf, Option.map_none']
    rw [set_marker_restore mem input m hm _ (List.set_set _ _ _ _)]

/-- A growth detection that reports no growth sign found none in the prologue and
left the buffer as it was. -/
theorem detectGrowth_false (mem mem2 : List Char) (input : Nat)
    (h : detectGrowth mem input = Run.ok (mem2, false)) :
    mem2 = mem ∧ ¬ GROWTH_SIGN <:+: prologue (cstring mem input) := by
  by_cases hg : GROWTH_SIGN <:+: prologue (cstring mem input)
  · exfalso
    have hc := cstring_truncated mem input
    have hf : findSub GROWTH_SIGN (prologue (cstring mem input)) ≠ none :=
      fun h0 => (findSub_eq_none_iff GROWTH_SIGN _).mp h0 hg
    obtain ⟨g, hg2⟩ := Option.ne_none_iff_exists'.mp hf
    unfold detectGrowth at h
    cases hm : strstr mem input START_FUNCS with
    | none =>
      simp only [hm] at hc h
      rw [← hc] at hg2
      simp only [strstr, hg2, Option.map_some'] at h
      split at h <;> simp at h
    | some m =>
      simp only [hm] at hc h
      simp only [strstr, hc, hg2, Option.map_some'] at h
      split at h <;> simp at h
  · have := detectGrowth_of_none mem input hg
    rw [this] at h
    simp only [Run.ok.injEq, Prod.mk.injEq, and_true] at h
    exact ⟨h.symm, hg⟩

/-- A growth detection that reports the growth sign found it in the prologue. -/
theorem detectGrowth_true (mem mem2 : List Char) (input : Nat)
    (h : detectGrowth mem input = Run.ok (mem2, true)) :
    GROWTH_SIGN <:+: prologue (cstring mem input) := by
  by_contra hg
  rw [detectGrowth_of_none mem input hg] at h
  simp at h

/-! ## The preprocessor: the wrapper (lines 187-198) and idempotence -/

/-- What `scanTo` returns is the offset of the first `c`. -/
theorem scanTo_some (c : Char) : ∀ (s : List Char) (i : Nat), scanTo c s = some i →
    s[i]? = some c ∧ c ∉ s.take i
  | [], _, h => by simp [scanTo] at h
  | x :: xs, i, h => by
    simp only [scanTo] at h
    by_cases hx : x = c
    · simp only [hx, if_true, Option.some.injEq] at h
      subst h
      simp [hx]
    · simp only [hx, if_false] at h
      cases hs : scanTo c xs with
      | none => simp [hs] at h
      | some j =>
        simp only [hs, Option.map_some', Option.some.injEq] at h
        subst h
        obtain ⟨h1, h2⟩ := scanTo_some c xs j hs
        refine ⟨by simpa using h1, ?_⟩
        simp only [List.take_succ_cons, List.mem_cons, not_or]
        exact ⟨fun h0 => hx h0.symm, h2⟩

/-- The search `scanTo` finds nothing exactly when `c` does not occur. -/
theorem scanTo_eq_none_iff (c : Char) : ∀ s : List Char, scanTo c s = none ↔ c ∉ s
  | [] => by simp [scanTo]
  | x :: xs => by
    simp only [scanTo]
    by_cases hx : x = c
    · simp [hx]
    · simp only [hx, if_false, Option.map_eq_none', scanTo_eq_none_iff c xs, List.mem_cons,
        not_or]
      exact ⟨fun h => ⟨fun h0 => hx h0.symm, h⟩, fun h => h.2⟩

/-- The first `c` of a string with a known first occurrence. -/
theorem scanTo_append (c : Char) (a b : List Char) (h : c ∉ a) :
    scanTo c (a ++ c :: b) = some a.length := by
  induction a with
  | nil => simp [scanTo]
  | cons x xs ih =>
    simp only [List.mem_cons, not_or] at h
    have hx : ¬ x = c := fun h0 => h.1 h0.symm
    simp [scanTo, hx, ih h.2]

/-- The forward loop stops at a byte `c`. -/
theorem forwardTo_ok (mem : List Char) (p q : Nat) (c : Char)
    (h : forwardTo mem p c = Run.ok q) : peek mem q = c := by
  unfold forwardTo at h
  cases hs : scanTo c (mem.drop p) with
  | none => simp [hs] at h
  | some i =>
    simp only [hs, Run.ok.injEq] at h
    subst h
    have := (scanTo_some c _ i hs).1
    rw [List.getElem?_drop] at this
    simp [peek, List.getD_eq_getElem?_getD, this]

/-- The loop of lines 194-197 only writes terminators. -/
theorem zeroBack_peek : ∀ (e : Nat) (mem mem2 : List Char), zeroBack mem e = Run.ok mem2 →
    ∀ q, peek mem2 q = peek mem q ∨ peek mem2 q = NUL
  | 0, mem, mem2, h, q => by
    simp only [zeroBack] at h
    split at h
    · cases h; exact Or.inl rfl
    · cases h
  | e + 1, mem, mem2, h, q => by
    simp only [zeroBack] at h
    split at h
    · cases h; exact Or.inl rfl
    · rcases zeroBack_peek e _ mem2 h q with h1 | h1
      · by_cases hq : q = e + 1
        · subst hq
          rw [h1]
          simp only [peek, List.getD_eq_getElem?_getD]
          by_cases hl : e + 1 < mem.length
          · right; simp [List.getElem?_set_self hl]
          · left
            rw [List.set_eq_of_length_le (by omega)]
        · left
          rw [h1]
          simp only [peek, List.getD_eq_getElem?_getD]
          rw [List.getElem?_set_ne (fun h0 => hq h0.symm)]
      · exact Or.inr h1

/-- After the wrapper clean-up the string at `input` does not start with `M`. -/
theorem stripWrapper_peek (mem mem1 : List Char) (input input1 : Nat)
    (h : stripWrapper mem input = Run.ok (mem1, input1)) : peek mem1 input1 ≠ 'M' := by
  unfold stripWrapper at h
  split at h
  · cases hf : forwardTo mem input 'f' with
    | ok start =>
      simp only [hf] at h
      cases hz : zeroBack mem (input + strlen mem input - 1) with
      | ok mem2 =>
        simp only [hz, Run.ok.injEq, Prod.mk.injEq] at h
        obtain ⟨h1, h2⟩ := h
        subst h1; subst h2
        have hpeek := forwardTo_ok mem input start 'f' hf
        rcases zeroBack_peek _ mem mem2 hz start with h3 | h3
        · rw [h3, hpeek]; decide
        · rw [h3]; decide
      | fatal => simp [hz] at h
      | undefined => simp [hz] at h
      | overflow => simp [hz] at h
    | fatal => simp [hf] at h
    | undefined => simp [hf] at h
    | overflow => simp [hf] at h
  · rename_i hM
    simp only [Run.ok.injEq, Prod.mk.injEq] at h
    obtain ⟨h1, h2⟩ := h
    subst h1; subst h2
    exact hM

/-- C22, amended: with `debugInfo` off, whenever `process` completes without
finding a growth sign (`memoryGrowth` is still false), `process` applied to the
returned buffer and pointer completes and returns them unchanged; this includes
inputs with the `Module[...]` wrapper. -/
theorem process_idempotent (pp : Asm2WasmPreProcessor) (mem : List Char) (input : Nat)
    (r : Asm2WasmPreProcessor × List Char × Nat) (hd : pp.debugInfo = false)
    (h : pp.process mem input = Run.ok r) (hg : r.1.memoryGrowth = false) :
    r.1.process r.2.1 r.2.2 = Run.ok r := by
  unfold Asm2WasmPreProcessor.process at h
  cases hs : stripWrapper mem input with
  | ok p1 =>
    obtain ⟨mem1, input1⟩ := p1
    simp only [hs] at h
    cases hdet : detectGrowth mem1 input1 with
    | ok p2 =>
      obtain ⟨mem2, growth⟩ := p2
      simp only [hdet, hd, Bool.false_eq_true, if_false, Run.ok.injEq] at h
      subst h
      cases growth with
      | true => simp at hg
      | false =>
        obtain ⟨hmem, -⟩ := detectGrowth_false mem1 mem2 input1 hdet
        subst hmem
        have hpeek := stripWrapper_peek mem mem2 input input1 hs
        have hs2 : stripWrapper mem2 input1 = Run.ok (mem2, input1) := by
          unfold stripWrapper
          rw [if_neg hpeek]
        simp only [Asm2WasmPreProcessor.process, Bool.false_eq_true, if_false, hs2, hdet, hd]
    | fatal => simp [hdet] at h
    | undefined => simp [hdet] at h
    | overflow => simp [hdet] at h
  | fatal => simp [hs] at h
  | undefined => simp [hs] at h
  | overflow => simp [hs] at h

/-- Witness for C22: the wrapped module `Module["asm"] = (function(a) { return a; });`
is cut down to the function, and a second `process` returns the same buffer
and pointer. -/
theorem process_idempotent_witness :
    ∃ r : Asm2WasmPreProcessor × List Char × Nat,
      (Asm2WasmPreProcessor.fresh false).process
        "Module[\x22asm\x22] = (function(a) \x7b return a; \x7d);".toList 0 = Run.ok r ∧
      resultText r = "function(a) \x7b return a; \x7d".toList ∧
      r.1.process r.2.1 r.2.2 = Run.ok r :=
  ⟨(Asm2WasmPreProcessor.fresh false,
      "Module[\x22asm\x22] = (function(a) \x7b return a; \x7d".toList ++ [NUL, NUL], 17),
    by decide, by decide,
    process_idempotent (Asm2WasmPreProcessor.fresh false)
      "Module[\x22asm\x22] = (function(a) \x7b return a; \x7d);".toList 0 _ rfl
      (by decide) (by decide)⟩

/-- Counterexample to C22 as stated: a prologue with a growth helper between two
other functions. The first `process` comments the helper out, but its text
`return true;` stays; a second `process` finds it again, walks back to the
previous function and forward to the next closing brace, and returns a
different text. -/
theorem process_not_idempotent :
    ∃ r1 r2 : Asm2WasmPreProcessor × List Char × Nat,
      (Asm2WasmPreProcessor.fresh false).process
        ("function h()\x7b\x7d function g(b) \x7b return true; \x7d " ++
          "function k()\x7b\x7d").toList 0 = Run.ok r1 ∧
      resultText r1 = ("function h()\x7b\x7d /*nction g(b) \x7b return true;*/ " ++
          "function k()\x7b\x7d").toList ∧
      r1.1.process r1.2.1 r1.2.2 = Run.ok r2 ∧
      resultText r2 = ("/*nction h()\x7b\x7d /*nction g(b) \x7b return true;*/ " ++
          "function k()*/").toList ∧
      resultText r2 ≠ resultText r1 :=
  ⟨({ Asm2WasmPreProcessor.fresh false with memoryGrowth := true },
      ("function h()\x7b\x7d /*nction g(b) \x7b return true;*/ " ++
          "function k()\x7b\x7d").toList, 0),
    ({ Asm2WasmPreProcessor.fresh false with memoryGrowth := true },
      ("/*nction h()\x7b\x7d /*nction g(b) \x7b return true;*/ " ++
          "function k()*/").toList, 0),
    by decide, by decide, by decide, by decide, by decide⟩

/-- The loop of lines 194-197 stops at once on a closing brace. -/
theorem zeroBack_hit (mem : List Char) (e : Nat) (h : peek mem e = RBRACE) :
    zeroBack mem e = Run.ok mem := by
  cases e with
  | zero => simp [zeroBack, h]
  | succ n => simp [zeroBack, h]

/-- The byte right after the bytes `front`. -/
theorem peek_append_cons (front rest : List Char) (c : Char) :
    peek (front ++ c :: rest) front.length = c := by
  simp only [peek, List.getD_eq_getElem?_getD]
  rw [List.getElem?_append_right (le_refl _)]
  simp

/-- The loop of lines 194-197 on a buffer whose last closing brace is followed
by `post`: the bytes of `post` become terminators. -/
theorem zeroBack_spec (front : List Char) : ∀ (n : Nat) (post rest : List Char),
    post.length = n → RBRACE ∉ post →
    zeroBack (front ++ RBRACE :: post ++ rest) (front.length + post.length)
      = Run.ok (front ++ RBRACE :: List.replicate post.length NUL ++ rest)
  | 0, post, rest, hn, _ => by
    have : post = [] := List.length_eq_zero.mp hn
    subst this
    apply zeroBack_hit
    simpa using peek_append_cons front rest RBRACE
  | n + 1, post, rest, hn, hb => by
    obtain ⟨init, x, hpost⟩ : ∃ init x, post = init ++ [x] := by
      have hne : post ≠ [] := by intro h0; simp [h0] at hn
      exact ⟨post.dropLast, post.getLast hne, (List.dropLast_append_getLast hne).symm⟩
    subst hpost
    have hlen : init.length = n := by simpa using hn
    have hx : x ≠ RBRACE := fun h0 => hb (by simp [h0])
    have hinit : RBRACE ∉ init := fun h0 => hb (by simp [h0])
    have he : front.length + (init ++ [x]).length = (front.length + init.length) + 1 := by
      simp; omega
    have hmem : front ++ RBRACE :: (init ++ [x]) ++ rest
        = (front ++ RBRACE :: init) ++ x :: rest := by simp
    have hidx : (front ++ RBRACE :: init).length = front.length + init.length + 1 := by
      simp; omega
    have hpeek : peek (front ++ RBRACE :: (init ++ [x]) ++ rest) (front.length + init.length + 1)
        = x := by
      rw [hmem, ← hidx]
      exact peek_append_cons _ _ _
    have hset : (front ++ RBRACE :: (init ++ [x]) ++ rest).set (front.length + init.length + 1) NUL
        = front ++ RBRACE :: init ++ (NUL :: rest) := by
      rw [hmem, ← hidx, List.set_append_right _ _ (le_refl _)]
      simp
    rw [he]
    simp only [zeroBack]
    rw [hpeek, if_neg hx, hset, zeroBack_spec front n init (NUL :: rest) hlen hinit]
    simp [List.replicate_succ', List.append_assoc]

/-- C23: a text `pre ++ f ++ mid ++ } ++ post` that opens with `M`, whose `pre` has
no `f` and whose `post` has no closing brace (so `f` is the first `f`, the `f` of
`function` in `Module["asm"] = (function(...){...});`, and the brace is the last
one), with no growth sign in the prologue of what lies between, is cut by
`process` with `debugInfo` off to exactly the part from that `f` to that brace:
the returned pointer is at the `f`, the bytes after the brace are terminators,
nothing between is changed, and the object is unchanged. -/
theorem process_wrapper (pp : Asm2WasmPreProcessor) (pre mid post : List Char)
    (hd : pp.debugInfo = false)
    (hM : pre.head? = some 'M') (hf : 'f' ∉ pre) (hb : RBRACE ∉ post)
    (hn : NUL ∉ pre ++ 'f' :: mid ++ RBRACE :: post)
    (hg : ¬ GROWTH_SIGN <:+: prologue ('f' :: mid ++ [RBRACE])) :
    pp.process (pre ++ 'f' :: mid ++ RBRACE :: post) 0
      = Run.ok (pp, pre ++ 'f' :: mid ++ RBRACE :: List.replicate post.length NUL,
          pre.length) ∧
    resultText (pp, pre ++ 'f' :: mid ++ RBRACE :: List.replicate post.length NUL, pre.length)
      = 'f' :: mid ++ [RBRACE] := by
  have hcs : cstring (pre ++ 'f' :: mid ++ RBRACE :: List.replicate post.length NUL) pre.length
      = 'f' :: mid ++ [RBRACE] := by
    have hrest : List.replicate post.length NUL = [] ∨
        ∃ tail, List.replicate post.length NUL = NUL :: tail := by
      cases post.length with
      | zero => exact Or.inl rfl
      | succ k => exact Or.inr ⟨_, List.replicate_succ _ _⟩
    have := cstring_of_parts pre ('f' :: mid ++ [RBRACE]) (List.replicate post.length NUL)
      (fun h0 => hn (by
        simp only [List.mem_append, List.mem_cons, List.mem_singleton] at h0 ⊢
        tauto)) hrest
    simpa [List.append_assoc] using this
  refine ⟨?_, hcs⟩
  obtain ⟨pre2, hpre⟩ : ∃ pre2, pre = 'M' :: pre2 := by
    cases pre with
    | nil => simp at hM
    | cons c cs => simp only [List.head?_cons, Option.some.injEq] at hM; exact ⟨cs, by rw [hM]⟩
  have hpeek : peek (pre ++ 'f' :: mid ++ RBRACE :: post) 0 = 'M' := by
    rw [hpre]; rfl
  have hlen : strlen (pre ++ 'f' :: mid ++ RBRACE :: post) 0
      = (pre ++ 'f' :: mid ++ RBRACE :: post).length := by
    rw [strlen, cstring_zero_of_not_mem _ hn]
  have hfw : forwardTo (pre ++ 'f' :: mid ++ RBRACE :: post) 0 'f' = Run.ok pre.length := by
    simp only [forwardTo, List.drop_zero, List.append_assoc, List.cons_append]
    rw [scanTo_append 'f' pre _ hf]
    simp
  have hzero : zeroBack (pre ++ 'f' :: mid ++ RBRACE :: post)
      (0 + strlen (pre ++ 'f' :: mid ++ RBRACE :: post) 0 - 1)
      = Run.ok (pre ++ 'f' :: mid ++ RBRACE :: List.replicate post.length NUL) := by
    have h1 := zeroBack_spec (pre ++ 'f' :: mid) post.length post [] rfl hb
    simp only [List.append_nil] at h1
    have h2 : 0 + strlen (pre ++ 'f' :: mid ++ RBRACE :: post) 0 - 1
        = (pre ++ 'f' :: mid).length + post.length := by
      rw [hlen]; simp; omega
    rw [h2]
    exact h1
  have hdet := detectGrowth_of_none
    (pre ++ 'f' :: mid ++ RBRACE :: List.replicate post.length NUL) pre.length
    (by rw [hcs]; exact hg)
  simp only [Asm2WasmPreProcessor.process, stripWrapper, hpeek, if_true, hfw, hzero, hdet, hd,
    Bool.false_eq_true, if_false]

/-- Witness for C23: `Module["asm"] = (function(a) { return a; });` is cut to
`function(a) { return a; }`. -/
theorem process_wrapper_witness :
    (Asm2WasmPreProcessor.fresh false).process
        "Module[\x22asm\x22] = (function(a) \x7b return a; \x7d);".toList 0
      = Run.ok (Asm2WasmPreProcessor.fresh false,
          "Module[\x22asm\x22] = (function(a) \x7b return a; \x7d".toList ++ [NUL, NUL], 17) ∧
    resultText (Asm2WasmPreProcessor.fresh false,
          "Module[\x22asm\x22] = (function(a) \x7b return a; \x7d".toList ++ [NUL, NUL], 17)
      = "function(a) \x7b return a; \x7d".toList :=
  process_wrapper (Asm2WasmPreProcessor.fresh false) "Module[\x22asm\x22] = (".toList
    "unction(a) \x7b return a; ".toList ");".toList rfl (by decide) (by decide) (by decide)
    (by decide) (by decide)

/-! ## The preprocessor: the debug info rewrite (lines 230-300) -/

/-- Bytes that `input` has moved over are skipped. -/
theorem debugLoop_skip (bound : Nat) : ∀ (a : List Char) (st : DebugState) (rest : List Char),
    debugLoop bound a.length st (a ++ rest) = debugLoop bound 0 st rest
  | [], _, _ => rfl
  | _ :: a, st, rest => by
    simp only [List.length_cons, List.cons_append, debugLoop]
    exact debugLoop_skip bound a st rest

/-- One round of the rewrite loop at a byte `c`. -/
theorem debugLoop_zero_cons (bound : Nat) (st : DebugState) (c : Char) (rest : List Char) :
    debugLoop bound 0 st (c :: rest) =
      if st.out.length + ADD_FACTOR ≥ bound then Run.fatal
      else if startsWith (c :: rest) DEBUG_LINE then
        match parseDebugLine (c :: rest) with
        | none => Run.undefined
        | some d =>
          if st.out.length + (DEBUGINFO_INTRINSIC ++ ['('] ++ (noteFile st d.file).2 ++ [','] ++
              d.line ++ [')', ';']).length > bound then Run.overflow
          else debugLoop bound (d.consumed - 1)
            { (noteFile st d.file).1 with
              out := st.out ++ (DEBUGINFO_INTRINSIC ++ ['('] ++ (noteFile st d.file).2 ++ [','] ++
                d.line ++ [')', ';']) } rest
      else if !st.seenUseAsm &&
          (startsWith (c :: rest) ASM_APOSTROPHE || startsWith (c :: rest) ASM_QUOTE) then
        if st.out.length + 5 + DEBUGINFO_IMPORT.length ≥ bound then Run.overflow
        else debugLoop bound 4
          { st with out := st.out ++ (c :: rest).take 5 ++ DEBUGINFO_IMPORT, seenUseAsm := true }
          rest
      else debugLoop bound 0 { st with out := st.out ++ [c] } rest := by
  rw [debugLoop]

/-- Text without trigger is copied byte by byte, unless the size check fails. -/
theorem debugLoop_text (bound : Nat) : ∀ (cs : List Char) (st : DebugState)
    (after : List Char), noTrigger st.seenUseAsm cs after = true →
    debugLoop bound 0 st (cs ++ after) = Run.fatal ∨
    debugLoop bound 0 st (cs ++ after)
      = debugLoop bound 0 { st with out := st.out ++ cs } after
  | [], st, after, _ => by right; simp
  | c :: cs, st, after, h => by
    simp only [noTrigger, Bool.and_eq_true, Bool.not_eq_true', Bool.or_eq_true] at h
    obtain ⟨⟨h1, h2⟩, h3⟩ := h
    rw [List.cons_append, debugLoop_zero_cons]
    by_cases hb : st.out.length + ADD_FACTOR ≥ bound
    · left; rw [if_pos hb]
    · rw [if_neg hb]
      have h1b : startsWith (c :: (cs ++ after)) DEBUG_LINE = false := by simpa using h1
      have h2b : (!st.seenUseAsm &&
          (startsWith (c :: (cs ++ after)) ASM_APOSTROPHE ||
            startsWith (c :: (cs ++ after)) ASM_QUOTE)) = false := by
        rcases h2 with h2 | ⟨h2, h4⟩
        · simp [h2]
        · have h2c : startsWith (c :: (cs ++ after)) ASM_APOSTROPHE = false := by simpa using h2
          have h4c : startsWith (c :: (cs ++ after)) ASM_QUOTE = false := by simpa using h4
          simp [h2c, h4c]
      rw [h1b, h2b]
      simp only [Bool.false_eq_true, if_false]
      rcases debugLoop_text bound cs { st with out := st.out ++ [c] } after h3 with h5 | h5
      · left; exact h5
      · right
        rw [h5]
        simp [List.append_assoc]

/-- Text without trigger is copied byte by byte when the buffer has room for it. -/
theorem debugLoop_text_ok (bound : Nat) : ∀ (cs : List Char) (st : DebugState)
    (after : List Char), noTrigger st.seenUseAsm cs after = true →
    st.out.length + cs.length + ADD_FACTOR ≤ bound →
    debugLoop bound 0 st (cs ++ after)
      = debugLoop bound 0 { st with out := st.out ++ cs } after
  | [], st, after, _, _ => by simp
  | c :: cs, st, after, h, hroom => by
    simp only [noTrigger, Bool.and_eq_true, Bool.not_eq_true', Bool.or_eq_true] at h
    obtain ⟨⟨h1, h2⟩, h3⟩ := h
    rw [List.cons_append, debugLoop_zero_cons]
    have hb : ¬ st.out.length + ADD_FACTOR ≥ bound := by
      simp only [List.length_cons] at hroom
      omega
    rw [if_neg hb]
    have h1b : startsWith (c :: (cs ++ after)) DEBUG_LINE = false := by simpa using h1
    have h2b : (!st.seenUseAsm &&
        (startsWith (c :: (cs ++ after)) ASM_APOSTROPHE ||
          startsWith (c :: (cs ++ after)) ASM_QUOTE)) = false := by
      rcases h2 with h2 | ⟨h2, h4⟩
      · simp [h2]
      · have h2c : startsWith (c :: (cs ++ after)) ASM_APOSTROPHE = false := by simpa using h2
        have h4c : startsWith (c :: (cs ++ after)) ASM_QUOTE = false := by simpa using h4
        simp [h2c, h4c]
    rw [h1b, h2b]
    simp only [Bool.false_eq_true, if_false]
    rw [debugLoop_text_ok bound cs { st with out := st.out ++ [c] } after h3
      (by simp only [List.length_append, List.length_cons, List.length_nil] at hroom ⊢; omega)]
    simp [List.append_assoc]

/-- A text in which no trigger occurs has no trigger at any byte. -/
theorem noTrigger_of_absent (seen : Bool) : ∀ (cs : List Char),
    ¬ DEBUG_LINE <:+: cs →
    (seen = true ∨ (¬ ASM_APOSTROPHE <:+: cs ∧ ¬ ASM_QUOTE <:+: cs)) →
    noTrigger seen cs [] = true
  | [], _, _ => rfl
  | c :: cs, h1, h2 => by
    simp only [noTrigger, List.append_nil, Bool.and_eq_true, Bool.not_eq_true',
      Bool.or_eq_true]
    refine ⟨⟨?_, ?_⟩, ?_⟩
    · by_contra hs
      have hs2 : startsWith (c :: cs) DEBUG_LINE = true := by simpa using hs
      exact h1 (prefix_of_startsWith _ _ hs2).isInfix
    · rcases h2 with h2 | ⟨h2, h3⟩
      · exact Or.inl h2
      · right
        constructor
        · by_contra hs
          have hs2 : startsWith (c :: cs) ASM_APOSTROPHE = true := by simpa using hs
          exact h2 (prefix_of_startsWith _ _ hs2).isInfix
        · by_contra hs
          have hs2 : startsWith (c :: cs) ASM_QUOTE = true := by simpa using hs
          exact h3 (prefix_of_startsWith _ _ hs2).isInfix
    · apply noTrigger_of_absent seen cs (fun h => h1 (List.infix_cons h))
      rcases h2 with h2 | ⟨h2, h3⟩
      · exact Or.inl h2
      · exact Or.inr ⟨fun h => h2 (List.infix_cons h), fun h => h3 (List.infix_cons h)⟩

/-- The first byte of a text that does not open with `M`. -/
theorem peek_zero_ne (text : List Char) (hM : text.head? ≠ some 'M') : peek text 0 ≠ 'M' := by
  cases text with
  | nil => decide
  | cons c cs =>
    simp only [List.head?_cons, ne_eq, Option.some.injEq] at hM
    simpa [peek] using hM

/-- C21, amended: for a text that does not open with `M` and has no growth sign
in its prologue, `process` with `debugInfo` off returns the buffer, the pointer
and the object unchanged. With `debugInfo` on it returns a copy equal to the
text, and the object unchanged, when the text has no `//@line` and moreover
neither `asm'` nor `asm"` (and its size keeps `upperBound` within 32 bits). -/
theorem process_identity (pp : Asm2WasmPreProcessor) (text : List Char)
    (hn : NUL ∉ text) (hM : text.head? ≠ some 'M')
    (hg : ¬ GROWTH_SIGN <:+: prologue text) :
    (pp.debugInfo = false → pp.process text 0 = Run.ok (pp, text, 0)) ∧
    (pp.debugInfo = true → ¬ DEBUG_LINE <:+: text → ¬ ASM_APOSTROPHE <:+: text →
      ¬ ASM_QUOTE <:+: text → text.length * 5 / 4 + 100 < 4294967296 →
      pp.process text 0 = Run.ok (pp, text, 0)) := by
  have hs : stripWrapper text 0 = Run.ok (text, 0) := by
    unfold stripWrapper
    rw [if_neg (peek_zero_ne text hM)]
  have hcs := cstring_zero_of_not_mem text hn
  have hdet := detectGrowth_of_none text 0 (by rw [hcs]; exact hg)
  constructor
  · intro hd
    simp only [Asm2WasmPreProcessor.process, hs, hdet, hd, Bool.false_eq_true, if_false]
  · intro hd h1 h2 h3 hsize
    have hbound : upperBound text.length = text.length * 5 / 4 + 100 := by
      simp only [upperBound, ADD_FACTOR]
      omega
    have hloop := debugLoop_text_ok (upperBound text.length) text
      { out := [], seenUseAsm := false, debugInfoFileNames := pp.debugInfoFileNames,
        debugInfoFileIndices := pp.debugInfoFileIndices } []
      (noTrigger_of_absent false text h1 (Or.inr ⟨h2, h3⟩))
      (by simp only [List.length_nil, ADD_FACTOR, hbound]; omega)
    rw [List.append_nil] at hloop
    have hfin : ¬ text.length ≥ upperBound text.length := by rw [hbound]; omega
    simp only [Asm2WasmPreProcessor.process, hs, hdet, hd, if_true, hcs, hloop,
      List.nil_append, debugLoop, if_neg hfin, Bool.false_eq_true, if_false]
    cases pp
    simp only at hd
    subst hd
    rfl

/-- Witness for C21: a small module text without wrapper, growth sign, debug
comment and directive comes back unchanged under both settings. -/
theorem process_identity_witness :
    (Asm2WasmPreProcessor.fresh false).process "function f() \x7b return 1; \x7d".toList 0
      = Run.ok (Asm2WasmPreProcessor.fresh false, "function f() \x7b return 1; \x7d".toList, 0) ∧
    (Asm2WasmPreProcessor.fresh true).process "function f() \x7b return 1; \x7d".toList 0
      = Run.ok (Asm2WasmPreProcessor.fresh true, "function f() \x7b return 1; \x7d".toList, 0) :=
  ⟨(process_identity (Asm2WasmPreProcessor.fresh false) "function f() \x7b return 1; \x7d".toList
      (by decide) (by decide) (by decide)).1 rfl,
   (process_identity (Asm2WasmPreProcessor.fresh true) "function f() \x7b return 1; \x7d".toList
      (by decide) (by decide) (by decide)).2 rfl (by decide) (by decide) (by decide)
      (by decide)⟩

/-- Counterexample to C21 as stated: the text `"use asm";` has no wrapper, no
growth sign and no `//@line` comment, yet with `debugInfo` on `process` returns
a longer text: the import of `emscripten_debuginfo` is added after the
directive. -/
theorem process_import_counterexample :
    NUL ∉ "\x22use asm\x22;".toList ∧
    "\x22use asm\x22;".toList.head? ≠ some 'M' ∧
    ¬ GROWTH_SIGN <:+: prologue "\x22use asm\x22;".toList ∧
    ¬ DEBUG_LINE <:+: "\x22use asm\x22;".toList ∧
    (Asm2WasmPreProcessor.fresh true).process "\x22use asm\x22;".toList 0
      = Run.ok (Asm2WasmPreProcessor.fresh true,
          "\x22use asm\x22;\n var emscripten_debuginfo = env.emscripten_debuginfo;".toList, 0) ∧
    resultText (Asm2WasmPreProcessor.fresh true,
          "\x22use asm\x22;\n var emscripten_debuginfo = env.emscripten_debuginfo;".toList, 0)
      ≠ "\x22use asm\x22;".toList := by
  refine ⟨by decide, by decide, by decide, by decide, by decide, by decide⟩

/-! ## The preprocessor: what the growth excision writes (lines 207-224) -/

/-- Sequencing two runs that complete. -/
theorem Run.bind_ok_inv {α β : Type} (x : Run α) (f : α → Run β) (b : β)
    (h : x.bind f = Run.ok b) : ∃ a, x = Run.ok a ∧ f a = Run.ok b := by
  cases x with
  | ok a => exact ⟨a, rfl, h⟩
  | fatal => cases h
  | undefined => cases h
  | overflow => cases h

/-- A completed excision wrote `/*` at some `start` and `*/` at the first closing
brace `e` after the growth sign and the byte before it, with `start + 5 < e`. -/
theorem exciseGrowth_ok (mem mem2 : List Char) (growthSign : Nat)
    (h : exciseGrowth mem growthSign = Run.ok mem2) :
    ∃ start e, strchr mem growthSign RBRACE = some e ∧ start + 5 < e ∧
      mem2 = (((mem.set start '/').set (start + 1) '*').set (e - 1) '*').set e '/' := by
  unfold exciseGrowth at h
  obtain ⟨p1, -, h⟩ := Run.bind_ok_inv _ _ _ h
  obtain ⟨p2, -, h⟩ := Run.bind_ok_inv _ _ _ h
  obtain ⟨p3, -, h⟩ := Run.bind_ok_inv _ _ _ h
  obtain ⟨start, -, h⟩ := Run.bind_ok_inv _ _ _ h
  split at h
  · cases he : strchr mem growthSign RBRACE with
    | none => simp [he] at h
    | some e =>
      simp only [he] at h
      split at h
      · rename_i hlt
        simp only [Run.ok.injEq] at h
        exact ⟨start, e, rfl, by omega, h.symm⟩
      · cases h
  · cases h

/-- What `strchr` returns lies inside the C string. -/
theorem strchr_lt (mem : List Char) (p e : Nat) (c : Char) (h : strchr mem p c = some e) :
    p ≤ e ∧ e < p + (cstring mem p).length := by
  simp only [strchr, Option.map_eq_some'] at h
  obtain ⟨i, hi, he⟩ := h
  have := (scanTo_some c _ i hi).1
  have hlt : i < (cstring mem p).length := by
    by_contra hge
    rw [List.getElem?_eq_none (by omega)] at this
    cases this
  omega

/-- The C string inside a text that was cut at `m`. -/
theorem cstring_cut (text : List Char) (hn : NUL ∉ text) (m g : Nat) (hm : m < text.length)
    (hg : g ≤ m) : cstring (text.set m NUL) g = (text.take m).drop g := by
  have hset : text.set m NUL = text.take g ++ (text.take m).drop g ++ (NUL :: text.drop (m + 1)) := by
    rw [List.set_eq_take_append_cons_drop, if_pos hm]
    have : text.take g ++ (text.take m).drop g = text.take m := by
      have := List.take_append_drop g (text.take m)
      rw [List.take_take, Nat.min_eq_left hg] at this
      exact this
    rw [this]
  have hlen : (text.take g).length = g := by
    rw [List.length_take]; omega
  have := cstring_of_parts (text.take g) ((text.take m).drop g) (NUL :: text.drop (m + 1))
    (fun h0 => hn (List.mem_of_mem_take (List.mem_of_mem_drop h0))) (Or.inr ⟨_, rfl⟩)
  rw [hlen] at this
  rw [hset]
  exact this

/-- Two writes at different places can be done in either order. -/
theorem set_comm_of_ne (l : List Char) (i j : Nat) (a b : Char) (h : i ≠ j) :
    (l.set i a).set j b = (l.set j b).set i a :=
  List.set_comm a b l h

/-- On a text, a growth detection that finds the growth sign overwrites four
bytes, all before the marker when there is one: `/*` at `start` and `*/` at
`e - 1`, with `start + 5 < e`. -/
theorem detectGrowth_true_spec (text mem2 : List Char) (hn : NUL ∉ text)
    (h : detectGrowth text 0 = Run.ok (mem2, true)) :
    ∃ start e, start + 5 < e ∧ e < text.length ∧
      (∀ m, findSub START_FUNCS text = some m → e < m) ∧
      mem2 = (((text.set start '/').set (start + 1) '*').set (e - 1) '*').set e '/' := by
  have hcs := cstring_zero_of_not_mem text hn
  unfold detectGrowth at h
  cases hm : strstr text 0 START_FUNCS with
  | none =>
    have hfs : findSub START_FUNCS text = none := by
      simpa [strstr, hcs] using hm
    simp only [hm] at h
    cases hgs : strstr text 0 GROWTH_SIGN with
    | none => simp [hgs] at h
    | some g =>
      simp only [hgs] at h
      cases hex : exciseGrowth text g with
      | ok mem3 =>
        simp only [hex, Run.ok.injEq, Prod.mk.injEq, and_true] at h
        subst h
        obtain ⟨start, e, he, hlt, hmem⟩ := exciseGrowth_ok text mem3 g hex
        have he2 := strchr_lt text g e RBRACE he
        have hlen : g + (cstring text g).length ≤ text.length := by
          simp only [cstring]
          have := (List.takeWhile_prefix (fun c => decide (c ≠ NUL)) (l := text.drop g)).length_le
          simp only [List.length_drop] at this
          obtain ⟨i, hgi, hi⟩ := strstr_some text 0 g GROWTH_SIGN hgs
          have := (findSub_some GROWTH_SIGN (by decide) _ i hi).2.1
          rw [hcs] at this
          omega
        exact ⟨start, e, hlt, by omega, by simp [hfs], hmem⟩
      | fatal => simp [hex] at h
      | undefined => simp [hex] at h
      | overflow => simp [hex] at h
  | some m =>
    obtain ⟨i, hmi, hi⟩ := strstr_some text 0 m START_FUNCS hm
    rw [hcs] at hi
    simp only [zero_add] at hmi
    subst hmi
    have hmlt : m + 25 ≤ text.length := by
      have := (findSub_some START_FUNCS (by decide) _ m hi).2.1
      have hl : START_FUNCS.length = 25 := by decide
      omega
    simp only [hm] at h
    cases hgs : strstr (text.set m NUL) 0 GROWTH_SIGN with
    | none => simp [hgs] at h
    | some g =>
      simp only [hgs] at h
      cases hex : exciseGrowth (text.set m NUL) g with
      | ok mem3 =>
        simp only [hex, Run.ok.injEq, Prod.mk.injEq, and_true] at h
        obtain ⟨start, e, he, hlt, hmem⟩ := exciseGrowth_ok _ mem3 g hex
        have he2 := strchr_lt _ g e RBRACE he
        obtain ⟨j, hgj, hj⟩ := strstr_some _ 0 g GROWTH_SIGN hgs
        rw [cstring_cut text hn m 0 (by omega) (by omega)] at hj
        have hg2 := (findSub_some GROWTH_SIGN (by decide) _ j hj).2.1
        simp only [List.drop_zero, List.length_take] at hg2
        have hgl : GROWTH_SIGN.length = 12 := by decide
        have hgm : g ≤ m := by omega
        rw [cstring_cut text hn m g (by omega) hgm] at he2
        simp only [List.length_drop, List.length_take] at he2
        have hem : e < m := by omega
        refine ⟨start, e, hlt, by omega, ?_, ?_⟩
        · intro m2 hm2
          rw [hi] at hm2
          cases hm2
          exact hem
        · rw [← h, hmem]
          have hhead : START_FUNCS.headD NUL = '/' := by decide
          rw [hhead]
          have hrest := set_marker_restore text 0 m hm (text.set m NUL) (List.set_set _ _ _ _)
          rw [hhead] at hrest
          rw [set_comm_of_ne _ e m _ _ (by omega), set_comm_of_ne _ (e - 1) m _ _ (by omega),
            set_comm_of_ne _ (start + 1) m _ _ (by omega),
            set_comm_of_ne _ start m _ _ (by omega), hrest]
      | fatal => simp [hex] at h
      | undefined => simp [hex] at h
      | overflow => simp [hex] at h

/-- C24, amended: with `debugInfo` off, for a text that does not open with `M`,
every completed `process` has set `memoryGrowth` exactly when `return true;`
occurs in the prologue (before the first `START_FUNCS` marker, anywhere when
there is no marker); it returns the pointer it was given, a text of the same
length, and from the marker on the text is the input's. Without the growth sign
`process` completes. -/
theorem process_growth_frame (pp : Asm2WasmPreProcessor) (text : List Char)
    (hd : pp.debugInfo = false) (hg0 : pp.memoryGrowth = false)
    (hn : NUL ∉ text) (hM : text.head? ≠ some 'M') :
    (∀ r, pp.process text 0 = Run.ok r →
      (r.1.memoryGrowth = true ↔ GROWTH_SIGN <:+: prologue text) ∧
      r.2.2 = 0 ∧ (resultText r).length = text.length ∧
      ∀ m, findSub START_FUNCS text = some m → (resultText r).drop m = text.drop m) ∧
    (¬ GROWTH_SIGN <:+: prologue text → pp.process text 0 = Run.ok (pp, text, 0)) := by
  have hs : stripWrapper text 0 = Run.ok (text, 0) := by
    unfold stripWrapper
    rw [if_neg (peek_zero_ne text hM)]
  have hcs := cstring_zero_of_not_mem text hn
  refine ⟨?_, fun hg => (process_identity pp text hn hM hg).1 hd⟩
  intro r hr
  simp only [Asm2WasmPreProcessor.process, hs, hd, Bool.false_eq_true, if_false] at hr
  cases hdet : detectGrowth text 0 with
  | ok p2 =>
    obtain ⟨mem2, growth⟩ := p2
    simp only [hdet, Run.ok.injEq] at hr
    subst hr
    cases growth with
    | false =>
      obtain ⟨hmem, hg⟩ := detectGrowth_false text mem2 0 hdet
      rw [hcs] at hg
      subst hmem
      simp only [Bool.false_eq_true, if_false, resultText, hcs, hg0, false_iff, true_and]
      exact ⟨hg, fun _ _ => trivial⟩
    | true =>
      have hg := detectGrowth_true text mem2 0 hdet
      rw [hcs] at hg
      obtain ⟨start, e, hse, -, hm, hmem⟩ := detectGrowth_true_spec text mem2 hn hdet
      have hn2 : NUL ∉ mem2 := by
        rw [hmem]
        intro h0
        rcases List.mem_or_eq_of_mem_set h0 with h1 | h1
        · rcases List.mem_or_eq_of_mem_set h1 with h2 | h2
          · rcases List.mem_or_eq_of_mem_set h2 with h3 | h3
            · rcases List.mem_or_eq_of_mem_set h3 with h4 | h4
              · exact hn h4
              · exact absurd h4 (by decide)
            · exact absurd h3 (by decide)
          · exact absurd h2 (by decide)
        · exact absurd h1 (by decide)
      have hcs2 := cstring_zero_of_not_mem mem2 hn2
      simp only [if_true, resultText, hcs2, hg, iff_true, true_and]
      refine ⟨by rw [hmem]; simp, ?_⟩
      intro m hfm
      have hem := hm m hfm
      rw [hmem, List.drop_set_of_lt _ _ hem, List.drop_set_of_lt _ _ (by omega),
        List.drop_set_of_lt _ _ (by omega), List.drop_set_of_lt _ _ (by omega)]
  | fatal => simp [hdet] at hr
  | undefined => simp [hdet] at hr
  | overflow => simp [hdet] at hr

/-- Witness for C24: a prologue with a growth helper before the marker; the
helper is commented out and the marker with the text after it stays. -/
theorem process_growth_frame_witness :
    ∃ r, (Asm2WasmPreProcessor.fresh false).process
        ("function g(b) \x7b return true; \x7d // EMSCRIPTEN_START_FUNCS " ++
          "function f() \x7b return true; \x7d").toList 0 = Run.ok r ∧
      r.1.memoryGrowth = true ∧
      resultText r = ("/*nction g(b) \x7b return true;*/ // EMSCRIPTEN_START_FUNCS " ++
          "function f() \x7b return true; \x7d").toList ∧
      (resultText r).drop 31 = ("function g(b) \x7b return true; \x7d " ++
          "// EMSCRIPTEN_START_FUNCS function f() \x7b return true; \x7d").toList.drop 31 := by
  have h := (process_growth_frame (Asm2WasmPreProcessor.fresh false)
    ("function g(b) \x7b return true; \x7d // EMSCRIPTEN_START_FUNCS " ++
      "function f() \x7b return true; \x7d").toList rfl rfl (by decide) (by decide)).1
    ({ Asm2WasmPreProcessor.fresh false with memoryGrowth := true },
      ("/*nction g(b) \x7b return true;*/ // EMSCRIPTEN_START_FUNCS " ++
          "function f() \x7b return true; \x7d").toList, 0) (by decide)
  exact ⟨_, by decide, by decide, by decide, h.2.2.2 31 (by decide)⟩

/-- Counterexample to C24 as stated: with `debugInfo` on, a debug comment after
the marker is rewritten, so the text after the marker is not the input's. -/
theorem process_frame_counterexample :
    NUL ∉ "// EMSCRIPTEN_START_FUNCS\n//@line 1 \x22a\x22".toList ∧
    "// EMSCRIPTEN_START_FUNCS\n//@line 1 \x22a\x22".toList.head? ≠ some 'M' ∧
    findSub START_FUNCS "// EMSCRIPTEN_START_FUNCS\n//@line 1 \x22a\x22".toList = some 0 ∧
    (Asm2WasmPreProcessor.fresh true).process
        "// EMSCRIPTEN_START_FUNCS\n//@line 1 \x22a\x22".toList 0
      = Run.ok ({ Asm2WasmPreProcessor.fresh true with
            debugInfoFileNames := ["a".toList], debugInfoFileIndices := [("a".toList, 0)] },
          "// EMSCRIPTEN_START_FUNCS\nemscripten_debuginfo(0,1);".toList, 0) ∧
    "// EMSCRIPTEN_START_FUNCS\nemscripten_debuginfo(0,1);".toList
      ≠ "// EMSCRIPTEN_START_FUNCS\n//@line 1 \x22a\x22".toList := by
  refine ⟨by decide, by decide, by decide, by decide, by decide⟩

/-! ## The preprocessor: the excision on a growth helper (lines 211-223) -/

/-- The backward loops of lines 212-215: from the last byte of `mid` back to the
byte `c` before it. -/
theorem backTo_spec (front : List Char) (c : Char) : ∀ (n : Nat) (mid rest : List Char),
    mid.length = n → c ∉ mid →
    backTo (front ++ c :: mid ++ rest) c (front.length + mid.length) = Run.ok front.length
  | 0, mid, rest, hlen, _ => by
    have : mid = [] := List.length_eq_zero.mp hlen
    subst this
    have hp := peek_append_cons front rest c
    simp only [List.length_nil, Nat.add_zero, List.append_assoc, List.cons_append, List.nil_append]
    cases hf : front.length with
    | zero => rw [hf] at hp; simp [backTo, hp]
    | succ k => rw [hf] at hp; simp [backTo, hp]
  | n + 1, mid, rest, hlen, hc => by
    have hne : mid ≠ [] := by
      intro h0
      rw [h0] at hlen
      cases hlen
    obtain ⟨mid2, x, hmid⟩ : ∃ mid2 x, mid = mid2 ++ [x] :=
      ⟨mid.dropLast, mid.getLast hne, (List.dropLast_append_getLast hne).symm⟩
    subst hmid
    simp only [List.mem_append, List.mem_singleton, not_or] at hc
    simp only [List.length_append, List.length_singleton] at hlen ⊢
    have hmem : front ++ c :: (mid2 ++ [x]) ++ rest = (front ++ c :: mid2) ++ x :: rest := by
      simp [List.append_assoc]
    have hp := peek_append_cons (front ++ c :: mid2) rest x
    rw [← hmem] at hp
    simp only [List.length_append, List.length_cons] at hp
    have hidx : front.length + (mid2.length + 1) = (front.length + mid2.length) + 1 := by omega
    rw [hidx] at hp ⊢
    rw [backTo, if_neg (by rw [hp]; exact fun h0 => hc.2 h0.symm)]
    have ih := backTo_spec front c n mid2 (x :: rest) (by omega) hc.1
    have hmem2 : front ++ c :: (mid2 ++ [x]) ++ rest = front ++ c :: mid2 ++ x :: rest := by
      simp [List.append_assoc]
    rw [hmem2]
    exact ih

/-- The C string at the end of `front` starts with the bytes up to the first
terminator. -/
theorem cstring_append (front s rest : List Char) (hs : NUL ∉ s) :
    cstring (front ++ s ++ rest) front.length = s ++ cstring rest 0 := by
  simp only [cstring, List.append_assoc, List.drop_left, List.drop_zero]
  rw [List.takeWhile_append_of_pos]
  intro c hc
  simp only [ne_eq, decide_not, Bool.not_eq_true', decide_eq_false_iff_not]
  exact fun h0 => hs (h0 ▸ hc)

/-- A string that starts with the pattern has it at offset 0. -/
theorem findSub_at_start (pat s : List Char) (hne : pat ≠ []) (h : pat <+: s) :
    findSub pat s = some 0 := by
  cases s with
  | nil => exact absurd (List.prefix_nil.mp h) hne
  | cons c s => simp [findSub, List.isPrefixOf_iff_prefix.mpr h]

/-- The offset of the growth sign in a growth helper that follows `a`. -/
theorem growthSign_offset (a name params body1 : List Char) :
    (a ++ "function ".toList ++ name ++ ['('] ++ params ++ [')', ' ', LBRACE] ++ body1).length
      = a.length + name.length + params.length + body1.length + 13 := by
  have hF : "function ".toList.length = 9 := by decide
  simp only [List.length_append, List.length_cons, List.length_nil, hF]
  omega

/-- The length of a growth helper. -/
theorem growthHelper_length (name params body1 body2 : List Char) :
    (growthHelper name params body1 body2).length
      = name.length + params.length + body1.length + body2.length + 26 := by
  have hF : "function ".toList.length = 9 := by decide
  have hG : GROWTH_SIGN.length = 12 := by decide
  simp only [growthHelper, List.length_append, List.length_cons, List.length_nil, hF, hG]
  omega

/-- A backward loop by its start and its result. -/
theorem backTo_congr {mem : List Char} {c : Char} {p q p2 q2 : Nat}
    (h : backTo mem c p = Run.ok q) (hp : p = p2) (hq : q = q2) :
    backTo mem c p2 = Run.ok q2 := by
  subst hp
  subst hq
  exact h

/-- The excision on a buffer that holds a growth helper whose body has no brace
before the growth sign and none after it up to the closing brace: the first two
bytes of the helper and its last two bytes are overwritten. -/
theorem exciseGrowth_helper (a name params body1 body2 rest : List Char)
    (hname : ' ' ∉ name) (hparams : '(' ∉ params) (hb1 : LBRACE ∉ body1)
    (hb2 : RBRACE ∉ body2) (hn2 : NUL ∉ body2) :
    exciseGrowth (a ++ growthHelper name params body1 body2 ++ rest)
        (a.length + name.length + params.length + body1.length + 13)
      = Run.ok (((((a ++ growthHelper name params body1 body2 ++ rest).set a.length '/').set
          (a.length + 1) '*').set
          (a.length + name.length + params.length + body1.length + body2.length + 24) '*').set
          (a.length + name.length + params.length + body1.length + body2.length + 25) '/') := by
  have hF : "function ".toList = 'f' :: "unction ".toList := by decide
  have hF2 : "function ".toList = "function".toList ++ [' '] := by decide
  have hG : GROWTH_SIGN = 'r' :: "eturn true;".toList := by decide
  have hU : "unction ".toList.length = 8 := by decide
  have hU2 : "function".toList.length = 8 := by decide
  generalize hmem : a ++ growthHelper name params body1 body2 ++ rest = mem
  have h1 : backTo mem LBRACE (a.length + name.length + params.length + body1.length + 13)
      = Run.ok (a.length + name.length + params.length + 12) := by
    have := backTo_spec (a ++ "function ".toList ++ name ++ ['('] ++ params ++ [')', ' ']) LBRACE
      _ (body1 ++ ['r']) ("eturn true;".toList ++ body2 ++ [RBRACE] ++ rest) rfl
      (by
        simp only [List.mem_append, List.mem_singleton, not_or]
        exact ⟨hb1, by decide⟩)
    have hm : a ++ "function ".toList ++ name ++ ['('] ++ params ++ [')', ' '] ++
        LBRACE :: (body1 ++ ['r']) ++ ("eturn true;".toList ++ body2 ++ [RBRACE] ++ rest) = mem := by
      rw [← hmem, growthHelper, hG]
      simp only [List.append_assoc, List.cons_append, List.nil_append]
    rw [hm] at this
    have hF9 : "function ".toList.length = 9 := by decide
    simp only [List.length_append, List.length_cons, List.length_nil, hF9] at this
    exact backTo_congr this (by omega) (by omega)
  have h2 : backTo mem '(' (a.length + name.length + params.length + 12)
      = Run.ok (a.length + name.length + 9) := by
    have := backTo_spec (a ++ "function ".toList ++ name) '('
      _ (params ++ [')', ' ', LBRACE]) (body1 ++ GROWTH_SIGN ++ body2 ++ [RBRACE] ++ rest) rfl
      (by
        simp only [List.mem_append, List.mem_cons, List.mem_singleton, not_or]
        exact ⟨hparams, by decide⟩)
    have hm : a ++ "function ".toList ++ name ++
        '(' :: (params ++ [')', ' ', LBRACE]) ++ (body1 ++ GROWTH_SIGN ++ body2 ++ [RBRACE] ++ rest)
          = mem := by
      rw [← hmem, growthHelper]
      simp only [List.append_assoc, List.cons_append, List.nil_append]
    rw [hm] at this
    have hF9 : "function ".toList.length = 9 := by decide
    simp only [List.length_append, List.length_cons, List.length_nil, hF9] at this
    exact backTo_congr this (by omega) (by omega)
  have h3 : backTo mem ' ' (a.length + name.length + 9) = Run.ok (a.length + 8) := by
    have := backTo_spec (a ++ "function".toList) ' '
      _ (name ++ ['(']) (params ++ [')', ' ', LBRACE] ++ body1 ++ GROWTH_SIGN ++ body2 ++
        [RBRACE] ++ rest) rfl
      (by
        simp only [List.mem_append, List.mem_singleton, not_or]
        exact ⟨hname, by decide⟩)
    have hm : a ++ "function".toList ++
        ' ' :: (name ++ ['(']) ++ (params ++ [')', ' ', LBRACE] ++ body1 ++ GROWTH_SIGN ++ body2 ++
        [RBRACE] ++ rest) = mem := by
      rw [← hmem, growthHelper, hF2]
      simp only [List.append_assoc, List.cons_append, List.nil_append]
    rw [hm] at this
    simp only [List.length_append, List.length_cons, List.length_nil, hU2] at this
    exact backTo_congr this (by omega) (by omega)
  have h4 : backTo mem 'f' (a.length + 8) = Run.ok a.length := by
    have := backTo_spec a 'f' _ "unction ".toList (name ++ ['('] ++ params ++ [')', ' ', LBRACE] ++
      body1 ++ GROWTH_SIGN ++ body2 ++ [RBRACE] ++ rest) rfl (by decide)
    have hm : a ++ 'f' :: "unction ".toList ++ (name ++ ['('] ++ params ++ [')', ' ', LBRACE] ++
      body1 ++ GROWTH_SIGN ++ body2 ++ [RBRACE] ++ rest) = mem := by
      rw [← hmem, growthHelper, hF]
      simp only [List.append_assoc, List.cons_append, List.nil_append]
    rw [hm, hU] at this
    exact this
  have h5 : strstr mem a.length "function ".toList = some a.length := by
    have hc := cstring_append a "function ".toList (name ++ ['('] ++ params ++
      [')', ' ', LBRACE] ++ body1 ++ GROWTH_SIGN ++ body2 ++ [RBRACE] ++ rest) (by decide)
    have hm : a ++ "function ".toList ++ (name ++ ['('] ++ params ++ [')', ' ', LBRACE] ++
      body1 ++ GROWTH_SIGN ++ body2 ++ [RBRACE] ++ rest) = mem := by
      rw [← hmem, growthHelper]
      simp only [List.append_assoc, List.cons_append, List.nil_append]
    rw [hm] at hc
    simp only [strstr, hc]
    rw [findSub_at_start _ _ (by decide) (List.prefix_append _ _)]
    rfl
  have h6 : strchr mem (a.length + name.length + params.length + body1.length + 13) RBRACE
      = some (a.length + name.length + params.length + body1.length + body2.length + 25) := by
    have hc := cstring_append (a ++ "function ".toList ++ name ++ ['('] ++ params ++
      [')', ' ', LBRACE] ++ body1) (GROWTH_SIGN ++ body2 ++ [RBRACE]) rest
      (by
        simp only [List.mem_append, List.mem_singleton, not_or]
        exact ⟨⟨by decide, hn2⟩, by decide⟩)
    have hm : a ++ "function ".toList ++ name ++ ['('] ++ params ++
      [')', ' ', LBRACE] ++ body1 ++ (GROWTH_SIGN ++ body2 ++ [RBRACE]) ++ rest = mem := by
      rw [← hmem, growthHelper]
      simp only [List.append_assoc, List.cons_append, List.nil_append]
    rw [hm, growthSign_offset] at hc
    have hs : scanTo RBRACE (GROWTH_SIGN ++ body2 ++ [RBRACE] ++ cstring rest 0)
        = some (GROWTH_SIGN ++ body2).length := by
      have := scanTo_append RBRACE (GROWTH_SIGN ++ body2) (cstring rest 0)
        (by
          simp only [List.mem_append, not_or]
          exact ⟨by decide, hb2⟩)
      rw [← this]
      simp only [List.append_assoc, List.cons_append, List.nil_append]
    have hG12 : GROWTH_SIGN.length = 12 := by decide
    simp only [strchr, hc, hs, Option.map_some', List.length_append, hG12, Option.some.injEq]
    omega
  unfold exciseGrowth
  simp only [bind, Run.bind, h1, h2, h3, h4, h5, h6, if_true]
  rw [if_pos (by omega)]
  rfl

/-- The growth detection on a text that holds a growth helper before the marker,
with the first growth sign of the prologue in the helper. -/
theorem detectGrowth_helper (a name params body1 body2 rest : List Char)
    (hn : NUL ∉ a ++ growthHelper name params body1 body2 ++ rest)
    (hname : ' ' ∉ name) (hparams : '(' ∉ params) (hb1 : LBRACE ∉ body1)
    (hb2 : RBRACE ∉ body2)
    (hfirst : findSub GROWTH_SIGN (prologue (a ++ growthHelper name params body1 body2 ++ rest))
      = some (a ++ "function ".toList ++ name ++ ['('] ++ params ++ [')', ' ', LBRACE] ++
          body1).length)
    (hmarker : ∀ m, findSub START_FUNCS (a ++ growthHelper name params body1 body2 ++ rest)
      = some m → (a ++ growthHelper name params body1 body2).length ≤ m) :
    detectGrowth (a ++ growthHelper name params body1 body2 ++ rest) 0
      = Run.ok (((((a ++ growthHelper name params body1 body2 ++ rest).set a.length '/').set
          (a.length + 1) '*').set ((a ++ growthHelper name params body1 body2).length - 2) '*').set
          ((a ++ growthHelper name params body1 body2).length - 1) '/', true) := by
  have hn2 : NUL ∉ body2 := by
    intro h0
    apply hn
    simp only [growthHelper, List.mem_append]
    exact Or.inl (Or.inr (Or.inl (Or.inr h0)))
  have hL : (a ++ growthHelper name params body1 body2).length
      = a.length + name.length + params.length + body1.length + body2.length + 26 := by
    rw [List.length_append, growthHelper_length]
    omega
  have hi1 : (a ++ growthHelper name params body1 body2).length - 2
      = a.length + name.length + params.length + body1.length + body2.length + 24 := by omega
  have hi2 : (a ++ growthHelper name params body1 body2).length - 1
      = a.length + name.length + params.length + body1.length + body2.length + 25 := by omega
  rw [hi1, hi2]
  rw [growthSign_offset] at hfirst
  have hcs := cstring_zero_of_not_mem _ hn
  have hct := cstring_truncated (a ++ growthHelper name params body1 body2 ++ rest) 0
  rw [hcs] at hct
  unfold detectGrowth
  cases hm : strstr (a ++ growthHelper name params body1 body2 ++ rest) 0 START_FUNCS with
  | none =>
    simp only [hm] at hct ⊢
    have hg : strstr (a ++ growthHelper name params body1 body2 ++ rest) 0 GROWTH_SIGN
        = some (a.length + name.length + params.length + body1.length + 13) := by
      simp only [strstr, hct, hfirst, Option.map_some', zero_add]
    simp only [hg, exciseGrowth_helper a name params body1 body2 rest hname hparams hb1 hb2 hn2]
  | some m =>
    simp only [hm] at hct ⊢
    obtain ⟨i, hmi, hi⟩ := strstr_some _ 0 m START_FUNCS hm
    rw [hcs] at hi
    simp only [zero_add] at hmi
    subst hmi
    have hLm := hmarker m hi
    have hset : (a ++ growthHelper name params body1 body2 ++ rest).set m NUL
        = a ++ growthHelper name params body1 body2 ++
          rest.set (m - (a ++ growthHelper name params body1 body2).length) NUL :=
      List.set_append_right _ _ hLm
    have hg : strstr ((a ++ growthHelper name params body1 body2 ++ rest).set m NUL) 0 GROWTH_SIGN
        = some (a.length + name.length + params.length + body1.length + 13) := by
      simp only [strstr, hct, hfirst, Option.map_some', zero_add]
    simp only [hg]
    rw [hset, exciseGrowth_helper a name params body1 body2 _ hname hparams hb1 hb2 hn2, ← hset]
    have hhead : START_FUNCS.headD NUL = '/' := by decide
    have hrest := set_marker_restore _ 0 m hm
      ((a ++ growthHelper name params body1 body2 ++ rest).set m NUL) (List.set_set _ _ _ _)
    rw [hhead] at hrest
    simp only [hhead]
    rw [set_comm_of_ne _ _ m _ _ (by omega), set_comm_of_ne _ _ m _ _ (by omega),
      set_comm_of_ne _ (a.length + 1) m _ _ (by omega),
      set_comm_of_ne _ a.length m _ _ (by omega), hrest]

/-- C25, amended: with `debugInfo` off, for a text that holds a growth helper
`function NAME(PARAMS) { ... return true; ... }` whose body has no opening brace
before the growth sign and no closing brace between the growth sign and the
helper's own closing brace, whose growth sign is the first of the prologue and
which ends before the marker, `process` completes, sets `memoryGrowth` and
overwrites exactly four bytes: the first two bytes of the helper with `/*` and
its last two bytes with `*/`. -/
theorem process_growth_excision (pp : Asm2WasmPreProcessor)
    (a name params body1 body2 rest : List Char) (hd : pp.debugInfo = false)
    (hn : NUL ∉ a ++ growthHelper name params body1 body2 ++ rest)
    (hM : a.head? ≠ some 'M')
    (hname : ' ' ∉ name) (hparams : '(' ∉ params) (hb1 : LBRACE ∉ body1)
    (hb2 : RBRACE ∉ body2)
    (hfirst : findSub GROWTH_SIGN (prologue (a ++ growthHelper name params body1 body2 ++ rest))
      = some (a ++ "function ".toList ++ name ++ ['('] ++ params ++ [')', ' ', LBRACE] ++
          body1).length)
    (hmarker : ∀ m, findSub START_FUNCS (a ++ growthHelper name params body1 body2 ++ rest)
      = some m → (a ++ growthHelper name params body1 body2).length ≤ m) :
    pp.process (a ++ growthHelper name params body1 body2 ++ rest) 0
      = Run.ok ({ pp with memoryGrowth := true },
          ((((a ++ growthHelper name params body1 body2 ++ rest).set a.length '/').set
          (a.length + 1) '*').set ((a ++ growthHelper name params body1 body2).length - 2) '*').set
          ((a ++ growthHelper name params body1 body2).length - 1) '/', 0) := by
  have hM2 : (a ++ growthHelper name params body1 body2 ++ rest).head? ≠ some 'M' := by
    cases a with
    | nil =>
      have hF : "function ".toList = 'f' :: "unction ".toList := by decide
      simp only [growthHelper, hF, List.nil_append, List.cons_append, List.head?_cons]
      decide
    | cons x xs => simpa using hM
  have hs : stripWrapper (a ++ growthHelper name params body1 body2 ++ rest) 0
      = Run.ok (a ++ growthHelper name params body1 body2 ++ rest, 0) := by
    unfold stripWrapper
    rw [if_neg (peek_zero_ne _ hM2)]
  simp only [Asm2WasmPreProcessor.process, hs, hd, Bool.false_eq_true, if_false,
    detectGrowth_helper a name params body1 body2 rest hn hname hparams hb1 hb2 hfirst hmarker,
    if_true]

/-- Witness for C25: a helper between two functions of the prologue. -/
theorem process_growth_excision_witness :
    (Asm2WasmPreProcessor.fresh false).process
        ("function h()\x7b\x7d function g(b) \x7b b = 0; return true; \x7d function k()\x7b\x7d" ++
          " // EMSCRIPTEN_START_FUNCS").toList 0
      = Run.ok ({ Asm2WasmPreProcessor.fresh false with memoryGrowth := true },
          ("function h()\x7b\x7d /*nction g(b) \x7b b = 0; return true;*/ function k()\x7b\x7d" ++
            " // EMSCRIPTEN_START_FUNCS").toList, 0) :=
  process_growth_excision (Asm2WasmPreProcessor.fresh false) "function h()\x7b\x7d ".toList
    "g".toList "b".toList " b = 0; ".toList " ".toList
    " function k()\x7b\x7d // EMSCRIPTEN_START_FUNCS".toList rfl (by decide) (by decide)
    (by decide) (by decide) (by decide) (by decide) (by decide) (by decide)

/-- Counterexample to C25 as stated: a helper with a nested block after the
growth sign is commented out only up to the block's closing brace, so the
helper's own closing brace stays outside the comment; with a nested block
before the growth sign the backward walk stops at the `if` and the run is fatal. -/
theorem process_excision_counterexample :
    (Asm2WasmPreProcessor.fresh false).process
        "function g(b) \x7b return true; if (b) \x7b b = 0; \x7d \x7d".toList 0
      = Run.ok ({ Asm2WasmPreProcessor.fresh false with memoryGrowth := true },
          "/*nction g(b) \x7b return true; if (b) \x7b b = 0;*/ \x7d".toList, 0) ∧
    (Asm2WasmPreProcessor.fresh false).process
        "function g(b) \x7b if (b) \x7b b = 0; \x7d return true; \x7d".toList 0 = Run.fatal := by
  constructor <;> decide

/-! ## The preprocessor: debug comments and the directive (lines 253-290) -/

/-- The first index of an element of `l1` in `l1 ++ l2`. -/
theorem indexOf_append_mem {α : Type} [BEq α] [LawfulBEq α] (a : α) :
    ∀ (l1 l2 : List α), a ∈ l1 → List.indexOf a (l1 ++ l2) = List.indexOf a l1
  | [], _, h => by cases h
  | x :: xs, l2, h => by
    simp only [List.cons_append, List.indexOf_cons]
    by_cases hx : x = a
    · simp [hx]
    · have hb : (x == a) = false := by simpa using hx
      have hm : a ∈ xs := by
        rcases List.mem_cons.mp h with h1 | h1
        · exact absurd h1.symm hx
        · exact h1
      rw [hb, indexOf_append_mem a xs l2 hm]

/-- The first index in `l1 ++ l2` of an element that is not in `l1`. -/
theorem indexOf_append_not_mem {α : Type} [BEq α] [LawfulBEq α] (a : α) :
    ∀ (l1 l2 : List α), a ∉ l1 → List.indexOf a (l1 ++ l2) = l1.length + List.indexOf a l2
  | [], _, _ => by simp
  | x :: xs, l2, h => by
    simp only [List.mem_cons, not_or] at h
    have hb : (x == a) = false := by
      have : ¬ x = a := fun h0 => h.1 h0.symm
      simpa using this
    simp only [List.cons_append, List.indexOf_cons, hb, cond_false, List.length_cons,
      indexOf_append_not_mem a xs l2 h.2]
    omega

/-- The first index of an element of a list is a position of the list. -/
theorem indexOf_lt_of_mem {α : Type} [BEq α] [LawfulBEq α] (a : α) :
    ∀ (l : List α), a ∈ l → List.indexOf a l < l.length
  | [], h => by cases h
  | x :: xs, h => by
    simp only [List.indexOf_cons, List.length_cons]
    by_cases hx : x = a
    · simp [hx]
    · have hb : (x == a) = false := by simpa using hx
      have hm : a ∈ xs := by
        rcases List.mem_cons.mp h with h1 | h1
        · exact absurd h1.symm hx
        · exact h1
      have := indexOf_lt_of_mem a xs hm
      simp only [hb, cond_false]
      omega

/-- The lines 262-268 on tables that agree: the file is added to the names when
it is new, and the text written is the decimal index of the file in the names. -/
theorem noteFile_spec (st : DebugState) (file : List Char)
    (hinv : ∀ f, st.debugInfoFileIndices.lookup f
      = if f ∈ st.debugInfoFileNames then some (st.debugInfoFileNames.indexOf f) else none) :
    (noteFile st file).1.debugInfoFileNames
      = (if file ∈ st.debugInfoFileNames then st.debugInfoFileNames
          else st.debugInfoFileNames ++ [file]) ∧
    (noteFile st file).1.out = st.out ∧
    (noteFile st file).1.seenUseAsm = st.seenUseAsm ∧
    (∀ f, (noteFile st file).1.debugInfoFileIndices.lookup f
      = if f ∈ (noteFile st file).1.debugInfoFileNames
          then some ((noteFile st file).1.debugInfoFileNames.indexOf f) else none) ∧
    (noteFile st file).2
      = (Nat.repr ((noteFile st file).1.debugInfoFileNames.indexOf file)).toList := by
  by_cases hmem : file ∈ st.debugInfoFileNames
  · have hl := hinv file
    rw [if_pos hmem] at hl
    simp only [noteFile, hl, if_pos hmem, Option.getD_some, true_and]
    exact ⟨hinv, trivial⟩
  · have hl := hinv file
    rw [if_neg hmem] at hl
    have hidx : (st.debugInfoFileNames ++ [file]).indexOf file = st.debugInfoFileNames.length := by
      rw [indexOf_append_not_mem file _ _ hmem]
      simp [List.indexOf_cons]
    simp only [noteFile, hl, if_neg hmem, true_and]
    refine ⟨?_, ?_⟩
    · intro f
      by_cases hf : f = file
      · subst hf
        simp [List.lookup_cons, hidx]
      · have hne : (f == file) = false := by simpa using hf
        rw [List.lookup_cons, hne]
        simp only [hinv f, List.mem_append, List.mem_singleton, hf, or_false]
        by_cases hfm : f ∈ st.debugInfoFileNames
        · simp only [if_pos hfm, indexOf_append_mem f _ _ hfm]
        · simp only [if_neg hfm]
    · simp [List.lookup_cons, hidx]

/-- The lines 254-261 on a debug comment `//@line N "path"`: the line text is
`N`, the file text is the path and `input` moves to the end of the comment. -/
theorem parseDebugLine_source (number file after : List Char) (h1 : ' ' ∉ number)
    (h2 : QUOTE ∉ file) :
    parseDebugLine ((Piece.line number file).source ++ after)
      = some { line := number, file := file,
               consumed := (Piece.line number file).source.length } := by
  have h8 : "//@line ".toList.length = 8 := by decide
  have hs : (Piece.line number file).source ++ after
      = "//@line ".toList ++ (number ++ ' ' :: QUOTE :: (file ++ QUOTE :: after)) := by
    simp only [Piece.source, List.append_assoc, List.cons_append, List.nil_append]
  have hlen : ¬ ((Piece.line number file).source ++ after).length < 8 := by
    rw [hs, List.length_append, h8]
    omega
  have hd : ((Piece.line number file).source ++ after).drop 8
      = number ++ ' ' :: QUOTE :: (file ++ QUOTE :: after) := by
    rw [hs]
    exact List.drop_left' h8
  have hi : scanTo ' ' (number ++ ' ' :: QUOTE :: (file ++ QUOTE :: after))
      = some number.length := scanTo_append ' ' number _ h1
  have hd2 : (number ++ ' ' :: QUOTE :: (file ++ QUOTE :: after)).drop number.length
      = ' ' :: QUOTE :: (file ++ QUOTE :: after) := List.drop_left _ _
  have hj : scanTo QUOTE (' ' :: QUOTE :: (file ++ QUOTE :: after)) = some 1 := by
    have hq : ¬ ' ' = QUOTE := by decide
    simp [scanTo, hq]
  have hd3 : (number ++ ' ' :: QUOTE :: (file ++ QUOTE :: after)).drop (number.length + 1 + 1)
      = file ++ QUOTE :: after := by
    have : number ++ ' ' :: QUOTE :: (file ++ QUOTE :: after)
        = (number ++ [' ', QUOTE]) ++ (file ++ QUOTE :: after) := by simp
    rw [this]
    exact List.drop_left' (by simp)
  have hk : scanTo QUOTE (file ++ QUOTE :: after) = some file.length :=
    scanTo_append QUOTE file _ h2
  unfold parseDebugLine
  rw [if_neg hlen]
  simp only [hd, hi, hd2, hj, hd3, hk, List.take_left]
  simp only [Piece.source, List.length_append, h8, List.length_cons, List.length_nil]

/-- One round of the rewrite loop at a debug comment: the call text is written
and `input` moves to the end of the comment, unless the size check fails or the
call text does not fit. -/
theorem debugLoop_line (bound : Nat) (st : DebugState) (number file after : List Char)
    (h1 : ' ' ∉ number) (h2 : QUOTE ∉ file) :
    debugLoop bound 0 st ((Piece.line number file).source ++ after) =
      if st.out.length + ADD_FACTOR ≥ bound then Run.fatal
      else if st.out.length + (DEBUGINFO_INTRINSIC ++ ['('] ++ (noteFile st file).2 ++ [','] ++
          number ++ [')', ';']).length > bound then Run.overflow
      else debugLoop bound 0
        { (noteFile st file).1 with
          out := st.out ++ (DEBUGINFO_INTRINSIC ++ ['('] ++ (noteFile st file).2 ++ [','] ++
            number ++ [')', ';']) } after := by
  have hp := parseDebugLine_source number file after h1 h2
  have hs : (Piece.line number file).source ++ after
      = '/' :: ("/@line ".toList ++ number ++ [' ', QUOTE] ++ file ++ [QUOTE] ++ after) := by
    have : "//@line ".toList = '/' :: "/@line ".toList := by decide
    simp only [Piece.source, this, List.append_assoc, List.cons_append, List.nil_append]
  have hsw : startsWith ((Piece.line number file).source ++ after) DEBUG_LINE = true := by
    apply startsWith_of_prefix _ _ (by decide)
    have : "//@line ".toList = DEBUG_LINE ++ [' '] := by decide
    simp only [Piece.source, this, List.append_assoc]
    exact List.prefix_append _ _
  have hl : (Piece.line number file).source.length - 1
      = ("/@line ".toList ++ number ++ [' ', QUOTE] ++ file ++ [QUOTE]).length := by
    have h8 : "//@line ".toList.length = 8 := by decide
    have h7 : "/@line ".toList.length = 7 := by decide
    simp only [Piece.source, List.length_append, h8, h7, List.length_cons, List.length_nil]
    omega
  rw [hs] at hp hsw
  rw [hs, debugLoop_zero_cons, hsw, hp]
  simp only [if_true, hl]
  have hrest : "/@line ".toList ++ number ++ [' ', QUOTE] ++ file ++ [QUOTE] ++ after
      = ("/@line ".toList ++ number ++ [' ', QUOTE] ++ file ++ [QUOTE]) ++ after := by
    simp only [List.append_assoc]
  rw [hrest, debugLoop_skip]

/-- One round of the rewrite loop at the end of the first directive: five bytes
are copied and the declaration of the intrinsic is written after them, unless the
size check fails or the declaration does not fit. -/
theorem debugLoop_useAsm (bound : Nat) (st : DebugState) (q c : Char) (after : List Char)
    (hseen : st.seenUseAsm = false) (hq : q = QUOTE ∨ q = APOSTROPHE) :
    debugLoop bound 0 st ((Piece.useAsm q c).source ++ after) =
      if st.out.length + ADD_FACTOR ≥ bound then Run.fatal
      else if st.out.length + 5 + DEBUGINFO_IMPORT.length ≥ bound then Run.overflow
      else debugLoop bound 0
        { st with out := st.out ++ (Piece.useAsm q c).source ++ DEBUGINFO_IMPORT,
                  seenUseAsm := true } after := by
  have hs : (Piece.useAsm q c).source ++ after = 'a' :: ('s' :: 'm' :: q :: c :: after) := by
    have : "asm".toList = ['a', 's', 'm'] := by decide
    simp only [Piece.source, this, List.cons_append, List.nil_append]
  have hsrc : (Piece.useAsm q c).source = ['a', 's', 'm', q, c] := by
    have : "asm".toList = ['a', 's', 'm'] := by decide
    simp only [Piece.source, this, List.cons_append, List.nil_append]
  have hnl : startsWith ('a' :: ('s' :: 'm' :: q :: c :: after)) DEBUG_LINE = false := by
    have : DEBUG_LINE = '/' :: "/@line".toList := by decide
    rw [this]
    simp [startsWith]
  have htr : (startsWith ('a' :: ('s' :: 'm' :: q :: c :: after)) ASM_APOSTROPHE ||
      startsWith ('a' :: ('s' :: 'm' :: q :: c :: after)) ASM_QUOTE) = true := by
    have ha : ASM_APOSTROPHE = ['a', 's', 'm', APOSTROPHE] := by decide
    have hb : ASM_QUOTE = ['a', 's', 'm', QUOTE] := by decide
    have hn1 : ¬ 'a' = NUL := by decide
    have hn2 : ¬ 's' = NUL := by decide
    have hn3 : ¬ 'm' = NUL := by decide
    have hn4 : ¬ QUOTE = NUL := by decide
    have hn5 : ¬ APOSTROPHE = NUL := by decide
    rcases hq with hq | hq
    · subst hq
      simp [ha, hb, startsWith, hn1, hn2, hn3, hn4]
    · subst hq
      simp [ha, hb, startsWith, hn1, hn2, hn3, hn5]
  rw [hs, debugLoop_zero_cons, hnl, htr, hseen]
  simp only [Bool.false_eq_true, if_false, Bool.not_false, Bool.and_self, if_true, hsrc]
  have h4 : debugLoop bound 4
      { st with out := st.out ++ List.take 5 ('a' :: 's' :: 'm' :: q :: c :: after) ++
          DEBUGINFO_IMPORT, seenUseAsm := true } ('s' :: 'm' :: q :: c :: after)
      = debugLoop bound 0
      { st with out := st.out ++ List.take 5 ('a' :: 's' :: 'm' :: q :: c :: after) ++
          DEBUGINFO_IMPORT, seenUseAsm := true } after :=
    debugLoop_skip bound ['s', 'm', q, c] _ after
  rw [h4]
  rfl

/-- The file-name table grows at its end. -/
theorem fileTable_extends : ∀ (paths table : List (List Char)), table <+: fileTable table paths
  | [], table => by simp [fileTable]
  | f :: paths, table => by
    have ih := fileTable_extends paths (if f ∈ table then table else table ++ [f])
    have hstep : fileTable table (f :: paths)
        = fileTable (if f ∈ table then table else table ++ [f]) paths := rfl
    rw [hstep]
    by_cases hf : f ∈ table
    · rw [if_pos hf] at ih ⊢
      exact ih
    · rw [if_neg hf] at ih ⊢
      exact (List.prefix_append _ _).trans ih

/-- The index of a file that is in the table does not change when the table grows. -/
theorem indexOf_fileTable (paths table : List (List Char)) (f : List Char) (h : f ∈ table) :
    (fileTable table paths).indexOf f = table.indexOf f := by
  obtain ⟨more, hmore⟩ := fileTable_extends paths table
  rw [← hmore]
  exact indexOf_append_mem f table more h

/-- The rewrite loop on a text cut into well-formed pieces, with room in the
buffer for the rewritten text: the loop completes, every piece is rewritten to
its target and the names are the file-name table of the paths. -/
theorem debugLoop_pieces (bound : Nat) : ∀ (pieces : List Piece) (st : DebugState),
    wellFormed st.seenUseAsm pieces = true →
    (∀ f, st.debugInfoFileIndices.lookup f
      = if f ∈ st.debugInfoFileNames then some (st.debugInfoFileNames.indexOf f) else none) →
    st.out.length +
      (targetText (fileTable st.debugInfoFileNames (piecePaths pieces)) pieces).length +
      ADD_FACTOR ≤ bound →
    ∃ st2, debugLoop bound 0 st (sourceText pieces) = Run.ok st2 ∧
      st2.out = st.out ++ targetText (fileTable st.debugInfoFileNames (piecePaths pieces)) pieces ∧
      st2.debugInfoFileNames = fileTable st.debugInfoFileNames (piecePaths pieces)
  | [], st, _, _, hroom => by
    have hA : ADD_FACTOR = 100 := rfl
    simp only [targetText, List.length_nil, hA] at hroom
    refine ⟨st, ?_, by simp [targetText], by simp [piecePaths, fileTable]⟩
    simp only [sourceText, debugLoop]
    rw [if_neg (by omega)]
  | .text cs :: ps, st, hwf, hinv, hroom => by
    simp only [wellFormed, Bool.and_eq_true] at hwf
    simp only [targetText, Piece.target, piecePaths, List.length_append] at hroom
    obtain ⟨st2, h1, h2, h3⟩ := debugLoop_pieces bound ps { st with out := st.out ++ cs } hwf.2 hinv
      (by simp only [List.length_append]; omega)
    refine ⟨st2, ?_, ?_, ?_⟩
    · simp only [sourceText, Piece.source]
      rw [debugLoop_text_ok bound cs st _ hwf.1 (by omega)]
      exact h1
    · rw [h2]
      simp only [targetText, Piece.target, piecePaths, List.append_assoc]
    · rw [h3]
      simp only [piecePaths]
  | .useAsm q c :: ps, st, hwf, hinv, hroom => by
    simp only [wellFormed, Bool.and_eq_true, Bool.not_eq_true', Bool.or_eq_true,
      decide_eq_true_eq] at hwf
    obtain ⟨⟨hseen, hq⟩, hwf2⟩ := hwf
    have hA : ADD_FACTOR = 100 := rfl
    have hI : DEBUGINFO_IMPORT.length = 54 := by decide
    have h3 : "asm".toList.length = 3 := by decide
    simp only [targetText, Piece.target, piecePaths, List.length_append, List.length_cons,
      List.length_nil, hI, h3, hA] at hroom
    obtain ⟨st2, h1, h2, h3⟩ := debugLoop_pieces bound ps
      { st with out := st.out ++ (Piece.useAsm q c).source ++ DEBUGINFO_IMPORT,
                seenUseAsm := true } hwf2 hinv
      (by
        simp only [List.length_append, Piece.source, List.length_cons, List.length_nil, hI, h3, hA]
        omega)
    refine ⟨st2, ?_, ?_, ?_⟩
    · simp only [sourceText]
      rw [debugLoop_useAsm bound st q c _ hseen hq, if_neg (by rw [hA]; omega),
        if_neg (by rw [hI]; omega)]
      exact h1
    · rw [h2]
      simp only [targetText, Piece.target, Piece.source, piecePaths, List.append_assoc]
    · rw [h3]
      simp only [piecePaths]
  | .line number file :: ps, st, hwf, hinv, hroom => by
    simp only [wellFormed, Bool.and_eq_true, Bool.not_eq_true'] at hwf
    obtain ⟨⟨hnum, hfile⟩, hwf2⟩ := hwf
    have hnum2 : ' ' ∉ number := by
      intro h0
      have : number.contains ' ' = true := by simpa using h0
      rw [hnum] at this
      cases this
    have hfile2 : QUOTE ∉ file := by
      intro h0
      have : file.contains QUOTE = true := by simpa using h0
      rw [hfile] at this
      cases this
    obtain ⟨n1, n2, n3, n4, n5⟩ := noteFile_spec st file hinv
    have hstep : fileTable st.debugInfoFileNames (piecePaths (Piece.line number file :: ps))
        = fileTable (noteFile st file).1.debugInfoFileNames (piecePaths ps) := by
      rw [n1]
      rfl
    have hmem : file ∈ (noteFile st file).1.debugInfoFileNames := by
      rw [n1]
      by_cases hf : file ∈ st.debugInfoFileNames
      · rw [if_pos hf]; exact hf
      · rw [if_neg hf]; simp
    have hidx : (Nat.repr ((fileTable (noteFile st file).1.debugInfoFileNames
        (piecePaths ps)).indexOf file)).toList = (noteFile st file).2 := by
      rw [n5, indexOf_fileTable _ _ _ hmem]
    rw [hstep] at hroom ⊢
    have hA : ADD_FACTOR = 100 := rfl
    simp only [targetText, Piece.target, hidx] at hroom ⊢
    rw [List.length_append] at hroom
    have hpos : 0 < (DEBUGINFO_INTRINSIC ++ ['('] ++ (noteFile st file).2 ++ [','] ++ number ++
        [')', ';']).length := by
      simp only [List.length_append, List.length_cons, List.length_nil]
      omega
    obtain ⟨st2, h1, h2, h3⟩ := debugLoop_pieces bound ps
      { (noteFile st file).1 with
        out := st.out ++ (DEBUGINFO_INTRINSIC ++ ['('] ++ (noteFile st file).2 ++ [','] ++ number ++
          [')', ';']) } (by rw [n3]; exact hwf2) n4
      (by
        dsimp only
        rw [List.length_append]
        omega)
    dsimp only at h1 h2 h3
    refine ⟨st2, ?_, ?_, ?_⟩
    · simp only [sourceText]
      rw [debugLoop_line bound st number file _ hnum2 hfile2, if_neg (by rw [hA]; omega),
        if_neg (by omega)]
      exact h1
    · rw [h2]
      simp only [List.append_assoc]
    · rw [h3]

/-- The file-name table after one more path. -/
theorem fileTable_concat (table paths : List (List Char)) (g : List Char) :
    fileTable table (paths ++ [g])
      = if g ∈ fileTable table paths then fileTable table paths
        else fileTable table paths ++ [g] := by
  simp only [fileTable, List.foldl_append, List.foldl_cons, List.foldl_nil]

/-- The file-name table of a list of paths lists every path once, in the order in
which the paths first occur. -/
theorem fileTable_spec (paths : List (List Char)) :
    (fileTable [] paths).Nodup ∧ (∀ f, f ∈ fileTable [] paths ↔ f ∈ paths) ∧
    ∀ f g, f ∈ paths → g ∈ paths →
      ((fileTable [] paths).indexOf f < (fileTable [] paths).indexOf g ↔
        paths.indexOf f < paths.indexOf g) := by
  induction paths using List.reverseRecOn with
  | nil =>
    refine ⟨by simp [fileTable], by simp [fileTable], ?_⟩
    intro f g hf
    cases hf
  | append_singleton paths x ih =>
    obtain ⟨ih1, ih2, ih3⟩ := ih
    rw [fileTable_concat]
    by_cases hx : x ∈ fileTable [] paths
    · rw [if_pos hx]
      have hxp : x ∈ paths := (ih2 x).mp hx
      have hmem : ∀ f, f ∈ paths ++ [x] → f ∈ paths := by
        intro f hf
        rcases List.mem_append.mp hf with h | h
        · exact h
        · rw [List.mem_singleton.mp h]; exact hxp
      refine ⟨ih1, ?_, ?_⟩
      · intro f
        rw [ih2 f]
        exact ⟨fun h => List.mem_append_left _ h, hmem f⟩
      · intro f g hf hg
        rw [indexOf_append_mem f paths [x] (hmem f hf), indexOf_append_mem g paths [x] (hmem g hg)]
        exact ih3 f g (hmem f hf) (hmem g hg)
    · rw [if_neg hx]
      have hxp : x ∉ paths := fun h => hx ((ih2 x).mpr h)
      have hix : ∀ (l : List (List Char)), x ∉ l → (l ++ [x]).indexOf x = l.length := by
        intro l hl
        rw [indexOf_append_not_mem x l [x] hl]
        simp [List.indexOf_cons]
      refine ⟨?_, ?_, ?_⟩
      · rw [List.nodup_append]
        refine ⟨ih1, List.nodup_singleton x, ?_⟩
        intro a ha hb
        rw [List.mem_singleton.mp hb] at ha
        exact hx ha
      · intro f
        simp only [List.mem_append, List.mem_singleton, ih2 f]
      · intro f g hf hg
        rcases List.mem_append.mp hf with hf1 | hf1
        · have hfT : f ∈ fileTable [] paths := (ih2 f).mpr hf1
          rw [indexOf_append_mem f _ [x] hfT, indexOf_append_mem f paths [x] hf1]
          rcases List.mem_append.mp hg with hg1 | hg1
          · have hgT : g ∈ fileTable [] paths := (ih2 g).mpr hg1
            rw [indexOf_append_mem g _ [x] hgT, indexOf_append_mem g paths [x] hg1]
            exact ih3 f g hf1 hg1
          · rw [List.mem_singleton.mp hg1, hix _ hx, hix _ hxp]
            exact ⟨fun _ => indexOf_lt_of_mem f paths hf1,
              fun _ => indexOf_lt_of_mem f _ hfT⟩
        · rw [List.mem_singleton.mp hf1, hix _ hx, hix _ hxp]
          rcases List.mem_append.mp hg with hg1 | hg1
          · have hgT : g ∈ fileTable [] paths := (ih2 g).mpr hg1
            rw [indexOf_append_mem g _ [x] hgT, indexOf_append_mem g paths [x] hg1]
            have h1 := indexOf_lt_of_mem g paths hg1
            have h2 := indexOf_lt_of_mem g _ hgT
            constructor <;> intro h <;> omega
          · rw [List.mem_singleton.mp hg1, hix _ hx, hix _ hxp]
            constructor <;> intro h <;> omega

/-- A choice between two bytes other than `x` is not `x`. -/
theorem ite_ne_char {c : Prop} [Decidable c] {a b x : Char} (ha : a ≠ x) (hb : b ≠ x) :
    (if c then a else b) ≠ x := by
  split_ifs <;> assumption

/-- No digit is the terminator. -/
theorem digitChar_ne_nul (d : Nat) : Nat.digitChar d ≠ NUL := by
  unfold Nat.digitChar
  iterate 16 refine ite_ne_char (by decide) ?_
  decide

/-- The digits of a number hold no terminator. -/
theorem toDigitsCore_ne_nul (b : Nat) : ∀ (fuel n : Nat) (ds : List Char), NUL ∉ ds →
    NUL ∉ Nat.toDigitsCore b fuel n ds
  | 0, _, ds, h => by simpa [Nat.toDigitsCore] using h
  | fuel + 1, n, ds, h => by
    have hd : NUL ∉ Nat.digitChar (n % b) :: ds := by
      simp only [List.mem_cons, not_or]
      exact ⟨fun h0 => digitChar_ne_nul _ h0.symm, h⟩
    simp only [Nat.toDigitsCore]
    split_ifs
    · exact hd
    · exact toDigitsCore_ne_nul b fuel _ _ hd

/-- The decimal text of a number holds no terminator. -/
theorem repr_ne_nul (n : Nat) : NUL ∉ (Nat.repr n).toList := by
  simp only [Nat.repr, Nat.toDigits, List.asString, String.toList]
  exact toDigitsCore_ne_nul 10 _ _ [] (by simp)

/-- The rewritten text of a source without terminator has no terminator. -/
theorem targetText_ne_nul (table : List (List Char)) : ∀ (pieces : List Piece),
    NUL ∉ sourceText pieces → NUL ∉ targetText table pieces
  | [], _ => by simp [targetText]
  | p :: ps, h => by
    simp only [sourceText, List.mem_append, not_or] at h
    have ih := targetText_ne_nul table ps h.2
    simp only [targetText, List.mem_append, not_or]
    refine ⟨?_, ih⟩
    cases p with
    | text cs => exact h.1
    | useAsm q c =>
      have h1 := h.1
      simp only [Piece.source, List.mem_append, not_or] at h1
      simp only [Piece.target, List.mem_append, not_or]
      exact ⟨⟨h1.1, h1.2⟩, by decide⟩
    | line number file =>
      have h1 := h.1
      simp only [Piece.source, List.mem_append, not_or] at h1
      simp only [Piece.target, List.mem_append, not_or]
      exact ⟨⟨⟨⟨⟨by decide, by decide⟩, repr_ne_nul _⟩, by decide⟩, h1.1.1.1.2⟩, by decide⟩

/-- C26 (amended): with `debugInfo` on and empty tables, for a text without
terminator that is cut into well-formed pieces (text without trigger, the end of
the first directive, debug comments `//@line N "path"`), does not open with `M`
(no `Module["asm"]` wrapper), has no
growth sign in its prologue and whose rewritten text is at most 1.25 times as
long, `process` completes; every debug comment is replaced in place by
`emscripten_debuginfo(I,N);` with `I` the decimal index of the path in the
file-name table, the end of the first directive is followed by the declaration
of the intrinsic, all other text is copied, and the file-name table lists every
path once in the order of first occurrence. -/
theorem process_debugInfo (pp : Asm2WasmPreProcessor) (pieces : List Piece)
    (hd : pp.debugInfo = true) (hnames : pp.debugInfoFileNames = [])
    (hindices : pp.debugInfoFileIndices = [])
    (hwf : wellFormed false pieces = true) (hn : NUL ∉ sourceText pieces)
    (hM : (sourceText pieces).head? ≠ some 'M')
    (hg : ¬ GROWTH_SIGN <:+: prologue (sourceText pieces))
    (hroom : (targetText (fileTable [] (piecePaths pieces)) pieces).length
      ≤ (sourceText pieces).length * 5 / 4)
    (hsize : (sourceText pieces).length * 5 / 4 + 100 < 4294967296) :
    (∃ r, pp.process (sourceText pieces) 0 = Run.ok r ∧
      resultText r = targetText (fileTable [] (piecePaths pieces)) pieces ∧
      r.1.debugInfoFileNames = fileTable [] (piecePaths pieces)) ∧
    (fileTable [] (piecePaths pieces)).Nodup ∧
    (∀ f, f ∈ fileTable [] (piecePaths pieces) ↔ f ∈ piecePaths pieces) ∧
    ∀ f g, f ∈ piecePaths pieces → g ∈ piecePaths pieces →
      ((fileTable [] (piecePaths pieces)).indexOf f < (fileTable [] (piecePaths pieces)).indexOf g ↔
        (piecePaths pieces).indexOf f < (piecePaths pieces).indexOf g) := by
  refine ⟨?_, fileTable_spec (piecePaths pieces)⟩
  have hs : stripWrapper (sourceText pieces) 0 = Run.ok (sourceText pieces, 0) := by
    unfold stripWrapper
    rw [if_neg (peek_zero_ne _ hM)]
  have hcs := cstring_zero_of_not_mem _ hn
  have hdg : detectGrowth (sourceText pieces) 0 = Run.ok (sourceText pieces, false) :=
    detectGrowth_of_none _ 0 (by rw [hcs]; exact hg)
  have hA : ADD_FACTOR = 100 := rfl
  have hub : upperBound (sourceText pieces).length = (sourceText pieces).length * 5 / 4 + 100 := by
    simp only [upperBound, hA]
    rw [Nat.mod_eq_of_lt (show (sourceText pieces).length * 5 / 4 < 4294967296 by omega),
      Nat.mod_eq_of_lt hsize]
  obtain ⟨st2, h1, h2, h3⟩ := debugLoop_pieces (upperBound (sourceText pieces).length) pieces
    { out := [], seenUseAsm := false, debugInfoFileNames := [], debugInfoFileIndices := [] }
    hwf (by intro f; simp) (by
      rw [hub, hA]
      simp only [List.length_nil, zero_add]
      omega)
  simp only [List.nil_append] at h2
  refine ⟨({ pp with debugInfoFileNames := st2.debugInfoFileNames,
                     debugInfoFileIndices := st2.debugInfoFileIndices }, st2.out, 0), ?_, ?_, h3⟩
  · simp only [Asm2WasmPreProcessor.process, hs, hdg, hd, if_true, hcs, hnames, hindices, h1,
      Bool.false_eq_true, if_false]
  · simp only [resultText, h2]
    exact cstring_zero_of_not_mem _ (targetText_ne_nul _ pieces hn)

set_option maxRecDepth 100000 in
/-- Witness for C26: a module with a directive and three debug comments on two
paths; the second mention of a path gets the index of the first. -/
theorem process_debugInfo_witness :
    ∃ r, (Asm2WasmPreProcessor.fresh true).process
        ("function asmModule(global, env, buffer) \x7b \x22use asm\x22; var a = env.a; var b = env.b; " ++
          "var c = env.c; function f() \x7b a(); //@line 4 \x22tests/hello_world.c\x22\n" ++
          " b(); //@line 5 \x22tests/other.c\x22\n c(); //@line 9 \x22tests/hello_world.c\x22\n" ++
          " \x7d return \x7b f: f \x7d; \x7d").toList 0 = Run.ok r ∧
      resultText r =
        ("function asmModule(global, env, buffer) \x7b \x22use asm\x22;" ++
          "\n var emscripten_debuginfo = env.emscripten_debuginfo; var a = env.a; var b = env.b; " ++
          "var c = env.c; function f() \x7b a(); emscripten_debuginfo(0,4);\n" ++
          " b(); emscripten_debuginfo(1,5);\n c(); emscripten_debuginfo(0,9);\n" ++
          " \x7d return \x7b f: f \x7d; \x7d").toList ∧
      r.1.debugInfoFileNames = ["tests/hello_world.c".toList, "tests/other.c".toList] :=
  (process_debugInfo (Asm2WasmPreProcessor.fresh true)
    [Piece.text "function asmModule(global, env, buffer) \x7b \x22use ".toList,
     Piece.useAsm QUOTE ';',
     Piece.text (" var a = env.a; var b = env.b; var c = env.c; " ++
       "function f() \x7b a(); ").toList,
     Piece.line "4".toList "tests/hello_world.c".toList,
     Piece.text "\n b(); ".toList,
     Piece.line "5".toList "tests/other.c".toList,
     Piece.text "\n c(); ".toList,
     Piece.line "9".toList "tests/hello_world.c".toList,
     Piece.text "\n \x7d return \x7b f: f \x7d; \x7d".toList]
    rfl rfl rfl (by decide) (by decide) (by decide) (by decide) (by decide) (by decide)).1

set_option maxRecDepth 100000 in
/-- Counterexample to C26 as stated: with `debugInfo` on, the text
`Module["asm"] = (function(a) { return a; //@line 1 "tests/hello_world.c"` and
a last line `});` comes back with the debug comment replaced by the call, and
without the bytes `Module["asm"] = (` in front of `function` and `);` after the
last brace: text outside the comment is not copied unchanged, the wrapper is
cut first. -/
theorem process_debug_wrapper_counterexample :
    (Asm2WasmPreProcessor.fresh true).process
        ("Module[\x22asm\x22] = (function(a) \x7b return a; " ++
          "//@line 1 \x22tests/hello_world.c\x22\n\x7d);").toList 0
      = Run.ok ({ Asm2WasmPreProcessor.fresh true with
            debugInfoFileNames := ["tests/hello_world.c".toList],
            debugInfoFileIndices := [("tests/hello_world.c".toList, 0)] },
          "function(a) \x7b return a; emscripten_debuginfo(0,1);\n\x7d".toList, 0) ∧
    resultText ({ Asm2WasmPreProcessor.fresh true with
            debugInfoFileNames := ["tests/hello_world.c".toList],
            debugInfoFileIndices := [("tests/hello_world.c".toList, 0)] },
          "function(a) \x7b return a; emscripten_debuginfo(0,1);\n\x7d".toList, 0)
      = "function(a) \x7b return a; emscripten_debuginfo(0,1);\n\x7d".toList ∧
    ("Module[\x22asm\x22] = (function(a) \x7b return a; " ++
        "//@line 1 \x22tests/hello_world.c\x22\n\x7d);").toList.head? = some 'M' := by
  refine ⟨by decide, by decide, by decide⟩

/-! ## The preprocessor: the size of the buffer (lines 239-298) -/

set_option maxRecDepth 100000 in
/-- C27, the failing input: twelve comments `//@line 1 "a"` and one comment whose
line number has 90 digits, 258 bytes in all, so the buffer has
`258 * 5 / 4 + 100 = 422` bytes. The check of line 250 passes before the last
comment (`312 + 100 < 422`), and the call text of 115 bytes is then written up
to index 426: the run writes beyond the buffer instead of failing fatally. -/
theorem process_debug_overflow :
    ((List.replicate 12 "//@line 1 \x22a\x22".toList).flatten ++ "//@line ".toList ++
        List.replicate 90 '1' ++ " \x22a\x22".toList).length = 258 ∧
    upperBound 258 = 422 ∧
    (Asm2WasmPreProcessor.fresh true).process
      ((List.replicate 12 "//@line 1 \x22a\x22".toList).flatten ++ "//@line ".toList ++
        List.replicate 90 '1' ++ " \x22a\x22".toList) 0 = Run.overflow := by
  refine ⟨by decide, by decide, by decide⟩

/-! ## Module assembly: imported globals (lines 929-960, 1002-1018) -/

/-- The lambda `addImport` on an import that is not intercepted. -/
theorem addImport_plain (st : ImportState) (name : IString) (module : ImportedModule)
    (base moduleName : IString) (type : WasmType)
    (hmod : moduleNameOf module = some moduleName)
    (hmath : ∀ outer inner, module = .dotted outer inner →
      ¬ (inner = MATH ∧ base ∈ [IMUL, CLZ32, FROUND, ABS, FLOOR, CEIL, SQRT, MAX_, MIN_]))
    (hcttz : ¬ (module = .plain ENV ∧ base = LLVM_CTTZ_I32))
    (htemp : module = .plain ENV → base = TEMP_DOUBLE_PTR → st.tempDoublePtr = none) :
    ∃ st1, addImport st name (.dot module base) type
        = Outcome.ok (finishImport st1 name moduleName base type) ∧
      st1.imports = st.imports ∧ st1.globals = st.globals ∧
      st1.mappedGlobals = st.mappedGlobals := by
  cases module with
  | other => simp [moduleNameOf] at hmod
  | plain m =>
    simp only [moduleNameOf, Option.some.injEq] at hmod
    subst hmod
    by_cases h1 : m = ENV ∧ base = TEMP_DOUBLE_PTR
    · have hnull := htemp (by rw [h1.1]) h1.2
      refine ⟨{ st with tempDoublePtr := some name }, ?_, rfl, rfl, rfl⟩
      simp only [addImport, if_pos h1, hnull, bindSlot, Outcome.bind]
    · have h2 : ¬ (m = ENV ∧ base = LLVM_CTTZ_I32) := by
        intro h
        exact hcttz ⟨by rw [h.1], h.2⟩
      refine ⟨st, ?_, rfl, rfl, rfl⟩
      simp only [addImport, if_neg h1, if_neg h2]
  | dotted outer inner =>
    simp only [moduleNameOf, Option.some.injEq] at hmod
    subst hmod
    have hm := hmath outer inner rfl
    simp only [List.mem_cons, List.mem_singleton, List.not_mem_nil, or_false, not_and,
      not_or] at hm
    refine ⟨st, ?_, rfl, rfl, rfl⟩
    by_cases hi : inner = MATH
    · obtain ⟨a1, a2, a3, a4, a5, a6, a7, a8, a9⟩ := hm hi
      simp only [addImport, a1, a2, a3, a4, a5, a6, a7, a8, a9, and_false, if_false]
    · simp only [addImport, hi, false_and, if_false]

/-- What lines 929-960 add for a global type. -/
theorem finishImport_global (st : ImportState) (name moduleName base : IString)
    (type : WasmType) (htype : type ≠ WasmType.none)
    (hnan : moduleName = GLOBAL → base = NAN_ ∨ base = INFINITY_ → type = WasmType.f64) :
    (name ≠ "tableBase" ∧ name ≠ "memoryBase" →
      (finishImport st name moduleName base type).imports = st.imports ++
        [{ name := name ++ "$asm2wasm$import", module := moduleName, base := base,
           kind := ExternalKind.Global, globalType := type }] ∧
      (finishImport st name moduleName base type).globals = st.globals ++
        [{ name := name, type := type,
           init := makeGetGlobal (name ++ "$asm2wasm$import") type, mutable_ := true }]) ∧
    (name = "tableBase" ∨ name = "memoryBase" →
      (finishImport st name moduleName base type).imports = st.imports ++
        [{ name := name, module := moduleName, base := base,
           kind := ExternalKind.Global, globalType := type }] ∧
      (finishImport st name moduleName base type).globals = st.globals) ∧
    (st.mappedGlobals name = none →
      (finishImport st name moduleName base type).mappedGlobals name = some type) := by
  have ht : (if moduleName = GLOBAL ∧ (base = NAN_ ∨ base = INFINITY_) then WasmType.f64
      else type) = type := by
    by_cases h : moduleName = GLOBAL ∧ (base = NAN_ ∨ base = INFINITY_)
    · rw [if_pos h, hnan h.1 h.2]
    · rw [if_neg h]
  refine ⟨?_, ?_, ?_⟩
  · intro hname
    simp only [finishImport, ht, ne_eq, htype, not_false_eq_true, if_true, hname, and_self]
  · intro hname
    have hn : ¬ (name ≠ "tableBase" ∧ name ≠ "memoryBase") := by
      intro h
      rcases hname with h1 | h1
      · exact h.1 h1
      · exact h.2 h1
    simp only [finishImport, ht, ne_eq, htype, not_false_eq_true, if_true]
    rw [if_neg hn]
    exact ⟨rfl, rfl⟩
  · intro hmap
    simp only [finishImport, ht, ne_eq, htype, not_false_eq_true, if_true]
    split <;> simp [emplace, hmap]

/-- C30 (amended): a declaration `x = imp | 0` or `x = +imp` of an import that is
not one of the intercepted ones (a member `imul`, `clz32`, `fround`, `abs`,
`floor`, `ceil`, `sqrt`, `max` or `min` of an object `Math`,
`env._llvm_cttz_i32`, a second `env.tempDoublePtr`, `global.NaN | 0` and
`global.Infinity | 0`) completes; for `x` other than `tableBase` and
`memoryBase` the module gets a global import `x$asm2wasm$import` with the
module and base of `imp` and the type `i32` resp. `f64`, and a mutable global
`x` of that type whose initializer is `get_global x$asm2wasm$import`; for
`tableBase` and `memoryBase` it gets the import under the name `x` and no
global. -/
theorem processVar_imported_global (st : ImportState) (name : IString)
    (module : ImportedModule) (base moduleName : IString) (value : VarValue) (type : WasmType)
    (hvalue : (value = .binary OR (.dot module base) (.num 0) ∧ type = WasmType.i32) ∨
      (value = .unaryPrefix PLUS (.dot module base) ∧ type = WasmType.f64))
    (hmod : moduleNameOf module = some moduleName)
    (hmath : ∀ outer inner, module = .dotted outer inner →
      ¬ (inner = MATH ∧ base ∈ [IMUL, CLZ32, FROUND, ABS, FLOOR, CEIL, SQRT, MAX_, MIN_]))
    (hcttz : ¬ (module = .plain ENV ∧ base = LLVM_CTTZ_I32))
    (htemp : module = .plain ENV → base = TEMP_DOUBLE_PTR → st.tempDoublePtr = none)
    (hnan : moduleName = GLOBAL → base = NAN_ ∨ base = INFINITY_ → type = WasmType.f64) :
    ∃ st2, processVar st name value = Outcome.ok st2 ∧
      (name ≠ "tableBase" ∧ name ≠ "memoryBase" →
        st2.imports = st.imports ++
          [{ name := name ++ "$asm2wasm$import", module := moduleName, base := base,
             kind := ExternalKind.Global, globalType := type }] ∧
        st2.globals = st.globals ++
          [{ name := name, type := type,
             init := makeGetGlobal (name ++ "$asm2wasm$import") type, mutable_ := true }]) ∧
      (name = "tableBase" ∨ name = "memoryBase" →
        st2.imports = st.imports ++
          [{ name := name, module := moduleName, base := base,
             kind := ExternalKind.Global, globalType := type }] ∧
        st2.globals = st.globals) ∧
      (st.mappedGlobals name = none → st2.mappedGlobals name = some type) := by
  obtain ⟨st1, hadd, himp, hglob, hmg⟩ :=
    addImport_plain st name module base moduleName type hmod hmath hcttz htemp
  have htype : type ≠ WasmType.none := by
    rcases hvalue with h | h <;> rw [h.2] <;> decide
  have hrun : processVar st name value
      = Outcome.ok (finishImport st1 name moduleName base type) := by
    rcases hvalue with h | h
    · rw [h.1]
      rw [h.2] at hadd
      simp only [processVar, Ref.isZero, decide_True, and_self, if_true, hadd]
      rw [h.2]
    · rw [h.1]
      rw [h.2] at hadd
      simp only [processVar, if_true, hadd]
      rw [h.2]
  have hfin := finishImport_global st1 name moduleName base type htype hnan
  rw [himp, hglob, hmg] at hfin
  exact ⟨_, hrun, hfin.1, hfin.2.1, hfin.2.2⟩

/-- Witness for C30: `var STACKTOP = env.STACKTOP | 0`. -/
theorem processVar_imported_global_witness :
    ∃ st2, processVar exampleImportState "STACKTOP"
        (.binary OR (.dot (.plain "env") "STACKTOP") (.num 0)) = Outcome.ok st2 ∧
      st2.imports = [{ name := "STACKTOP$asm2wasm$import", module := "env", base := "STACKTOP",
                       kind := ExternalKind.Global, globalType := WasmType.i32 }] ∧
      st2.globals = [{ name := "STACKTOP", type := WasmType.i32,
                       init := makeGetGlobal "STACKTOP$asm2wasm$import" WasmType.i32,
                       mutable_ := true }] := by
  obtain ⟨st2, h1, h2, -, -⟩ := processVar_imported_global exampleImportState "STACKTOP"
    (.plain "env") "STACKTOP" "env" (.binary OR (.dot (.plain "env") "STACKTOP") (.num 0))
    WasmType.i32 (Or.inl ⟨rfl, rfl⟩) rfl (by intro outer inner h; cases h) (by decide)
    (fun _ _ => rfl) (by decide)
  exact ⟨st2, h1, h2 (by decide)⟩

/-- Counterexample to C30 as stated: the declaration `var nan = global.NaN | 0`
has the form `x = imp | 0`, and the module gets the import and the mutable
global with the type `f64`, not `i32` (line 934 forces the type); the
declaration `var imul = global.Math.imul | 0` completes and adds no import and
no global at all, the name is bound to the slot `Math_imul`. -/
theorem processVar_global_counterexample :
    (∃ st2, processVar exampleImportState "nan"
        (.binary OR (.dot (.plain "global") "NaN") (.num 0)) = Outcome.ok st2 ∧
      st2.imports = [{ name := "nan$asm2wasm$import", module := "global", base := "NaN",
                       kind := ExternalKind.Global, globalType := WasmType.f64 }] ∧
      st2.globals = [{ name := "nan", type := WasmType.f64,
                       init := makeGetGlobal "nan$asm2wasm$import" WasmType.f64,
                       mutable_ := true }]) ∧
    (∃ st2, processVar exampleImportState "imul"
        (.binary OR (.dot (.dotted "global" "Math") "imul") (.num 0)) = Outcome.ok st2 ∧
      st2.imports = [] ∧ st2.globals = [] ∧ st2.Math_imul = some "imul") :=
  ⟨⟨_, rfl, rfl, rfl⟩, ⟨_, rfl, rfl, rfl, rfl⟩⟩

/-! ## Module assembly: the export object (lines 1131-1180) -/

/-- Looking up `key` after a pair with another key. -/
theorem lookup_concat_ne (cs : List (IString × ExportValue)) (k key : IString) (v : ExportValue)
    (h : k ≠ key) : (cs ++ [(k, v)]).lookup key = cs.lookup key := by
  have hb : (key == k) = false := by simpa using fun h0 => h h0.symm
  rw [List.lookup_append]
  simp only [List.lookup_cons, hb, List.lookup_nil]
  cases cs.lookup key <;> rfl

/-- Looking up `key` after a pair with this key. -/
theorem lookup_concat_self (cs : List (IString × ExportValue)) (key : IString) (v : ExportValue) :
    (cs ++ [(key, v)]).lookup key = some ((cs.lookup key).getD v) := by
  rw [List.lookup_append]
  simp only [List.lookup_cons, beq_self_eq_true]
  cases cs.lookup key <;> rfl

/-- Looking up `key` from the end, after one more pair. -/
theorem lookup_reverse_concat (cs : List (IString × ExportValue)) (k key : IString)
    (v : ExportValue) :
    (cs ++ [(k, v)]).reverse.lookup key = if key = k then some v else cs.reverse.lookup key := by
  simp only [List.reverse_append, List.reverse_cons, List.reverse_nil, List.nil_append,
    List.singleton_append, List.lookup_cons]
  by_cases h : key = k
  · simp [h]
  · have hb : (key == k) = false := by simpa using h
    simp [hb, h]

/-- Overwriting the value of an export keeps the names of the exports. -/
theorem map_name_set (exports : List Export) (i : Nat) (e : Export) (value : IString)
    (h : exports[i]? = some e) :
    (exports.set i { e with value := value }).map Export.name = exports.map Export.name := by
  apply List.ext_getElem?
  intro j
  simp only [List.getElem?_map, List.getElem?_set]
  by_cases hij : i = j
  · subst hij
    obtain ⟨hlt, -⟩ := List.getElem?_eq_some.mp h
    simp [hlt, h]
  · simp [hij]

/-- A completed round for an identifier: it overwrites the value of the export
that `exported` has for the key, or adds a function export and its entry. -/
theorem processExport_string (st st2 : ExportState) (k value : IString)
    (hk : k ≠ "_emscripten_replace_memory")
    (h : processExport st k (.string value) = Outcome.ok st2) :
    st2.globals = st.globals ∧
    ((∃ i e, st.exported.lookup k = some i ∧ st.exports[i]? = some e ∧
        st2.exports = st.exports.set i { e with value := value } ∧
        st2.exported = st.exported) ∨
     (st.exported.lookup k = none ∧
        st2.exports = st.exports ++ [{ name := k, value := value, kind := ExternalKind.Function }] ∧
        st2.exported = (k, st.exports.length) :: st.exported)) := by
  simp only [processExport, if_neg hk] at h
  generalize hst1 : (if k = UDIVMODDI4 then { st with udivmoddi4 := some value }
      else if k = GET_TEMP_RET0 then { st with getTempRet0 := some value } else st) = st1 at h
  have hsame : st1.exports = st.exports ∧ st1.exported = st.exported ∧
      st1.globals = st.globals := by
    rw [← hst1]
    split_ifs <;> exact ⟨rfl, rfl, rfl⟩
  obtain ⟨h1, h2, h3⟩ := hsame
  rw [h1, h2] at h
  cases hl : st.exported.lookup k with
  | none =>
    simp only [hl, Outcome.ok.injEq] at h
    subst h
    exact ⟨h3, Or.inr ⟨rfl, rfl, rfl⟩⟩
  | some i =>
    simp only [hl] at h
    cases he : st.exports[i]? with
    | none => simp [he] at h
    | some e =>
      simp only [he, Outcome.ok.injEq] at h
      subst h
      exact ⟨h3, Or.inl ⟨i, e, rfl, he, rfl, rfl⟩⟩

/-- A completed round for a number: the key was not bound before, and an
immutable `i32` global and a global export are added. -/
theorem processExport_number (st st2 : ExportState) (k : IString) (n : Int)
    (h : processExport st k (.number n) = Outcome.ok st2) :
    ∃ v, getInteger n = some v ∧ st.exported.lookup k = none ∧
      st2.exports = st.exports ++ [{ name := k, value := k, kind := ExternalKind.Global }] ∧
      st2.exported = (k, st.exports.length) :: st.exported ∧
      st2.globals = st.globals ++
        [{ name := k, type := WasmType.i32, init := makeConst (Literal.ofInt32 v),
           mutable_ := false }] := by
  simp only [processExport] at h
  cases hl : st.exported.lookup k with
  | some i => simp [hl] at h
  | none =>
    simp only [hl] at h
    cases hg : getInteger n with
    | none => simp [hg] at h
    | some v =>
      simp only [hg, Outcome.ok.injEq] at h
      subst h
      exact ⟨v, rfl, rfl, rfl, rfl, rfl⟩

/-- The kind of an export and its global stay when the globals grow and the
export keeps its kind. -/
theorem ExportKindOf_mono (key : IString) (st st2 : ExportState) (e e2 : Export)
    (first : ExportValue) (gs : List Global) (hg : st2.globals = st.globals ++ gs)
    (hk : e2.kind = e.kind) (h : ExportKindOf key st e first) :
    ExportKindOf key st2 e2 first := by
  cases first with
  | string v =>
    simp only [ExportKindOf] at h ⊢
    rw [hk]; exact h
  | number n =>
    simp only [ExportKindOf] at h ⊢
    obtain ⟨h1, v, h2, g, h3, h4⟩ := h
    refine ⟨by rw [hk]; exact h1, v, h2, g, ?_, h4⟩
    rw [hg]
    exact List.mem_append_left _ h3
  | other => exact h

/-- A round that overwrites the value of the export of `k` keeps the state of
the loop in step with the pairs. -/
theorem ExportPost_set (key : IString) (cs : List (IString × ExportValue))
    (st st2 : ExportState) (k value : IString) (i : Nat) (e0 : Export)
    (hpost : ExportPost key cs st)
    (hl : st.exported.lookup k = some i) (he : st.exports[i]? = some e0)
    (hexports : st2.exports = st.exports.set i { e0 with value := value })
    (hexported : st2.exported = st.exported) (hglobals : st2.globals = st.globals) :
    ExportPost key (cs ++ [(k, .string value)]) st2 := by
  obtain ⟨hagree, hnone, hsome⟩ := hpost
  have hnames : st2.exports.map Export.name = st.exports.map Export.name := by
    rw [hexports]
    exact map_name_set _ i e0 value he
  have hlt : i < st.exports.length := (List.getElem?_eq_some.mp he).1
  have hget : ∀ j : Nat, j ≠ i → st2.exports[j]? = st.exports[j]? := by
    intro j hj
    rw [hexports, List.getElem?_set, if_neg (fun h => hj h.symm)]
  have hgeti : st2.exports[i]? = some { e0 with value := value } := by
    rw [hexports, List.getElem?_set, if_pos rfl, if_pos hlt]
  have he0 : e0.name = k := by
    obtain ⟨e, h1, h2⟩ := hagree k i hl
    rw [he] at h1
    cases h1
    exact h2
  refine ⟨?_, ?_, ?_⟩
  · intro k2 i2 hl2
    rw [hexported] at hl2
    obtain ⟨e, h1, h2⟩ := hagree k2 i2 hl2
    by_cases hi : i2 = i
    · subst hi
      rw [he] at h1
      cases h1
      exact ⟨_, hgeti, h2⟩
    · exact ⟨e, by rw [hget i2 hi]; exact h1, h2⟩
  · intro hln
    by_cases hk : k = key
    · subst hk
      rw [lookup_concat_self] at hln
      cases hln
    · rw [lookup_concat_ne cs k key _ hk] at hln
      rw [hexported, hnames]
      exact hnone hln
  · intro first hlf
    by_cases hk : k = key
    · subst hk
      cases hc : cs.lookup k with
      | none =>
        have := (hnone hc).1
        rw [hl] at this
        cases this
      | some b =>
        rw [lookup_concat_self, hc] at hlf
        simp only [Option.getD_some, Option.some.injEq] at hlf
        subst hlf
        obtain ⟨i1, e1, h1, h2, h3, h4, h5, -⟩ := hsome b hc
        rw [hl] at h1
        cases h1
        rw [he] at h2
        cases h2
        refine ⟨i, { e0 with value := value }, by rw [hexported]; exact hl, hgeti, h3,
          by rw [hnames]; exact h4, ?_, ?_⟩
        · exact ExportKindOf_mono k st st2 e0 _ b [] (by rw [hglobals]; simp) rfl h5
        · rw [lookup_reverse_concat, if_pos rfl]
          rfl
    · rw [lookup_concat_ne cs k key _ hk] at hlf
      obtain ⟨i1, e1, h1, h2, h3, h4, h5, h6⟩ := hsome first hlf
      have hi : i1 ≠ i := by
        intro h0
        subst h0
        rw [he] at h2
        cases h2
        exact hk (he0.symm.trans h3)
      refine ⟨i1, e1, by rw [hexported]; exact h1, by rw [hget i1 hi]; exact h2, h3,
        by rw [hnames]; exact h4, ?_, ?_⟩
      · exact ExportKindOf_mono key st st2 e1 e1 first [] (by rw [hglobals]; simp) rfl h5
      · rw [lookup_reverse_concat, if_neg (fun h => hk h.symm)]
        exact h6

/-- A round that adds an export for `k` keeps the state of the loop in step with
the pairs. -/
theorem ExportPost_append (key : IString) (cs : List (IString × ExportValue))
    (st st2 : ExportState) (k : IString) (v : ExportValue) (x : Export) (gs : List Global)
    (hpost : ExportPost key cs st)
    (hl : st.exported.lookup k = none) (hx : x.name = k)
    (hexports : st2.exports = st.exports ++ [x])
    (hexported : st2.exported = (k, st.exports.length) :: st.exported)
    (hglobals : st2.globals = st.globals ++ gs)
    (hkind : ExportKindOf k st2 x v) (hvalue : ExportValueOf k x (some v)) :
    ExportPost key (cs ++ [(k, v)]) st2 := by
  obtain ⟨hagree, hnone, hsome⟩ := hpost
  have hold : ∀ (j : Nat) (e : Export), st.exports[j]? = some e → st2.exports[j]? = some e := by
    intro j e hj
    rw [hexports, List.getElem?_append_left (List.getElem?_eq_some.mp hj).1]
    exact hj
  have hnames : st2.exports.map Export.name = st.exports.map Export.name ++ [k] := by
    rw [hexports, List.map_append, List.map_singleton, hx]
  refine ⟨?_, ?_, ?_⟩
  · intro k2 i2 hl2
    rw [hexported, List.lookup_cons] at hl2
    by_cases hk2 : k2 = k
    · subst hk2
      simp only [beq_self_eq_true, Option.some.injEq] at hl2
      subst hl2
      exact ⟨x, by rw [hexports]; exact List.getElem?_concat_length _ _, hx⟩
    · have hb : (k2 == k) = false := by simpa using hk2
      simp only [hb] at hl2
      obtain ⟨e, h1, h2⟩ := hagree k2 i2 hl2
      exact ⟨e, hold i2 e h1, h2⟩
  · intro hln
    by_cases hk : k = key
    · subst hk
      rw [lookup_concat_self] at hln
      cases hln
    · rw [lookup_concat_ne cs k key _ hk] at hln
      have hb : (key == k) = false := by simpa using fun h0 => hk h0.symm
      obtain ⟨h1, h2⟩ := hnone hln
      refine ⟨by rw [hexported, List.lookup_cons, hb]; exact h1, ?_⟩
      rw [hnames]
      simp only [List.mem_append, List.mem_singleton, not_or]
      exact ⟨h2, fun h0 => hk h0.symm⟩
  · intro first hlf
    by_cases hk : k = key
    · subst hk
      cases hc : cs.lookup k with
      | some b =>
        obtain ⟨i1, e1, h1, -⟩ := hsome b hc
        rw [hl] at h1
        cases h1
      | none =>
        rw [lookup_concat_self, hc] at hlf
        simp only [Option.getD_none, Option.some.injEq] at hlf
        subst hlf
        obtain ⟨-, h2⟩ := hnone hc
        refine ⟨st.exports.length, x, by rw [hexported, List.lookup_cons]; simp,
          by rw [hexports]; exact List.getElem?_concat_length _ _, hx, ?_, hkind, ?_⟩
        · rw [hnames, List.count_append, List.count_eq_zero.mpr h2]
          simp
        · rw [lookup_reverse_concat, if_pos rfl]
          exact hvalue
    · rw [lookup_concat_ne cs k key _ hk] at hlf
      have hb : (key == k) = false := by simpa using fun h0 => hk h0.symm
      obtain ⟨i1, e1, h1, h2, h3, h4, h5, h6⟩ := hsome first hlf
      refine ⟨i1, e1, by rw [hexported, List.lookup_cons, hb]; exact h1, hold i1 e1 h2, h3,
        ?_, ?_, ?_⟩
      · rw [hnames, List.count_append, h4]
        have hkb : (k == key) = false := by simpa using hk
        simp [List.count_singleton, hkb]
      · exact ExportKindOf_mono key st st2 e1 e1 first gs hglobals rfl h5
      · rw [lookup_reverse_concat, if_neg (fun h => hk h.symm)]
        exact h6

/-- A pair whose key is not `key` does not change what the pairs say about `key`. -/
theorem ExportPost_skip (key : IString) (cs : List (IString × ExportValue)) (st : ExportState)
    (k : IString) (v : ExportValue) (hk : k ≠ key) (hpost : ExportPost key cs st) :
    ExportPost key (cs ++ [(k, v)]) st := by
  obtain ⟨hagree, hnone, hsome⟩ := hpost
  refine ⟨hagree, ?_, ?_⟩
  · intro hln
    rw [lookup_concat_ne cs k key _ hk] at hln
    exact hnone hln
  · intro first hlf
    rw [lookup_concat_ne cs k key _ hk] at hlf
    obtain ⟨i1, e1, h1, h2, h3, h4, h5, h6⟩ := hsome first hlf
    refine ⟨i1, e1, h1, h2, h3, h4, h5, ?_⟩
    rw [lookup_reverse_concat, if_neg (fun h => hk h.symm)]
    exact h6

/-- One completed round keeps the state of the loop in step with the pairs, for
every key other than `_emscripten_replace_memory`. -/
theorem processExport_post (key : IString) (cs : List (IString × ExportValue))
    (st st2 : ExportState) (k : IString) (v : ExportValue)
    (hkey : key ≠ "_emscripten_replace_memory") (hpost : ExportPost key cs st)
    (h : processExport st k v = Outcome.ok st2) :
    ExportPost key (cs ++ [(k, v)]) st2 := by
  cases v with
  | other => simp [processExport] at h
  | string value =>
    by_cases hk : k = "_emscripten_replace_memory"
    · simp only [processExport, if_pos hk] at h
      split at h
      · cases h
      · simp only [Outcome.ok.injEq] at h
        subst h
        exact ExportPost_skip key cs st k _ (fun h0 => hkey (h0.symm.trans hk)) hpost
    · obtain ⟨hg, hcase⟩ := processExport_string st st2 k value hk h
      rcases hcase with ⟨i, e, h1, h2, h3, h4⟩ | ⟨h1, h2, h3⟩
      · exact ExportPost_set key cs st st2 k value i e hpost h1 h2 h3 h4 hg
      · exact ExportPost_append key cs st st2 k _ _ [] hpost h1 rfl h2 h3 (by rw [hg]; simp)
          rfl rfl
  | number n =>
    obtain ⟨v, h1, h2, h3, h4, h5⟩ := processExport_number st st2 k n h
    refine ExportPost_append key cs st st2 k _ _ _ hpost h2 rfl h3 h4 h5 ?_ rfl
    refine ⟨rfl, v, h1, Global.mk k WasmType.i32 (makeConst (Literal.ofInt32 v)) false, ?_,
      rfl, rfl, rfl, rfl⟩
    rw [h5]
    simp

/-- The loop over the pairs, one pair at the end. -/
theorem processExportPairs_concat : ∀ (cs : List (IString × ExportValue)) (st : ExportState)
    (k : IString) (v : ExportValue),
    processExportPairs st (cs ++ [(k, v)]) =
      match processExportPairs st cs with
      | .ok st1 => processExport st1 k v
      | .fatal => .fatal
      | .unmodelled => .unmodelled
  | [], st, k, v => by
    simp only [List.nil_append, processExportPairs]
    cases processExport st k v <;> rfl
  | (k0, v0) :: cs, st, k, v => by
    simp only [List.cons_append, processExportPairs]
    cases processExport st k0 v0 with
    | ok st1 => exact processExportPairs_concat cs st1 k v
    | fatal => rfl
    | unmodelled => rfl

/-- The state of the export loop before the first pair. -/
theorem ExportPost_nil (key : IString) (st : ExportState)
    (hfresh : key ∉ st.exports.map Export.name) :
    ExportPost key [] { st with exported := [] } := by
  refine ⟨?_, ?_, ?_⟩
  · intro k i h
    simp at h
  · intro _
    exact ⟨rfl, hfresh⟩
  · intro first h
    simp at h

/-- A completed export loop leaves the state in step with the pairs, for every
key other than `_emscripten_replace_memory` that no earlier export has. -/
theorem processExports_post (key : IString) (st : ExportState)
    (hkey : key ≠ "_emscripten_replace_memory")
    (hfresh : key ∉ st.exports.map Export.name) :
    ∀ (contents : List (IString × ExportValue)) (st2 : ExportState),
      processExports st contents = Outcome.ok st2 → ExportPost key contents st2 := by
  intro contents
  induction contents using List.reverseRecOn with
  | nil =>
    intro st2 h
    simp only [processExports, processExportPairs, Outcome.ok.injEq] at h
    subst h
    exact ExportPost_nil key st hfresh
  | append_singleton cs p ih =>
    intro st2 h
    obtain ⟨k, v⟩ := p
    simp only [processExports] at h ih
    rw [processExportPairs_concat] at h
    cases h1 : processExportPairs { st with exported := [] } cs with
    | ok st1 =>
      simp only [h1] at h
      exact processExport_post key cs st1 st2 k v hkey (ih st1 h1) h
    | fatal => simp [h1] at h
    | unmodelled => simp [h1] at h

/-- Overwriting the value of the export of `k` keeps `exported` in agreement. -/
theorem ExportsAgree_set (st st2 : ExportState) (k value : IString) (i : Nat) (e0 : Export)
    (hagree : ExportsAgree st)
    (hl : st.exported.lookup k = some i) (he : st.exports[i]? = some e0)
    (hexports : st2.exports = st.exports.set i { e0 with value := value })
    (hexported : st2.exported = st.exported) : ExportsAgree st2 := by
  have hlt : i < st.exports.length := (List.getElem?_eq_some.mp he).1
  intro k2 i2 hl2
  rw [hexported] at hl2
  obtain ⟨e, h1, h2⟩ := hagree k2 i2 hl2
  by_cases hi : i2 = i
  · subst hi
    rw [he] at h1
    cases h1
    exact ⟨{ e0 with value := value },
      by rw [hexports, List.getElem?_set, if_pos rfl, if_pos hlt], h2⟩
  · exact ⟨e, by rw [hexports, List.getElem?_set, if_neg (fun h => hi h.symm)]; exact h1, h2⟩

/-- Adding an export for `k` with its entry keeps `exported` in agreement. -/
theorem ExportsAgree_append (st st2 : ExportState) (k : IString) (x : Export)
    (hagree : ExportsAgree st) (hx : x.name = k)
    (hexports : st2.exports = st.exports ++ [x])
    (hexported : st2.exported = (k, st.exports.length) :: st.exported) : ExportsAgree st2 := by
  intro k2 i2 hl2
  rw [hexported, List.lookup_cons] at hl2
  by_cases hk2 : k2 = k
  · subst hk2
    simp only [beq_self_eq_true, Option.some.injEq] at hl2
    subst hl2
    exact ⟨x, by rw [hexports]; exact List.getElem?_concat_length _ _, hx⟩
  · have hb : (k2 == k) = false := by simpa using hk2
    simp only [hb] at hl2
    obtain ⟨e, h1, h2⟩ := hagree k2 i2 hl2
    refine ⟨e, ?_, h2⟩
    rw [hexports, List.getElem?_append_left (List.getElem?_eq_some.mp h1).1]
    exact h1

/-- A round of the export loop keeps the module's functions, the agreement of
`exported` with the exports, and the entries of `exported`, to which it adds
at most one for its key. -/
theorem processExport_state (st st2 : ExportState) (k : IString) (v : ExportValue)
    (hagree : ExportsAgree st) (h : processExport st k v = Outcome.ok st2) :
    st2.functions = st.functions ∧ ExportsAgree st2 ∧
    (st2.exported = st.exported ∨ ∃ i, st2.exported = (k, i) :: st.exported) := by
  have hfun : st2.functions = st.functions := by
    cases v with
    | other => simp [processExport] at h
    | number n =>
      simp only [processExport] at h
      split at h
      · cases h
      · split at h
        · cases h
        · simp only [Outcome.ok.injEq] at h
          subst h
          rfl
    | string value =>
      simp only [processExport] at h
      split at h
      · split at h
        · cases h
        · simp only [Outcome.ok.injEq] at h
          subst h
          rfl
      · split at h
        · split at h
          · simp only [Outcome.ok.injEq] at h
            subst h
            split_ifs <;> rfl
          · cases h
        · simp only [Outcome.ok.injEq] at h
          subst h
          split_ifs <;> rfl
  refine ⟨hfun, ?_⟩
  cases v with
  | other => simp [processExport] at h
  | string value =>
    by_cases hk : k = "_emscripten_replace_memory"
    · simp only [processExport, if_pos hk] at h
      split at h
      · cases h
      · simp only [Outcome.ok.injEq] at h
        subst h
        exact ⟨hagree, Or.inl rfl⟩
    · obtain ⟨-, hcase⟩ := processExport_string st st2 k value hk h
      rcases hcase with ⟨i, e, h1, h2, h3, h4⟩ | ⟨h1, h2, h3⟩
      · exact ⟨ExportsAgree_set st st2 k value i e hagree h1 h2 h3 h4, Or.inl h4⟩
      · exact ⟨ExportsAgree_append st st2 k _ hagree rfl h2 h3, Or.inr ⟨_, h3⟩⟩
  | number n =>
    obtain ⟨v, -, -, h3, h4, -⟩ := processExport_number st st2 k n h
    exact ⟨ExportsAgree_append st st2 k _ hagree rfl h3 h4, Or.inr ⟨_, h4⟩⟩

/-- A round for an identifier completes, unless the key is
`_emscripten_replace_memory` and the identifier names a function of the module. -/
theorem processExport_completes_string (st : ExportState) (k value : IString)
    (hagree : ExportsAgree st)
    (hrep : k = "_emscripten_replace_memory" → value ∉ st.functions) :
    ∃ st2, processExport st k (.string value) = Outcome.ok st2 := by
  by_cases hk : k = "_emscripten_replace_memory"
  · exact ⟨st, by simp only [processExport, if_pos hk, if_neg (hrep hk)]⟩
  · simp only [processExport, if_neg hk]
    generalize hst1 : (if k = UDIVMODDI4 then { st with udivmoddi4 := some value }
      else if k = GET_TEMP_RET0 then { st with getTempRet0 := some value } else st) = st1
    have hsame : st1.exports = st.exports ∧ st1.exported = st.exported := by
      rw [← hst1]
      split_ifs <;> exact ⟨rfl, rfl⟩
    rw [hsame.1, hsame.2]
    cases hl : st.exported.lookup k with
    | none => exact ⟨_, rfl⟩
    | some i =>
      obtain ⟨e, he, -⟩ := hagree k i hl
      simp only [he]
      exact ⟨_, rfl⟩

/-- A round for a number completes when the key was not bound before and the
number is a 32-bit integer. -/
theorem processExport_completes_number (st : ExportState) (k : IString) (n : Int)
    (hl : st.exported.lookup k = none) (hn : (getInteger n).isSome = true) :
    ∃ st2, processExport st k (.number n) = Outcome.ok st2 := by
  obtain ⟨v, hv⟩ := Option.isSome_iff_exists.mp hn
  simp only [processExport, hl, hv]
  exact ⟨_, rfl⟩

/-- The export loop completes under the condition `exportsComplete`. -/
theorem processExportPairs_completes : ∀ (cs : List (IString × ExportValue))
    (st : ExportState) (bound : List IString), ExportsAgree st →
    (∀ k, k ∉ bound → st.exported.lookup k = none) →
    exportsComplete st.functions bound cs = true →
    ∃ st2, processExportPairs st cs = Outcome.ok st2
  | [], st, _, _, _, _ => ⟨st, rfl⟩
  | (k, .other) :: cs, st, bound, _, _, hv => by simp [exportsComplete] at hv
  | (k, .string value) :: cs, st, bound, hagree, hbound, hv => by
    simp only [exportsComplete, Bool.and_eq_true, Bool.or_eq_true, decide_eq_true_eq] at hv
    obtain ⟨st1, h1⟩ := processExport_completes_string st k value hagree (by
      intro hk
      rcases hv.1 with h | h
      · exact absurd hk h
      · exact h)
    obtain ⟨hf, hagree1, hex⟩ := processExport_state st st1 k _ hagree h1
    have hb1 : ∀ k2, k2 ∉ k :: bound → st1.exported.lookup k2 = none := by
      intro k2 hk2
      simp only [List.mem_cons, not_or] at hk2
      rcases hex with h | ⟨i, h⟩
      · rw [h]; exact hbound k2 hk2.2
      · have hb : (k2 == k) = false := by simpa using hk2.1
        rw [h, List.lookup_cons, hb]
        exact hbound k2 hk2.2
    obtain ⟨st2, h2⟩ := processExportPairs_completes cs st1 (k :: bound) hagree1 hb1
      (by rw [hf]; exact hv.2)
    exact ⟨st2, by simp only [processExportPairs, h1, h2]⟩
  | (k, .number n) :: cs, st, bound, hagree, hbound, hv => by
    simp only [exportsComplete, Bool.and_eq_true, decide_eq_true_eq] at hv
    obtain ⟨st1, h1⟩ := processExport_completes_number st k n (hbound k hv.1.1) hv.1.2
    obtain ⟨hf, hagree1, hex⟩ := processExport_state st st1 k _ hagree h1
    have hb1 : ∀ k2, k2 ∉ k :: bound → st1.exported.lookup k2 = none := by
      intro k2 hk2
      simp only [List.mem_cons, not_or] at hk2
      rcases hex with h | ⟨i, h⟩
      · rw [h]; exact hbound k2 hk2.2
      · have hb : (k2 == k) = false := by simpa using hk2.1
        rw [h, List.lookup_cons, hb]
        exact hbound k2 hk2.2
    obtain ⟨st2, h2⟩ := processExportPairs_completes cs st1 (k :: bound) hagree1 hb1
      (by rw [hf]; exact hv.2)
    exact ⟨st2, by simp only [processExportPairs, h1, h2]⟩

/-- The `RETURN` branch completes under the condition `exportsComplete`. -/
theorem processExports_completes (st : ExportState) (contents : List (IString × ExportValue))
    (hv : exportsComplete st.functions [] contents = true) :
    ∃ st2, processExports st contents = Outcome.ok st2 :=
  processExportPairs_completes contents { st with exported := [] } []
    (fun k i h => by simp at h) (fun _ _ => rfl) hv

/-- A key of a pair has a first binding. -/
theorem lookup_of_mem : ∀ (cs : List (IString × ExportValue)) (p : IString × ExportValue),
    p ∈ cs → ∃ first, cs.lookup p.1 = some first
  | [], _, h => by cases h
  | (k, v) :: cs, p, h => by
    rw [List.lookup_cons]
    by_cases hk : p.1 = k
    · exact ⟨v, by simp [hk]⟩
    · have hb : (p.1 == k) = false := by simpa using hk
      rcases List.mem_cons.mp h with h1 | h1
      · rw [h1] at hk
        exact absurd rfl hk
      · simp only [hb]
        exact lookup_of_mem cs p h1

/-- A first binding is a pair of the list. -/
theorem mem_of_lookup : ∀ (cs : List (IString × ExportValue)) (k : IString) (v : ExportValue),
    cs.lookup k = some v → (k, v) ∈ cs
  | [], _, _, h => by simp at h
  | (k0, v0) :: cs, k, v, h => by
    rw [List.lookup_cons] at h
    by_cases hk : k = k0
    · subst hk
      simp at h
      subst h
      exact List.mem_cons_self _ _
    · have hb : (k == k0) = false := by simpa using hk
      simp only [hb] at h
      exact List.mem_cons_of_mem _ (mem_of_lookup cs k v h)

/-- The loop over the pairs of two lists, one after the other. -/
theorem processExportPairs_append : ∀ (cs ds : List (IString × ExportValue)) (st : ExportState),
    processExportPairs st (cs ++ ds) =
      match processExportPairs st cs with
      | .ok st1 => processExportPairs st1 ds
      | .fatal => .fatal
      | .unmodelled => .unmodelled
  | [], st, ds => by
    simp only [List.nil_append, processExportPairs]
  | (k0, v0) :: cs, ds, st => by
    simp only [List.cons_append, processExportPairs]
    cases processExport st k0 v0 with
    | ok st1 => exact processExportPairs_append cs ds st1
    | fatal => rfl
    | unmodelled => rfl

/-- In a completed export loop every pair is taken by `processExport` in the
state that the pairs before it leave. -/
theorem processExports_at_pair (st st2 : ExportState)
    (cs ds : List (IString × ExportValue)) (p : IString × ExportValue)
    (hrun : processExports st (cs ++ p :: ds) = Outcome.ok st2) :
    ∃ st1 st3, processExports st cs = Outcome.ok st1 ∧
      processExport st1 p.1 p.2 = Outcome.ok st3 := by
  simp only [processExports] at hrun ⊢
  rw [processExportPairs_append] at hrun
  cases h1 : processExportPairs { st with exported := [] } cs with
  | ok st1 =>
    rw [h1] at hrun
    simp only [processExportPairs] at hrun
    cases h2 : processExport st1 p.1 p.2 with
    | ok st3 => exact ⟨st1, st3, rfl, h2⟩
    | fatal => rw [h2] at hrun; cases hrun
    | unmodelled => rw [h2] at hrun; cases hrun
  | fatal => rw [h1] at hrun; cases hrun
  | unmodelled => rw [h1] at hrun; cases hrun

/-- In a completed export loop a pair with a numeric literal is the first
binding of its key, and every value is an identifier or a numeric literal. -/
theorem processExports_number_first (st st2 : ExportState)
    (contents : List (IString × ExportValue))
    (hrun : processExports st contents = Outcome.ok st2)
    (p : IString × ExportValue) (hp : p ∈ contents)
    (hkey : p.1 ≠ "_emscripten_replace_memory")
    (hfresh : p.1 ∉ st.exports.map Export.name) :
    p.2 ≠ ExportValue.other ∧
    ∀ n, p.2 = ExportValue.number n → contents.lookup p.1 = some (.number n) := by
  obtain ⟨cs, ds, hsplit⟩ := List.append_of_mem hp
  subst hsplit
  obtain ⟨st1, st3, h1, h3⟩ := processExports_at_pair st st2 cs ds p hrun
  obtain ⟨k, v⟩ := p
  refine ⟨?_, ?_⟩
  · intro hv
    simp only at hv
    subst hv
    simp [processExport] at h3
  · intro n hn
    simp only at hn
    subst hn
    obtain ⟨-, -, hsome⟩ := processExports_post k st hkey hfresh cs st1 h1
    have hnone : cs.lookup k = none := by
      cases hl : cs.lookup k with
      | none => rfl
      | some first =>
        obtain ⟨i, e, hi, -⟩ := hsome first hl
        simp [processExport, hi] at h3
    rw [List.lookup_append, hnone]
    simp

/-- The export loop adds no export named `_emscripten_replace_memory` unless the
object binds a numeric literal to that key. -/
theorem processExportPairs_replace_memory : ∀ (cs : List (IString × ExportValue))
    (st st2 : ExportState),
    processExportPairs st cs = Outcome.ok st2 →
    (∀ n, ("_emscripten_replace_memory", ExportValue.number n) ∉ cs) →
    "_emscripten_replace_memory" ∉ st.exports.map Export.name →
    "_emscripten_replace_memory" ∉ st2.exports.map Export.name
  | [], st, st2, h, _, hst => by
    simp only [processExportPairs, Outcome.ok.injEq] at h
    subst h
    exact hst
  | (k, v) :: cs, st, st2, h, hnum, hst => by
    simp only [processExportPairs] at h
    cases h1 : processExport st k v with
    | fatal => rw [h1] at h; cases h
    | unmodelled => rw [h1] at h; cases h
    | ok st1 =>
      rw [h1] at h
      refine processExportPairs_replace_memory cs st1 st2 h
        (fun n hn => hnum n (List.mem_cons_of_mem _ hn)) ?_
      cases v with
      | other => simp [processExport] at h1
      | number n =>
        have hk : k ≠ "_emscripten_replace_memory" := by
          intro hk
          subst hk
          exact hnum n (List.mem_cons_self _ _)
        obtain ⟨v, -, -, hexp, -, -⟩ := processExport_number st st1 k n h1
        rw [hexp]
        simp only [List.map_append, List.map_cons, List.map_nil, List.mem_append,
          List.mem_singleton, not_or]
        exact ⟨hst, fun h0 => hk h0.symm⟩
      | string value =>
        by_cases hk : k = "_emscripten_replace_memory"
        · subst hk
          simp only [processExport, if_true] at h1
          split at h1
          · cases h1
          · simp only [Outcome.ok.injEq] at h1
            subst h1
            exact hst
        · obtain ⟨-, hcase⟩ := processExport_string st st1 k value hk h1
          rcases hcase with ⟨i, e, -, he, hexp, -⟩ | ⟨-, hexp, -⟩
          · rw [hexp, map_name_set st.exports i e value he]
            exact hst
          · rw [hexp]
            simp only [List.map_append, List.map_cons, List.map_nil, List.mem_append,
              List.mem_singleton, not_or]
            exact ⟨hst, fun h0 => hk h0.symm⟩

/-- C29 (amended): take an export object in which no key whose first binding is
a numeric literal is also bound to an identifier. For every pair `key: value`
whose key is not `_emscripten_replace_memory` (and is not the name of an earlier
export), every completed export loop leaves an export named `key`: when `value`
is an identifier, a function export whose value is the identifier bound last to
the key; when `value` is a numeric literal, a global export of the global named
`key`, which is an immutable `i32` global initialized to the literal. A pair
that binds an identifier to `_emscripten_replace_memory` gives no export: when
no numeric literal is bound to that key, no export has that name. The loop
completes under the condition `exportsComplete`. -/
theorem processExports_per_pair (st : ExportState) (contents : List (IString × ExportValue))
    (hfresh : ∀ p ∈ contents, p.1 ∉ st.exports.map Export.name)
    (hkind : ∀ key n v, contents.lookup key = some (.number n) →
      (key, ExportValue.string v) ∉ contents) :
    (exportsComplete st.functions [] contents = true →
      ∃ st2, processExports st contents = Outcome.ok st2) ∧
    (∀ st2, processExports st contents = Outcome.ok st2 →
      ∀ p ∈ contents, p.1 ≠ "_emscripten_replace_memory" →
        ∃ e ∈ st2.exports, e.name = p.1 ∧
          (∀ v, p.2 = .string v →
            e.kind = ExternalKind.Function ∧
            ∃ last, contents.reverse.lookup p.1 = some (.string last) ∧ e.value = last) ∧
          (∀ n, p.2 = .number n →
            e.kind = ExternalKind.Global ∧ e.value = p.1 ∧
            ∃ v, getInteger n = some v ∧
              ∃ g ∈ st2.globals, g.name = p.1 ∧ g.type = WasmType.i32 ∧
                g.init = makeConst (Literal.ofInt32 v) ∧ g.mutable_ = false)) ∧
    ∀ st2, processExports st contents = Outcome.ok st2 →
      (∀ n, ("_emscripten_replace_memory", ExportValue.number n) ∉ contents) →
      "_emscripten_replace_memory" ∉ st.exports.map Export.name →
      ∀ e ∈ st2.exports, e.name ≠ "_emscripten_replace_memory" := by
  refine ⟨processExports_completes st contents, ?_, ?_⟩
  swap
  · intro st2 hrun hnum hst e he hname
    refine processExportPairs_replace_memory contents { st with exported := [] } st2 hrun hnum
      hst ?_
    rw [← hname]
    exact List.mem_map_of_mem _ he
  intro st2 hrun p hp hkey
  obtain ⟨first, hfirst⟩ := lookup_of_mem contents p hp
  obtain ⟨-, -, hsome⟩ := processExports_post p.1 st hkey (hfresh p hp) contents st2 hrun
  obtain ⟨i, e, -, h2, h3, -, h5, h6⟩ := hsome first hfirst
  -- the last binding of the key is a pair of the object with that key
  obtain ⟨lastv, hlast⟩ : ∃ lastv, contents.reverse.lookup p.1 = some lastv :=
    lookup_of_mem contents.reverse p (List.mem_reverse.mpr hp)
  have hlastmem : (p.1, lastv) ∈ contents := by
    exact List.mem_reverse.mp (mem_of_lookup contents.reverse p.1 lastv hlast)
  have hlastok := processExports_number_first st st2 contents hrun (p.1, lastv) hlastmem
    hkey (hfresh p hp)
  refine ⟨e, List.mem_iff_getElem?.mpr ⟨i, h2⟩, h3, ?_, ?_⟩
  · intro v hv
    have hpmem : (p.1, ExportValue.string v) ∈ contents := by
      rw [← hv]
      exact hp
    refine ⟨?_, ?_⟩
    · cases first with
      | string w => exact h5
      | number n => exact absurd hpmem (hkind p.1 n v hfirst)
      | other => exact absurd h5 (by simp [ExportKindOf])
    · cases lastv with
      | string w =>
        rw [hlast] at h6
        exact ⟨w, hlast, h6⟩
      | number m => exact absurd hpmem (hkind p.1 m v (hlastok.2 m rfl))
      | other => exact absurd rfl hlastok.1
  · intro n hn
    have hpn := (processExports_number_first st st2 contents hrun p hp hkey (hfresh p hp)).2 n hn
    rw [hfirst] at hpn
    cases hpn
    refine ⟨h5.1, ?_, h5.2⟩
    cases lastv with
    | string w => exact absurd hlastmem (hkind p.1 n w hfirst)
    | number m =>
      rw [hlast] at h6
      exact h6
    | other => exact absurd rfl hlastok.1

/-- Witness for C29: `return { _main: _main, STACK_MAX: 5 }`. -/
theorem processExports_per_pair_witness :
    ∃ st2, processExports exampleExportState
        [("_main", .string "_main"), ("STACK_MAX", .number 5)] = Outcome.ok st2 ∧
      st2.exports = [{ name := "_main", value := "_main", kind := ExternalKind.Function },
                     { name := "STACK_MAX", value := "STACK_MAX",
                       kind := ExternalKind.Global }] ∧
      (∃ e ∈ st2.exports, e.name = "_main" ∧ e.kind = ExternalKind.Function ∧
        e.value = "_main") ∧
      ∃ e ∈ st2.exports, e.name = "STACK_MAX" ∧ e.kind = ExternalKind.Global ∧
        e.value = "STACK_MAX" ∧
        ∃ g ∈ st2.globals, g.name = "STACK_MAX" ∧ g.type = WasmType.i32 ∧
          g.init = makeConst (Literal.ofInt32 5) ∧ g.mutable_ = false := by
  have hkind : ∀ (key : IString) (n : Int) (v : IString),
      List.lookup key [("_main", ExportValue.string "_main"), ("STACK_MAX", .number 5)]
        = some (.number n) →
      (key, ExportValue.string v) ∉
        [("_main", ExportValue.string "_main"), ("STACK_MAX", .number 5)] := by
    intro key n v h hmem
    simp only [List.mem_cons, Prod.mk.injEq, List.mem_singleton, and_false, or_false,
      List.not_mem_nil, reduceCtorEq] at hmem
    obtain ⟨hk, -⟩ := hmem
    subst hk
    simp [List.lookup] at h
  have hall := (processExports_per_pair exampleExportState
    [("_main", .string "_main"), ("STACK_MAX", .number 5)] (by decide) hkind).2.1 _ rfl
  obtain ⟨e1, he1, h11, h12, -⟩ := hall ("_main", .string "_main") (by decide) (by decide)
  obtain ⟨h13, last, hlast, h14⟩ := h12 "_main" rfl
  have hl : last = "_main" := by
    have h0 : List.lookup "_main"
        [("_main", ExportValue.string "_main"), ("STACK_MAX", .number 5)].reverse
          = some (.string "_main") := by decide
    rw [h0] at hlast
    cases hlast
    rfl
  subst hl
  obtain ⟨e, he, h1, -, h3⟩ := hall ("STACK_MAX", .number 5) (by decide) (by decide)
  obtain ⟨h4, h4v, v, hv, g, hg, h5, h6, h7, h8⟩ := h3 5 rfl
  have hv5 : v = 5 := by
    have : getInteger 5 = some 5 := by decide
    rw [this] at hv
    cases hv
    rfl
  subst hv5
  exact ⟨_, rfl, rfl, ⟨e1, he1, h11, h13, h14⟩, e, he, h1, h4, h4v, g, hg, h5, h6, h7, h8⟩

/-- Counterexample to C29 as stated: the pair
`_emscripten_replace_memory: _grow` of the export object gets no export. -/
theorem processExports_pair_counterexample :
    ∃ st2, processExports exampleExportState
        [("_main", .string "_main"), ("_emscripten_replace_memory", .string "_grow")]
          = Outcome.ok st2 ∧
      st2.exports = [{ name := "_main", value := "_main", kind := ExternalKind.Function }] ∧
      ∀ e ∈ st2.exports, e.name ≠ "_emscripten_replace_memory" :=
  ⟨_, rfl, rfl, by decide⟩

/-- Line 1153 only overwrites the value of the export that the key has: for
`a: 1, a: _main` the export of `a` keeps the kind of a global export and gets the
identifier as its value, where the comment of line 1152 says that the last
binding is used. -/
theorem processExports_value_overwritten :
    ∃ st2, processExports exampleExportState [("a", .number 1), ("a", .string "_main")]
          = Outcome.ok st2 ∧
      st2.exports = [{ name := "a", value := "_main", kind := ExternalKind.Global }] :=
  ⟨_, rfl, rfl⟩

/-! ## Coercions and heap stores in `process` (lines 605-609, 1626-1668, 746-835) -/

/-- The function `fixCallType` leaves a node alone that has the type already. -/
theorem fixCallType_of_type (e : Expression) (t : WasmType) (h : e.type = t) :
    fixCallType e t = e := by
  cases e <;> simp_all [fixCallType, Expression.type]

/-- C33: a heap store `V[p] = v` whose pointer and value are translated: the
value is stored as it is when its type is the element type of the view, demoted
for an `f32` view and an `f64` value, promoted for an `f64` view and an `f32`
value; every other mismatch is fatal. -/
theorem process_store_value (env : TranslateEnv) (parent : Option Ref)
    (types types2 types3 : ImportedFunctionTypes) (heap : IString) (index value : Ref)
    (view : View) (ptr valueWasm : Expression)
    (hview : env.views heap = some view)
    (hptr : processUnshifted env (some (.assign (.sub (.name heap) index) value)) types
      view.bytes index = Outcome.ok (ptr, types2))
    (hvalue : process env (some (.assign (.sub (.name heap) index) value)) types2 value
      = Outcome.ok (valueWasm, types3)) :
    (valueWasm.type = asmToWasmType view.type →
      process env parent types (.assign (.sub (.name heap) index) value)
        = Outcome.ok (Expression.store view.bytes 0 view.bytes ptr valueWasm
            (asmToWasmType view.type) (finalizeStore ptr valueWasm), types3)) ∧
    (asmToWasmType view.type = WasmType.f32 → valueWasm.type = WasmType.f64 →
      process env parent types (.assign (.sub (.name heap) index) value)
        = Outcome.ok (Expression.store view.bytes 0 view.bytes ptr
            (Expression.unary UnaryOp.DemoteFloat64 valueWasm WasmType.f32)
            WasmType.f32 (finalizeStore ptr valueWasm), types3)) ∧
    (asmToWasmType view.type = WasmType.f64 → valueWasm.type = WasmType.f32 →
      process env parent types (.assign (.sub (.name heap) index) value)
        = Outcome.ok (Expression.store view.bytes 0 view.bytes ptr
            (Expression.unary UnaryOp.PromoteFloat32 valueWasm WasmType.f64)
            WasmType.f64 (finalizeStore ptr valueWasm), types3)) ∧
    (valueWasm.type ≠ asmToWasmType view.type →
      ¬ (asmToWasmType view.type = WasmType.f32 ∧ valueWasm.type = WasmType.f64) →
      ¬ (asmToWasmType view.type = WasmType.f64 ∧ valueWasm.type = WasmType.f32) →
      process env parent types (.assign (.sub (.name heap) index) value) = Outcome.fatal) := by
  have hrun : process env parent types (.assign (.sub (.name heap) index) value)
      = (if asmToWasmType view.type ≠ valueWasm.type then
          if asmToWasmType view.type = WasmType.f32 ∧ valueWasm.type = WasmType.f64 then
            Outcome.ok (Expression.store view.bytes 0 view.bytes ptr
              (Expression.unary UnaryOp.DemoteFloat64 valueWasm WasmType.f32)
              (asmToWasmType view.type) (finalizeStore ptr valueWasm), types3)
          else if asmToWasmType view.type = WasmType.f64 ∧ valueWasm.type = WasmType.f32 then
            Outcome.ok (Expression.store view.bytes 0 view.bytes ptr
              (Expression.unary UnaryOp.PromoteFloat32 valueWasm WasmType.f64)
              (asmToWasmType view.type) (finalizeStore ptr valueWasm), types3)
          else Outcome.fatal
        else Outcome.ok (Expression.store view.bytes 0 view.bytes ptr valueWasm
            (asmToWasmType view.type) (finalizeStore ptr valueWasm), types3)) := by
    rw [process, hview]
    simp only [Outcome.bind_def, Outcome.pure_def, hptr, hvalue, Outcome.bind]
  refine ⟨?_, ?_, ?_, ?_⟩
  · intro h
    rw [hrun, if_neg (by rw [h]; simp)]
  · intro h1 h2
    rw [hrun, if_pos (by rw [h1, h2]; decide), if_pos ⟨h1, h2⟩, h1]
  · intro h1 h2
    rw [hrun, if_pos (by rw [h1, h2]; decide), if_neg (by rw [h1]; simp), if_pos ⟨h1, h2⟩, h1]
  · intro h1 h2 h3
    rw [hrun, if_pos (fun h => h1 h.symm), if_neg h2, if_neg h3]

/-- Witness for C33: `HEAPF32[p >> 2] = d` for an `f64` local `d` stores the
demoted value. -/
theorem process_store_value_witness :
    process exampleHeapEnv none (fun _ => none)
        (.assign (.sub (.name "HEAPF32") (.binary RSHIFT (.name "p") (.num 2))) (.name "d"))
      = Outcome.ok (Expression.store 4 0 4 (Expression.getLocal 0 WasmType.i32)
          (Expression.unary UnaryOp.DemoteFloat64 (Expression.getLocal 2 WasmType.f64)
            WasmType.f32) WasmType.f32 WasmType.none, fun _ => none) :=
  (process_store_value exampleHeapEnv none (fun _ => none) (fun _ => none) (fun _ => none)
    "HEAPF32" (.binary RSHIFT (.name "p") (.num 2)) (.name "d")
    ⟨4, false, true, AsmType.ASM_FLOAT⟩ (Expression.getLocal 0 WasmType.i32)
    (Expression.getLocal 2 WasmType.f64) rfl rfl rfl).2.1 rfl rfl

/-- C39: in trap mode `Allow`, `makeTrappingFloatToInt` is the truncation chosen
by the signedness and by whether the operand is `f64`, and `~~x` is translated
to the one chosen by whether its parent is an unsigned coercion. In the modes
`Clamp` and `JS` the result and the state after it are the same for
`signed_ = true` and `signed_ = false`: a call of the helper resp. of the import
`f64-to-int` on the operand, promoted when it is `f32`. So there `~~x` in any
position, and the unsigned conversion `(~~x) >>> 0`, are translated to what the
signed conversion gives, with the same state of the module. -/
theorem makeTrappingFloatToInt_signedness (trapMode : TrapMode) (value : Expression)
    (st : ShimState) :
    (trapMode = TrapMode.Allow →
      makeTrappingFloatToInt trapMode true value st
        = (Expression.unary (if value.type = WasmType.f64 then UnaryOp.TruncSFloat64ToInt32
            else UnaryOp.TruncSFloat32ToInt32) value WasmType.i32, st) ∧
      makeTrappingFloatToInt trapMode false value st
        = (Expression.unary (if value.type = WasmType.f64 then UnaryOp.TruncUFloat64ToInt32
            else UnaryOp.TruncUFloat32ToInt32) value WasmType.i32, st) ∧
      ∀ (env : TranslateEnv) (parent : Option Ref) (types types2 : ImportedFunctionTypes)
        (st0 : ShimState) (x : Ref), env.trapMode = trapMode →
        processWithShims env (some (doubleNot x)) types st0 x = Outcome.ok (value, types2, st) →
        processWithShims env parent types st0 (doubleNot x)
          = Outcome.ok
              (Expression.unary
                (if isParentUnsignedCoercion env parent = true then
                  (if value.type = WasmType.f64 then UnaryOp.TruncUFloat64ToInt32
                    else UnaryOp.TruncUFloat32ToInt32)
                else
                  (if value.type = WasmType.f64 then UnaryOp.TruncSFloat64ToInt32
                    else UnaryOp.TruncSFloat32ToInt32))
                value WasmType.i32, types2, st)) ∧
    (trapMode ≠ TrapMode.Allow →
      makeTrappingFloatToInt trapMode true value st
        = makeTrappingFloatToInt trapMode false value st ∧
      (∀ signed_, (makeTrappingFloatToInt trapMode signed_ value st).1
        = (if trapMode = TrapMode.JS then Expression.callImport else Expression.call)
            F64_TO_INT
            [if value.type = WasmType.f32 then
              Expression.unary UnaryOp.PromoteFloat32 value WasmType.f64 else value]
            WasmType.i32) ∧
      (∀ (env : TranslateEnv) (parent : Option Ref), env.trapMode = trapMode →
        processDoubleNot env parent value st = makeTrappingFloatToInt trapMode true value st) ∧
      ∀ (env : TranslateEnv) (parent : Option Ref) (types types2 : ImportedFunctionTypes)
        (st0 : ShimState) (x : Ref), env.trapMode = trapMode →
        processWithShims env (some (doubleNot x)) types st0 x = Outcome.ok (value, types2, st) →
        processWithShims env parent types st0 (doubleNot x)
          = Outcome.ok ((makeTrappingFloatToInt trapMode true value st).1, types2,
              (makeTrappingFloatToInt trapMode true value st).2) ∧
        processWithShims env parent types st0 (.binary TRSHIFT (doubleNot x) (.num 0))
          = Outcome.ok ((makeTrappingFloatToInt trapMode true value st).1, types2,
              (makeTrappingFloatToInt trapMode true value st).2)) := by
  have hnot : ∀ (env : TranslateEnv) (parent : Option Ref) (types types2 : ImportedFunctionTypes)
      (st0 : ShimState) (x : Ref),
      processWithShims env (some (doubleNot x)) types st0 x = Outcome.ok (value, types2, st) →
      processWithShims env parent types st0 (doubleNot x)
        = Outcome.ok ((processDoubleNot env parent value st).1, types2,
            (processDoubleNot env parent value st).2) := by
    intro env parent types types2 st0 x hx
    simp only [doubleNot] at hx ⊢
    rw [processWithShims, if_pos ⟨rfl, rfl⟩]
    simp only [Outcome.bind_def, hx, Outcome.bind, Outcome.pure_def]
  refine ⟨?_, ?_⟩
  · intro h
    subst h
    refine ⟨?_, ?_, ?_⟩
    · by_cases hf : value.type = WasmType.f64 <;> simp [makeTrappingFloatToInt, hf]
    · by_cases hf : value.type = WasmType.f64 <;> simp [makeTrappingFloatToInt, hf]
    · intro env parent types types2 st0 x he hx
      rw [hnot env parent types types2 st0 x hx]
      simp only [processDoubleNot, he, makeTrappingFloatToInt_allow, truncFloatToInt]
      cases isParentUnsignedCoercion env parent <;> simp
  · intro h
    have hsame : ∀ a b, makeTrappingFloatToInt trapMode a value st
        = makeTrappingFloatToInt trapMode b value st := by
      intro a b
      simp only [makeTrappingFloatToInt, if_neg h]
    have hform : ∀ signed_, (makeTrappingFloatToInt trapMode signed_ value st).1
        = (if trapMode = TrapMode.JS then Expression.callImport else Expression.call)
            F64_TO_INT
            [if value.type = WasmType.f32 then
              Expression.unary UnaryOp.PromoteFloat32 value WasmType.f64 else value]
            WasmType.i32 := by
      intro signed_
      simp only [makeTrappingFloatToInt, if_neg h]
      by_cases hj : trapMode = TrapMode.JS
      · simp only [if_pos hj]
        split <;> rfl
      · simp only [if_neg hj]
        split <;> rfl
    have hdouble : ∀ (env : TranslateEnv) (parent : Option Ref), env.trapMode = trapMode →
        processDoubleNot env parent value st
          = makeTrappingFloatToInt trapMode true value st := by
      intro env parent he
      simp only [processDoubleNot, he]
      exact hsame _ _
    refine ⟨hsame _ _, hform, hdouble, ?_⟩
    intro env parent types types2 st0 x he hx
    have h1 := hnot env parent types types2 st0 x hx
    rw [hdouble env parent he] at h1
    refine ⟨h1, ?_⟩
    have h2 := hnot env (some (.binary TRSHIFT (doubleNot x) (.num 0))) types types2 st0 x hx
    rw [hdouble env _ he] at h2
    have htype : (makeTrappingFloatToInt trapMode true value st).1.type = WasmType.i32 := by
      rw [hform true]
      by_cases hj : trapMode = TrapMode.JS <;> simp [hj, Expression.type]
    rw [processWithShims, if_pos ⟨Or.inr rfl, by simp [Ref.isZero]⟩]
    simp only [Outcome.bind_def, h2, Outcome.bind, Outcome.pure_def,
      fixCallType_of_type _ _ htype]

/-- Witness for C39: in trap mode `Clamp`, with `e >>> 0` detected as unsigned,
`(~~d) >>> 0` and `~~d` are both translated to the call of the helper
`f64-to-int` on `d`, and both add the helper to the module. -/
theorem makeTrappingFloatToInt_signedness_witness :
    processWithShims { exampleClampEnv with isUnsignedCoercion := exampleDetectUnsigned }
        none (fun _ => none) ShimState.initial (doubleNot (.name "d"))
      = Outcome.ok
          (Expression.call F64_TO_INT [Expression.getLocal 1 WasmType.f64] WasmType.i32,
           fun _ => none,
           (makeTrappingFloatToInt TrapMode.Clamp true (Expression.getLocal 1 WasmType.f64)
              ShimState.initial).2) ∧
    processWithShims { exampleClampEnv with isUnsignedCoercion := exampleDetectUnsigned }
        none (fun _ => none) ShimState.initial
        (.binary TRSHIFT (doubleNot (.name "d")) (.num 0))
      = Outcome.ok
          (Expression.call F64_TO_INT [Expression.getLocal 1 WasmType.f64] WasmType.i32,
           fun _ => none,
           (makeTrappingFloatToInt TrapMode.Clamp true (Expression.getLocal 1 WasmType.f64)
              ShimState.initial).2) :=
  ((makeTrappingFloatToInt_signedness TrapMode.Clamp (Expression.getLocal 1 WasmType.f64)
    ShimState.initial).2 (by decide)).2.2.2
    { exampleClampEnv with isUnsignedCoercion := exampleDetectUnsigned }
    none (fun _ => none) (fun _ => none) ShimState.initial (.name "d") rfl rfl

/-! ## The if-chain and the nesting of the cases (lines 2383-2519) -/

/-- Once the chain has a head, it keeps one. -/
theorem switchChain_fold_some (condition : Expression) (var : Nat) (default_ : IString) :
    ∀ (cases : List SwitchCase) (chain : Expression),
      ∃ chain2, cases.foldl (switchChainStep condition var default_) (some chain) = some chain2
  | [], chain => ⟨chain, rfl⟩
  | c :: cases, chain => by
    simp only [List.foldl_cons]
    cases hc : c.condition with
    | none =>
      simp only [switchChainStep, hc]
      exact switchChain_fold_some condition var default_ cases chain
    | some lit =>
      simp only [switchChainStep, hc]
      exact switchChain_fold_some condition var default_ cases _

/-- A case with a value gives the chain a head. -/
theorem switchChain_fold_of_value (condition : Expression) (var : Nat) (default_ : IString) :
    ∀ (cases : List SwitchCase) (chain : Option Expression),
      (∃ c ∈ cases, c.condition ≠ none) →
      ∃ chain2, cases.foldl (switchChainStep condition var default_) chain = some chain2
  | [], _, h => by
    obtain ⟨c, hc, -⟩ := h
    cases hc
  | c :: cases, chain, h => by
    simp only [List.foldl_cons]
    cases hc : c.condition with
    | some lit =>
      simp only [switchChainStep, hc]
      exact switchChain_fold_some condition var default_ cases _
    | none =>
      have hstep : switchChainStep condition var default_ chain c = chain := by
        simp only [switchChainStep, hc]
      rw [hstep]
      apply switchChain_fold_of_value condition var default_ cases chain
      obtain ⟨c2, hc2, hne⟩ := h
      rcases List.mem_cons.mp hc2 with h1 | h1
      · rw [h1] at hne
        exact absurd hc hne
      · exact ⟨c2, h1, hne⟩

/-- C37: whenever the if-chain is chosen (`canSwitch` is false for the bounds
of the case values), the lowest and the highest case value differ and both are
values of cases, so the switch has a case that is not the default; the chain
has a head, and the if-chain strategy returns a tree: the write through `first`
does not go through a null pointer. -/
theorem processSwitch_chain_head (blockType : IString → List Expression → WasmType)
    (name : IString) (condition : Expression) (var : Nat) (cases : List SwitchCase)
    (min max : Int) (hb : switchBounds cases = some (min, max))
    (hc : canSwitch min max = false) :
    min ≠ max ∧ min ∈ caseValues cases ∧ max ∈ caseValues cases ∧
    (∃ c ∈ cases, c.condition ≠ none) ∧
    (∃ chain, cases.foldl (switchChainStep condition var (chainDefault name cases)) none
      = some chain) ∧
    ∃ r, processSwitch blockType name condition var cases = some r ∧
      processSwitchChain blockType name condition var cases = some r := by
  obtain ⟨h0, h1, -, -⟩ := switchBounds_spec cases min max hb
  have hne : min ≠ max := by
    intro h
    subst h
    have : canSwitch min min = true := by
      simp only [canSwitch, switchRange, sub_self]
      decide
    rw [this] at hc
    cases hc
  have hvals : caseValues cases ≠ [] := by
    intro h
    obtain ⟨ha, hb2⟩ := h0 h
    exact hne (ha.trans hb2.symm)
  obtain ⟨hmin, hmax⟩ := h1 hvals
  have hcase : ∃ c ∈ cases, c.condition ≠ none := by
    simp only [caseValues, List.mem_filterMap] at hmin
    obtain ⟨c, hc1, hc2⟩ := hmin
    refine ⟨c, hc1, ?_⟩
    intro h
    rw [h] at hc2
    cases hc2
  obtain ⟨chain, hchain⟩ := switchChain_fold_of_value condition var (chainDefault name cases)
    cases none hcase
  refine ⟨hne, hmin, hmax, hcase, ⟨chain, hchain⟩, ?_⟩
  have hp : processSwitch blockType name condition var cases
      = processSwitchChain blockType name condition var cases := by
    simp only [processSwitch, hb, hc, Bool.false_eq_true, if_false]
  rw [hp]
  simp only [processSwitchChain, hchain]
  exact ⟨_, rfl, rfl⟩

/-- Witness for C37: the case values 0 and 20000. -/
theorem processSwitch_chain_head_witness :
    ∃ r, processSwitch (fun _ _ => WasmType.none) "switch" (Expression.getLocal 0 WasmType.i32) 1
        exampleSparseCases = some r ∧
      processSwitchChain (fun _ _ => WasmType.none) "switch" (Expression.getLocal 0 WasmType.i32)
        1 exampleSparseCases = some r :=
  (processSwitch_chain_head (fun _ _ => WasmType.none) "switch"
    (Expression.getLocal 0 WasmType.i32) 1 exampleSparseCases 0 20000 (by decide)
    (by decide)).2.2.2.2.2

/-- The loop that nests the cases builds the blocks of the specification. -/
theorem nestCases_fold (dispatch : List Expression × WasmType) (cases : List SwitchCase) :
    ∀ k, k ≤ cases.length →
      (cases.take k).foldl
        (fun top c =>
          let inner := Expression.block c.label top.1 top.2
          ([inner, c.body], finalizeBlock [inner, c.body]))
        dispatch = nestedBlock dispatch cases k
  | 0, _ => by simp [nestedBlock]
  | k + 1, hk => by
    have hlt : k < cases.length := hk
    have ih := nestCases_fold dispatch cases k (Nat.le_of_lt hlt)
    have hget : cases[k]? = some cases[k] := List.getElem?_eq_getElem hlt
    rw [List.take_succ, hget, List.foldl_append, ih]
    simp only [Option.toList, List.foldl_cons, List.foldl_nil, nestedBlock, hget]

/-- The tree that `nestCases` returns is the outermost block of the
specification, named with the name of the switch. -/
theorem nestCases_eq (name : IString) (dispatch : List Expression × WasmType)
    (cases : List SwitchCase) :
    nestCases name dispatch cases
      = Expression.block name (nestedBlock dispatch cases cases.length).1
          (nestedBlock dispatch cases cases.length).2 := by
  have h := nestCases_fold dispatch cases cases.length (le_refl _)
  rw [List.take_length] at h
  simp only [nestCases]
  rw [h]

/-- C34: in both strategies the tree is the block `Bn`, named with the name of
the switch, where `B0` holds the dispatch (the `br_table`, or the `set_local` of
the selector followed by the if-chain), and `Bi` is the block of `B(i-1)`, named
with the label of the case `ci`, followed by the body of `ci`: the body of `ci`
stands right behind the block named with its label, and `Bi` with the body of
`ci` at its end is the first element of `B(i+1)`. -/
theorem processSwitch_nesting (blockType : IString → List Expression → WasmType)
    (name : IString) (condition : Expression) (var : Nat) (min : Int)
    (cases : List SwitchCase) :
    (∀ r, processSwitchTable name condition min cases = some r →
      ∃ targets default_ selector,
        r = Expression.block name
          (nestedBlock ([Expression.switch targets default_ selector none WasmType.unreachable],
            WasmType.unreachable) cases cases.length).1
          (nestedBlock ([Expression.switch targets default_ selector none WasmType.unreachable],
            WasmType.unreachable) cases cases.length).2) ∧
    (∀ r, processSwitchChain blockType name condition var cases = some r →
      ∃ chain type,
        r = Expression.block name
          (nestedBlock ([makeSetLocal var condition, chain], type) cases cases.length).1
          (nestedBlock ([makeSetLocal var condition, chain], type) cases cases.length).2) ∧
    ∀ (dispatch : List Expression × WasmType) (i : Nat) (c : SwitchCase), cases[i]? = some c →
      (nestedBlock dispatch cases (i + 1)).1
        = [Expression.block c.label (nestedBlock dispatch cases i).1
            (nestedBlock dispatch cases i).2, c.body] := by
  refine ⟨?_, ?_, ?_⟩
  · intro r h
    simp only [processSwitchTable] at h
    split at h
    · cases h
    · rename_i selector _
      split at h
      · cases h
      · rename_i st _
        simp only [Option.some.injEq] at h
        rw [nestCases_eq] at h
        exact ⟨_, _, _, h.symm⟩
  · intro r h
    simp only [processSwitchChain] at h
    split at h
    · cases h
    · rename_i chain _
      simp only [Option.some.injEq] at h
      rw [nestCases_eq] at h
      exact ⟨_, _, h.symm⟩
  · intro dispatch i c hc
    simp only [nestedBlock, hc]

/-- C34 at concrete inputs: the switch of the specification's example in the
`br_table` strategy, and a switch with the case values 0 and 20000 in the
if-chain strategy. -/
theorem processSwitch_nesting_example :
    processSwitchTable "switch" (Expression.getLocal 0 WasmType.i32) 0 exampleSwitchCases
      = some (Expression.block "switch"
          [Expression.block "Ldefault"
            [Expression.block "L1"
              [Expression.block "L0"
                [Expression.switch ["L0", "L1"] "Ldefault"
                  (Expression.binary BinaryOp.SubInt32 (Expression.getLocal 0 WasmType.i32)
                    (makeConst (Literal.ofInt32 0)) WasmType.i32) none WasmType.unreachable]
                WasmType.unreachable,
               Expression.block "" [Expression.call "a" [] WasmType.none, makeBreak "switch"]
                 WasmType.unreachable] WasmType.unreachable,
             Expression.block "" [Expression.call "b" [] WasmType.none, makeBreak "switch"]
               WasmType.unreachable] WasmType.unreachable,
           Expression.call "c" [] WasmType.none] WasmType.none) ∧
    ∃ chain,
      processSwitchChain (fun _ _ => WasmType.none) "switch" (Expression.getLocal 0 WasmType.i32)
          1 exampleSparseCases
        = some (Expression.block "switch"
            [Expression.block "L1"
              [Expression.block "L0"
                [makeSetLocal 1 (Expression.getLocal 0 WasmType.i32), chain] WasmType.none,
               Expression.call "a" [] WasmType.none] WasmType.none,
             Expression.call "b" [] WasmType.none] WasmType.none) :=
  ⟨rfl, _, rfl⟩

/-- Witness for C34: the first case of the specification's example. -/
theorem processSwitch_nesting_witness :
    (nestedBlock ([Expression.nop], WasmType.none) exampleSwitchCases 1).1
      = [Expression.block "L0" [Expression.nop] WasmType.none,
         Expression.block "" [Expression.call "a" [] WasmType.none, makeBreak "switch"]
           WasmType.unreachable] :=
  (processSwitch_nesting (fun _ _ => WasmType.none) "switch" (Expression.getLocal 0 WasmType.i32)
    1 0 exampleSwitchCases).2.2 ([Expression.nop], WasmType.none) 0 _ rfl

/-! ## The preprocessor: how long the rewritten text is (lines 239-252) -/

/-- The rewritten text of well-formed pieces, when the call text of every debug
comment is no longer than the comment, is longer than the source by the
declaration of the intrinsic at most. -/
theorem targetText_length_le (table : List (List Char)) : ∀ (pieces : List Piece) (seen : Bool),
    wellFormed seen pieces = true → longPaths table pieces = true →
    (targetText table pieces).length
      ≤ (sourceText pieces).length + (if seen then 0 else DEBUGINFO_IMPORT.length)
  | [], seen, _, _ => by simp [targetText, sourceText]
  | .text cs :: ps, seen, hwf, hp => by
    simp only [wellFormed, Bool.and_eq_true] at hwf
    have ih := targetText_length_le table ps seen hwf.2 (by simpa only [longPaths] using hp)
    simp only [targetText, sourceText, Piece.target, Piece.source, List.length_append]
    omega
  | .useAsm q c :: ps, seen, hwf, hp => by
    simp only [wellFormed, Bool.and_eq_true, Bool.not_eq_true'] at hwf
    obtain ⟨⟨hseen, -⟩, hwf2⟩ := hwf
    have ih := targetText_length_le table ps true hwf2 (by simpa only [longPaths] using hp)
    subst hseen
    simp only [targetText, sourceText, Piece.target, Piece.source, List.length_append,
      if_true, Bool.false_eq_true, if_false] at ih ⊢
    omega
  | .line number file :: ps, seen, hwf, hp => by
    simp only [wellFormed, Bool.and_eq_true] at hwf
    simp only [longPaths, Bool.and_eq_true, decide_eq_true_eq] at hp
    have ih := targetText_length_le table ps seen hwf.2 hp.2
    have h1 := hp.1
    have hI : DEBUGINFO_INTRINSIC.length = 20 := by decide
    have h8 : "//@line ".toList.length = 8 := by decide
    simp only [targetText, sourceText, Piece.target, Piece.source, List.length_append,
      List.length_cons, List.length_nil, hI, h8]
    omega

/-- With `debugInfo` on and empty tables, `process` completes on well-formed
pieces whose rewritten text is at most 1.25 times as long as the source, and
returns the rewritten text. -/
theorem process_debug_of_room (pp : Asm2WasmPreProcessor) (pieces : List Piece)
    (hd : pp.debugInfo = true) (hnames : pp.debugInfoFileNames = [])
    (hindices : pp.debugInfoFileIndices = [])
    (hwf : wellFormed false pieces = true) (hn : NUL ∉ sourceText pieces)
    (hM : (sourceText pieces).head? ≠ some 'M')
    (hg : ¬ GROWTH_SIGN <:+: prologue (sourceText pieces))
    (hroom : (targetText (fileTable [] (piecePaths pieces)) pieces).length
      ≤ (sourceText pieces).length * 5 / 4)
    (hsize : (sourceText pieces).length * 5 / 4 + 100 < 4294967296) :
    ∃ r, pp.process (sourceText pieces) 0 = Run.ok r ∧
      resultText r = targetText (fileTable [] (piecePaths pieces)) pieces := by
  have hs : stripWrapper (sourceText pieces) 0 = Run.ok (sourceText pieces, 0) := by
    unfold stripWrapper
    rw [if_neg (peek_zero_ne _ hM)]
  have hcs := cstring_zero_of_not_mem _ hn
  have hdg : detectGrowth (sourceText pieces) 0 = Run.ok (sourceText pieces, false) :=
    detectGrowth_of_none _ 0 (by rw [hcs]; exact hg)
  have hA : ADD_FACTOR = 100 := rfl
  have hub : upperBound (sourceText pieces).length = (sourceText pieces).length * 5 / 4 + 100 := by
    simp only [upperBound, hA]
    rw [Nat.mod_eq_of_lt (show (sourceText pieces).length * 5 / 4 < 4294967296 by omega),
      Nat.mod_eq_of_lt hsize]
  obtain ⟨st2, h1, h2, -⟩ := debugLoop_pieces (upperBound (sourceText pieces).length) pieces
    { out := [], seenUseAsm := false, debugInfoFileNames := [], debugInfoFileIndices := [] }
    hwf (by intro f; simp) (by
      rw [hub, hA]
      simp only [List.length_nil, zero_add]
      omega)
  simp only [List.nil_append] at h2
  refine ⟨({ pp with debugInfoFileNames := st2.debugInfoFileNames,
                     debugInfoFileIndices := st2.debugInfoFileIndices }, st2.out, 0), ?_, ?_⟩
  · simp only [Asm2WasmPreProcessor.process, hs, hdg, hd, if_true, hcs, hnames, hindices, h1,
      Bool.false_eq_true, if_false]
  · simp only [resultText, h2]
    exact cstring_zero_of_not_mem _ (targetText_ne_nul _ pieces hn)

/-- C36, amended: with `debugInfo` on and empty tables, for a text of at least
216 bytes that is cut into well-formed pieces and in which every debug comment
has a path of at least 13 bytes plus the digits of its index (so that no call
text is longer than its comment), `process` completes and the rewritten text is
shorter than `floor(1.25 n) + 100` bytes. -/
theorem process_debugInfo_fits (pp : Asm2WasmPreProcessor) (pieces : List Piece)
    (hd : pp.debugInfo = true) (hnames : pp.debugInfoFileNames = [])
    (hindices : pp.debugInfoFileIndices = [])
    (hwf : wellFormed false pieces = true) (hn : NUL ∉ sourceText pieces)
    (hM : (sourceText pieces).head? ≠ some 'M')
    (hg : ¬ GROWTH_SIGN <:+: prologue (sourceText pieces))
    (hpaths : longPaths (fileTable [] (piecePaths pieces)) pieces = true)
    (hlen : 216 ≤ (sourceText pieces).length)
    (hsize : (sourceText pieces).length * 5 / 4 + 100 < 4294967296) :
    ∃ r, pp.process (sourceText pieces) 0 = Run.ok r ∧
      (resultText r).length < (sourceText pieces).length * 5 / 4 + 100 ∧
      (resultText r).length < upperBound (sourceText pieces).length := by
  have hle := targetText_length_le (fileTable [] (piecePaths pieces)) pieces false hwf hpaths
  have hI : DEBUGINFO_IMPORT.length = 54 := by decide
  simp only [Bool.false_eq_true, if_false, hI] at hle
  have hroom : (targetText (fileTable [] (piecePaths pieces)) pieces).length
      ≤ (sourceText pieces).length * 5 / 4 := by omega
  obtain ⟨r, hr, htext⟩ := process_debug_of_room pp pieces hd hnames hindices hwf hn hM hg hroom
    hsize
  have hA : ADD_FACTOR = 100 := rfl
  have hub : upperBound (sourceText pieces).length = (sourceText pieces).length * 5 / 4 + 100 := by
    simp only [upperBound, hA]
    rw [Nat.mod_eq_of_lt (show (sourceText pieces).length * 5 / 4 < 4294967296 by omega),
      Nat.mod_eq_of_lt hsize]
  refine ⟨r, hr, ?_, ?_⟩
  · rw [htext]; omega
  · rw [htext, hub]; omega

set_option maxRecDepth 100000 in
/-- Witness for C36: a module of 245 bytes with a directive and two debug
comments. -/
theorem process_debugInfo_fits_witness :
    (sourceText exampleDebugPieces).length = 245 ∧
    ∃ r, (Asm2WasmPreProcessor.fresh true).process (sourceText exampleDebugPieces) 0 = Run.ok r ∧
      (resultText r).length < (sourceText exampleDebugPieces).length * 5 / 4 + 100 ∧
      (resultText r).length < upperBound (sourceText exampleDebugPieces).length :=
  ⟨by decide, process_debugInfo_fits (Asm2WasmPreProcessor.fresh true) exampleDebugPieces
    rfl rfl rfl (by decide) (by decide) (by decide) (by decide) (by decide) (by decide)
    (by decide)⟩

set_option maxRecDepth 100000 in
/-- Counterexample to C36 as stated: the rewritten text can be longer than the
buffer, and then `process` fails on size. For the 11 bytes `"use asm";x` the
buffer has 113 bytes and the rewritten text 65; after the declaration is written
the check of line 250 fails (`64 + 100 >= 113`). For thirty comments
`//@line 1 "a"`, 390 bytes, the buffer has 587 bytes and the rewritten text would
have 780. -/
theorem process_debug_size_counterexample :
    "\x22use asm\x22;x".toList.length = 11 ∧ upperBound 11 = 113 ∧
    (Asm2WasmPreProcessor.fresh true).process "\x22use asm\x22;x".toList 0 = Run.fatal ∧
    (List.replicate 30 "//@line 1 \x22a\x22".toList).flatten.length = 390 ∧
    upperBound 390 = 587 ∧
    (Asm2WasmPreProcessor.fresh true).process
      (List.replicate 30 "//@line 1 \x22a\x22".toList).flatten 0 = Run.fatal := by
  refine ⟨by decide, by decide, by decide, by decide, by decide, by decide⟩

/-! ## C35: comma expressions and the reinterpret fold -/

theorem tempDoubleAccess_some (t : Option IString) (r : Ref) (heap : IString)
    (h : tempDoubleAccess t r = some heap) :
    ∃ p, t = some p ∧ r = tempDoubleSlot p heap := by
  unfold tempDoubleAccess at h
  split at h
  · rename_i heap2 op p k
    split at h
    · rename_i hc
      obtain ⟨h1, h2, h3⟩ := hc
      simp only [Option.some.injEq] at h
      subst h1 h3 h
      exact ⟨p, h2.symm, rfl⟩
    · simp at h
  · simp at h

theorem tempDoubleAccess_slot (p heap : IString) :
    tempDoubleAccess (some p) (tempDoubleSlot p heap) = some heap := by
  simp [tempDoubleAccess, tempDoubleSlot]

theorem seqRead_some (f : Option IString) (right : Ref) (rt : AsmType) (rv : Ref)
    (h : seqRead f right = .ok (some (rt, rv))) :
    (rt = AsmType.ASM_INT ∧ right = .binary OR rv (.num 0)) ∨
    (rt = AsmType.ASM_DOUBLE ∧ right = .unaryPrefix PLUS rv) ∨
    (rt = AsmType.ASM_FLOAT ∧ ∃ g rest, f = some g ∧ right = .call (.name g) (rv :: rest)) := by
  unfold seqRead at h
  split at h
  · split at h
    · rename_i hc
      simp only [Outcome.ok.injEq, Option.some.injEq, Prod.mk.injEq] at h
      obtain ⟨h1, h2⟩ := h
      obtain ⟨h3, h4⟩ := hc
      subst h1 h2 h3 h4
      exact Or.inl ⟨rfl, rfl⟩
    · simp at h
  · split at h
    · rename_i hc
      simp only [Outcome.ok.injEq, Option.some.injEq, Prod.mk.injEq] at h
      obtain ⟨h1, h2⟩ := h
      subst h1 h2 hc
      exact Or.inr (Or.inl ⟨rfl, rfl⟩)
    · simp at h
  · split at h
    · rename_i g args hc
      split at h
      · simp at h
      · rename_i first rest
        simp only [Outcome.ok.injEq, Option.some.injEq, Prod.mk.injEq] at h
        obtain ⟨h1, h2⟩ := h
        subst h1 h2
        exact Or.inr (Or.inr ⟨rfl, g, rest, hc.symm, rfl⟩)
    · simp at h
  · simp at h

theorem seqRead_fatal (f : Option IString) (right : Ref) (h : seqRead f right = .fatal) :
    ∃ g, f = some g ∧ right = .call (.name g) [] := by
  unfold seqRead at h
  split at h
  · split at h <;> simp at h
  · split at h <;> simp at h
  · split at h
    · rename_i g args hc
      split at h
      · exact ⟨g, hc.symm, rfl⟩
      · simp at h
    · simp at h
  · simp at h

theorem seqRead_ne_unmodelled (f : Option IString) (right : Ref) :
    seqRead f right ≠ .unmodelled := by
  unfold seqRead
  split
  · split <;> simp
  · split <;> simp
  · split
    · split <;> simp
    · simp
  · simp
theorem seqPattern_some (env : TranslateEnv) (t f : Option IString) (left right : Ref)
    (w r : AsmType) (v : Ref)
    (h : seqPattern env t f left right = .ok (some (w, r, v))) :
    ∃ (p W X : IString) (view : View), t = some p ∧ left = .assign (tempDoubleSlot p W) v ∧
      env.views W = some view ∧ view.type = w ∧
      seqRead f right = .ok (some (r, tempDoubleSlot p X)) := by
  unfold seqPattern at h
  split at h
  · rename_i target writtenValue
    split at h
    · simp at h
    · rename_i heap hacc
      split at h
      · simp at h
      · rename_i view hview
        cases hr : seqRead f right with
        | fatal => rw [hr] at h; simp [Outcome.bind_def, Outcome.bind] at h
        | unmodelled => rw [hr] at h; simp [Outcome.bind_def, Outcome.bind] at h
        | ok read =>
          rw [hr] at h
          simp only [Outcome.bind_def, Outcome.bind, Outcome.pure_def] at h
          split at h
          · simp at h
          · rename_i readType readValue
            split at h
            · simp at h
            · rename_i X hX
              simp only [Outcome.ok.injEq, Option.some.injEq, Prod.mk.injEq] at h
              obtain ⟨h1, h2, h3⟩ := h
              obtain ⟨p, hp, htarget⟩ := tempDoubleAccess_some t target heap hacc
              obtain ⟨p2, hp2, hread⟩ := tempDoubleAccess_some t readValue X hX
              have hpp : p2 = p := by
                rw [hp] at hp2
                exact (Option.some.inj hp2).symm
              subst hpp h1 h2 h3 htarget hread
              exact ⟨p2, heap, X, view, hp, rfl, hview, rfl, rfl⟩
  · simp at h

theorem seqPattern_fatal (env : TranslateEnv) (t f : Option IString) (left right : Ref)
    (h : seqPattern env t f left right = .fatal) :
    ∃ g, f = some g ∧ right = .call (.name g) [] := by
  unfold seqPattern at h
  split at h
  · split at h
    · simp at h
    · split at h
      · simp at h
      · cases hr : seqRead f right with
        | fatal => exact seqRead_fatal f right hr
        | unmodelled => exact absurd hr (seqRead_ne_unmodelled f right)
        | ok read =>
          rw [hr] at h
          simp only [Outcome.bind_def, Outcome.bind, Outcome.pure_def] at h
          split at h
          · simp at h
          · split at h <;> simp at h
  · simp at h

theorem seqPattern_ne_unmodelled (env : TranslateEnv) (t f : Option IString) (left right : Ref) :
    seqPattern env t f left right ≠ .unmodelled := by
  intro h
  unfold seqPattern at h
  split at h
  · split at h
    · simp at h
    · split at h
      · simp at h
      · cases hr : seqRead f right with
        | fatal => rw [hr] at h; simp [Outcome.bind_def, Outcome.bind] at h
        | unmodelled => exact absurd hr (seqRead_ne_unmodelled f right)
        | ok read =>
          rw [hr] at h
          simp only [Outcome.bind_def, Outcome.bind, Outcome.pure_def] at h
          split at h
          · simp at h
          · split at h <;> simp at h
  · simp at h

theorem seqPattern_of_shape (env : TranslateEnv) (p : IString) (f : Option IString)
    (W X : IString) (x right : Ref) (view : View) (r : AsmType)
    (hview : env.views W = some view)
    (hread : seqRead f right = .ok (some (r, tempDoubleSlot p X))) :
    seqPattern env (some p) f (.assign (tempDoubleSlot p W) x) right
      = .ok (some (view.type, r, x)) := by
  simp only [seqPattern, tempDoubleAccess_slot, hview, hread, Outcome.bind_def, Outcome.bind,
    Outcome.pure_def]
/-- C35 (amended): with `p` the name held by `tempDoublePtr`, a comma expression
is folded exactly when its first operand assigns to `W[p >> 2]` for a registered
view `W` and its second operand is a coercion of `X[p >> 2]` for any name `X`
(the view read is not looked at), of the other kind than `W`: for an integer
view `W`, `+X[p >> 2]` gives `PromoteFloat32` of `ReinterpretInt32` of the
translated written value and `Math_fround(X[p >> 2])` gives the
`ReinterpretInt32` alone; for a view `W` of floats, `X[p >> 2] | 0` gives
`ReinterpretFloat32` of the translated written value, demoted to `f32` first
when it is `f64`. Every other comma expression is the unnamed block of both
translated operands, except that a call of `Math_fround` without arguments as
second operand of such an assignment is fatal. -/
theorem processSeq_fold (env : TranslateEnv) (t f : Option IString)
    (types : ImportedFunctionTypes) :
    (∀ (p W X : IString) (x : Ref) (view : View), t = some p → env.views W = some view →
      view.type = AsmType.ASM_INT →
      processSeq env t f types (.assign (tempDoubleSlot p W) x)
          (.unaryPrefix PLUS (tempDoubleSlot p X))
        = (process env (some (.seq (.assign (tempDoubleSlot p W) x)
              (.unaryPrefix PLUS (tempDoubleSlot p X)))) types x).bind
            (fun r => Outcome.ok
              (Expression.unary UnaryOp.PromoteFloat32
                (Expression.unary UnaryOp.ReinterpretInt32 r.1 WasmType.f32) WasmType.f64,
               r.2))) ∧
    (∀ (p W X g : IString) (x : Ref) (rest : List Ref) (view : View), t = some p →
      f = some g → env.views W = some view → view.type = AsmType.ASM_INT →
      processSeq env t f types (.assign (tempDoubleSlot p W) x)
          (.call (.name g) (tempDoubleSlot p X :: rest))
        = (process env (some (.seq (.assign (tempDoubleSlot p W) x)
              (.call (.name g) (tempDoubleSlot p X :: rest)))) types x).bind
            (fun r => Outcome.ok
              (Expression.unary UnaryOp.ReinterpretInt32 r.1 WasmType.f32, r.2))) ∧
    (∀ (p W X : IString) (x : Ref) (view : View), t = some p → env.views W = some view →
      view.type = AsmType.ASM_FLOAT →
      processSeq env t f types (.assign (tempDoubleSlot p W) x)
          (.binary OR (tempDoubleSlot p X) (.num 0))
        = (process env (some (.seq (.assign (tempDoubleSlot p W) x)
              (.binary OR (tempDoubleSlot p X) (.num 0)))) types x).bind
            (fun r => Outcome.ok
              (Expression.unary UnaryOp.ReinterpretFloat32
                (if r.1.type = WasmType.f64 then makeUnary UnaryOp.DemoteFloat64 r.1 else r.1)
                WasmType.i32, r.2))) ∧
    (∀ left right : Ref, ¬ SeqFolds env t f left right →
      (∀ g, f = some g → right ≠ .call (.name g) []) →
      processSeq env t f types left right = processSeqBlock env types left right) ∧
    (∀ (p W g : IString) (x : Ref) (view : View), t = some p → f = some g →
      env.views W = some view →
      processSeq env t f types (.assign (tempDoubleSlot p W) x) (.call (.name g) [])
        = Outcome.fatal) := by
  refine ⟨?_, ?_, ?_, ?_, ?_⟩
  · intro p W X x view ht hview hty
    subst ht
    have hread : seqRead f (.unaryPrefix PLUS (tempDoubleSlot p X))
        = .ok (some (AsmType.ASM_DOUBLE, tempDoubleSlot p X)) := by
      simp [seqRead]
    rw [processSeq, seqPattern_of_shape env p f W X x _ view _ hview hread, hty]
    simp only [Outcome.bind_def, Outcome.bind, Outcome.pure_def]
    cases process env (some (.seq (.assign (tempDoubleSlot p W) x)
      (.unaryPrefix PLUS (tempDoubleSlot p X)))) types x <;> simp
  · intro p W X g x rest view ht hf hview hty
    subst ht hf
    have hread : seqRead (some g) (.call (.name g) (tempDoubleSlot p X :: rest))
        = .ok (some (AsmType.ASM_FLOAT, tempDoubleSlot p X)) := by
      simp [seqRead]
    rw [processSeq, seqPattern_of_shape env p (some g) W X x _ view _ hview hread, hty]
    simp only [Outcome.bind_def, Outcome.bind, Outcome.pure_def]
    cases process env (some (.seq (.assign (tempDoubleSlot p W) x)
      (.call (.name g) (tempDoubleSlot p X :: rest)))) types x <;> simp
  · intro p W X x view ht hview hty
    subst ht
    have hread : seqRead f (.binary OR (tempDoubleSlot p X) (.num 0))
        = .ok (some (AsmType.ASM_INT, tempDoubleSlot p X)) := by
      simp [seqRead]
    rw [processSeq, seqPattern_of_shape env p f W X x _ view _ hview hread, hty]
    simp only [Outcome.bind_def, Outcome.bind, Outcome.pure_def]
    cases process env (some (.seq (.assign (tempDoubleSlot p W) x)
      (.binary OR (tempDoubleSlot p X) (.num 0)))) types x with
    | ok r => by_cases h64 : r.1.type = WasmType.f64 <;> simp [h64]
    | fatal => simp
    | unmodelled => simp
  · intro left right hnot hcall
    rw [processSeq]
    cases hp : seqPattern env t f left right with
    | fatal =>
      obtain ⟨g, hg, hr⟩ := seqPattern_fatal env t f left right hp
      exact absurd hr (hcall g hg)
    | unmodelled => exact absurd hp (seqPattern_ne_unmodelled env t f left right)
    | ok pattern =>
      simp only [Outcome.bind_def, Outcome.bind]
      cases pattern with
      | none => rfl
      | some val =>
        obtain ⟨w, r, v⟩ := val
        obtain ⟨p, W, X, view, ht, hleft, hview, hty, hread⟩ :=
          seqPattern_some env t f left right w r v hp
        have hshape := seqRead_some f right r (tempDoubleSlot p X) hread
        have h1 : ¬ (w = AsmType.ASM_INT ∧
            (r = AsmType.ASM_FLOAT ∨ r = AsmType.ASM_DOUBLE)) := by
          rintro ⟨hw, hr⟩
          apply hnot
          refine ⟨p, W, X, v, view, ht, hleft, hview, Or.inl ⟨hty.trans hw, ?_⟩⟩
          rcases hshape with ⟨h, _⟩ | ⟨_, h⟩ | ⟨_, g, rest, hg, h⟩
          · subst h; rcases hr with hr | hr <;> simp at hr
          · exact Or.inl h
          · exact Or.inr ⟨g, rest, hg, h⟩
        have h2 : ¬ (w = AsmType.ASM_FLOAT ∧ r = AsmType.ASM_INT) := by
          rintro ⟨hw, hr⟩
          apply hnot
          refine ⟨p, W, X, v, view, ht, hleft, hview, Or.inr ⟨hty.trans hw, ?_⟩⟩
          rcases hshape with ⟨_, h⟩ | ⟨h, _⟩ | ⟨h, _⟩
          · exact h
          · subst h; simp at hr
          · subst h; simp at hr
        simp only [h1, h2, if_false]
  · intro p W g x view ht hf hview
    subst ht hf
    simp [processSeq, seqPattern, tempDoubleAccess_slot, hview, seqRead, Outcome.bind_def,
      Outcome.bind]

/-- Witness for C35: `(HEAP32[tempDoublePtr >> 2] = x, +HEAPF32[tempDoublePtr >> 2])`
becomes `f64.promote_f32 (f32.reinterpret_i32 x)`. -/
theorem processSeq_fold_witness :
    processSeq exampleSeqEnv (some "tempDoublePtr") (some "Math_fround") (fun _ => none)
        (.assign (tempDoubleSlot "tempDoublePtr" "HEAP32") (.name "x"))
        (.unaryPrefix PLUS (tempDoubleSlot "tempDoublePtr" "HEAPF32"))
      = Outcome.ok
          (Expression.unary UnaryOp.PromoteFloat32
            (Expression.unary UnaryOp.ReinterpretInt32 (Expression.getLocal 0 WasmType.i32)
              WasmType.f32) WasmType.f64, fun _ => none) :=
  ((processSeq_fold exampleSeqEnv (some "tempDoublePtr") (some "Math_fround")
      (fun _ => none)).1 "tempDoublePtr" "HEAP32" "HEAPF32" (.name "x")
      ⟨4, true, true, AsmType.ASM_INT⟩ rfl rfl rfl).trans rfl

/-- Counterexample to C35 as worded: `(HEAP32[tempDoublePtr >> 2] = x,
+HEAP32[tempDoublePtr >> 2])` writes and reads through the same integer view
and is folded to a reinterpret; `(HEAP32[tempDoublePtr >> 2] = x,
HEAPF32[tempDoublePtr >> 2])` reads the value back through the view of floats,
without a coercion, and stays a block of the store and the load. -/
theorem processSeq_view_counterexample :
    processSeq exampleSeqEnv (some "tempDoublePtr") (some "Math_fround") (fun _ => none)
        (.assign (tempDoubleSlot "tempDoublePtr" "HEAP32") (.name "x"))
        (.unaryPrefix PLUS (tempDoubleSlot "tempDoublePtr" "HEAP32"))
      = Outcome.ok
          (Expression.unary UnaryOp.PromoteFloat32
            (Expression.unary UnaryOp.ReinterpretInt32 (Expression.getLocal 0 WasmType.i32)
              WasmType.f32) WasmType.f64, fun _ => none) ∧
    processSeq exampleSeqEnv (some "tempDoublePtr") (some "Math_fround") (fun _ => none)
        (.assign (tempDoubleSlot "tempDoublePtr" "HEAP32") (.name "x"))
        (tempDoubleSlot "tempDoublePtr" "HEAPF32")
      = Outcome.ok
          (Expression.block ""
            [Expression.store 4 0 4 (Expression.getGlobal "tempDoublePtr" WasmType.i32)
               (Expression.getLocal 0 WasmType.i32) WasmType.i32 WasmType.none,
             Expression.load 4 true 0 4 (Expression.getGlobal "tempDoublePtr" WasmType.i32)
               WasmType.f32]
            WasmType.f32, fun _ => none) :=
  ⟨rfl, rfl⟩

/-! ## C38: the break and continue stacks are restored -/

theorem Translate.bind_unfold {σ α β : Type} (m : Translate σ α) (f : α → Translate σ β) :
    (m >>= f) = Translate.bind m f := rfl

theorem Translate.pure_unfold {σ α : Type} (a : α) :
    (pure a : Translate σ α) = Translate.pure a := rfl

theorem StacksFromTo.bind {σ α β : Type} {s1 s2 s3 : List IString × List IString}
    {m : Translate σ α} {f : α → Translate σ β}
    (hm : StacksFromTo s1 m s2) (hf : ∀ a, StacksFromTo s2 (f a) s3) :
    StacksFromTo s1 (m >>= f) s3 := by
  intro st b st3 hst h
  rw [Translate.bind_unfold] at h
  unfold Translate.bind at h
  cases hms : m st with
  | ok r =>
    obtain ⟨a, st2⟩ := r
    rw [hms] at h
    exact hf a st2 b st3 (hm st a st2 hst hms) h
  | fatal => rw [hms] at h; simp at h
  | unmodelled => rw [hms] at h; simp at h

theorem StacksFromTo.pure {σ α : Type} (s : List IString × List IString) (a : α) :
    StacksFromTo s (pure a : Translate σ α) s := by
  intro st b st2 hst h
  change Translate.pure a st = _ at h
  simp only [Translate.pure, Outcome.ok.injEq, Prod.mk.injEq] at h
  rw [← h.2]
  exact hst

theorem StacksFromTo.fatal {σ α : Type} (s1 s2 : List IString × List IString) :
    StacksFromTo s1 (Translate.fatal : Translate σ α) s2 := by
  intro st b st2 _ h
  simp [Translate.fatal] at h

theorem translateExpr_stacks {σ : Type} (P : StatementEnv σ) (e : Ref)
    (s : List IString × List IString) : StacksFromTo s (translateExpr P e) s := by
  intro st b st2 hst h
  unfold translateExpr at h
  cases he : P.expr e st.exprState with
  | ok r =>
    rw [he] at h
    simp only [Outcome.ok.injEq, Prod.mk.injEq] at h
    rw [← h.2]
    exact hst
  | fatal => rw [he] at h; simp at h
  | unmodelled => rw [he] at h; simp at h

theorem pushLabelName_stacks {σ : Type} (sName : IString) (s : List IString × List IString) :
    StacksFromTo s (pushLabelName sName : Translate σ IString) s := by
  intro st b st2 hst h
  simp only [pushLabelName, Outcome.ok.injEq, Prod.mk.injEq] at h
  rw [← h.2]
  exact hst

theorem popLabelName_stacks {σ : Type} (name : IString) (s : List IString × List IString) :
    StacksFromTo s (popLabelName name : Translate σ Unit) s := by
  intro st b st2 hst h
  unfold popLabelName at h
  cases hp : st.nameMapper.popLabelName name with
  | some m =>
    rw [hp] at h
    simp only [Outcome.ok.injEq, Prod.mk.injEq] at h
    rw [← h.2]
    exact hst
  | none => rw [hp] at h; simp at h

theorem sourceToUnique_stacks {σ : Type} (sName : IString) (s : List IString × List IString) :
    StacksFromTo s (sourceToUnique sName : Translate σ IString) s := by
  intro st b st2 hst h
  unfold sourceToUnique at h
  cases hp : st.nameMapper.sourceToUnique sName with
  | some m =>
    rw [hp] at h
    simp only [Outcome.ok.injEq, Prod.mk.injEq] at h
    rw [← h.2]
    exact hst
  | none => rw [hp] at h; simp at h

theorem takeParentLabel_stacks {σ : Type} (s : List IString × List IString) :
    StacksFromTo s (takeParentLabel : Translate σ (Option IString)) s := by
  intro st b st2 hst h
  simp only [takeParentLabel, Outcome.ok.injEq, Prod.mk.injEq] at h
  rw [← h.2]
  exact hst

theorem addVar_stacks {σ : Type} (s : List IString × List IString) :
    StacksFromTo s (addVar : Translate σ Nat) s := by
  intro st b st2 hst h
  simp only [addVar, Outcome.ok.injEq, Prod.mk.injEq] at h
  rw [← h.2]
  exact hst

theorem pushBreak_stacks {σ : Type} (name : IString) (b c : List IString) :
    StacksFromTo (b, c) (pushBreak name : Translate σ Unit) (b ++ [name], c) := by
  intro st a st2 hst h
  simp only [pushBreak, Outcome.ok.injEq, Prod.mk.injEq] at h
  simp only [LabelState.stacks, Prod.mk.injEq] at hst
  rw [← h.2]
  simp [LabelState.stacks, hst.1, hst.2]

theorem pushContinue_stacks {σ : Type} (name : IString) (b c : List IString) :
    StacksFromTo (b, c) (pushContinue name : Translate σ Unit) (b, c ++ [name]) := by
  intro st a st2 hst h
  simp only [pushContinue, Outcome.ok.injEq, Prod.mk.injEq] at h
  simp only [LabelState.stacks, Prod.mk.injEq] at hst
  rw [← h.2]
  simp [LabelState.stacks, hst.1, hst.2]

theorem popBreak_stacks {σ : Type} (name : IString) (b c : List IString) :
    StacksFromTo (b ++ [name], c) (popBreak : Translate σ Unit) (b, c) := by
  intro st a st2 hst h
  simp only [popBreak, Outcome.ok.injEq, Prod.mk.injEq] at h
  simp only [LabelState.stacks, Prod.mk.injEq] at hst
  rw [← h.2]
  simp [LabelState.stacks, hst.1, hst.2]

theorem popContinue_stacks {σ : Type} (name : IString) (b c : List IString) :
    StacksFromTo (b, c ++ [name]) (popContinue : Translate σ Unit) (b, c) := by
  intro st a st2 hst h
  simp only [popContinue, Outcome.ok.injEq, Prod.mk.injEq] at h
  simp only [LabelState.stacks, Prod.mk.injEq] at hst
  rw [← h.2]
  simp [LabelState.stacks, hst.1, hst.2]

theorem breakTarget_stacks {σ : Type} (label : Option IString)
    (s : List IString × List IString) :
    StacksFromTo s (breakTarget label : Translate σ IString) s := by
  intro st b st2 hst h
  unfold breakTarget at h
  cases ht : st.breakStack.getLast? with
  | none => rw [ht] at h; simp at h
  | some top =>
    rw [ht] at h
    cases label with
    | none =>
      simp only [Outcome.ok.injEq, Prod.mk.injEq] at h
      rw [← h.2]
      exact hst
    | some l => exact sourceToUnique_stacks _ s st b st2 hst h

theorem continueTarget_stacks {σ : Type} (label : Option IString)
    (s : List IString × List IString) :
    StacksFromTo s (continueTarget label : Translate σ IString) s := by
  intro st b st2 hst h
  unfold continueTarget at h
  cases ht : st.continueStack.getLast? with
  | none => rw [ht] at h; simp at h
  | some top =>
    rw [ht] at h
    cases label with
    | none =>
      simp only [Outcome.ok.injEq, Prod.mk.injEq] at h
      rw [← h.2]
      exact hst
    | some l => exact sourceToUnique_stacks _ s st b st2 hst h

mutual
/-- Every completed translation of a statement leaves both stacks as they
were. -/
theorem processStmt_stacks {σ : Type} (P : StatementEnv σ) :
    ∀ (s : Stmt) (b c : List IString), StacksFromTo (b, c) (processStmt P s) (b, c)
  | .expr e, b, c => by
      rw [processStmt]
      exact translateExpr_stacks P e _
  | .return_ none, b, c => by
      rw [processStmt]
      exact StacksFromTo.pure _ _
  | .return_ (some value), b, c => by
      rw [processStmt]
      exact StacksFromTo.bind (translateExpr_stacks P value _) (fun _ => StacksFromTo.pure _ _)
  | .block stats, b, c => by
      rw [processStmt]
      refine StacksFromTo.bind (takeParentLabel_stacks _) (fun label => ?_)
      cases label with
      | none => exact processStatements_stacks P stats b c
      | some l =>
        refine StacksFromTo.bind (pushLabelName_stacks _ _) (fun name => ?_)
        refine StacksFromTo.bind (pushBreak_stacks name b c) (fun _ => ?_)
        refine StacksFromTo.bind (processStatements_stacks P stats _ _) (fun ret => ?_)
        refine StacksFromTo.bind (popBreak_stacks name b c) (fun _ => ?_)
        refine StacksFromTo.bind (popLabelName_stacks _ _) (fun _ => ?_)
        exact StacksFromTo.pure _ _
  | .if_ condition ifTrue ifFalse, b, c => by
      rw [processStmt]
      refine StacksFromTo.bind (translateExpr_stacks P condition _) (fun _ => ?_)
      refine StacksFromTo.bind (processStmt_stacks P ifTrue b c) (fun _ => ?_)
      refine StacksFromTo.bind (processOptional_stacks P ifFalse b c) (fun _ => ?_)
      exact StacksFromTo.pure _ _
  | .break_ label, b, c => by
      rw [processStmt]
      exact StacksFromTo.bind (breakTarget_stacks label _) (fun _ => StacksFromTo.pure _ _)
  | .continue_ label, b, c => by
      rw [processStmt]
      exact StacksFromTo.bind (continueTarget_stacks label _) (fun _ => StacksFromTo.pure _ _)
  | .while_ condition body, b, c => by
      rw [processStmt]
      refine StacksFromTo.bind (takeParentLabel_stacks _) (fun label => ?_)
      refine StacksFromTo.bind (pushLabelName_stacks _ _) (fun out => ?_)
      refine StacksFromTo.bind (pushLabelName_stacks _ _) (fun in_ => ?_)
      refine StacksFromTo.bind (pushBreak_stacks out b c) (fun _ => ?_)
      refine StacksFromTo.bind (pushContinue_stacks in_ (b ++ [out]) c) (fun _ => ?_)
      refine StacksFromTo.bind
        (?_ : StacksFromTo (b ++ [out], c ++ [in_]) _ (b ++ [out], c ++ [in_])) (fun inner => ?_)
      · split
        · exact processStmt_stacks P body _ _
        · refine StacksFromTo.bind (translateExpr_stacks P condition _) (fun _ => ?_)
          refine StacksFromTo.bind (processStmt_stacks P body _ _) (fun _ => ?_)
          exact StacksFromTo.pure _ _
      refine StacksFromTo.bind (popContinue_stacks in_ (b ++ [out]) c) (fun _ => ?_)
      refine StacksFromTo.bind (popBreak_stacks out b c) (fun _ => ?_)
      refine StacksFromTo.bind (popLabelName_stacks _ _) (fun _ => ?_)
      refine StacksFromTo.bind (popLabelName_stacks _ _) (fun _ => ?_)
      exact StacksFromTo.pure _ _
  | .do_ condition body, b, c => by
      rw [processStmt]
      split
      · refine StacksFromTo.bind (takeParentLabel_stacks _) (fun label => ?_)
        refine StacksFromTo.bind (pushLabelName_stacks _ _) (fun stop => ?_)
        refine StacksFromTo.bind (pushLabelName_stacks _ _) (fun more => ?_)
        refine StacksFromTo.bind (pushBreak_stacks stop b c) (fun _ => ?_)
        refine StacksFromTo.bind (pushContinue_stacks more (b ++ [stop]) c) (fun _ => ?_)
        refine StacksFromTo.bind (processStmt_stacks P body _ _) (fun child => ?_)
        refine StacksFromTo.bind (popContinue_stacks more (b ++ [stop]) c) (fun _ => ?_)
        refine StacksFromTo.bind (popBreak_stacks stop b c) (fun _ => ?_)
        refine StacksFromTo.bind (popLabelName_stacks _ _) (fun _ => ?_)
        refine StacksFromTo.bind (popLabelName_stacks _ _) (fun _ => ?_)
        exact StacksFromTo.pure _ _
      · refine StacksFromTo.bind (takeParentLabel_stacks _) (fun label => ?_)
        refine StacksFromTo.bind (pushLabelName_stacks _ _) (fun out => ?_)
        refine StacksFromTo.bind (pushLabelName_stacks _ _) (fun in_ => ?_)
        refine StacksFromTo.bind (pushBreak_stacks out b c) (fun _ => ?_)
        refine StacksFromTo.bind (pushContinue_stacks in_ (b ++ [out]) c) (fun _ => ?_)
        refine StacksFromTo.bind (processStmt_stacks P body _ _) (fun inner => ?_)
        refine StacksFromTo.bind (popContinue_stacks in_ (b ++ [out]) c) (fun _ => ?_)
        refine StacksFromTo.bind (popBreak_stacks out b c) (fun _ => ?_)
        refine StacksFromTo.bind (popLabelName_stacks _ _) (fun _ => ?_)
        refine StacksFromTo.bind (popLabelName_stacks _ _) (fun _ => ?_)
        refine StacksFromTo.bind (translateExpr_stacks P condition _) (fun _ => ?_)
        exact StacksFromTo.pure _ _
  | .for_ init condition inc body, b, c => by
      rw [processStmt]
      refine StacksFromTo.bind (takeParentLabel_stacks _) (fun label => ?_)
      refine StacksFromTo.bind (pushLabelName_stacks _ _) (fun out => ?_)
      refine StacksFromTo.bind (pushLabelName_stacks _ _) (fun in_ => ?_)
      refine StacksFromTo.bind (pushBreak_stacks out b c) (fun _ => ?_)
      refine StacksFromTo.bind (pushContinue_stacks in_ (b ++ [out]) c) (fun _ => ?_)
      refine StacksFromTo.bind (translateExpr_stacks P condition _) (fun _ => ?_)
      refine StacksFromTo.bind (processStmt_stacks P body _ _) (fun _ => ?_)
      refine StacksFromTo.bind (translateExpr_stacks P inc _) (fun _ => ?_)
      refine StacksFromTo.bind (popContinue_stacks in_ (b ++ [out]) c) (fun _ => ?_)
      refine StacksFromTo.bind (popBreak_stacks out b c) (fun _ => ?_)
      refine StacksFromTo.bind (popLabelName_stacks _ _) (fun _ => ?_)
      refine StacksFromTo.bind (popLabelName_stacks _ _) (fun _ => ?_)
      refine StacksFromTo.bind (translateExpr_stacks P init _) (fun _ => ?_)
      exact StacksFromTo.pure _ _
  | .label name body, b, c => by
      rw [processStmt]
      intro st a st2 hst h
      cases hl : st.parentLabel with
      | some l => simp [hl] at h
      | none =>
        simp only [hl] at h
        refine processStmt_stacks P body b c _ a st2 ?_ h
        exact hst
  | .switch condition cases, b, c => by
      rw [processStmt]
      refine StacksFromTo.bind (takeParentLabel_stacks _) (fun label => ?_)
      refine StacksFromTo.bind (pushLabelName_stacks _ _) (fun name => ?_)
      refine StacksFromTo.bind (pushBreak_stacks name b c) (fun _ => ?_)
      refine StacksFromTo.bind (translateExpr_stacks P condition _) (fun _ => ?_)
      split
      · exact StacksFromTo.fatal _ _
      · split
        · refine StacksFromTo.bind (processCases_stacks P cases _ _) (fun _ => ?_)
          split
          · exact StacksFromTo.fatal _ _
          · refine StacksFromTo.bind (popBreak_stacks name b c) (fun _ => ?_)
            refine StacksFromTo.bind (popLabelName_stacks _ _) (fun _ => ?_)
            exact StacksFromTo.pure _ _
        · refine StacksFromTo.bind (addVar_stacks _) (fun _ => ?_)
          refine StacksFromTo.bind (processCases_stacks P cases _ _) (fun _ => ?_)
          split
          · exact StacksFromTo.fatal _ _
          · refine StacksFromTo.bind (popBreak_stacks name b c) (fun _ => ?_)
            refine StacksFromTo.bind (popLabelName_stacks _ _) (fun _ => ?_)
            exact StacksFromTo.pure _ _
/-- The else-arm of an `if` leaves both stacks as they were. -/
theorem processOptional_stacks {σ : Type} (P : StatementEnv σ) :
    ∀ (s : Option Stmt) (b c : List IString), StacksFromTo (b, c) (processOptional P s) (b, c)
  | none, b, c => by
      rw [processOptional]
      exact StacksFromTo.pure _ _
  | some s, b, c => by
      rw [processOptional]
      exact StacksFromTo.bind (processStmt_stacks P s b c) (fun _ => StacksFromTo.pure _ _)
/-- A list of statements leaves both stacks as they were. -/
theorem processStatementList_stacks {σ : Type} (P : StatementEnv σ) :
    ∀ (l : List Stmt) (b c : List IString),
      StacksFromTo (b, c) (processStatementList P l) (b, c)
  | [], b, c => by
      rw [processStatementList]
      exact StacksFromTo.pure _ _
  | s :: rest, b, c => by
      rw [processStatementList]
      refine StacksFromTo.bind (processStmt_stacks P s b c) (fun _ => ?_)
      refine StacksFromTo.bind (processStatementList_stacks P rest b c) (fun _ => ?_)
      exact StacksFromTo.pure _ _
/-- The function `processStatements` leaves both stacks as they were. -/
theorem processStatements_stacks {σ : Type} (P : StatementEnv σ) :
    ∀ (l : List Stmt) (b c : List IString),
      StacksFromTo (b, c) (processStatements P l) (b, c)
  | [], b, c => by
      rw [processStatements]
      exact StacksFromTo.pure _ _
  | [s], b, c => by
      rw [processStatements]
      exact processStmt_stacks P s b c
  | s :: t :: rest, b, c => by
      rw [processStatements]
      refine StacksFromTo.bind (processStmt_stacks P s b c) (fun _ => ?_)
      refine StacksFromTo.bind (processStatementList_stacks P (t :: rest) b c) (fun _ => ?_)
      exact StacksFromTo.pure _ _
/-- The cases of a `switch` leave both stacks as they were. -/
theorem processCases_stacks {σ : Type} (P : StatementEnv σ) :
    ∀ (l : List SourceCase) (b c : List IString),
      StacksFromTo (b, c) (processCases P l) (b, c)
  | [], b, c => by
      rw [processCases]
      exact StacksFromTo.pure _ _
  | .mk condition body :: rest, b, c => by
      simp only [processCases]
      refine StacksFromTo.bind (processStatements_stacks P body b c) (fun _ => ?_)
      refine StacksFromTo.bind (pushLabelName_stacks _ _) (fun _ => ?_)
      refine StacksFromTo.bind (popLabelName_stacks _ _) (fun _ => ?_)
      refine StacksFromTo.bind (processCases_stacks P rest b c) (fun _ => ?_)
      exact StacksFromTo.pure _ _
end

/-- C38: every completed translation of a statement leaves `breakStack` and
`continueStack` with the contents they had when it started (each loop, labelled
block and switch pops what it pushed); so both stacks are empty after the body
of a function is translated from the empty stacks, and the closing `assert`
holds. -/
theorem processStmt_stacks_restored {σ : Type} (P : StatementEnv σ) :
    (∀ (s : Stmt) (st : LabelState σ) (r : Expression) (st2 : LabelState σ),
      processStmt P s st = Outcome.ok (r, st2) →
      st2.breakStack = st.breakStack ∧ st2.continueStack = st.continueStack) ∧
    (∀ (numLocals : Nat) (exprState : σ) (body : List Stmt) (r : Expression)
      (st2 : LabelState σ),
      processBody P numLocals exprState body = Outcome.ok (r, st2) →
      st2.breakStack = [] ∧ st2.continueStack = [] ∧ stacksEmpty st2 = true) := by
  constructor
  · intro s st r st2 h
    have hs := processStmt_stacks P s st.breakStack st.continueStack st r st2 rfl h
    simp only [LabelState.stacks, Prod.mk.injEq] at hs
    exact hs
  · intro numLocals exprState body r st2 h
    have hs := processStatements_stacks P body [] [] (LabelState.initial numLocals exprState)
      r st2 rfl h
    simp only [LabelState.stacks, Prod.mk.injEq] at hs
    refine ⟨hs.1, hs.2, ?_⟩
    simp [stacksEmpty, hs.1, hs.2]

/-- Witness for C38: the translation of the body `exampleBody`, with a labelled
loop, both kinds of `do`, a labelled block, a `switch` and a `for`, completes
and ends with both stacks empty. -/
theorem processStmt_stacks_restored_witness :
    ∃ (r : Expression) (st2 : LabelState ImportedFunctionTypes),
      processBody exampleStatementEnv 2 (fun _ => none) exampleBody = Outcome.ok (r, st2) ∧
      st2.breakStack = [] ∧ st2.continueStack = [] ∧ stacksEmpty st2 = true := by
  have hrun : ∃ (r : Expression) (st2 : LabelState ImportedFunctionTypes),
      processBody exampleStatementEnv 2 (fun _ => none) exampleBody = Outcome.ok (r, st2) := by
    simp only [processBody, exampleBody, exampleForLoop, processStmt, processStatements,
      processStatementList, processOptional, processCases]
    exact ⟨_, _, rfl⟩
  obtain ⟨r, st2, h⟩ := hrun
  exact ⟨r, st2, h,
    (processStmt_stacks_restored exampleStatementEnv).2 2 (fun _ => none) exampleBody r st2 h⟩

/-! ## C40: the lowering of `for` and the target of `continue` -/

theorem Translate.bind_ok {σ α β : Type} (m : Translate σ α) (f : α → Translate σ β)
    (st : LabelState σ) (b : β) (st3 : LabelState σ)
    (h : (m >>= f) st = Outcome.ok (b, st3)) :
    ∃ a st2, m st = Outcome.ok (a, st2) ∧ f a st2 = Outcome.ok (b, st3) := by
  rw [Translate.bind_unfold] at h
  unfold Translate.bind at h
  cases hm : m st with
  | ok r =>
    obtain ⟨a, st2⟩ := r
    rw [hm] at h
    exact ⟨a, st2, rfl, h⟩
  | fatal => rw [hm] at h; simp at h
  | unmodelled => rw [hm] at h; simp at h

theorem translateExpr_continueStack {σ : Type} (P : StatementEnv σ) (e : Ref)
    (st : LabelState σ) (r : Expression) (st2 : LabelState σ)
    (h : translateExpr P e st = Outcome.ok (r, st2)) :
    st2.continueStack = st.continueStack := by
  unfold translateExpr at h
  cases he : P.expr e st.exprState with
  | ok v =>
    rw [he] at h
    simp only [Outcome.ok.injEq, Prod.mk.injEq] at h
    rw [← h.2]
  | fatal => rw [he] at h; simp at h
  | unmodelled => rw [he] at h; simp at h

theorem processStmt_continue_top {σ : Type} (P : StatementEnv σ) (st : LabelState σ)
    (top : IString) (h : st.continueStack.getLast? = some top) :
    processStmt P (.continue_ none) st = Outcome.ok (makeBreak top, st) := by
  rw [processStmt]
  rw [Translate.bind_unfold]
  unfold Translate.bind continueTarget
  simp only [h]
  rfl

/-- C40: in every completed translation of `for (init; cond; inc) body` the loop
carries the name `in_` that tops `continueStack` while the body is translated,
and the loop is the block `out` of the exit test, the translated body, the
translated `inc` and the branch back `br in_`. An unlabelled `continue`
translated with `in_` on top of the stack is the same `br in_`: its target is
the loop itself, whose first node is the exit test on `cond`, so it goes to the
test without passing `inc`, which stands behind the body. -/
theorem processStmt_for_continue {σ : Type} (P : StatementEnv σ) (init cond inc : Ref)
    (body : Stmt) (st : LabelState σ) (r : Expression) (st2 : LabelState σ)
    (h : processStmt P (.for_ init cond inc body) st = Outcome.ok (r, st2)) :
    ∃ (in_ out : IString) (first c b i : Expression) (sBody sBody2 : LabelState σ),
      sBody.continueStack.getLast? = some in_ ∧
      processStmt P body sBody = Outcome.ok (b, sBody2) ∧
      processStmt P (.continue_ none) sBody = Outcome.ok (makeBreak in_, sBody) ∧
      r = Expression.block ""
        [first,
         Expression.loop in_
           (Expression.block out [breakUnless c out, b, i, makeBreak in_]
             (P.blockType out [breakUnless c out, b, i, makeBreak in_]))
           (P.blockType out [breakUnless c out, b, i, makeBreak in_])]
        (P.blockType out [breakUnless c out, b, i, makeBreak in_]) := by
  rw [processStmt] at h
  obtain ⟨label, s1, h1, h⟩ := Translate.bind_ok _ _ _ _ _ h
  obtain ⟨out, s2, h2, h⟩ := Translate.bind_ok _ _ _ _ _ h
  obtain ⟨in_, s3, h3, h⟩ := Translate.bind_ok _ _ _ _ _ h
  obtain ⟨u4, s4, h4, h⟩ := Translate.bind_ok _ _ _ _ _ h
  obtain ⟨u5, s5, h5, h⟩ := Translate.bind_ok _ _ _ _ _ h
  obtain ⟨c, s6, h6, h⟩ := Translate.bind_ok _ _ _ _ _ h
  obtain ⟨b, s7, h7, h⟩ := Translate.bind_ok _ _ _ _ _ h
  obtain ⟨i, s8, h8, h⟩ := Translate.bind_ok _ _ _ _ _ h
  obtain ⟨u9, s9, h9, h⟩ := Translate.bind_ok _ _ _ _ _ h
  obtain ⟨u10, s10, h10, h⟩ := Translate.bind_ok _ _ _ _ _ h
  obtain ⟨u11, s11, h11, h⟩ := Translate.bind_ok _ _ _ _ _ h
  obtain ⟨u12, s12, h12, h⟩ := Translate.bind_ok _ _ _ _ _ h
  obtain ⟨first, s13, h13, h⟩ := Translate.bind_ok _ _ _ _ _ h
  have htop : s6.continueStack.getLast? = some in_ := by
    rw [translateExpr_continueStack P cond s5 c s6 h6]
    simp only [pushContinue, Outcome.ok.injEq, Prod.mk.injEq] at h5
    rw [← h5.2]
    simp
  refine ⟨in_, out, first, c, b, i, s6, s7, htop, h7, processStmt_continue_top P s6 in_ htop, ?_⟩
  change Translate.pure _ s13 = _ at h
  simp only [Translate.pure, Outcome.ok.injEq, Prod.mk.injEq] at h
  rw [← h.1]
  simp [finishFor, finishLoop, blockifyWithName, finalizeBlock, Expression.type]

/-- Witness for C40: `for (f; x; x + 1) { if (x) continue; f; }` becomes
`exampleForLoopWasm`: the loop `for-in` whose block `for-out` holds the exit
test, the body with `br for-in` for the `continue`, then the increment `x + 1`
and the branch back `br for-in`. -/
theorem processStmt_for_continue_witness :
    ∃ st2 : LabelState ImportedFunctionTypes,
      processStmt exampleStatementEnv exampleForLoop (LabelState.initial 2 (fun _ => none))
        = Outcome.ok (exampleForLoopWasm, st2) ∧
      ∃ (in_ out : IString) (first c b i : Expression)
        (sBody sBody2 : LabelState ImportedFunctionTypes),
        sBody.continueStack.getLast? = some in_ ∧
        processStmt exampleStatementEnv
            (.block [.if_ (.name "x") (.continue_ none) none, .expr (.name "f")]) sBody
          = Outcome.ok (b, sBody2) ∧
        processStmt exampleStatementEnv (.continue_ none) sBody
          = Outcome.ok (makeBreak in_, sBody) ∧
        exampleForLoopWasm
          = Expression.block ""
            [first,
             Expression.loop in_
               (Expression.block out [breakUnless c out, b, i, makeBreak in_]
                 (exampleStatementEnv.blockType out [breakUnless c out, b, i, makeBreak in_]))
               (exampleStatementEnv.blockType out [breakUnless c out, b, i, makeBreak in_])]
            (exampleStatementEnv.blockType out [breakUnless c out, b, i, makeBreak in_]) := by
  have hrun : ∃ st2 : LabelState ImportedFunctionTypes,
      processStmt exampleStatementEnv exampleForLoop (LabelState.initial 2 (fun _ => none))
        = Outcome.ok (exampleForLoopWasm, st2) := by
    simp only [exampleForLoop, processStmt, processStatements, processStatementList,
      processOptional]
    exact ⟨_, rfl⟩
  obtain ⟨st2, h⟩ := hrun
  exact ⟨st2, h, processStmt_for_continue exampleStatementEnv _ _ _ _ _ _ st2 h⟩

/-! ## C32: the pass `ApplyDebugInfo` -/

theorem visitAll_nil (n : Nat) (st : ApplyState) : visitAll n [] st = some st := rfl

theorem visitAll_cons (n : Nat) (x : Expression) (xs : List Expression) (st : ApplyState) :
    visitAll n (x :: xs) st
      = ((visitExpression n x st).map Prod.snd).bind (fun s => visitAll n xs s) := by
  simp [visitAll, List.foldlM_cons]

theorem visitAll_append (n : Nat) (xs ys : List Expression) (st : ApplyState) :
    visitAll n (xs ++ ys) st = (visitAll n xs st).bind (fun s => visitAll n ys s) := by
  simp [visitAll, List.foldlM_append]

theorem visitAll_single (n : Nat) (x : Expression) (st : ApplyState) :
    visitAll n [x] st = (visitExpression n x st).map Prod.snd := by
  rw [visitAll_cons]
  cases (visitExpression n x st).map Prod.snd <;> simp [visitAll_nil]

/-- The visit of a node that is no debug call leaves the node, and its
state does not depend on the children of the node. -/
theorem visitExpression_of_plain (n : Nat) (x y : Expression) (st : ApplyState)
    (hx : checkDebugInfo x = none) (hy : checkDebugInfo y = none)
    (hc : x.isConst = y.isConst) :
    visitExpression n x st = ((visitExpression n y st).map Prod.snd).map (fun s => (x, s)) := by
  simp only [visitExpression, hx, hy, hc]
  split <;> rfl

theorem nopDebugInfo_const (e : Expression) :
    (∃ v t, e = Expression.const v t ∧ nopDebugInfo e = Expression.const v t) ∨
    ((∀ v t, e ≠ Expression.const v t) ∧ (∀ v t, nopDebugInfo e ≠ Expression.const v t)) := by
  cases e with
  | const v t => exact Or.inl ⟨v, t, rfl, by simp [nopDebugInfo]⟩
  | callImport target operands type =>
    refine Or.inr ⟨by simp, ?_⟩
    intro v t
    simp only [nopDebugInfo]
    split <;> simp
  | _ => exact Or.inr ⟨by simp, by simp [nopDebugInfo]⟩

theorem debugOperand_nop (operands : List Expression) (i : Nat) :
    debugOperand (nopDebugInfoList operands) i = debugOperand operands i := by
  induction operands generalizing i with
  | nil => rfl
  | cons e es ih =>
    cases i with
    | zero =>
      rcases nopDebugInfo_const e with ⟨v, t, he, hn⟩ | ⟨he, hn⟩
      · subst he
        simp [debugOperand, nopDebugInfoList, nopDebugInfo]
      · have h1 : debugOperand (e :: es) 0 = none := by
          simp only [debugOperand, List.getElem?_cons_zero]
          split
          · rename_i v t heq
            exact absurd (Option.some.inj heq) (he v t)
          · rfl
        have h2 : debugOperand (nopDebugInfoList (e :: es)) 0 = none := by
          simp only [debugOperand, nopDebugInfoList, List.getElem?_cons_zero]
          split
          · rename_i v t heq
            exact absurd (Option.some.inj heq) (hn v t)
          · rfl
        rw [h1, h2]
    | succ j =>
      have := ih j
      simp only [debugOperand, nopDebugInfoList, List.getElem?_cons_succ] at this ⊢
      exact this

/-- The visit of a debug call does not depend on what the walk made of its
operands. -/
theorem visitExpression_of_call (n : Nat) (operands : List Expression) (type : WasmType)
    (st : ApplyState) :
    visitExpression n (.callImport EMSCRIPTEN_DEBUGINFO (nopDebugInfoList operands) type) st
      = ((visitExpression n (.callImport EMSCRIPTEN_DEBUGINFO operands type) st).map
          Prod.snd).map (fun s => (Expression.nop, s)) := by
  simp only [visitExpression, checkDebugInfo, if_true, debugOperand_nop]
  cases st.lastExpression with
  | none => rfl
  | some last =>
    simp only
    cases debugOperand operands 0 with
    | none => rfl
    | some f =>
      simp only
      split
      · cases debugOperand operands 1 <;> rfl
      · rfl

mutual
/-- The walk visits the nodes in post-order and gives the tree with the debug
calls replaced. -/
theorem applyDebugInfo_eq (n : Nat) :
    ∀ (e : Expression) (st : ApplyState),
      applyDebugInfo n e st
        = (visitAll n (postOrder e) st).map (fun s => (nopDebugInfo e, s))
  | .block name list type, st => by
      rw [applyDebugInfo]
      simp only [Option.bind_eq_bind, applyDebugInfoList_eq n list, postOrder,
        nopDebugInfo, visitAll_append, visitAll_single]
      rcases visitAll n (postOrderList list) st with _ | s1
      · rfl
      · exact visitExpression_of_plain n (Expression.block name (nopDebugInfoList list) type)
          (Expression.block name list type) s1 rfl rfl rfl
  | .if_ condition ifTrue ifFalse type, st => by
      rw [applyDebugInfo]
      simp only [Option.bind_eq_bind, applyDebugInfo_eq n condition, applyDebugInfo_eq n ifTrue, applyDebugInfoOpt_eq n ifFalse, postOrder,
        nopDebugInfo, visitAll_append, visitAll_single]
      rcases visitAll n (postOrder condition) st with _ | s1
      · rfl
      · simp only [Option.map_some', Option.some_bind]
        rcases visitAll n (postOrder ifTrue) s1 with _ | s2
        · rfl
        · simp only [Option.map_some', Option.some_bind]
          rcases visitAll n (postOrderOpt ifFalse) s2 with _ | s3
          · rfl
          · exact visitExpression_of_plain n (Expression.if_ (nopDebugInfo condition) (nopDebugInfo ifTrue) (nopDebugInfoOpt ifFalse) type)
              (Expression.if_ condition ifTrue ifFalse type) s3 rfl rfl rfl
  | .loop name body type, st => by
      rw [applyDebugInfo]
      simp only [Option.bind_eq_bind, applyDebugInfo_eq n body, postOrder,
        nopDebugInfo, visitAll_append, visitAll_single]
      rcases visitAll n (postOrder body) st with _ | s1
      · rfl
      · exact visitExpression_of_plain n (Expression.loop name (nopDebugInfo body) type)
          (Expression.loop name body type) s1 rfl rfl rfl
  | .break_ name value condition type, st => by
      rw [applyDebugInfo]
      simp only [Option.bind_eq_bind, applyDebugInfoOpt_eq n value, applyDebugInfoOpt_eq n condition, postOrder,
        nopDebugInfo, visitAll_append, visitAll_single]
      rcases visitAll n (postOrderOpt value) st with _ | s1
      · rfl
      · simp only [Option.map_some', Option.some_bind]
        rcases visitAll n (postOrderOpt condition) s1 with _ | s2
        · rfl
        · exact visitExpression_of_plain n (Expression.break_ name (nopDebugInfoOpt value) (nopDebugInfoOpt condition) type)
            (Expression.break_ name value condition type) s2 rfl rfl rfl
  | .switch targets default_ condition value type, st => by
      rw [applyDebugInfo]
      simp only [Option.bind_eq_bind, applyDebugInfoOpt_eq n value, applyDebugInfo_eq n condition, postOrder,
        nopDebugInfo, visitAll_append, visitAll_single]
      rcases visitAll n (postOrderOpt value) st with _ | s1
      · rfl
      · simp only [Option.map_some', Option.some_bind]
        rcases visitAll n (postOrder condition) s1 with _ | s2
        · rfl
        · exact visitExpression_of_plain n (Expression.switch targets default_ (nopDebugInfo condition) (nopDebugInfoOpt value) type)
            (Expression.switch targets default_ condition value type) s2 rfl rfl rfl
  | .call target operands type, st => by
      rw [applyDebugInfo]
      simp only [Option.bind_eq_bind, applyDebugInfoList_eq n operands, postOrder,
        nopDebugInfo, visitAll_append, visitAll_single]
      rcases visitAll n (postOrderList operands) st with _ | s1
      · rfl
      · exact visitExpression_of_plain n (Expression.call target (nopDebugInfoList operands) type)
          (Expression.call target operands type) s1 rfl rfl rfl
  | .callImport target operands type, st => by
      rw [applyDebugInfo]
      simp only [Option.bind_eq_bind, applyDebugInfoList_eq n operands, postOrder,
        nopDebugInfo, visitAll_append, visitAll_single]
      rcases visitAll n (postOrderList operands) st with _ | s1
      · rfl
      · by_cases ht : target = EMSCRIPTEN_DEBUGINFO
        · subst ht
          simp only [if_true]
          exact visitExpression_of_call n operands type s1
        · simp only [if_neg ht]
          exact visitExpression_of_plain n (Expression.callImport target (nopDebugInfoList operands) type)
            (Expression.callImport target operands type) s1
            (by simp [checkDebugInfo, ht]) (by simp [checkDebugInfo, ht]) rfl
  | .callIndirect fullType operands target type, st => by
      rw [applyDebugInfo]
      simp only [Option.bind_eq_bind, applyDebugInfoList_eq n operands, applyDebugInfo_eq n target, postOrder,
        nopDebugInfo, visitAll_append, visitAll_single]
      rcases visitAll n (postOrderList operands) st with _ | s1
      · rfl
      · simp only [Option.map_some', Option.some_bind]
        rcases visitAll n (postOrder target) s1 with _ | s2
        · rfl
        · exact visitExpression_of_plain n (Expression.callIndirect fullType (nopDebugInfoList operands) (nopDebugInfo target) type)
            (Expression.callIndirect fullType operands target type) s2 rfl rfl rfl
  | .getLocal index type, st => by
      rw [applyDebugInfo]
      simp only [postOrder, nopDebugInfo, visitAll_single]
      exact visitExpression_of_plain n (Expression.getLocal index type) (Expression.getLocal index type) st rfl rfl rfl
  | .setLocal index value isTee type, st => by
      rw [applyDebugInfo]
      simp only [Option.bind_eq_bind, applyDebugInfo_eq n value, postOrder,
        nopDebugInfo, visitAll_append, visitAll_single]
      rcases visitAll n (postOrder value) st with _ | s1
      · rfl
      · exact visitExpression_of_plain n (Expression.setLocal index (nopDebugInfo value) isTee type)
          (Expression.setLocal index value isTee type) s1 rfl rfl rfl
  | .getGlobal name type, st => by
      rw [applyDebugInfo]
      simp only [postOrder, nopDebugInfo, visitAll_single]
      exact visitExpression_of_plain n (Expression.getGlobal name type) (Expression.getGlobal name type) st rfl rfl rfl
  | .setGlobal name value type, st => by
      rw [applyDebugInfo]
      simp only [Option.bind_eq_bind, applyDebugInfo_eq n value, postOrder,
        nopDebugInfo, visitAll_append, visitAll_single]
      rcases visitAll n (postOrder value) st with _ | s1
      · rfl
      · exact visitExpression_of_plain n (Expression.setGlobal name (nopDebugInfo value) type)
          (Expression.setGlobal name value type) s1 rfl rfl rfl
  | .load bytes signed_ offset align ptr type, st => by
      rw [applyDebugInfo]
      simp only [Option.bind_eq_bind, applyDebugInfo_eq n ptr, postOrder,
        nopDebugInfo, visitAll_append, visitAll_single]
      rcases visitAll n (postOrder ptr) st with _ | s1
      · rfl
      · exact visitExpression_of_plain n (Expression.load bytes signed_ offset align (nopDebugInfo ptr) type)
          (Expression.load bytes signed_ offset align ptr type) s1 rfl rfl rfl
  | .store bytes offset align ptr value valueType type, st => by
      rw [applyDebugInfo]
      simp only [Option.bind_eq_bind, applyDebugInfo_eq n ptr, applyDebugInfo_eq n value, postOrder,
        nopDebugInfo, visitAll_append, visitAll_single]
      rcases visitAll n (postOrder ptr) st with _ | s1
      · rfl
      · simp only [Option.map_some', Option.some_bind]
        rcases visitAll n (postOrder value) s1 with _ | s2
        · rfl
        · exact visitExpression_of_plain n (Expression.store bytes offset align (nopDebugInfo ptr) (nopDebugInfo value) valueType type)
            (Expression.store bytes offset align ptr value valueType type) s2 rfl rfl rfl
  | .const value type, st => by
      rw [applyDebugInfo]
      simp only [postOrder, nopDebugInfo, visitAll_single]
      exact visitExpression_of_plain n (Expression.const value type) (Expression.const value type) st rfl rfl rfl
  | .unary op value type, st => by
      rw [applyDebugInfo]
      simp only [Option.bind_eq_bind, applyDebugInfo_eq n value, postOrder,
        nopDebugInfo, visitAll_append, visitAll_single]
      rcases visitAll n (postOrder value) st with _ | s1
      · rfl
      · exact visitExpression_of_plain n (Expression.unary op (nopDebugInfo value) type)
          (Expression.unary op value type) s1 rfl rfl rfl
  | .binary op left right type, st => by
      rw [applyDebugInfo]
      simp only [Option.bind_eq_bind, applyDebugInfo_eq n left, applyDebugInfo_eq n right, postOrder,
        nopDebugInfo, visitAll_append, visitAll_single]
      rcases visitAll n (postOrder left) st with _ | s1
      · rfl
      · simp only [Option.map_some', Option.some_bind]
        rcases visitAll n (postOrder right) s1 with _ | s2
        · rfl
        · exact visitExpression_of_plain n (Expression.binary op (nopDebugInfo left) (nopDebugInfo right) type)
            (Expression.binary op left right type) s2 rfl rfl rfl
  | .select ifTrue ifFalse condition type, st => by
      rw [applyDebugInfo]
      simp only [Option.bind_eq_bind, applyDebugInfo_eq n ifTrue, applyDebugInfo_eq n ifFalse, applyDebugInfo_eq n condition, postOrder,
        nopDebugInfo, visitAll_append, visitAll_single]
      rcases visitAll n (postOrder ifTrue) st with _ | s1
      · rfl
      · simp only [Option.map_some', Option.some_bind]
        rcases visitAll n (postOrder ifFalse) s1 with _ | s2
        · rfl
        · simp only [Option.map_some', Option.some_bind]
          rcases visitAll n (postOrder condition) s2 with _ | s3
          · rfl
          · exact visitExpression_of_plain n (Expression.select (nopDebugInfo ifTrue) (nopDebugInfo ifFalse) (nopDebugInfo condition) type)
              (Expression.select ifTrue ifFalse condition type) s3 rfl rfl rfl
  | .return_ value type, st => by
      rw [applyDebugInfo]
      simp only [Option.bind_eq_bind, applyDebugInfoOpt_eq n value, postOrder,
        nopDebugInfo, visitAll_append, visitAll_single]
      rcases visitAll n (postOrderOpt value) st with _ | s1
      · rfl
      · exact visitExpression_of_plain n (Expression.return_ (nopDebugInfoOpt value) type)
          (Expression.return_ value type) s1 rfl rfl rfl
  | .nop, st => by
      rw [applyDebugInfo]
      simp only [postOrder, nopDebugInfo, visitAll_single]
      exact visitExpression_of_plain n Expression.nop Expression.nop st rfl rfl rfl
  | .unreachable, st => by
      rw [applyDebugInfo]
      simp only [postOrder, nopDebugInfo, visitAll_single]
      exact visitExpression_of_plain n Expression.unreachable Expression.unreachable st rfl rfl rfl
/-- The walk over a list of children. -/
theorem applyDebugInfoList_eq (n : Nat) :
    ∀ (l : List Expression) (st : ApplyState),
      applyDebugInfoList n l st
        = (visitAll n (postOrderList l) st).map (fun s => (nopDebugInfoList l, s))
  | [], st => by
      rw [applyDebugInfoList]
      rfl
  | e :: es, st => by
      rw [applyDebugInfoList]
      simp only [Option.bind_eq_bind, applyDebugInfo_eq n e, applyDebugInfoList_eq n es,
        postOrderList, nopDebugInfoList, visitAll_append]
      rcases visitAll n (postOrder e) st with _ | s
      · rfl
      · simp only [Option.map_some', Option.some_bind]
        rcases visitAll n (postOrderList es) s with _ | s2
        · rfl
        · rfl
/-- The walk over an optional child. -/
theorem applyDebugInfoOpt_eq (n : Nat) :
    ∀ (o : Option Expression) (st : ApplyState),
      applyDebugInfoOpt n o st
        = (visitAll n (postOrderOpt o) st).map (fun s => (nopDebugInfoOpt o, s))
  | none, st => by
      rw [applyDebugInfoOpt]
      rfl
  | some e, st => by
      rw [applyDebugInfoOpt]
      simp only [Option.bind_eq_bind, applyDebugInfo_eq n e, postOrderOpt, nopDebugInfoOpt]
      rcases visitAll n (postOrder e) st with _ | s
      · rfl
      · rfl
end

mutual
/-- No call of `emscripten_debuginfo` is left in the tree with the calls
replaced. -/
theorem debugCalls_nop : ∀ e : Expression, debugCalls (nopDebugInfo e) = 0
  | .block name list type => by
      simp [nopDebugInfo, debugCalls, debugCallsList_nop list]
  | .if_ condition ifTrue ifFalse type => by
      simp [nopDebugInfo, debugCalls, debugCalls_nop condition, debugCalls_nop ifTrue, debugCallsOpt_nop ifFalse]
  | .loop name body type => by
      simp [nopDebugInfo, debugCalls, debugCalls_nop body]
  | .break_ name value condition type => by
      simp [nopDebugInfo, debugCalls, debugCallsOpt_nop value, debugCallsOpt_nop condition]
  | .switch targets default_ condition value type => by
      simp [nopDebugInfo, debugCalls, debugCallsOpt_nop value, debugCalls_nop condition]
  | .call target operands type => by
      simp [nopDebugInfo, debugCalls, debugCallsList_nop operands]
  | .callImport target operands type => by
      simp only [nopDebugInfo]
      split
      · rfl
      · rename_i ht
        simp [debugCalls, debugCallsList_nop operands, ht]
  | .callIndirect fullType operands target type => by
      simp [nopDebugInfo, debugCalls, debugCallsList_nop operands, debugCalls_nop target]
  | .getLocal index type => by
      simp [nopDebugInfo, debugCalls]
  | .setLocal index value isTee type => by
      simp [nopDebugInfo, debugCalls, debugCalls_nop value]
  | .getGlobal name type => by
      simp [nopDebugInfo, debugCalls]
  | .setGlobal name value type => by
      simp [nopDebugInfo, debugCalls, debugCalls_nop value]
  | .load bytes signed_ offset align ptr type => by
      simp [nopDebugInfo, debugCalls, debugCalls_nop ptr]
  | .store bytes offset align ptr value valueType type => by
      simp [nopDebugInfo, debugCalls, debugCalls_nop ptr, debugCalls_nop value]
  | .const value type => by
      simp [nopDebugInfo, debugCalls]
  | .unary op value type => by
      simp [nopDebugInfo, debugCalls, debugCalls_nop value]
  | .binary op left right type => by
      simp [nopDebugInfo, debugCalls, debugCalls_nop left, debugCalls_nop right]
  | .select ifTrue ifFalse condition type => by
      simp [nopDebugInfo, debugCalls, debugCalls_nop ifTrue, debugCalls_nop ifFalse, debugCalls_nop condition]
  | .return_ value type => by
      simp [nopDebugInfo, debugCalls, debugCallsOpt_nop value]
  | .nop => by
      simp [nopDebugInfo, debugCalls]
  | .unreachable => by
      simp [nopDebugInfo, debugCalls]
/-- The same for a list of children. -/
theorem debugCallsList_nop : ∀ l : List Expression, debugCallsList (nopDebugInfoList l) = 0
  | [] => rfl
  | e :: es => by
      simp [nopDebugInfoList, debugCallsList, debugCalls_nop e, debugCallsList_nop es]
/-- The same for an optional child. -/
theorem debugCallsOpt_nop : ∀ o : Option Expression, debugCallsOpt (nopDebugInfoOpt o) = 0
  | none => rfl
  | some e => by
      simp [nopDebugInfoOpt, debugCallsOpt, debugCalls_nop e]
end

theorem visitExpression_visited (n : Nat) (x : Expression) (st : ApplyState)
    (r : Expression × ApplyState) (h : visitExpression n x st = some r) :
    r.2.visited = st.visited + 1 := by
  unfold visitExpression at h
  split at h
  · split at h
    · split at h
      · simp at h
      · split at h
        · split at h
          · simp at h
          · simp only [Option.some.injEq] at h
            rw [← h]
        · simp at h
    · simp only [Option.some.injEq] at h
      rw [← h]
  · split at h <;>
    · simp only [Option.some.injEq] at h
      rw [← h]

theorem visitAll_visited (n : Nat) (nodes : List Expression) :
    ∀ (st st2 : ApplyState), visitAll n nodes st = some st2 →
      st2.visited = st.visited + nodes.length := by
  induction nodes with
  | nil =>
    intro st st2 h
    rw [visitAll_nil] at h
    simp only [Option.some.injEq] at h
    simp [h]
  | cons x xs ih =>
    intro st st2 h
    rw [visitAll_cons] at h
    cases hv : visitExpression n x st with
    | none => rw [hv] at h; simp at h
    | some r =>
      rw [hv] at h
      simp only [Option.map_some', Option.some_bind] at h
      rw [ih r.2 st2 h, visitExpression_visited n x st r hv]
      simp only [List.length_cons]
      omega

theorem visitAll_consts (n : Nat) (cs : List Expression)
    (hcs : ∀ c ∈ cs, c.isConst = true) (st : ApplyState) :
    visitAll n cs st
      = some { visited := st.visited + cs.length, lastExpression := st.lastExpression,
               debugLocations := st.debugLocations } := by
  induction cs generalizing st with
  | nil => rfl
  | cons c cs ih =>
    have hc : c.isConst = true := hcs c (List.mem_cons_self _ _)
    have hv : visitExpression n c st
        = some (c, { visited := st.visited + 1, lastExpression := st.lastExpression,
                     debugLocations := st.debugLocations }) := by
      cases c <;> simp [Expression.isConst] at hc
      simp [visitExpression, checkDebugInfo, Expression.isConst]
    rw [visitAll_cons, hv]
    simp only [Option.map_some', Option.some_bind]
    rw [ih (fun c2 h2 => hcs c2 (List.mem_cons_of_mem _ h2))]
    simp only [List.length_cons]
    congr 2
    omega

theorem visitAll_ok (n : Nat) (nodes : List Expression)
    (hok : nodes.all (debugCallOk n) = true) (st : ApplyState) :
    ∃ st2, visitAll n nodes st = some st2 := by
  induction nodes generalizing st with
  | nil => exact ⟨st, rfl⟩
  | cons x xs ih =>
    simp only [List.all_cons, Bool.and_eq_true] at hok
    have hv : ∃ r, visitExpression n x st = some r := by
      have hx := hok.1
      unfold debugCallOk at hx
      unfold visitExpression
      cases hc : checkDebugInfo x with
      | none =>
        simp only
        split <;> exact ⟨_, rfl⟩
      | some operands =>
        rw [hc] at hx
        simp only at hx ⊢
        cases hl : st.lastExpression with
        | none => exact ⟨_, rfl⟩
        | some last =>
          simp only
          cases h0 : debugOperand operands 0 with
          | none => rw [h0] at hx; simp at hx
          | some f =>
            cases h1 : debugOperand operands 1 with
            | none => rw [h0, h1] at hx; simp at hx
            | some l =>
              rw [h0, h1] at hx
              simp only [decide_eq_true_eq] at hx
              simp only [gt_iff_lt, hx, if_true]
              exact ⟨_, rfl⟩
    obtain ⟨r, hr⟩ := hv
    obtain ⟨st2, h2⟩ := ih hok.2 r.2
    refine ⟨st2, ?_⟩
    rw [visitAll_cons, hr]
    exact h2

theorem visitExpression_call_state (n : Nat) (operands : List Expression) (type : WasmType)
    (st : ApplyState) (last f l : Nat) (hlast : st.lastExpression = some last)
    (h0 : debugOperand operands 0 = some f) (hf : f < n)
    (h1 : debugOperand operands 1 = some l) :
    visitExpression n (.callImport EMSCRIPTEN_DEBUGINFO operands type) st
      = some (Expression.nop,
          { visited := st.visited + 1, lastExpression := none,
            debugLocations := (last, f, l) :: st.debugLocations }) := by
  simp [visitExpression, checkDebugInfo, hlast, h0, h1, hf]

theorem visitExpression_call_none (n : Nat) (operands : List Expression) (type : WasmType)
    (st : ApplyState) (hlast : st.lastExpression = none) :
    visitExpression n (.callImport EMSCRIPTEN_DEBUGINFO operands type) st
      = some (Expression.nop,
          { visited := st.visited + 1, lastExpression := none,
            debugLocations := st.debugLocations }) := by
  simp [visitExpression, checkDebugInfo, hlast]

theorem visitExpression_call_last (n : Nat) (operands : List Expression) (type : WasmType)
    (st : ApplyState) (r : Expression × ApplyState)
    (h : visitExpression n (.callImport EMSCRIPTEN_DEBUGINFO operands type) st = some r) :
    r.1 = Expression.nop ∧ r.2.lastExpression = none := by
  simp only [visitExpression, checkDebugInfo, if_true] at h
  split at h
  · split at h
    · simp at h
    · split at h
      · split at h
        · simp at h
        · simp only [Option.some.injEq] at h
          rw [← h]
          exact ⟨rfl, rfl⟩
      · simp at h
  · simp only [Option.some.injEq] at h
    rw [← h]
    exact ⟨rfl, rfl⟩

/-- C32 (amended): every completed run of the pass leaves the tree with each
call of `emscripten_debuginfo` replaced by a `Nop`, so no such call remains, and
its state is that of visiting the nodes in post-order; the run completes when
every debug call has two `i32` constants as operands, the first below the
number of file names. A debug call records `(fileIndex, lineNumber)` on the
last node that is neither a `Const` nor a debug call and was visited since the
previous debug call: on `x` when the nodes visited are `pre`, then `x`, then
constants only, then the call. It records nothing when no such node was
visited since the previous debug call or the start of the function
(`lastExpression` is null then, as it is after every debug call); the operands
are not even read. The only visit that fails is that of a debug call with
`lastExpression` set whose first two operands are not `i32` constants with the
first below the number of file names. -/
theorem applyDebugInfo_records (n : Nat) :
    (∀ (e : Expression) (st : ApplyState) (e2 : Expression) (st2 : ApplyState),
      applyDebugInfo n e st = some (e2, st2) →
      e2 = nopDebugInfo e ∧ debugCalls e2 = 0 ∧ visitAll n (postOrder e) st = some st2) ∧
    (∀ (e : Expression) (st : ApplyState), (postOrder e).all (debugCallOk n) = true →
      ∃ st2, applyDebugInfo n e st = some (nopDebugInfo e, st2)) ∧
    (∀ (pre cs operands : List Expression) (x : Expression) (type : WasmType)
      (f l : Nat) (st st1 : ApplyState),
      visitAll n pre st = some st1 → x.isConst = false → checkDebugInfo x = none →
      (∀ c ∈ cs, c.isConst = true) →
      debugOperand operands 0 = some f → f < n → debugOperand operands 1 = some l →
      visitAll n (pre ++ x :: cs ++ [.callImport EMSCRIPTEN_DEBUGINFO operands type]) st
        = some { visited := st.visited + pre.length + cs.length + 2, lastExpression := none,
                 debugLocations := (st.visited + pre.length, f, l) :: st1.debugLocations }) ∧
    (∀ (pre cs operands : List Expression) (type : WasmType) (st st1 : ApplyState),
      visitAll n pre st = some st1 → st1.lastExpression = none →
      (∀ c ∈ cs, c.isConst = true) →
      visitAll n (pre ++ cs ++ [.callImport EMSCRIPTEN_DEBUGINFO operands type]) st
        = some { visited := st.visited + pre.length + cs.length + 1, lastExpression := none,
                 debugLocations := st1.debugLocations }) ∧
    (∀ (pre operands : List Expression) (type : WasmType) (st st1 : ApplyState),
      visitAll n (pre ++ [.callImport EMSCRIPTEN_DEBUGINFO operands type]) st = some st1 →
      st1.lastExpression = none) ∧
    (∀ (operands : List Expression) (type : WasmType) (st : ApplyState),
      visitExpression n (.callImport EMSCRIPTEN_DEBUGINFO operands type) st = none ↔
        st.lastExpression ≠ none ∧
        ¬ ∃ f l, debugOperand operands 0 = some f ∧ f < n ∧ debugOperand operands 1 = some l) ∧
    (∀ (x : Expression) (st : ApplyState), checkDebugInfo x = none →
      visitExpression n x st ≠ none) := by
  refine ⟨?_, ?_, ?_, ?_, ?_, ?_, ?_⟩
  · intro e st e2 st2 h
    rw [applyDebugInfo_eq] at h
    cases hv : visitAll n (postOrder e) st with
    | none => rw [hv] at h; simp at h
    | some s =>
      rw [hv] at h
      simp only [Option.map_some', Option.some.injEq, Prod.mk.injEq] at h
      obtain ⟨h1, h2⟩ := h
      subst h1 h2
      exact ⟨rfl, debugCalls_nop e, rfl⟩
  · intro e st hok
    obtain ⟨st2, h2⟩ := visitAll_ok n (postOrder e) hok st
    exact ⟨st2, by rw [applyDebugInfo_eq, h2]; rfl⟩
  · intro pre cs operands x type f l st st1 hpre hx hcx hcs h0 hf h1
    have hvis := visitAll_visited n pre st st1 hpre
    have hxv : visitExpression n x st1
        = some (x, { visited := st1.visited + 1, lastExpression := some st1.visited,
                     debugLocations := st1.debugLocations }) := by
      simp [visitExpression, hcx, hx]
    rw [List.append_assoc, visitAll_append, hpre]
    simp only [Option.some_bind]
    rw [List.cons_append, visitAll_cons, hxv]
    simp only [Option.map_some', Option.some_bind]
    rw [visitAll_append, visitAll_consts n cs hcs]
    simp only [Option.some_bind]
    rw [visitAll_single, visitExpression_call_state n operands type _ st1.visited f l rfl h0 hf h1]
    simp only [Option.map_some', hvis]
    congr 2
    omega
  · intro pre cs operands type st st1 hpre hlast hcs
    have hvis := visitAll_visited n pre st st1 hpre
    rw [List.append_assoc, visitAll_append, hpre]
    simp only [Option.some_bind]
    rw [visitAll_append, visitAll_consts n cs hcs]
    simp only [Option.some_bind]
    rw [visitAll_single, visitExpression_call_none n operands type
      { visited := st1.visited + cs.length, lastExpression := st1.lastExpression,
        debugLocations := st1.debugLocations } hlast]
    simp only [Option.map_some', hvis]
  · intro pre operands type st st1 h
    rw [visitAll_append] at h
    cases hp : visitAll n pre st with
    | none => rw [hp] at h; simp at h
    | some s =>
      rw [hp] at h
      simp only [Option.some_bind] at h
      rw [visitAll_single] at h
      cases hv : visitExpression n (.callImport EMSCRIPTEN_DEBUGINFO operands type) s with
      | none => rw [hv] at h; simp at h
      | some r =>
        rw [hv] at h
        simp only [Option.map_some', Option.some.injEq] at h
        rw [← h]
        exact (visitExpression_call_last n operands type s r hv).2
  · intro operands type st
    simp only [visitExpression, checkDebugInfo, if_true]
    cases hl : st.lastExpression with
    | none => simp
    | some last =>
      simp only
      cases h0 : debugOperand operands 0 with
      | none => simp
      | some f =>
        simp only
        by_cases hf : f < n
        · cases h1 : debugOperand operands 1 with
          | none => simp [hf]
          | some l => simp [hf]
        · simp [hf]
  · intro x st hx
    simp only [visitExpression, hx]
    split <;> simp

/-- Witness for C32: in the body `exampleDebugBody` the call
`emscripten_debuginfo(0, 6)` follows the statement `x = 1`, the node number 4,
and records `(0, 6)` on it. -/
theorem applyDebugInfo_records_witness :
    visitAll 1
        ([Expression.const ⟨WasmType.i32, 0⟩ WasmType.i32,
          Expression.const ⟨WasmType.i32, 5⟩ WasmType.i32,
          debugInfoCall 0 5,
          Expression.const ⟨WasmType.i32, 1⟩ WasmType.i32]
          ++ Expression.setLocal 0 (Expression.const ⟨WasmType.i32, 1⟩ WasmType.i32) false
              WasmType.none
            :: [Expression.const ⟨WasmType.i32, 0⟩ WasmType.i32,
                Expression.const ⟨WasmType.i32, 6⟩ WasmType.i32]
          ++ [Expression.callImport EMSCRIPTEN_DEBUGINFO
                [Expression.const ⟨WasmType.i32, 0⟩ WasmType.i32,
                 Expression.const ⟨WasmType.i32, 6⟩ WasmType.i32] WasmType.none])
        ApplyState.initial
      = some { visited := 0 + 4 + 2 + 2, lastExpression := none,
               debugLocations := [(0 + 4, 0, 6)] } :=
  (applyDebugInfo_records 1).2.2.1 _ _ _ _ WasmType.none 0 6 ApplyState.initial
    { visited := 4, lastExpression := none, debugLocations := [] }
    (by decide) rfl rfl (by decide) (by decide) (by decide) (by decide)

/-- Counterexample to C32 as worded: the body `exampleDebugBody` has three debug
calls; the pass completes, replaces all three by `Nop`, and records one
location only, `(0, 6)` on `x = 1` (node 4): the call that starts the function
and the call that directly follows another call record nothing. -/
theorem applyDebugInfo_counterexample :
    debugCalls exampleDebugBody = 3 ∧
    applyDebugInfo 1 exampleDebugBody ApplyState.initial
      = some
          (Expression.block ""
            [Expression.nop,
             Expression.setLocal 0 (Expression.const ⟨WasmType.i32, 1⟩ WasmType.i32) false
               WasmType.none,
             Expression.nop, Expression.nop] WasmType.none,
           { visited := 12, lastExpression := some 11, debugLocations := [(4, 0, 6)] }) :=
  ⟨by decide, rfl⟩

/-- The `assert` of line 1326 at work, in a module with one debug file name:
in `x = 1; emscripten_debuginfo(3, 6);` the call follows the statement `x = 1`
and its file index 3 is not below 1, so the pass fails; the same call alone is
replaced by a `Nop` without its operands being read. -/
theorem applyDebugInfo_assert_instances :
    applyDebugInfo 1
      (Expression.block ""
        [Expression.setLocal 0 (Expression.const ⟨WasmType.i32, 1⟩ WasmType.i32) false
           WasmType.none,
         debugInfoCall 3 6] WasmType.none) ApplyState.initial = none ∧
    applyDebugInfo 1 (Expression.block "" [debugInfoCall 3 6] WasmType.none)
        ApplyState.initial
      = some (Expression.block "" [Expression.nop] WasmType.none,
          { visited := 4, lastExpression := some 3, debugLocations := [] }) :=
  ⟨rfl, rfl⟩
end Asm2Wasm
